import Mathlib

/-! # Crushing Four: a sparse column store with line clearing and gravity

Shallow embedding of `src/main.c`.

* The C heap is an arena: a column pointer is a handle (`Nat`), `NULL` is `none`,
  `malloc` hands out the next unused handle (`Playground.brk`).
* `realloc` in `playgroundPlacePiece` is modelled in its general form: the column moves to a
  fresh handle and the old block is dead, so the pointer fix-ups of the source are meaningful.
* `long` is `Int`, `unsigned long` is `Nat`; the flexible array member `pieces[]` is a
  function from the index to the stored value.
* Loops that follow pointers or re-read mutable bounds take a fuel argument; running out of
  fuel is the separate fault `outOfFuel`, proved unreachable from every reachable playground.
* The removal array and the change array are lists.  The source exits when the removal array
  holds `changedColsSize` entries and one more is requested (`removalOverflow`); it stores into
  the change array without any test, so the list of changed cols has no bound here either.
-/

namespace CrushingFour

/-! ## Constants (main.c 11-24) -/

/-- Initial and minimum column array size. -/
def MIN_COL_SIZE : Nat := 8

/-- Initial playground changes array size. -/
def INITIAL_CHANGES_SIZE : Nat := 80

/-- Initial piece removal array size. -/
def INITIAL_REMOVAL_SIZE : Nat := 80

/-- Empty piece value. -/
def PIECE_EMPTY : Nat := 255

/-- Min number of pieces required to form a line. -/
def MIN_LINE_COUNT : Nat := 4

/-! ## Types (main.c 30-103) -/

/-- Col types. -/
inductive ColType where
  | COL_PIECES
  | COL_PADDING
  deriving DecidableEq, Repr

/-- Col data structure (`struct Col`). -/
structure Col where
  type : ColType
  size : Nat
  count : Nat
  changeY : Nat
  next : Option Nat
  prev : Option Nat
  pieces : Nat → Nat

/-- Ways a run of the program can stop without a result. -/
inductive Fault where
  | nullDeref
  | inconsistent
  | removalOverflow
  | outOfFuel
  deriving DecidableEq, Repr

/-- Playground data structure (`struct Playground`) together with the heap it points into. -/
structure Playground where
  heap : Nat → Col
  brk : Nat
  startCol : Nat
  startColX : Int
  originCol : Nat
  endCol : Nat
  endColX : Int
  currentCol : Nat
  currentX : Int
  changedCols : List Nat
  changedColsSize : Nat
  pieceRemovals : List (Nat × Nat)
  pieceRemovalsSize : Nat

/-! ## Heap access -/

/-- Store `c` at handle `h`. -/
def setCol (heap : Nat → Col) (h : Nat) (c : Col) : Nat → Col :=
  fun k => if k = h then c else heap k

/-- Update the column at handle `h` in place. -/
def modCol (heap : Nat → Col) (h : Nat) (f : Col → Col) : Nat → Col :=
  fun k => if k = h then f (heap k) else heap k

/-- Write one slot of a piece array. -/
def setPiece (ps : Nat → Nat) (y : Nat) (p : Nat) : Nat → Nat :=
  fun k => if k = y then p else ps k

/-! ## Constructors (main.c 195-288) -/

/-- Create a col node with the default initial size (main.c 258-271). -/
def createCol : Col :=
  { type := .COL_PIECES, size := MIN_COL_SIZE, count := 0, changeY := MIN_COL_SIZE,
    next := none, prev := none, pieces := fun _ => 0 }

/-- Create a padding col node with the given size (main.c 278-288); the fields the source
leaves uninitialised are 0. -/
def createPaddingCol (size : Nat) : Col :=
  { type := .COL_PADDING, size := size, count := 0, changeY := 0,
    next := none, prev := none, pieces := fun _ => 0 }

/-- Create empty playground containing a single origin node (main.c 195-228). -/
def createPlayground : Playground :=
  { heap := setCol (fun _ => createPaddingCol 0) 0 createCol
    brk := 1
    startCol := 0
    startColX := 0
    originCol := 0
    endCol := 0
    endColX := 0
    currentCol := 0
    currentX := 0
    changedCols := []
    changedColsSize := INITIAL_CHANGES_SIZE
    pieceRemovals := []
    pieceRemovalsSize := INITIAL_REMOVAL_SIZE }

/-! ## Column store: `playgroundGetColAt` (main.c 314-459) -/

/-- Width of a column in x-positions: `col->type == COL_PADDING ? col->size : 1`. -/
def Col.width (c : Col) : Nat :=
  if c.type = .COL_PADDING then c.size else 1

/-- Allocate `c` and link it behind the end col (main.c 333-336 and 340-343). -/
def linkAfterEnd (pg : Playground) (c : Col) : Nat × Playground :=
  let col := pg.brk
  let heap1 := setCol pg.heap col c
  let heap2 := modCol heap1 pg.endCol (fun e => { e with next := some col })
  let heap3 := modCol heap2 col (fun n => { n with prev := some pg.endCol })
  (col, { pg with heap := heap3, brk := col + 1, endCol := col })

/-- Allocate `c` and link it in front of the start col (main.c 357-360 and 364-367). -/
def linkBeforeStart (pg : Playground) (c : Col) : Nat × Playground :=
  let col := pg.brk
  let heap1 := setCol pg.heap col c
  let heap2 := modCol heap1 pg.startCol (fun s => { s with prev := some col })
  let heap3 := modCol heap2 col (fun n => { n with next := some pg.startCol })
  (col, { pg with heap := heap3, brk := col + 1, startCol := col })

/-- Requested col exceeds end col (main.c 328-346). -/
def appendCol (pg : Playground) (x : Int) : Nat × Playground :=
  let pg1 :=
    if pg.endColX + 1 < x then
      (linkAfterEnd pg (createPaddingCol (x - pg.endColX - 1).toNat)).2
    else pg
  let r := linkAfterEnd pg1 createCol
  (r.1, { r.2 with endColX := x })

/-- Requested col exceeds start col (main.c 352-370). -/
def prependCol (pg : Playground) (x : Int) : Nat × Playground :=
  let pg1 :=
    if pg.startColX - 1 > x then
      (linkBeforeStart pg (createPaddingCol (pg.startColX - x - 1).toNat)).2
    else pg
  let r := linkBeforeStart pg1 createCol
  (r.1, { r.2 with startColX := x })

/-- Move iterator forward (main.c 382-385).  A `NULL` successor is reported when it is
loaded; the source dereferences `col` on every path after the loop. -/
def walkForward (heap : Nat → Col) (x : Int) : Nat → Int → Nat → Except Fault (Int × Nat)
  | 0, _, _ => .error .outOfFuel
  | fuel + 1, i, col =>
    if i < x then
      match (heap col).next with
      | none => .error .nullDeref
      | some n => walkForward heap x fuel (i + ((heap col).width : Int)) n
    else .ok (i, col)

/-- Move iterator backward (main.c 388-391). -/
def walkBackward (heap : Nat → Col) (x : Int) : Nat → Int → Nat → Except Fault (Int × Nat)
  | 0, _, _ => .error .outOfFuel
  | fuel + 1, i, col =>
    if i > x then
      match (heap col).prev with
      | none => .error .nullDeref
      | some n => walkBackward heap x fuel (i - ((heap n).width : Int)) n
    else .ok (i, col)

/-- Iterate from the cursor to the first col boundary at or behind `x` (main.c 375-405). -/
def seekCol (pg : Playground) (x : Int) : Except Fault (Int × Nat) :=
  if pg.currentX ≤ x then
    walkForward pg.heap x (pg.brk + 1) pg.currentX pg.currentCol
  else
    match walkBackward pg.heap x (pg.brk + 1) pg.currentX pg.currentCol with
    | .error e => .error e
    | .ok (i, col) =>
      if i < x then
        if (pg.heap col).type ≠ .COL_PADDING then .error .inconsistent
        else
          match (pg.heap col).next with
          | none => .error .nullDeref
          | some n => .ok (i + ((pg.heap col).size : Int), n)
      else .ok (i, col)

/-- Ran past the x col: split the padding in front of `col` (main.c 407-430).
`lowerPadding->next` is the col created here, so it is used directly where the source
reads the link back. -/
def splitPadding (pg : Playground) (x i : Int) (col : Nat) : Except Fault (Nat × Playground) :=
  match (pg.heap col).prev with
  | none => .error .nullDeref
  | some lowerPadding =>
    let heap1 := modCol pg.heap lowerPadding (fun c => { c with size := c.size - (i - x).toNat })
    let pieceCol := pg.brk
    let heap2 := setCol heap1 pieceCol createCol
    let heap3 := modCol heap2 pieceCol (fun c => { c with prev := some lowerPadding })
    let heap4 := modCol heap3 lowerPadding (fun c => { c with next := some pieceCol })
    if i - x > 1 then
      let newCol := pg.brk + 1
      let heap5 := setCol heap4 newCol (createPaddingCol (i - x - 1).toNat)
      let heap6 := modCol heap5 newCol (fun c => { c with prev := some pieceCol })
      let heap7 := modCol heap6 pieceCol (fun c => { c with next := some newCol })
      let heap8 := modCol heap7 col (fun c => { c with prev := some newCol })
      let heap9 := modCol heap8 newCol (fun c => { c with next := some col })
      .ok (pieceCol, { pg with heap := heap9, brk := pg.brk + 2 })
    else
      let heap8 := modCol heap4 col (fun c => { c with prev := some pieceCol })
      let heap9 := modCol heap8 pieceCol (fun c => { c with next := some col })
      .ok (pieceCol, { pg with heap := heap9, brk := pg.brk + 1 })

/-- Landed on a padding col that starts at x: put a new col in front of it
(main.c 432-453).  The freed padding col keeps its handle, which nothing refers to. -/
def replacePadding (pg : Playground) (col : Nat) : Except Fault (Nat × Playground) :=
  let newCol := pg.brk
  let heap1 := setCol pg.heap newCol createCol
  let heap2 := modCol heap1 newCol (fun c => { c with prev := (heap1 col).prev })
  match (heap2 col).prev with
  | none => .error .nullDeref
  | some p =>
    let heap3 := modCol heap2 p (fun c => { c with next := some newCol })
    if (heap3 col).size = 1 then
      let heap4 := modCol heap3 newCol (fun c => { c with next := (heap3 col).next })
      match (heap4 newCol).next with
      | none => .error .nullDeref
      | some n =>
        let heap5 := modCol heap4 n (fun c => { c with prev := some newCol })
        .ok (newCol, { pg with heap := heap5, brk := pg.brk + 1 })
    else
      let heap4 := modCol heap3 col (fun c => { c with size := c.size - 1 })
      let heap5 := modCol heap4 newCol (fun c => { c with next := some col })
      let heap6 := modCol heap5 col (fun c => { c with prev := some newCol })
      .ok (newCol, { pg with heap := heap6, brk := pg.brk + 1 })

/-- The expensive case: iterate to the col and create it if it is missing (main.c 373-458). -/
def locateCol (pg : Playground) (x : Int) : Except Fault (Nat × Playground) :=
  match seekCol pg x with
  | .error e => .error e
  | .ok (i, col) =>
    let r1 := if i > x then splitPadding pg x i col else .ok (col, pg)
    match r1 with
    | .error e => .error e
    | .ok (col1, pg1) =>
      let r2 :=
        if (pg1.heap col1).type = .COL_PADDING then replacePadding pg1 col1 else .ok (col1, pg1)
      match r2 with
      | .error e => .error e
      | .ok (col2, pg2) => .ok (col2, { pg2 with currentCol := col2, currentX := x })

/-- Finds the Col at the given x; lazily creates a col instance if not done yet
(main.c 314-459). -/
def playgroundGetColAt (pg : Playground) (x : Int) : Except Fault (Nat × Playground) :=
  if x = 0 then .ok (pg.originCol, pg)
  else if x = pg.endColX then .ok (pg.endCol, pg)
  else if x > pg.endColX then .ok (appendCol pg x)
  else if x = pg.startColX then .ok (pg.startCol, pg)
  else if x < pg.startColX then .ok (prependCol pg x)
  else locateCol pg x

/-! ## Change tracker and removal queue (main.c 660-687) -/

/-- Track a col change at the given Y-position (main.c 677-687).  The store into
`changedCols` has no bounds check in the source and none here; the call always returns. -/
def playgroundTrackChange (pg : Playground) (col y : Nat) : Except Fault Playground :=
  if (pg.heap col).changeY = (pg.heap col).size ∨ (pg.heap col).changeY > y then
    let pg1 := { pg with heap := modCol pg.heap col (fun c => { c with changeY := y }) }
    if (pg1.heap col).changeY ≠ (pg1.heap col).size then
      .ok { pg1 with changedCols := pg1.changedCols ++ [col] }
    else .ok pg1
  else .ok pg

/-- Mark piece at the given Y-position inside a col as to be removed (main.c 660-669). -/
def playgroundRemovePiece (pg : Playground) (col y : Nat) : Except Fault Playground :=
  if pg.pieceRemovals.length = pg.changedColsSize then .error .removalOverflow
  else playgroundTrackChange { pg with pieceRemovals := pg.pieceRemovals ++ [(col, y)] } col y

/-! ## Line detector: `playgroundRemoveLines` (main.c 532-651) -/

/-- One of the two neighbour walks (main.c 572-586 forward with `link = next`, `d = delY`;
main.c 593-607 backward with `link = prev`, `d = -delY`).  Returns the last col of the run,
the final `nextY` and the line length. -/
def scanLine (heap : Nat → Col) (link : Col → Option Nat) (d : Int) (currentPiece : Nat) :
    Nat → Option Nat → Int → Nat → Nat → Except Fault (Nat × Int × Nat)
  | 0, _, _, _, _ => .error .outOfFuel
  | fuel + 1, nextCol, nextY, lineEnd, lineLength =>
    match nextCol with
    | none => .ok (lineEnd, nextY, lineLength)
    | some nc =>
      if (heap nc).type = .COL_PIECES ∧ 0 ≤ nextY ∧ nextY < ((heap nc).count : Int) ∧
          (heap nc).pieces nextY.toNat = currentPiece then
        scanLine heap link d currentPiece fuel (link (heap nc)) (nextY + d) nc (lineLength + 1)
      else .ok (lineEnd, nextY, lineLength)

/-- Iterate over line cols and remove each piece (main.c 613-618). -/
def removeRun (delY : Int) (lineEndCol : Nat) :
    Nat → Playground → Option Nat → Int → Except Fault Playground
  | 0, _, _, _ => .error .outOfFuel
  | fuel + 1, pg, nextCol, nextY =>
    match nextCol with
    | none => .ok pg
    | some nc =>
      if (pg.heap nc).prev ≠ some lineEndCol then
        match playgroundRemovePiece pg nc nextY.toNat with
        | .error e => .error e
        | .ok pg1 => removeRun delY lineEndCol fuel pg1 (pg1.heap nc).next (nextY + delY)
      else .ok pg

/-- Body of the direction loop for one `delY` (main.c 559-619). -/
def scanCell (pg : Playground) (col y : Nat) (currentPiece : Nat) (delY : Int) :
    Except Fault Playground :=
  match scanLine pg.heap Col.next delY currentPiece (pg.brk + 1)
      (pg.heap col).next ((y : Int) + delY) col 1 with
  | .error e => .error e
  | .ok (lineEndCol, _, len1) =>
    match scanLine pg.heap Col.prev (-delY) currentPiece (pg.brk + 1)
        (pg.heap col).prev ((y : Int) - delY) col len1 with
    | .error e => .error e
    | .ok (lineStartCol, nextY, lineLength) =>
      if lineLength ≥ MIN_LINE_COUNT then
        removeRun delY lineEndCol (pg.brk + 1) pg (some lineStartCol) (nextY + delY)
      else .ok pg

/-- For each y above changeY identify crossing horizontal and diagonal lines
(main.c 552-621). -/
def scanRows : Nat → Playground → Nat → Nat → Except Fault Playground
  | 0, _, _, _ => .error .outOfFuel
  | fuel + 1, pg, col, y =>
    if y < (pg.heap col).count then
      let currentPiece := (pg.heap col).pieces y
      match scanCell pg col y currentPiece (-1) with
      | .error e => .error e
      | .ok pg1 =>
        match scanCell pg1 col y currentPiece 0 with
        | .error e => .error e
        | .ok pg2 =>
          match scanCell pg2 col y currentPiece 1 with
          | .error e => .error e
          | .ok pg3 => scanRows fuel pg3 col (y + 1)
    else .ok pg

/-- Remove all vertical lines above change mark (main.c 627-649).  The first argument is
`y + 1`, so `0` is the exit `y < 0`. -/
def scanVertical : Nat → Playground → Nat → Nat → Nat → Except Fault Playground
  | 0, pg, _, _, _ => .ok pg
  | y + 1, pg, col, lineColor, lineLength =>
    let currentPiece := (pg.heap col).pieces y
    if currentPiece = lineColor then
      if lineLength + 1 = MIN_LINE_COUNT then
        match playgroundRemovePiece pg col y with
        | .error e => .error e
        | .ok pg1 =>
          match playgroundRemovePiece pg1 col (y + 1) with
          | .error e => .error e
          | .ok pg2 =>
            match playgroundRemovePiece pg2 col (y + 2) with
            | .error e => .error e
            | .ok pg3 =>
              match playgroundRemovePiece pg3 col (y + 3) with
              | .error e => .error e
              | .ok pg4 => scanVertical y pg4 col lineColor (lineLength + 1)
      else if lineLength + 1 > MIN_LINE_COUNT then
        match playgroundRemovePiece pg col y with
        | .error e => .error e
        | .ok pg1 => scanVertical y pg1 col lineColor (lineLength + 1)
      else scanVertical y pg col lineColor (lineLength + 1)
    else if y ≥ (pg.heap col).changeY then scanVertical y pg col currentPiece 1
    else .ok pg

/-- The loop over the changed cols, which grows while it runs (main.c 548-650). -/
def removeLinesFrom : Nat → Playground → Nat → Except Fault Playground
  | 0, _, _ => .error .outOfFuel
  | fuel + 1, pg, i =>
    if i < pg.changedCols.length then
      let col := pg.changedCols.getD i 0
      match scanRows ((pg.heap col).count + 1) pg col (pg.heap col).changeY with
      | .error e => .error e
      | .ok pg1 =>
        match scanVertical (pg1.heap col).count pg1 col PIECE_EMPTY 0 with
        | .error e => .error e
        | .ok pg2 => removeLinesFrom fuel pg2 (i + 1)
    else .ok pg

/-- Identify horizontal, vertical and diagonal lines and queue their pieces
(main.c 532-651).  The list of changed cols grows by at most one entry per queued removal and
the queue holds at most `changedColsSize` entries, which bounds the iterations of the loop. -/
def playgroundRemoveLines (pg : Playground) : Except Fault Playground :=
  removeLinesFrom (pg.changedCols.length + pg.changedColsSize + 1) pg 0

/-! ## Gravity engine: `playgroundCauseGravity` (main.c 694-725) -/

/-- Cause gravity on a single column (main.c 714-720); the first argument counts the
remaining iterations `count - y`. -/
def compactLoop : Nat → Nat → (Nat → Nat) → Nat → (Nat → Nat) × Nat
  | 0, _, ps, removedPieces => (ps, removedPieces)
  | n + 1, y, ps, removedPieces =>
    if ps y = PIECE_EMPTY then compactLoop n (y + 1) ps (removedPieces + 1)
    else compactLoop n (y + 1) (setPiece ps (y - removedPieces) (ps y)) removedPieces

/-- Loop body for one changed col (main.c 710-723). -/
def compactCol (c : Col) : Col :=
  let r := compactLoop (c.count - c.changeY) c.changeY c.pieces 0
  { c with pieces := r.1, count := c.count - r.2 }

/-- Remove pieces (main.c 700-703). -/
def applyRemovals (heap : Nat → Col) (rs : List (Nat × Nat)) : Nat → Col :=
  rs.foldl (fun hp r => modCol hp r.1 (fun c => { c with pieces := setPiece c.pieces r.2 PIECE_EMPTY }))
    heap

/-- Let pieces fall down onto pieces marked as being empty (main.c 694-725). -/
def playgroundCauseGravity (pg : Playground) : Playground :=
  let heap1 := applyRemovals pg.heap pg.pieceRemovals
  let heap2 := pg.changedCols.foldl (fun hp col => modCol hp col compactCol) heap1
  { pg with heap := heap2, pieceRemovals := [] }

/-! ## Stabilization facade: `playgroundPlacePiece` (main.c 467-525) -/

/-- Double the column size by reallocating memory; update size and state (main.c 472-483).
The col moves to the fresh handle `pg.brk`. -/
def reallocCol (pg : Playground) (col : Nat) : Playground :=
  let size := (pg.heap col).size * 2
  let expandedCol := pg.brk
  let heap1 := setCol pg.heap expandedCol (pg.heap col)
  let heap2 :=
    if (heap1 expandedCol).changeY = (heap1 expandedCol).size then
      modCol heap1 expandedCol (fun c => { c with changeY := size })
    else heap1
  let heap3 := modCol heap2 expandedCol (fun c => { c with size := size })
  { pg with heap := heap3, brk := pg.brk + 1 }

/-- Update pointers: the successor or `endCol` (main.c 486-490). -/
def fixNext (pg : Playground) (expandedCol : Nat) : Playground :=
  match (pg.heap expandedCol).next with
  | some n => { pg with heap := modCol pg.heap n (fun c => { c with prev := some expandedCol }) }
  | none => { pg with endCol := expandedCol }

/-- Update pointers: the predecessor or `startCol` (main.c 491-495). -/
def fixPrev (pg : Playground) (expandedCol : Nat) : Playground :=
  match (pg.heap expandedCol).prev with
  | some q => { pg with heap := modCol pg.heap q (fun c => { c with next := some expandedCol }) }
  | none => { pg with startCol := expandedCol }

/-- Update pointers: `originCol` and `currentCol` (main.c 496-501). -/
def fixNamed (pg : Playground) (col expandedCol : Nat) : Playground :=
  let pg6 := if col = pg.originCol then { pg with originCol := expandedCol } else pg
  if col = pg6.currentCol then { pg6 with currentCol := expandedCol } else pg6

/-- Double the column size by reallocating memory and update the pointers to the col
(main.c 470-503). -/
def expandCol (pg : Playground) (col : Nat) : Nat × Playground :=
  (pg.brk, fixNamed (fixPrev (fixNext (reallocCol pg col) pg.brk) pg.brk) col pg.brk)

/-- Append piece to the top (main.c 505-508). -/
def appendPiece (pg : Playground) (col p : Nat) : Except Fault Playground :=
  let heap1 := modCol pg.heap col (fun c => { c with pieces := setPiece c.pieces c.count p })
  let pg1 := { pg with heap := heap1 }
  match playgroundTrackChange pg1 col (pg1.heap col).count with
  | .error e => .error e
  | .ok pg2 => .ok { pg2 with heap := modCol pg2.heap col (fun c => { c with count := c.count + 1 }) }

/-- The loop `while (pieceRemovalsCount > 0)` (main.c 513-516). -/
def stabilize : Nat → Playground → Except Fault Playground
  | 0, _ => .error .outOfFuel
  | fuel + 1, pg =>
    if pg.pieceRemovals.length > 0 then
      match playgroundRemoveLines (playgroundCauseGravity pg) with
      | .error e => .error e
      | .ok pg1 => stabilize fuel pg1
    else .ok pg

/-- Clear changes (main.c 520-524). -/
def clearChanges (pg : Playground) : Playground :=
  let heap1 :=
    pg.changedCols.foldl (fun hp col => modCol hp col (fun c => { c with changeY := c.size })) pg.heap
  { pg with heap := heap1, changedCols := [] }

/-- The chain of handles reached from `from?` by following `next`. -/
def chainFrom (heap : Nat → Col) : Nat → Option Nat → List Nat
  | 0, _ => []
  | _ + 1, none => []
  | fuel + 1, some h => h :: chainFrom heap fuel (heap h).next

/-- The cols of the playground in list order, walked from `startCol`. -/
def chain (pg : Playground) : List Nat :=
  chainFrom pg.heap pg.brk (some pg.startCol)

/-- Total number of pieces on the board: the sum of `count` over all piece-stack cols. -/
def totalPieces (pg : Playground) : Nat :=
  ((chain pg).map (fun h => if (pg.heap h).type = .COL_PIECES then (pg.heap h).count else 0)).sum

/-- Insert a piece at the given x-position (main.c 467-525). -/
def playgroundPlacePiece (pg : Playground) (x : Int) (p : Nat) : Except Fault Playground :=
  match playgroundGetColAt pg x with
  | .error e => .error e
  | .ok (col0, pg0) =>
    let r := if (pg0.heap col0).count = (pg0.heap col0).size then expandCol pg0 col0 else (col0, pg0)
    match appendPiece r.2 r.1 p with
    | .error e => .error e
    | .ok pg1 =>
      match playgroundRemoveLines pg1 with
      | .error e => .error e
      | .ok pg2 =>
        match stabilize (totalPieces pg2 + 1) pg2 with
        | .error e => .error e
        | .ok pg3 => .ok (clearChanges pg3)

/-! ## Observing the board -/

/-- The handle of the piece-stack col at position `x`, walking a chain whose first col sits
at `x0`: one position per piece-stack col, `size` positions per padding run. -/
def colAtFrom (heap : Nat → Col) : List Nat → Int → Int → Option Nat
  | [], _, _ => none
  | h :: t, x0, x =>
    if (heap h).type = .COL_PIECES then
      if x = x0 then some h else colAtFrom heap t (x0 + 1) x
    else colAtFrom heap t (x0 + ((heap h).size : Int)) x

/-- The piece-stack col at position `x`, if there is one. -/
def colAt (pg : Playground) (x : Int) : Option Nat :=
  colAtFrom pg.heap (chain pg) pg.startColX x

/-- The pieces of a col from height 0 to `count - 1`. -/
def Col.stack (c : Col) : List Nat :=
  (List.range c.count).map c.pieces

/-- The stack at position `x`; `none` where no piece-stack col exists. -/
def stackAt (pg : Playground) (x : Int) : Option (List Nat) :=
  (colAt pg x).map (fun h => (pg.heap h).stack)

/-- The piece at `(x, y)`; `none` outside the board. -/
def pieceAt (pg : Playground) (x y : Int) : Option Nat :=
  match colAt pg x with
  | none => none
  | some h =>
    if 0 ≤ y ∧ y < ((pg.heap h).count : Int) then some ((pg.heap h).pieces y.toNat) else none

/-- The layout of the chain: `none` for a piece-stack col, `some size` for a padding run. -/
def layout (pg : Playground) : List (Option Nat) :=
  (chain pg).map (fun h => if (pg.heap h).type = .COL_PIECES then none else some (pg.heap h).size)

/-- Place a list of `(x, colour)` records one after another. -/
def placeAll : Playground → List (Int × Nat) → Except Fault Playground
  | pg, [] => .ok pg
  | pg, (x, p) :: rest =>
    match playgroundPlacePiece pg x p with
    | .error e => .error e
    | .ok pg1 => placeAll pg1 rest

/-! ## Well-formedness of the column chain -/

/-- First handle of `l`, or `d` when `l` is empty. -/
def headOr : List Nat → Option Nat → Option Nat
  | [], d => d
  | h :: _, _ => some h

/-- Last handle of `l`, or `d` when `l` is empty. -/
def lastOr : List Nat → Option Nat → Option Nat
  | [], d => d
  | [h], _ => some h
  | _ :: h :: t, d => lastOr (h :: t) d

/-- The cols of `l` are doubly linked in list order; `p` is what the first col has as `prev`
and `n` what the last col has as `next`. -/
def Seg (heap : Nat → Col) : Option Nat → List Nat → Option Nat → Prop
  | _, [], _ => True
  | p, h :: t, n => (heap h).prev = p ∧ (heap h).next = headOr t n ∧ Seg heap (some h) t n

/-- Number of x-positions covered by the cols of `l`. -/
def wsum (heap : Nat → Col) : List Nat → Int
  | [] => 0
  | h :: t => ((heap h).width : Int) + wsum heap t

/-- The chain invariant of a playground whose cols, in order, are `hs`. -/
structure WF (pg : Playground) (hs : List Nat) : Prop where
  seg : Seg pg.heap none hs none
  nodup : hs.Nodup
  bound : ∀ h ∈ hs, h < pg.brk
  first : hs.head? = some pg.startCol
  last : hs.getLast? = some pg.endCol
  originAt : colAtFrom pg.heap hs pg.startColX 0 = some pg.originCol
  currentAt : colAtFrom pg.heap hs pg.startColX pg.currentX = some pg.currentCol
  total : pg.startColX + wsum pg.heap hs = pg.endColX + 1
  endPieces : (pg.heap pg.endCol).type = .COL_PIECES
  startPieces : (pg.heap pg.startCol).type = .COL_PIECES
  padPos : ∀ h ∈ hs, (pg.heap h).type = .COL_PADDING → 1 ≤ (pg.heap h).size

/-- Two heaps agree on everything `playgroundGetColAt` may not touch of an existing col. -/
def SameData (a b : Col) : Prop :=
  a.type = b.type ∧ a.count = b.count ∧ a.changeY = b.changeY ∧ a.pieces = b.pieces ∧
    (a.type = .COL_PIECES → a.size = b.size)

/-- Two cols agree on the fields that shape the chain. -/
def SameLinks (a b : Col) : Prop :=
  a.type = b.type ∧ a.size = b.size ∧ a.next = b.next ∧ a.prev = b.prev

/-- The playground `pg2` has the same chain as `pg1`: only counts, change marks, piece data
and the two auxiliary arrays may differ. -/
structure SameShape (pg1 pg2 : Playground) : Prop where
  links : ∀ h, SameLinks (pg1.heap h) (pg2.heap h)
  brk : pg2.brk = pg1.brk
  startCol : pg2.startCol = pg1.startCol
  startColX : pg2.startColX = pg1.startColX
  originCol : pg2.originCol = pg1.originCol
  endCol : pg2.endCol = pg1.endCol
  endColX : pg2.endColX = pg1.endColX
  currentCol : pg2.currentCol = pg1.currentCol
  currentX : pg2.currentX = pg1.currentX
  changedColsSize : pg2.changedColsSize = pg1.changedColsSize

/-- What `playgroundGetColAt pg x` guarantees about its result `(c, pg2)`: `hs` is the chain
before the call and `hs2` the chain after it. -/
structure GetColPost (pg : Playground) (hs : List Nat) (x : Int) (c : Nat) (pg2 : Playground)
    (hs2 : List Nat) : Prop where
  wf : WF pg2 hs2
  here : colAtFrom pg2.heap hs2 pg2.startColX x = some c
  frame : ∀ x1, x1 ≠ x →
    colAtFrom pg2.heap hs2 pg2.startColX x1 = colAtFrom pg.heap hs pg.startColX x1
  data : ∀ h, h < pg.brk → SameData (pg.heap h) (pg2.heap h)
  fresh : colAtFrom pg.heap hs pg.startColX x = none →
    pg.brk ≤ c ∧ (pg2.heap c).count = 0 ∧ (pg2.heap c).size = MIN_COL_SIZE ∧
      (pg2.heap c).changeY = MIN_COL_SIZE
  old : ∀ h, colAtFrom pg.heap hs pg.startColX x = some h →
    c = h ∧ hs2 = hs ∧ pg2.heap = pg.heap ∧ pg2.brk = pg.brk
  changedCols : pg2.changedCols = pg.changedCols
  changedColsSize : pg2.changedColsSize = pg.changedColsSize
  pieceRemovals : pg2.pieceRemovals = pg.pieceRemovals
  brk_le : pg.brk ≤ pg2.brk
  born : ∀ h ∈ hs2, h ∉ hs → pg.brk ≤ h
  kept : ∀ h ∈ hs, (pg.heap h).type = .COL_PIECES → h ∈ hs2
  onlyNew : ∀ h ∈ hs2, (pg2.heap h).type = .COL_PIECES → h ∈ hs ∨ h = c

/-- The heap after `splitPadding` when an upper padding run remains (normal form). -/
def splitHeapPad (pg : Playground) (d d1 : Nat) (col lp : Nat) : Nat → Col :=
  fun k =>
    if k = pg.brk + 1 then
      { createPaddingCol d1 with prev := some pg.brk, next := some col }
    else if k = pg.brk then
      { createCol with prev := some lp, next := some (pg.brk + 1) }
    else if k = col then { pg.heap col with prev := some (pg.brk + 1) }
    else if k = lp then
      { pg.heap lp with size := (pg.heap lp).size - d, next := some pg.brk }
    else pg.heap k

/-- The heap after `splitPadding` when the new col is the last position of the run. -/
def splitHeapOne (pg : Playground) (d : Nat) (col lp : Nat) : Nat → Col :=
  fun k =>
    if k = pg.brk then { createCol with prev := some lp, next := some col }
    else if k = col then { pg.heap col with prev := some pg.brk }
    else if k = lp then
      { pg.heap lp with size := (pg.heap lp).size - d, next := some pg.brk }
    else pg.heap k

/-- The heap after `replacePadding` on a padding run of size 1. -/
def replaceHeapOne (pg : Playground) (p n : Nat) : Nat → Col :=
  fun k =>
    if k = pg.brk then { createCol with prev := some p, next := some n }
    else if k = n then { pg.heap n with prev := some pg.brk }
    else if k = p then { pg.heap p with next := some pg.brk }
    else pg.heap k

/-- The heap after `replacePadding` on a longer padding run. -/
def replaceHeapMore (pg : Playground) (col p : Nat) : Nat → Col :=
  fun k =>
    if k = pg.brk then { createCol with prev := some p, next := some col }
    else if k = col then
      { pg.heap col with size := (pg.heap col).size - 1, prev := some pg.brk }
    else if k = p then { pg.heap p with next := some pg.brk }
    else pg.heap k

/-- The playground `pg2` is reached from `pg` by a sequence of `playgroundRemovePiece`
calls: what a detect pass does to the state. -/
inductive Marks : Playground → Playground → Prop
  | refl (pg : Playground) : Marks pg pg
  | step {pg pg1 pg2 : Playground} (col y : Nat) :
      Marks pg pg1 → playgroundRemovePiece pg1 col y = .ok pg2 → Marks pg pg2

/-- Playgrounds reachable from the empty playground by completed placement cycles with
colours in `[0, 253]`. -/
inductive Reachable : Playground → Prop
  | init : Reachable createPlayground
  | place {pg pg2 : Playground} (x : Int) (p : Nat) :
      Reachable pg → p ≤ 253 → playgroundPlacePiece pg x p = .ok pg2 → Reachable pg2

/-- The playground `pg2` shows the same board as `pg1`: same chain, same counts and pieces. -/
structure SameBoard (pg1 pg2 : Playground) : Prop where
  shape : SameShape pg1 pg2
  count : ∀ h, (pg2.heap h).count = (pg1.heap h).count
  pieces : ∀ h, (pg2.heap h).pieces = (pg1.heap h).pieces

/-- Renaming of the handle `col` to `new` (what `realloc` does to a col that moves). -/
def rename (col new : Nat) (h : Nat) : Nat :=
  if h = col then new else h

/-! ## Observations for the gravity engine -/

/-- The pieces of col `c` once the Empty marker is written at every queued height. -/
def markedPieces (pg : Playground) (c : Nat) : Nat → Nat :=
  fun y => if (c, y) ∈ pg.pieceRemovals then PIECE_EMPTY else (pg.heap c).pieces y

/-- The non-Empty pieces among `ps y, …, ps (y + n - 1)`, in their order. -/
def nonEmptyFrom (ps : Nat → Nat) (y n : Nat) : List Nat :=
  ((List.range' y n).map ps).filter (fun p => p ≠ PIECE_EMPTY)

/-- A playground in the middle of a cycle: the origin col holds the pieces 1, 7, 2 and the
middle one is queued for removal, with the change mark of the col at 0. -/
def gravityExample : Playground :=
  { createPlayground with
    heap := setCol createPlayground.heap 0
      { createCol with
        count := 3, changeY := 0, pieces := fun y => if y = 0 then 1 else if y = 1 then 7 else 2 }
    changedCols := [0]
    pieceRemovals := [(0, 1)] }

/-! ## Neighbours on the board -/

/-- The col behind a link when it is a piece-stack col. -/
def pieceCol (heap : Nat → Col) : Option Nat → Option Nat
  | none => none
  | some n => if (heap n).type = .COL_PIECES then some n else none

/-- The col `c` lies in the list `hs` with `m` cols behind it. -/
def After (hs : List Nat) (c m : Nat) : Prop :=
  ∃ l1 l2, hs = l1 ++ c :: l2 ∧ l2.length = m

/-- The col `c` lies in the list `hs` with `m` cols before it. -/
def Before (hs : List Nat) (c m : Nat) : Prop :=
  ∃ l1 l2, hs = l1 ++ c :: l2 ∧ l1.length = m

/-! ## Inside a placement cycle -/

/-- The fatal abort of the source inside a cycle: the exit of `playgroundRemovePiece` when the
removal array is full. -/
def Aborts {α : Type} (r : Except Fault α) : Prop :=
  r = .error .removalOverflow

/-- The invariant of the states inside a placement cycle, for the chain `hs`. -/
structure Cyc (hs : List Nat) (q : Playground) : Prop where
  wf : WF q hs
  cap : ∀ c ∈ hs, (q.heap c).type = .COL_PIECES → (q.heap c).count ≤ (q.heap c).size
  noEmpty : ∀ c ∈ hs, (q.heap c).type = .COL_PIECES →
    ∀ y, y < (q.heap c).count → (q.heap c).pieces y ≠ PIECE_EMPTY
  dirty : ∀ c ∈ hs, (q.heap c).type = .COL_PIECES →
    (q.heap c).changeY ≠ (q.heap c).size → c ∈ q.changedCols
  changed : ∀ c ∈ q.changedCols,
    c ∈ hs ∧ (q.heap c).type = .COL_PIECES ∧ (q.heap c).changeY ≤ (q.heap c).count
  queued : ∀ r ∈ q.pieceRemovals,
    r.1 ∈ q.changedCols ∧ (q.heap r.1).changeY ≤ r.2 ∧ r.2 < (q.heap r.1).count
  room : q.pieceRemovals.length ≤ q.changedColsSize

/-- From `q` to `q2` no change mark of a piece-stack col of the chain went up. -/
def Lower (hs : List Nat) (q q2 : Playground) : Prop :=
  ∀ c ∈ hs, (q.heap c).type = .COL_PIECES → (q2.heap c).changeY ≤ (q.heap c).changeY

/-- What a part of the detect pass does to a state inside a cycle: the invariant is kept, no
change mark goes up, and the state is reached by queueing cells. -/
structure Det (hs : List Nat) (q q2 : Playground) : Prop where
  cyc : Cyc hs q2
  lower : Lower hs q q2
  marks : Marks q q2

/-! ## Lines on the board -/

/-- Four cells of one colour in a grid of cells, starting at `(x, y)` and one step `(dx, dy)`
apart. -/
def LineIn (cell : Int → Int → Option Nat) (x y dx dy : Int) : Prop :=
  ∃ p, ∀ k : Nat, k < 4 → cell (x + (k : Int) * dx) (y + (k : Int) * dy) = some p

/-- The cell `(x, y)` of a grid is one of four cells of one colour that lie one step `(dx, dy)`
apart. -/
def OnLineIn (cell : Int → Int → Option Nat) (x y dx dy : Int) : Prop :=
  ∃ i : Nat, i < 4 ∧ LineIn cell (x - (i : Int) * dx) (y - (i : Int) * dy) dx dy

/-- Four pieces of one colour on the board, starting at `(x, y)` and one step `(dx, dy)`
apart. -/
def LineAt (pg : Playground) (x y dx dy : Int) : Prop :=
  LineIn (pieceAt pg) x y dx dy

/-- The cell `(x, y)` of the board is one of four pieces of one colour that lie one step
`(dx, dy)` apart. -/
def OnLine (pg : Playground) (x y dx dy : Int) : Prop :=
  OnLineIn (pieceAt pg) x y dx dy

/-- The four directions of a line: horizontal, vertical, climbing and falling diagonal. -/
def IsDir (dx dy : Int) : Prop :=
  (dx = 1 ∧ (dy = 0 ∨ dy = 1 ∨ dy = -1)) ∨ (dx = 0 ∧ dy = 1)

/-- No cell at or above the change mark of the col at position `x` lies on a horizontal or
diagonal line, and no vertical line of that col has its top at or above the change mark. -/
def SettledAt (q : Playground) (x : Int) (c : Nat) : Prop :=
  (∀ z, (q.heap c).changeY ≤ z → z < (q.heap c).count →
    ¬ OnLine q x z 1 (-1) ∧ ¬ OnLine q x z 1 0 ∧ ¬ OnLine q x z 1 1) ∧
  (∀ z : Nat, (q.heap c).changeY ≤ z + 3 → ¬ LineAt q x z 0 1)

/-- The cell `(x, y)` lies at or above the change mark of its col. -/
def DirtyAt (q : Playground) (x y : Int) : Prop :=
  ∃ c, colAt q x = some c ∧ ((q.heap c).changeY : Int) ≤ y ∧ y < ((q.heap c).count : Int)

/-- Every line on the board has a cell at or above the change mark of its col. -/
def Covered (q : Playground) : Prop :=
  ∀ x y dx dy, IsDir dx dy → LineAt q x y dx dy →
    ∃ k : Nat, k < 4 ∧ DirtyAt q (x + (k : Int) * dx) (y + (k : Int) * dy)

/-- No four pieces of one colour in a row along any of the four directions. -/
def NoLines (pg : Playground) : Prop :=
  ∀ x y dx dy, IsDir dx dy → ¬ LineAt pg x y dx dy

/-- The invariant of the playgrounds between two placement cycles, for the chain `hs`. -/
structure Clean (hs : List Nat) (pg : Playground) : Prop where
  wf : WF pg hs
  cap : ∀ c ∈ hs, (pg.heap c).type = .COL_PIECES →
    (pg.heap c).count ≤ (pg.heap c).size ∧ 0 < (pg.heap c).size
  noEmpty : ∀ c ∈ hs, (pg.heap c).type = .COL_PIECES →
    ∀ y, y < (pg.heap c).count → (pg.heap c).pieces y ≠ PIECE_EMPTY
  clean : ∀ c ∈ hs, (pg.heap c).type = .COL_PIECES → (pg.heap c).changeY = (pg.heap c).size
  changedCols : pg.changedCols = []
  pieceRemovals : pg.pieceRemovals = []
  room : 0 < pg.changedColsSize

/-- The playground after the piece `p` is put on top of the col `c` and the change is tracked,
when the col was unchanged before and has room. -/
def appended (pg : Playground) (c p : Nat) : Playground :=
  { pg with
    heap := modCol pg.heap c (fun e =>
      { e with pieces := setPiece e.pieces e.count p, changeY := (pg.heap c).count,
               count := e.count + 1 })
    changedCols := [c] }

/-- The number of pieces at position `x`; 0 where no piece-stack col exists. -/
def heightAt (pg : Playground) (x : Int) : Nat :=
  ((stackAt pg x).getD []).length

/-- The board of `pg` with the piece `p` put on top of the stack at `x0`. -/
def pieceWith (pg : Playground) (x0 : Int) (p : Nat) : Int → Int → Option Nat :=
  fun x y => if x = x0 ∧ y = (heightAt pg x0 : Int) then some p else pieceAt pg x y

/-- The rest of a placement cycle once the piece is appended (main.c 510-524). -/
def finishCycle (q1 : Playground) : Except Fault Playground :=
  match playgroundRemoveLines q1 with
  | .error e => .error e
  | .ok pg2 =>
    match stabilize (totalPieces pg2 + 1) pg2 with
    | .error e => .error e
    | .ok pg3 => .ok (clearChanges pg3)

/-- The state after a detect pass that started with an empty queue: the cycle invariant holds,
every line is covered, and when nothing was queued every changed col is settled. -/
structure Pass (hs : List Nat) (q : Playground) : Prop where
  cyc : Cyc hs q
  covered : Covered q
  settled : q.pieceRemovals = [] →
    ∀ c ∈ q.changedCols, ∀ x, colAt q x = some c → SettledAt q x c

/-- The states in which the loop test `pieceRemovalsCount > 0` of the placement of `p` at `x`
on `pg` is evaluated: after the first detect pass, and after every further detect pass that
follows a gravity step. -/
inductive LoopState (pg : Playground) (x : Int) (p : Nat) : Playground → Prop
  | first {c0 : Nat} {pg0 q1 q2 : Playground} :
      playgroundGetColAt pg x = .ok (c0, pg0) →
      appendPiece
        (if (pg0.heap c0).count = (pg0.heap c0).size then expandCol pg0 c0 else (c0, pg0)).2
        (if (pg0.heap c0).count = (pg0.heap c0).size then expandCol pg0 c0 else (c0, pg0)).1
        p = .ok q1 →
      playgroundRemoveLines q1 = .ok q2 → LoopState pg x p q2
  | again {q q2 : Playground} :
      LoopState pg x p q → 0 < q.pieceRemovals.length →
      playgroundRemoveLines (playgroundCauseGravity q) = .ok q2 → LoopState pg x p q2

/-! ## Further invariants of the reachable playgrounds -/

/-- Playgrounds reachable from the empty playground by `playgroundGetColAt` calls and by
completed placement cycles with colours in `[0, 253]`. -/
inductive Accessible : Playground → Prop
  | init : Accessible createPlayground
  | getCol {pg pg2 : Playground} (x : Int) (c : Nat) :
      Accessible pg → playgroundGetColAt pg x = .ok (c, pg2) → Accessible pg2
  | place {pg pg2 : Playground} (x : Int) (p : Nat) :
      Accessible pg → p ≤ 253 → playgroundPlacePiece pg x p = .ok pg2 → Accessible pg2

/-- No two neighbours in the list `l` are both padding runs. -/
def NoPadPair (heap : Nat → Col) (l : List Nat) : Prop :=
  List.Chain' (fun a b => (heap a).type = .COL_PIECES ∨ (heap b).type = .COL_PIECES) l

/-- The capacity of every piece-stack col of `l` is `MIN_COL_SIZE` times a power of two. -/
def CapsDoubled (heap : Nat → Col) (l : List Nat) : Prop :=
  ∀ c ∈ l, (heap c).type = .COL_PIECES → ∃ k : Nat, (heap c).size = MIN_COL_SIZE * 2 ^ k

/-- How `playgroundGetColAt` turns the list of cols `hs` into `hs2` when it returns the col `c`;
`g` is the handle of a padding run it may create on the way. -/
inductive Grown (heap : Nat → Col) (c g : Nat) : List Nat → List Nat → Prop
  | same (hs : List Nat) : Grown heap c g hs hs
  | append (D : List Nat) (e : Nat) :
      (heap e).type = .COL_PIECES → Grown heap c g (D ++ [e] ++ []) (D ++ [e, c] ++ [])
  | appendPad (D : List Nat) (e : Nat) :
      (heap e).type = .COL_PIECES → Grown heap c g (D ++ [e] ++ []) (D ++ [e, g, c] ++ [])
  | prepend (s : Nat) (T : List Nat) :
      (heap s).type = .COL_PIECES → Grown heap c g ([] ++ [s] ++ T) ([] ++ [c, s] ++ T)
  | prependPad (s : Nat) (T : List Nat) :
      (heap s).type = .COL_PIECES → Grown heap c g ([] ++ [s] ++ T) ([] ++ [c, g, s] ++ T)
  | splitPad (A : List Nat) (lp col : Nat) (B : List Nat) :
      (heap lp).type = .COL_PADDING →
      Grown heap c g (A ++ [lp, col] ++ B) (A ++ [lp, c, g, col] ++ B)
  | between (A : List Nat) (p col : Nat) (B : List Nat) :
      Grown heap c g (A ++ [p, col] ++ B) (A ++ [p, c, col] ++ B)
  | replace (A : List Nat) (p col n : Nat) (B : List Nat) :
      Grown heap c g (A ++ [p, col, n] ++ B) (A ++ [p, c, n] ++ B)

/-- Playgrounds reachable from the empty playground by `playgroundGetColAt` calls and by
completed placement cycles with any colour. -/
inductive Visited : Playground → Prop
  | init : Visited createPlayground
  | getCol {pg pg2 : Playground} (x : Int) (c : Nat) :
      Visited pg → playgroundGetColAt pg x = .ok (c, pg2) → Visited pg2
  | place {pg pg2 : Playground} (x : Int) (p : Nat) :
      Visited pg → playgroundPlacePiece pg x p = .ok pg2 → Visited pg2

/-- The position `r = (col, height)` names a piece of the board, below the count of a piece-stack
col, that is one of four pieces of one colour in a row along one of the four axes. -/
def OnRun (pg : Playground) (r : Nat × Nat) : Prop :=
  ∃ x, colAt pg x = some r.1 ∧ r.2 < (pg.heap r.1).count ∧
    ∃ dx dy, IsDir dx dy ∧ OnLine pg x (r.2 : Int) dx dy

/-- Every position in the removal queue names a piece that lies on a line. -/
def Sound (pg : Playground) : Prop :=
  ∀ r ∈ pg.pieceRemovals, OnRun pg r

/-! # Theorems -/

/-! ## Heap access -/

@[simp]
theorem setCol_same (heap : Nat → Col) (h : Nat) (c : Col) : setCol heap h c h = c := by
  simp [setCol]

@[simp]
theorem setCol_other (heap : Nat → Col) {h k : Nat} (c : Col) (hk : k ≠ h) :
    setCol heap h c k = heap k := by
  simp [setCol, hk]

@[simp]
theorem modCol_same (heap : Nat → Col) (h : Nat) (f : Col → Col) :
    modCol heap h f h = f (heap h) := by
  simp [modCol]

@[simp]
theorem modCol_other (heap : Nat → Col) {h k : Nat} (f : Col → Col) (hk : k ≠ h) :
    modCol heap h f k = heap k := by
  simp [modCol, hk]

@[simp]
theorem setPiece_same (ps : Nat → Nat) (y p : Nat) : setPiece ps y p y = p := by
  simp [setPiece]

@[simp]
theorem setPiece_other (ps : Nat → Nat) {y k : Nat} (p : Nat) (hk : k ≠ y) :
    setPiece ps y p k = ps k := by
  simp [setPiece, hk]

/-! ## Lists of handles -/

@[simp]
theorem headOr_nil (d : Option Nat) : headOr [] d = d := rfl

@[simp]
theorem headOr_cons (h : Nat) (t : List Nat) (d : Option Nat) : headOr (h :: t) d = some h := rfl

@[simp]
theorem lastOr_nil (d : Option Nat) : lastOr [] d = d := rfl

@[simp]
theorem lastOr_singleton (h : Nat) (d : Option Nat) : lastOr [h] d = some h := rfl

theorem lastOr_cons (h : Nat) (t : List Nat) (d : Option Nat) :
    lastOr (h :: t) d = lastOr t (some h) := by
  induction t generalizing h d with
  | nil => rfl
  | cons a t ih =>
    show lastOr (a :: t) d = lastOr (a :: t) (some h)
    rw [ih a d, ih a (some h)]

theorem headOr_append (l1 l2 : List Nat) (d : Option Nat) :
    headOr (l1 ++ l2) d = headOr l1 (headOr l2 d) := by
  cases l1 <;> rfl

theorem lastOr_append (l1 l2 : List Nat) (d : Option Nat) :
    lastOr (l1 ++ l2) d = lastOr l2 (lastOr l1 d) := by
  induction l1 generalizing d with
  | nil => rfl
  | cons a t ih =>
    rw [List.cons_append, lastOr_cons, ih, lastOr_cons]

theorem Seg_append (heap : Nat → Col) (l1 l2 : List Nat) (p n : Option Nat) :
    Seg heap p (l1 ++ l2) n ↔ Seg heap p l1 (headOr l2 n) ∧ Seg heap (lastOr l1 p) l2 n := by
  induction l1 generalizing p with
  | nil => simp [Seg]
  | cons a t ih =>
    have e1 : Seg heap p (a :: t ++ l2) n ↔
        (heap a).prev = p ∧ (heap a).next = headOr (t ++ l2) n ∧ Seg heap (some a) (t ++ l2) n :=
      Iff.rfl
    have e2 : Seg heap p (a :: t) (headOr l2 n) ↔
        (heap a).prev = p ∧ (heap a).next = headOr t (headOr l2 n) ∧
          Seg heap (some a) t (headOr l2 n) := Iff.rfl
    rw [e1, e2, ih, headOr_append, lastOr_cons]
    tauto

theorem Seg_congr {heap1 heap2 : Nat → Col} {l : List Nat} (p n : Option Nat)
    (h : ∀ a ∈ l, (heap2 a).next = (heap1 a).next ∧ (heap2 a).prev = (heap1 a).prev) :
    Seg heap2 p l n ↔ Seg heap1 p l n := by
  induction l generalizing p with
  | nil => simp [Seg]
  | cons a t ih =>
    have ha := h a (List.mem_cons_self a t)
    have ht : ∀ b ∈ t, (heap2 b).next = (heap1 b).next ∧ (heap2 b).prev = (heap1 b).prev :=
      fun b hb => h b (List.mem_cons_of_mem a hb)
    simp only [Seg, ha.1, ha.2, ih (some a) ht]

theorem wsum_append (heap : Nat → Col) (l1 l2 : List Nat) :
    wsum heap (l1 ++ l2) = wsum heap l1 + wsum heap l2 := by
  induction l1 with
  | nil => simp [wsum]
  | cons a t ih => simp [wsum, ih, add_assoc]

theorem wsum_nonneg (heap : Nat → Col) (l : List Nat) : 0 ≤ wsum heap l := by
  induction l with
  | nil => simp [wsum]
  | cons a t ih => simp only [wsum]; omega

theorem wsum_congr {heap1 heap2 : Nat → Col} {l : List Nat}
    (h : ∀ a ∈ l, (heap2 a).width = (heap1 a).width) : wsum heap2 l = wsum heap1 l := by
  induction l with
  | nil => rfl
  | cons a t ih =>
    simp only [wsum, h a (List.mem_cons_self a t),
      ih (fun b hb => h b (List.mem_cons_of_mem a hb))]

/-! ## Positions along the chain -/

theorem type_cases (c : Col) : c.type = .COL_PIECES ∨ c.type = .COL_PADDING := by
  cases c.type
  · exact Or.inl rfl
  · exact Or.inr rfl

theorem width_pieces {c : Col} (h : c.type = .COL_PIECES) : c.width = 1 := by
  simp [Col.width, h]

theorem width_padding {c : Col} (h : c.type = .COL_PADDING) : c.width = c.size := by
  simp [Col.width, h]

theorem colAtFrom_cons_pieces {heap : Nat → Col} {a : Nat} (t : List Nat) (x0 x : Int)
    (h : (heap a).type = .COL_PIECES) :
    colAtFrom heap (a :: t) x0 x = if x = x0 then some a else colAtFrom heap t (x0 + 1) x := by
  simp [colAtFrom, h]

theorem colAtFrom_cons_padding {heap : Nat → Col} {a : Nat} (t : List Nat) (x0 x : Int)
    (h : (heap a).type = .COL_PADDING) :
    colAtFrom heap (a :: t) x0 x = colAtFrom heap t (x0 + ((heap a).size : Int)) x := by
  simp [colAtFrom, h]

theorem wsum_cons_pieces {heap : Nat → Col} {a : Nat} (t : List Nat)
    (h : (heap a).type = .COL_PIECES) : wsum heap (a :: t) = 1 + wsum heap t := by
  simp [wsum, width_pieces h]

theorem wsum_cons_padding {heap : Nat → Col} {a : Nat} (t : List Nat)
    (h : (heap a).type = .COL_PADDING) :
    wsum heap (a :: t) = ((heap a).size : Int) + wsum heap t := by
  simp [wsum, width_padding h]

theorem colAtFrom_append (heap : Nat → Col) (l1 l2 : List Nat) (x0 x : Int) :
    colAtFrom heap (l1 ++ l2) x0 x =
      (colAtFrom heap l1 x0 x).or (colAtFrom heap l2 (x0 + wsum heap l1) x) := by
  induction l1 generalizing x0 with
  | nil => simp [colAtFrom, wsum]
  | cons a t ih =>
    rw [List.cons_append]
    rcases type_cases (heap a) with hty | hty
    · rw [colAtFrom_cons_pieces _ _ _ hty, colAtFrom_cons_pieces _ _ _ hty, wsum_cons_pieces _ hty]
      by_cases hx : x = x0
      · simp [hx]
      · simp only [hx, if_false, ih, add_assoc]
    · rw [colAtFrom_cons_padding _ _ _ hty, colAtFrom_cons_padding _ _ _ hty,
        wsum_cons_padding _ hty, ih, add_assoc]

theorem colAtFrom_ge (heap : Nat → Col) (l : List Nat) (x0 x : Int)
    (h : x0 + wsum heap l ≤ x) : colAtFrom heap l x0 x = none := by
  induction l generalizing x0 with
  | nil => rfl
  | cons a t ih =>
    have hw := wsum_nonneg heap t
    rcases type_cases (heap a) with hty | hty
    · rw [wsum_cons_pieces _ hty] at h
      rw [colAtFrom_cons_pieces _ _ _ hty, if_neg (by omega)]
      exact ih _ (by omega)
    · rw [wsum_cons_padding _ hty] at h
      rw [colAtFrom_cons_padding _ _ _ hty]
      exact ih _ (by omega)

theorem colAtFrom_lt (heap : Nat → Col) (l : List Nat) (x0 x : Int)
    (h : x < x0) : colAtFrom heap l x0 x = none := by
  induction l generalizing x0 with
  | nil => rfl
  | cons a t ih =>
    rcases type_cases (heap a) with hty | hty
    · rw [colAtFrom_cons_pieces _ _ _ hty, if_neg (by omega)]
      exact ih _ (by omega)
    · rw [colAtFrom_cons_padding _ _ _ hty]
      exact ih _ (by omega)

theorem colAtFrom_congr {heap1 heap2 : Nat → Col} {l : List Nat} (x0 x : Int)
    (h : ∀ a ∈ l, (heap2 a).type = (heap1 a).type ∧ (heap2 a).size = (heap1 a).size) :
    colAtFrom heap2 l x0 x = colAtFrom heap1 l x0 x := by
  induction l generalizing x0 with
  | nil => rfl
  | cons a t ih =>
    have ha := h a (List.mem_cons_self a t)
    have ht : ∀ b ∈ t, (heap2 b).type = (heap1 b).type ∧ (heap2 b).size = (heap1 b).size :=
      fun b hb => h b (List.mem_cons_of_mem a hb)
    simp only [colAtFrom, ha.1, ha.2, ih _ ht]

theorem colAtFrom_some {heap : Nat → Col} {l : List Nat} {x0 x : Int} {h : Nat}
    (hc : colAtFrom heap l x0 x = some h) :
    ∃ l1 l2, l = l1 ++ h :: l2 ∧ x0 + wsum heap l1 = x ∧ (heap h).type = .COL_PIECES := by
  induction l generalizing x0 with
  | nil => simp [colAtFrom] at hc
  | cons a t ih =>
    rcases type_cases (heap a) with hty | hty
    · rw [colAtFrom_cons_pieces _ _ _ hty] at hc
      by_cases hx : x = x0
      · rw [if_pos hx] at hc
        injection hc with hc
        subst hc
        exact ⟨[], t, rfl, by simp [wsum, hx], hty⟩
      · rw [if_neg hx] at hc
        obtain ⟨l1, l2, e, hx, hty2⟩ := ih hc
        refine ⟨a :: l1, l2, by simp [e], ?_, hty2⟩
        rw [wsum_cons_pieces _ hty]
        omega
    · rw [colAtFrom_cons_padding _ _ _ hty] at hc
      obtain ⟨l1, l2, e, hx, hty2⟩ := ih hc
      refine ⟨a :: l1, l2, by simp [e], ?_, hty2⟩
      rw [wsum_cons_padding _ hty]
      omega

theorem colAtFrom_mid (heap : Nat → Col) (l1 l2 : List Nat) (h : Nat) (x0 : Int)
    (hty : (heap h).type = .COL_PIECES) :
    colAtFrom heap (l1 ++ h :: l2) x0 (x0 + wsum heap l1) = some h := by
  rw [colAtFrom_append, colAtFrom_ge heap l1 x0 _ (le_refl _)]
  simp [colAtFrom, hty]

theorem colAtFrom_mem {heap : Nat → Col} {l : List Nat} {x0 x : Int} {h : Nat}
    (hc : colAtFrom heap l x0 x = some h) : h ∈ l := by
  obtain ⟨l1, l2, e, _, _⟩ := colAtFrom_some hc
  simp [e]

theorem colAtFrom_pieces {heap : Nat → Col} {l : List Nat} {x0 x : Int} {h : Nat}
    (hc : colAtFrom heap l x0 x = some h) : (heap h).type = .COL_PIECES := by
  obtain ⟨l1, l2, _, _, hty⟩ := colAtFrom_some hc
  exact hty

theorem length_le_of_bound {l : List Nat} {n : Nat} (hn : l.Nodup) (hb : ∀ h ∈ l, h < n) :
    l.length ≤ n := by
  have h1 : l.toFinset ⊆ Finset.range n := by
    intro a ha
    simp only [List.mem_toFinset] at ha
    simpa using hb a ha
  have h2 := Finset.card_le_card h1
  rwa [List.toFinset_card_of_nodup hn, Finset.card_range] at h2

theorem chainFrom_eq (heap : Nat → Col) (t : List Nat) (h : Nat) (p : Option Nat) (fuel : Nat)
    (hs : Seg heap p (h :: t) none) (hf : (h :: t).length ≤ fuel) :
    chainFrom heap fuel (some h) = h :: t := by
  induction t generalizing h p fuel with
  | nil =>
    cases fuel with
    | zero => simp at hf
    | succ f =>
      have hn : (heap h).next = none := hs.2.1
      cases f <;> simp [chainFrom, hn]
  | cons a t ih =>
    cases fuel with
    | zero => simp at hf
    | succ f =>
      have hn : (heap h).next = some a := hs.2.1
      simp only [chainFrom, hn]
      rw [ih a (some h) f hs.2.2 (by simpa using hf)]

theorem WF.ne_nil {pg : Playground} {hs : List Nat} (w : WF pg hs) : hs ≠ [] := by
  intro h
  have := w.first
  simp [h] at this

theorem WF.chain_eq {pg : Playground} {hs : List Nat} (w : WF pg hs) : chain pg = hs := by
  cases hhs : hs with
  | nil => exact absurd hhs w.ne_nil
  | cons a t =>
    have hf := w.first
    rw [hhs] at hf
    simp only [List.head?_cons, Option.some.injEq] at hf
    subst hf
    have hseg := w.seg
    rw [hhs] at hseg
    have hlen := length_le_of_bound w.nodup w.bound
    rw [hhs] at hlen
    exact chainFrom_eq pg.heap t _ none pg.brk hseg hlen

theorem WF.colAt_eq {pg : Playground} {hs : List Nat} (w : WF pg hs) (x : Int) :
    colAt pg x = colAtFrom pg.heap hs pg.startColX x := by
  simp [colAt, w.chain_eq]

theorem Seg_eq_on {heap1 heap2 : Nat → Col} {l : List Nat} (p n : Option Nat)
    (h : ∀ a ∈ l, heap2 a = heap1 a) : Seg heap2 p l n ↔ Seg heap1 p l n :=
  Seg_congr p n (fun a ha => by rw [h a ha]; exact ⟨rfl, rfl⟩)

theorem colAtFrom_eq_on {heap1 heap2 : Nat → Col} {l : List Nat} (x0 x : Int)
    (h : ∀ a ∈ l, heap2 a = heap1 a) : colAtFrom heap2 l x0 x = colAtFrom heap1 l x0 x :=
  colAtFrom_congr x0 x (fun a ha => by rw [h a ha]; exact ⟨rfl, rfl⟩)

theorem wsum_eq_on {heap1 heap2 : Nat → Col} {l : List Nat}
    (h : ∀ a ∈ l, heap2 a = heap1 a) : wsum heap2 l = wsum heap1 l :=
  wsum_congr (fun a ha => by rw [h a ha])

/-! ## The iterator walks of `playgroundGetColAt` -/

theorem walkForward_spec (heap : Nat → Col) (x : Int) :
    ∀ (l2 : List Nat) (col : Nat) (p : Option Nat) (i : Int) (fuel : Nat),
      Seg heap p (col :: l2) none → l2.length < fuel →
      x ≤ i + wsum heap (col :: l2).dropLast →
      ∃ a c b, col :: l2 = a ++ c :: b ∧
        walkForward heap x fuel i col = .ok (i + wsum heap a, c) ∧
        x ≤ i + wsum heap a ∧ (∀ a1 lp, a = a1 ++ [lp] → i + wsum heap a1 < x) := by
  intro l2
  induction l2 with
  | nil =>
    intro col p i fuel _ hf hx
    cases fuel with
    | zero => simp at hf
    | succ f =>
      simp only [List.dropLast_single, wsum, add_zero] at hx
      refine ⟨[], col, [], rfl, ?_, by simpa [wsum] using hx, ?_⟩
      · simp [walkForward, wsum, not_lt.mpr hx]
      · intro a1 lp h
        simp at h
  | cons n t ih =>
    intro col p i fuel hseg hf hx
    cases fuel with
    | zero => simp at hf
    | succ f =>
      by_cases hlt : i < x
      · have hn : (heap col).next = some n := hseg.2.1
        have hd : (col :: n :: t).dropLast = col :: (n :: t).dropLast := rfl
        rw [hd] at hx
        simp only [wsum] at hx
        obtain ⟨a, c, b, e, hw, hle, hall⟩ :=
          ih n (some col) (i + ((heap col).width : Int)) f hseg.2.2 (by simpa using hf)
            (by omega)
        refine ⟨col :: a, c, b, by simp [e], ?_, ?_, ?_⟩
        · simp only [walkForward, hlt, if_true, hn, hw, wsum]
          rw [add_assoc]
        · simp only [wsum]; omega
        · intro a1 lp h
          cases a1 with
          | nil => simpa [wsum] using hlt
          | cons q a2 =>
            simp only [List.cons_append, List.cons.injEq] at h
            obtain ⟨hq, ha⟩ := h
            subst hq
            have := hall a2 lp ha
            simp only [wsum]
            omega
      · refine ⟨[], col, n :: t, rfl, ?_, by simpa [wsum] using not_lt.mp hlt, ?_⟩
        · simp [walkForward, wsum, hlt]
        · intro a1 lp h
          simp at h

theorem walkBackward_spec (heap : Nat → Col) (x s : Int) :
    ∀ (l1 : List Nat) (col : Nat) (p n : Option Nat) (i : Int) (fuel : Nat),
      Seg heap p (l1 ++ [col]) n → l1.length < fuel →
      i = s + wsum heap l1 → s ≤ x →
      ∃ a c b, l1 ++ [col] = a ++ c :: b ∧
        walkBackward heap x fuel i col = .ok (s + wsum heap a, c) ∧
        s + wsum heap a ≤ x ∧ (b ≠ [] → x < s + wsum heap a + ((heap c).width : Int)) ∧
        (x < i → b ≠ []) := by
  intro l1
  induction l1 using List.reverseRecOn with
  | nil =>
    intro col p n i fuel _ hf hi hs
    cases fuel with
    | zero => simp at hf
    | succ f =>
      simp only [wsum, add_zero] at hi
      subst hi
      refine ⟨[], col, [], rfl, ?_, by simpa [wsum] using hs, by simp, ?_⟩
      · simp [walkBackward, wsum, not_lt.mpr hs]
      · intro h; omega
  | append_singleton l q ih =>
    intro col p n i fuel hseg hf hi hs
    cases fuel with
    | zero => simp at hf
    | succ f =>
      rw [wsum_append] at hi
      simp only [wsum, add_zero] at hi
      by_cases hgt : i > x
      · rw [Seg_append] at hseg
        have hprev : (heap col).prev = some q := by
          have := hseg.2.1
          rwa [lastOr_append] at this
        obtain ⟨a, c, b, e, hw, hle, hnext, _⟩ :=
          ih q p (some col) (i - ((heap q).width : Int)) f (by simpa using hseg.1)
            (by simpa using hf) (by omega) hs
        refine ⟨a, c, b ++ [col], by simp [e], ?_, hle, ?_, by simp⟩
        · simp only [walkBackward, hgt, if_true, hprev, hw]
        · intro _
          by_cases hb : b = []
          · subst hb
            have e2 : l = a ∧ q = c := by
              have := List.append_inj' e (by simp)
              simpa using this
            rw [← e2.1, ← e2.2]
            omega
          · exact hnext hb
      · refine ⟨l ++ [q], col, [], by simp, ?_, ?_, by simp, ?_⟩
        · simp only [walkBackward, hgt, if_false, wsum_append, wsum, add_zero]
          rw [hi]
        · simp only [wsum_append, wsum, add_zero]; omega
        · intro h; exact absurd h hgt

theorem WF.length_le {pg : Playground} {hs : List Nat} (w : WF pg hs) : hs.length ≤ pg.brk :=
  length_le_of_bound w.nodup w.bound

theorem WF.eq_dropLast {pg : Playground} {hs : List Nat} (w : WF pg hs) :
    hs = hs.dropLast ++ [pg.endCol] :=
  (List.dropLast_append_getLast? pg.endCol (by simp [w.last])).symm

theorem WF.endPos {pg : Playground} {hs : List Nat} (w : WF pg hs) :
    pg.startColX + wsum pg.heap hs.dropLast = pg.endColX := by
  have h := w.total
  rw [w.eq_dropLast, wsum_append] at h
  simp only [wsum, width_pieces w.endPieces, add_zero] at h
  push_cast at h
  omega

theorem WF.current_split {pg : Playground} {hs : List Nat} (w : WF pg hs) :
    ∃ l1 l2, hs = l1 ++ pg.currentCol :: l2 ∧ pg.startColX + wsum pg.heap l1 = pg.currentX ∧
      (pg.heap pg.currentCol).type = .COL_PIECES :=
  colAtFrom_some w.currentAt

theorem nil_or_snoc (l : List Nat) : l = [] ∨ ∃ a lp, l = a ++ [lp] := by
  rcases List.eq_nil_or_concat l with h | ⟨a, lp, h⟩
  · exact Or.inl h
  · exact Or.inr ⟨a, lp, by rw [h, List.concat_eq_append]⟩

theorem padding_of_width {c : Col} (h : 2 ≤ c.width) : c.type = .COL_PADDING := by
  rcases type_cases c with hty | hty
  · rw [width_pieces hty] at h; omega
  · exact hty

theorem seekCol_spec {pg : Playground} {hs : List Nat} (w : WF pg hs) (x : Int)
    (h1 : pg.startColX ≤ x) (h2 : x ≤ pg.endColX) :
    ∃ A c B, hs = A ++ c :: B ∧ seekCol pg x = .ok (pg.startColX + wsum pg.heap A, c) ∧
      x ≤ pg.startColX + wsum pg.heap A ∧
      (x < pg.startColX + wsum pg.heap A → ∃ A1 lp, A = A1 ++ [lp] ∧
        (pg.heap lp).type = .COL_PADDING ∧ pg.startColX + wsum pg.heap A1 < x) := by
  obtain ⟨l1, l2, e, hpos, _⟩ := w.current_split
  have hseg := w.seg
  have hlen := w.length_le
  rw [e] at hseg hlen
  by_cases hdir : pg.currentX ≤ x
  · have hend := w.endPos
    rw [e, List.dropLast_append_of_ne_nil _ (List.cons_ne_nil _ _), wsum_append] at hend
    rw [Seg_append] at hseg
    obtain ⟨a, c, b, e2, hw, hle, hall⟩ :=
      walkForward_spec pg.heap x l2 pg.currentCol (lastOr l1 none) pg.currentX (pg.brk + 1)
        hseg.2 (by simp at hlen; omega) (by omega)
    refine ⟨l1 ++ a, c, b, by rw [e, e2]; simp, ?_, ?_, ?_⟩
    · simp only [seekCol, hdir, if_true, hw, wsum_append]
      rw [← hpos, add_assoc]
    · rw [wsum_append]; omega
    · intro hlt
      rw [wsum_append] at hlt
      rcases nil_or_snoc a with ha | ⟨a1, lp, ha⟩
      · subst ha
        simp only [wsum] at hlt
        omega
      · subst ha
        have hb := hall a1 lp rfl
        refine ⟨l1 ++ a1, lp, by simp, ?_, ?_⟩
        · apply padding_of_width
          rw [wsum_append] at hlt
          simp only [wsum, add_zero] at hlt
          omega
        · rw [wsum_append]; omega
  · rw [show l1 ++ pg.currentCol :: l2 = (l1 ++ [pg.currentCol]) ++ l2 by simp, Seg_append]
      at hseg
    obtain ⟨a, c, b, e2, hw, hle, hnext, hb⟩ :=
      walkBackward_spec pg.heap x pg.startColX l1 pg.currentCol none (headOr l2 none)
        pg.currentX (pg.brk + 1) hseg.1 (by simp at hlen; omega) hpos.symm h1
    have hbne : b ≠ [] := hb (by omega)
    have hgt := hnext hbne
    obtain ⟨b0, bt, hbe⟩ := List.exists_cons_of_ne_nil hbne
    subst hbe
    have ehs : hs = a ++ c :: (b0 :: bt ++ l2) := by
      rw [e, show l1 ++ pg.currentCol :: l2 = (l1 ++ [pg.currentCol]) ++ l2 by simp, e2]
      simp
    by_cases hlt : pg.startColX + wsum pg.heap a < x
    · have hpad : (pg.heap c).type = .COL_PADDING := padding_of_width (by omega)
      have hsegc := w.seg
      rw [ehs, Seg_append] at hsegc
      have hn : (pg.heap c).next = some b0 := hsegc.2.2.1
      refine ⟨a ++ [c], b0, bt ++ l2, by rw [ehs]; simp, ?_, ?_, ?_⟩
      · simp only [seekCol, hdir, if_false, hw, hlt, if_true, hpad, ne_eq, not_true_eq_false, hn,
          wsum_append, wsum, add_zero, width_padding hpad]
        rw [add_assoc]
      · rw [wsum_append]; simp only [wsum, add_zero]; omega
      · intro _
        exact ⟨a, c, rfl, hpad, hlt⟩
    · refine ⟨a, c, b0 :: bt ++ l2, ehs, ?_, by omega, ?_⟩
      · simp only [seekCol, hdir, if_false, hw, hlt]
      · intro h; omega

/-! ## Facts that follow from the chain invariant -/

theorem SameData.rfl_data (c : Col) : SameData c c := ⟨rfl, rfl, rfl, rfl, fun _ => rfl⟩

theorem WF.pos_range {pg : Playground} {hs : List Nat} (w : WF pg hs) {x : Int} {h : Nat}
    (hc : colAtFrom pg.heap hs pg.startColX x = some h) : pg.startColX ≤ x ∧ x ≤ pg.endColX := by
  obtain ⟨l1, l2, e, hx, _⟩ := colAtFrom_some hc
  have hend := w.endPos
  rw [e, List.dropLast_append_of_ne_nil _ (List.cons_ne_nil _ _), wsum_append] at hend
  have h1 := wsum_nonneg pg.heap l1
  have h2 := wsum_nonneg pg.heap (h :: l2).dropLast
  constructor <;> omega

theorem WF.endAt {pg : Playground} {hs : List Nat} (w : WF pg hs) :
    colAtFrom pg.heap hs pg.startColX pg.endColX = some pg.endCol := by
  rw [w.eq_dropLast, ← w.endPos]
  exact colAtFrom_mid pg.heap _ [] _ _ w.endPieces

theorem WF.startAt {pg : Playground} {hs : List Nat} (w : WF pg hs) :
    colAtFrom pg.heap hs pg.startColX pg.startColX = some pg.startCol := by
  cases hhs : hs with
  | nil => exact absurd hhs w.ne_nil
  | cons a t =>
    have hf := w.first
    rw [hhs] at hf
    simp only [List.head?_cons, Option.some.injEq] at hf
    subst hf
    rw [colAtFrom_cons_pieces _ _ _ w.startPieces, if_pos rfl]

theorem WF.wsum_total {pg : Playground} {hs : List Nat} (w : WF pg hs) :
    pg.startColX + wsum pg.heap hs = pg.endColX + 1 := w.total

theorem WF.beyond_end {pg : Playground} {hs : List Nat} (w : WF pg hs) {x : Int}
    (h : pg.endColX < x) : colAtFrom pg.heap hs pg.startColX x = none :=
  colAtFrom_ge _ _ _ _ (by rw [w.wsum_total]; omega)

theorem WF.before_start {pg : Playground} {hs : List Nat} (_ : WF pg hs) {x : Int}
    (h : x < pg.startColX) : colAtFrom pg.heap hs pg.startColX x = none :=
  colAtFrom_lt _ _ _ _ h

theorem WF.endCol_lt {pg : Playground} {hs : List Nat} (w : WF pg hs) : pg.endCol < pg.brk :=
  w.bound _ (colAtFrom_mem w.endAt)

theorem WF.startCol_lt {pg : Playground} {hs : List Nat} (w : WF pg hs) : pg.startCol < pg.brk :=
  w.bound _ (colAtFrom_mem w.startAt)

theorem WF.prev_endCol {pg : Playground} {hs : List Nat} (w : WF pg hs) :
    (pg.heap pg.endCol).prev = lastOr hs.dropLast none ∧ (pg.heap pg.endCol).next = none := by
  have h := w.seg
  rw [w.eq_dropLast, Seg_append] at h
  exact ⟨h.2.1, h.2.2.1⟩

theorem WF.next_startCol {pg : Playground} {hs : List Nat} (w : WF pg hs) :
    (pg.heap pg.startCol).next = headOr hs.tail none ∧ (pg.heap pg.startCol).prev = none ∧
      hs = pg.startCol :: hs.tail := by
  cases hhs : hs with
  | nil => exact absurd hhs w.ne_nil
  | cons a t =>
    have hf := w.first
    rw [hhs] at hf
    simp only [List.head?_cons, Option.some.injEq] at hf
    subst hf
    have h := w.seg
    rw [hhs] at h
    exact ⟨h.2.1, h.1, rfl⟩

/-! ## Replacing a stretch of the chain -/

theorem lastOr_ne_nil {l : List Nat} (h : l ≠ []) (d : Option Nat) :
    lastOr l d = lastOr l none := by
  obtain ⟨a, t, rfl⟩ := List.exists_cons_of_ne_nil h
  rw [lastOr_cons, lastOr_cons]

theorem headOr_ne_nil {l : List Nat} (h : l ≠ []) (d : Option Nat) :
    headOr l d = headOr l none := by
  obtain ⟨a, t, rfl⟩ := List.exists_cons_of_ne_nil h
  rfl

theorem splice_seg {heap heap2 : Nat → Col} {A M M2 B : List Nat}
    (hseg : Seg heap none (A ++ M ++ B) none)
    (hA : ∀ a ∈ A, heap2 a = heap a) (hB : ∀ a ∈ B, heap2 a = heap a)
    (hM : Seg heap2 (lastOr A none) M2 (headOr B none))
    (hhead : A ≠ [] → headOr M2 none = headOr M none)
    (hlast : B ≠ [] → lastOr M2 none = lastOr M none)
    (hne : M ≠ []) (hne2 : M2 ≠ []) :
    Seg heap2 none (A ++ M2 ++ B) none := by
  rw [List.append_assoc, Seg_append, Seg_append] at hseg ⊢
  obtain ⟨h1, -, h3⟩ := hseg
  refine ⟨?_, hM, ?_⟩
  · rw [Seg_eq_on _ _ hA]
    by_cases hAn : A = []
    · subst hAn; trivial
    · rw [headOr_append, headOr_ne_nil hne2, hhead hAn, ← headOr_ne_nil hne, ← headOr_append]
      exact h1
  · rw [Seg_eq_on _ _ hB]
    by_cases hBn : B = []
    · subst hBn; trivial
    · rw [lastOr_ne_nil hne2, hlast hBn, ← lastOr_ne_nil hne]
      exact h3

theorem splice_nodup {A M M2 B : List Nat} {brk : Nat}
    (hnd : (A ++ M ++ B).Nodup) (hb : ∀ h ∈ A ++ M ++ B, h < brk)
    (hnd2 : M2.Nodup) (hnew : ∀ m ∈ M2, m ∈ M ∨ brk ≤ m) :
    (A ++ M2 ++ B).Nodup := by
  rw [List.append_assoc, List.nodup_append, List.nodup_append] at hnd ⊢
  obtain ⟨hA, ⟨_, hB, hMB⟩, hAMB⟩ := hnd
  refine ⟨hA, ⟨hnd2, hB, ?_⟩, ?_⟩
  · intro a ha1 ha2
    rcases hnew a ha1 with h | h
    · exact hMB h ha2
    · have := hb a (by simp [ha2]); omega
  · intro a ha1 ha2
    rw [List.mem_append] at ha2
    rcases ha2 with ha2 | ha2
    · rcases hnew a ha2 with h | h
      · exact hAMB ha1 (by simp [h])
      · have := hb a (by simp [ha1]); omega
    · exact hAMB ha1 (by simp [ha2])

theorem splice_bound {A M M2 B : List Nat} {brk brk2 : Nat}
    (hb : ∀ h ∈ A ++ M ++ B, h < brk) (hle : brk ≤ brk2)
    (hnew : ∀ m ∈ M2, m ∈ M ∨ m < brk2) : ∀ h ∈ A ++ M2 ++ B, h < brk2 := by
  intro h hh
  simp only [List.mem_append] at hh
  rcases hh with (hh | hh) | hh
  · have := hb h (by simp [hh]); omega
  · rcases hnew h hh with h1 | h1
    · have := hb h (by simp [h1]); omega
    · exact h1
  · have := hb h (by simp [hh]); omega

theorem splice_colAt {heap heap2 : Nat → Col} {A M M2 B : List Nat} (s x : Int)
    (hA : ∀ a ∈ A, heap2 a = heap a) (hB : ∀ a ∈ B, heap2 a = heap a)
    (hw : wsum heap2 M2 = wsum heap M)
    (hM : colAtFrom heap2 M2 (s + wsum heap A) x = colAtFrom heap M (s + wsum heap A) x) :
    colAtFrom heap2 (A ++ M2 ++ B) s x = colAtFrom heap (A ++ M ++ B) s x := by
  rw [List.append_assoc, List.append_assoc, colAtFrom_append, colAtFrom_append,
    colAtFrom_append, colAtFrom_append, colAtFrom_eq_on _ _ hA, colAtFrom_eq_on _ _ hB,
    wsum_eq_on hA, hw, hM]

theorem headOr_none_eq (l : List Nat) : headOr l none = l.head? := by
  cases l <;> rfl

theorem lastOr_none_eq (l : List Nat) : lastOr l none = l.getLast? := by
  induction l with
  | nil => rfl
  | cons a t ih =>
    cases t with
    | nil => rfl
    | cons b t =>
      rw [List.getLast?_cons_cons, ← ih]
      rfl

theorem or_eq_of_eq {α : Type} {a a2 b b2 : Option α} (h1 : a = a2) (h2 : b = b2) :
    a.or b = a2.or b2 := by
  rw [h1, h2]

/-- The common argument for every branch of `playgroundGetColAt` that edits the chain: the
stretch `M` of the chain is replaced by `M2`, everything outside `M` is untouched. -/
theorem splice_post {pg pg2 : Playground} {A M M2 B : List Nat} {x : Int} {c : Nat}
    (w : WF pg (A ++ M ++ B)) (hx0 : x ≠ 0) (hne : M ≠ []) (hne2 : M2 ≠ [])
    (hout : ∀ h, h < pg.brk → h ∉ M → pg2.heap h = pg.heap h)
    (hin : ∀ m ∈ M, SameData (pg.heap m) (pg2.heap m))
    (hM : Seg pg2.heap (lastOr A none) M2 (headOr B none))
    (hhead : A ≠ [] → headOr M2 none = headOr M none)
    (hlast : B ≠ [] → lastOr M2 none = lastOr M none)
    (hnd2 : M2.Nodup)
    (hnew : ∀ m ∈ M2, m ∈ M ∨ (pg.brk ≤ m ∧ m < pg2.brk))
    (hbrk : pg.brk ≤ pg2.brk)
    (hstartCol : headOr (A ++ M2) none = some pg2.startCol)
    (hendCol : lastOr (M2 ++ B) none = some pg2.endCol)
    (hsX : A ≠ [] → pg2.startColX = pg.startColX)
    (hbase : B ≠ [] → pg2.startColX + wsum pg.heap A + wsum pg2.heap M2 =
      pg.startColX + wsum pg.heap A + wsum pg.heap M)
    (htotal : pg2.startColX + wsum pg.heap A + wsum pg2.heap M2 + wsum pg.heap B =
      pg2.endColX + 1)
    (hloc : ∀ x1, x1 ≠ x → colAtFrom pg2.heap M2 (pg2.startColX + wsum pg.heap A) x1 =
      colAtFrom pg.heap M (pg.startColX + wsum pg.heap A) x1)
    (hlocx : colAtFrom pg2.heap M2 (pg2.startColX + wsum pg.heap A) x = some c)
    (hnone : colAtFrom pg.heap (A ++ M ++ B) pg.startColX x = none)
    (hfresh : pg.brk ≤ c ∧ (pg2.heap c).count = 0 ∧ (pg2.heap c).size = MIN_COL_SIZE ∧
      (pg2.heap c).changeY = MIN_COL_SIZE)
    (horigin : pg2.originCol = pg.originCol)
    (hcur : (pg2.currentCol = c ∧ pg2.currentX = x) ∨
      (pg2.currentCol = pg.currentCol ∧ pg2.currentX = pg.currentX ∧ pg.currentX ≠ x))
    (hpadM : ∀ m ∈ M2, (pg2.heap m).type = .COL_PADDING → 1 ≤ (pg2.heap m).size)
    (hpc : ∀ m ∈ M2, (pg2.heap m).type = .COL_PIECES → m ∈ M ∨ m = c)
    (hkeep : ∀ m ∈ M, (pg.heap m).type = .COL_PIECES → m ∈ M2)
    (hsp : A = [] → (pg2.heap pg2.startCol).type = .COL_PIECES)
    (hep : B = [] → (pg2.heap pg2.endCol).type = .COL_PIECES)
    (hl1 : pg2.changedCols = pg.changedCols) (hl2 : pg2.changedColsSize = pg.changedColsSize)
    (hl3 : pg2.pieceRemovals = pg.pieceRemovals) :
    GetColPost pg (A ++ M ++ B) x c pg2 (A ++ M2 ++ B) := by
  have hnd := w.nodup
  have hb := w.bound
  have hAM : ∀ a ∈ A, a ∉ M := by
    intro a ha hm
    rw [List.append_assoc] at hnd
    exact List.disjoint_of_nodup_append hnd ha (by simp [hm])
  have hBM : ∀ a ∈ B, a ∉ M := by
    intro a ha hm
    exact List.disjoint_of_nodup_append hnd (by simp [hm]) ha
  have hA : ∀ a ∈ A, pg2.heap a = pg.heap a :=
    fun a ha => hout a (hb a (by simp [ha])) (hAM a ha)
  have hB : ∀ a ∈ B, pg2.heap a = pg.heap a :=
    fun a ha => hout a (hb a (by simp [ha])) (hBM a ha)
  have hcol : ∀ x1, x1 ≠ x → colAtFrom pg2.heap (A ++ M2 ++ B) pg2.startColX x1 =
      colAtFrom pg.heap (A ++ M ++ B) pg.startColX x1 := by
    intro x1 hx1
    rw [List.append_assoc, List.append_assoc, colAtFrom_append, colAtFrom_append,
      colAtFrom_append, colAtFrom_append, colAtFrom_eq_on _ _ hA, colAtFrom_eq_on _ _ hB,
      wsum_eq_on hA, hloc x1 hx1]
    apply or_eq_of_eq
    · by_cases hAn : A = []
      · subst hAn; rfl
      · rw [hsX hAn]
    · apply or_eq_of_eq rfl
      by_cases hBn : B = []
      · subst hBn; rfl
      · rw [hbase hBn]
  have hhere : colAtFrom pg2.heap (A ++ M2 ++ B) pg2.startColX x = some c := by
    have h0 := hnone
    rw [List.append_assoc, colAtFrom_append] at h0
    have hA0 : colAtFrom pg.heap A pg.startColX x = none := by
      cases h : colAtFrom pg.heap A pg.startColX x with
      | none => rfl
      | some v => rw [h] at h0; simp at h0
    rw [List.append_assoc, colAtFrom_append, colAtFrom_append, colAtFrom_eq_on _ _ hA,
      wsum_eq_on hA, hlocx]
    by_cases hAn : A = []
    · subst hAn; simp [colAtFrom]
    · rw [hsX hAn, hA0]; simp
  have hdata : ∀ h, h < pg.brk → SameData (pg.heap h) (pg2.heap h) := by
    intro h hh
    by_cases hm : h ∈ M
    · exact hin h hm
    · rw [hout h hh hm]; exact SameData.rfl_data _
  have hwf : WF pg2 (A ++ M2 ++ B) := by
    refine ⟨splice_seg w.seg hA hB hM hhead hlast hne hne2,
      splice_nodup hnd hb hnd2 (fun m hm => (hnew m hm).imp id (fun h => h.1)),
      splice_bound hb hbrk (fun m hm => (hnew m hm).imp id (fun h => h.2)), ?_, ?_, ?_, ?_, ?_,
      ?_, ?_, ?_⟩
    · rw [← headOr_none_eq, List.append_assoc, headOr_append, headOr_append,
        ← headOr_append, headOr_ne_nil (by simp [hne2]), hstartCol]
    · rw [← lastOr_none_eq, List.append_assoc, lastOr_append, lastOr_ne_nil (by simp [hne2]),
        hendCol]
    · rw [hcol 0 (Ne.symm hx0), horigin]; exact w.originAt
    · rcases hcur with ⟨h1, h2⟩ | ⟨h1, h2, h3⟩
      · rw [h1, h2]; exact hhere
      · rw [h1, h2, hcol _ h3]; exact w.currentAt
    · rw [List.append_assoc, wsum_append, wsum_append, wsum_eq_on hA, wsum_eq_on hB, ← htotal]
      ring
    · by_cases hBn : B = []
      · exact hep hBn
      · have e1 : pg2.endCol = pg.endCol := by
          have h1 := w.last
          rw [← lastOr_none_eq, lastOr_append, lastOr_ne_nil hBn] at h1
          rw [lastOr_append, lastOr_ne_nil hBn, h1] at hendCol
          injection hendCol with h
          exact h.symm
        have e2 : pg.endCol ∈ B := by
          have h1 := w.last
          rw [← lastOr_none_eq, lastOr_append, lastOr_ne_nil hBn, lastOr_none_eq] at h1
          exact List.mem_of_getLast?_eq_some h1
        rw [e1, hB _ e2]
        exact w.endPieces
    · by_cases hAn : A = []
      · exact hsp hAn
      · have e0 : headOr A none = some pg.startCol := by
          have h1 := w.first
          rw [← headOr_none_eq, List.append_assoc, headOr_append, headOr_ne_nil hAn] at h1
          exact h1
        have e1 : pg2.startCol = pg.startCol := by
          rw [headOr_append, headOr_ne_nil hAn, e0] at hstartCol
          injection hstartCol with h
          exact h.symm
        have e2 : pg.startCol ∈ A := by
          rw [headOr_none_eq] at e0
          exact List.mem_of_mem_head? e0
        rw [e1, hA _ e2]
        exact w.startPieces
    · intro h hh hty
      simp only [List.mem_append] at hh
      rcases hh with (hh | hh) | hh
      · rw [hA h hh] at hty ⊢
        exact w.padPos h (by simp [hh]) hty
      · exact hpadM h hh hty
      · rw [hB h hh] at hty ⊢
        exact w.padPos h (by simp [hh]) hty
  refine ⟨hwf, hhere, hcol, hdata, fun _ => hfresh, ?_, hl1, hl2, hl3, hbrk, ?_, ?_, ?_⟩
  · intro h hh
    rw [hnone] at hh
    exact absurd hh (by simp)
  · intro h hh hn
    simp only [List.mem_append] at hh hn
    rcases hh with (hh | hh) | hh
    · exact absurd (Or.inl (Or.inl hh)) hn
    · rcases hnew h hh with h1 | h1
      · exact absurd (Or.inl (Or.inr h1)) hn
      · exact h1.1
    · exact absurd (Or.inr hh) hn
  · intro h hh hty
    simp only [List.mem_append] at hh ⊢
    rcases hh with (hh | hh) | hh
    · exact Or.inl (Or.inl hh)
    · exact Or.inl (Or.inr (hkeep h hh hty))
    · exact Or.inr hh
  · intro h hh hty
    simp only [List.mem_append] at hh ⊢
    rcases hh with (hh | hh) | hh
    · exact Or.inl (Or.inl (Or.inl hh))
    · rcases hpc h hh hty with h1 | h1
      · exact Or.inl (Or.inl (Or.inr h1))
      · exact Or.inr h1
    · exact Or.inl (Or.inr hh)

/-! ## `playgroundGetColAt`: extending past the end -/

theorem WF.exists_dropLast {pg : Playground} {hs : List Nat} (w : WF pg hs) :
    ∃ D, hs = D ++ [pg.endCol] ++ [] ∧ (pg.heap pg.endCol).prev = lastOr D none ∧
      (pg.heap pg.endCol).next = none ∧ pg.startColX + wsum pg.heap D = pg.endColX ∧
      pg.endCol ∉ D ∧ headOr D (some pg.endCol) = some pg.startCol := by
  refine ⟨hs.dropLast, by simpa using w.eq_dropLast, w.prev_endCol.1, w.prev_endCol.2, w.endPos,
    ?_, ?_⟩
  · have hnd := w.nodup
    rw [w.eq_dropLast] at hnd
    intro h
    have := List.disjoint_of_nodup_append hnd h
    simp at this
  · have h := w.first
    rw [w.eq_dropLast, ← headOr_none_eq, headOr_append] at h
    exact h

theorem appendCol_pad_eq (pg : Playground) (x : Int) (hpad : pg.endColX + 1 < x)
    (he : pg.endCol < pg.brk) :
    appendCol pg x = (pg.brk + 1, { pg with
      heap := fun k =>
        if k = pg.brk + 1 then { createCol with prev := some pg.brk }
        else if k = pg.brk then
          { createPaddingCol (x - pg.endColX - 1).toNat with
            prev := some pg.endCol, next := some (pg.brk + 1) }
        else if k = pg.endCol then { pg.heap pg.endCol with next := some pg.brk }
        else pg.heap k
      brk := pg.brk + 2
      endCol := pg.brk + 1
      endColX := x }) := by
  have n1 : pg.brk ≠ pg.endCol := by omega
  have n2 : pg.brk + 1 ≠ pg.endCol := by omega
  simp only [appendCol, hpad, if_true, linkAfterEnd, Prod.mk.injEq, true_and]
  congr 1
  funext k
  by_cases h1 : k = pg.brk + 1
  · subst h1; simp [modCol, setCol, n1, n2]
  · by_cases h2 : k = pg.brk
    · subst h2; simp [modCol, setCol, n1, n2]
    · by_cases h3 : k = pg.endCol
      · subst h3; simp [modCol, setCol, n1, n2, h1, h2]
      · simp [modCol, setCol, h1, h2, h3]

theorem appendCol_pad_shape {pg : Playground} {hs : List Nat} (w : WF pg hs) (x : Int)
    (hx0 : x ≠ 0) (hpad : pg.endColX + 1 < x) :
    ∃ hs2, GetColPost pg hs x (appendCol pg x).1 (appendCol pg x).2 hs2 ∧
      Grown pg.heap (appendCol pg x).1 pg.brk hs hs2 := by
  have he := w.endCol_lt
  have hcx := (w.pos_range w.currentAt).2
  have hsegp := w.endPieces
  obtain ⟨D, hD, hprev, hnext, hpos, hnotin, hhd⟩ := w.exists_dropLast
  subst hD
  have n1 : pg.brk ≠ pg.endCol := by omega
  have n2 : pg.brk + 1 ≠ pg.endCol := by omega
  have n3 : pg.endCol ≠ pg.brk := by omega
  have n4 : pg.endCol ≠ pg.brk + 1 := by omega
  have hsz : (((x - pg.endColX - 1).toNat : Nat) : Int) = x - pg.endColX - 1 :=
    Int.toNat_of_nonneg (by omega)
  rw [appendCol_pad_eq pg x hpad he]
  generalize (x - pg.endColX - 1).toNat = n at hsz
  dsimp only
  refine ⟨D ++ [pg.endCol, pg.brk, pg.brk + 1] ++ [], ?_, Grown.appendPad D pg.endCol hsegp⟩
  apply splice_post w hx0 (by simp) (by simp)
  · intro h hh hm
    have m1 : h ≠ pg.brk := by omega
    have m2 : h ≠ pg.brk + 1 := by omega
    have m3 : h ≠ pg.endCol := by simpa using hm
    simp [m1, m2, m3]
  · intro m hm
    simp only [List.mem_singleton] at hm
    subst hm
    simp [SameData, n3, n4]
  · simp [Seg, n1, n2, n3, n4, hprev, createCol, createPaddingCol]
  · intro _; rfl
  · intro h; exact absurd rfl h
  · simp [n1, n3, n4]
  · intro m hm
    simp only [List.mem_cons, List.mem_singleton, List.not_mem_nil, or_false] at hm
    rcases hm with h | h | h
    · left; simp [h]
    · right; subst h; dsimp only; omega
    · right; subst h; dsimp only; omega
  · show pg.brk ≤ pg.brk + 2
    omega
  · rw [headOr_append]; exact hhd
  · simp [lastOr]
  · intro _; rfl
  · intro h; exact absurd rfl h
  · simp only [wsum, Col.width, n1, n2, n3, n4, if_true, if_false, createCol, createPaddingCol,
      hsegp]
    simp
    omega
  · intro x1 hx1
    dsimp only
    simp only [colAtFrom, Col.width, n1, n2, n3, n4, if_true, if_false, createCol,
      createPaddingCol, hsegp]
    have e1 : pg.startColX + wsum pg.heap D + 1 + (n : Int) = x := by omega
    simp [e1, hx1]
  · dsimp only
    simp only [colAtFrom, Col.width, n1, n2, n3, n4, if_true, if_false, createCol,
      createPaddingCol, hsegp]
    have e1 : pg.startColX + wsum pg.heap D + 1 + (n : Int) = x := by omega
    have e2 : x ≠ pg.startColX + wsum pg.heap D := by omega
    simp [e1, e2]
  · exact w.beyond_end (by omega)
  · simp [createCol]
  · rfl
  · right; exact ⟨rfl, rfl, by omega⟩
  · intro m hm hty
    simp only [List.mem_cons, List.mem_singleton, List.not_mem_nil, or_false] at hm
    rcases hm with h | h | h <;> subst h <;>
      simp [n1, n2, n3, n4, createCol, createPaddingCol, hsegp] at hty ⊢
    omega
  · intro m hm hty
    simp only [List.mem_cons, List.mem_singleton, List.not_mem_nil, or_false] at hm
    rcases hm with h | h | h <;> subst h <;>
      simp [n1, n2, n3, n4, createCol, createPaddingCol, hsegp] at hty ⊢
  · intro m hm _
    simp only [List.mem_singleton] at hm
    simp [hm]
  · intro hA
    subst hA
    simp only [headOr_nil, Option.some.injEq] at hhd
    dsimp only
    rw [← hhd]
    simp [n3, n4, hsegp]
  · intro _
    simp [createCol]
  · rfl
  · rfl
  · rfl

theorem appendCol_pad_post {pg : Playground} {hs : List Nat} (w : WF pg hs) (x : Int)
    (hx0 : x ≠ 0) (hpad : pg.endColX + 1 < x) :
    ∃ hs2, GetColPost pg hs x (appendCol pg x).1 (appendCol pg x).2 hs2 := by
  obtain ⟨hs2, h, -⟩ := appendCol_pad_shape w x hx0 hpad
  exact ⟨hs2, h⟩

theorem appendCol_one_eq (pg : Playground) (x : Int) (hpad : ¬ pg.endColX + 1 < x)
    (he : pg.endCol < pg.brk) :
    appendCol pg x = (pg.brk, { pg with
      heap := fun k =>
        if k = pg.brk then { createCol with prev := some pg.endCol }
        else if k = pg.endCol then { pg.heap pg.endCol with next := some pg.brk }
        else pg.heap k
      brk := pg.brk + 1
      endCol := pg.brk
      endColX := x }) := by
  have n1 : pg.brk ≠ pg.endCol := by omega
  simp only [appendCol, hpad, if_false, linkAfterEnd, Prod.mk.injEq, true_and]
  congr 1
  funext k
  by_cases h2 : k = pg.brk
  · subst h2; simp [modCol, setCol, n1]
  · by_cases h3 : k = pg.endCol
    · subst h3; simp [modCol, setCol, n1, h2]
    · simp [modCol, setCol, h2, h3]

theorem appendCol_one_shape {pg : Playground} {hs : List Nat} (w : WF pg hs) (x : Int)
    (hx0 : x ≠ 0) (hx : pg.endColX < x) (hpad : ¬ pg.endColX + 1 < x) :
    ∃ hs2, GetColPost pg hs x (appendCol pg x).1 (appendCol pg x).2 hs2 ∧
      Grown pg.heap (appendCol pg x).1 pg.brk hs hs2 := by
  have he := w.endCol_lt
  have hcx := (w.pos_range w.currentAt).2
  have hsegp := w.endPieces
  obtain ⟨D, hD, hprev, hnext, hpos, hnotin, hhd⟩ := w.exists_dropLast
  subst hD
  have n1 : pg.brk ≠ pg.endCol := by omega
  have n3 : pg.endCol ≠ pg.brk := by omega
  rw [appendCol_one_eq pg x hpad he]
  dsimp only
  refine ⟨D ++ [pg.endCol, pg.brk] ++ [], ?_, Grown.append D pg.endCol hsegp⟩
  apply splice_post w hx0 (by simp) (by simp)
  · intro h hh hm
    have m1 : h ≠ pg.brk := by omega
    have m3 : h ≠ pg.endCol := by simpa using hm
    simp [m1, m3]
  · intro m hm
    simp only [List.mem_singleton] at hm
    subst hm
    simp [SameData, n3]
  · simp [Seg, n1, n3, hprev, createCol]
  · intro _; rfl
  · intro h; exact absurd rfl h
  · simp [n3]
  · intro m hm
    simp only [List.mem_cons, List.mem_singleton, List.not_mem_nil, or_false] at hm
    rcases hm with h | h
    · left; simp [h]
    · right; subst h; dsimp only; omega
  · show pg.brk ≤ pg.brk + 1
    omega
  · rw [headOr_append]; exact hhd
  · simp [lastOr]
  · intro _; rfl
  · intro h; exact absurd rfl h
  · simp only [wsum, Col.width, n1, n3, if_true, if_false, createCol, hsegp]
    simp
    omega
  · intro x1 hx1
    dsimp only
    simp only [colAtFrom, Col.width, n1, n3, if_true, if_false, createCol, hsegp]
    have e1 : pg.startColX + wsum pg.heap D + 1 = x := by omega
    simp [e1, hx1]
  · dsimp only
    simp only [colAtFrom, Col.width, n1, n3, if_true, if_false, createCol, hsegp]
    have e1 : pg.startColX + wsum pg.heap D + 1 = x := by omega
    have e2 : x ≠ pg.startColX + wsum pg.heap D := by omega
    simp [e1, e2]
  · exact w.beyond_end (by omega)
  · simp [createCol]
  · rfl
  · right; exact ⟨rfl, rfl, by omega⟩
  · intro m hm hty
    simp only [List.mem_cons, List.mem_singleton, List.not_mem_nil, or_false] at hm
    rcases hm with h | h <;> subst h <;> simp [n1, n3, createCol, hsegp] at hty ⊢
  · intro m hm hty
    simp only [List.mem_cons, List.mem_singleton, List.not_mem_nil, or_false] at hm
    rcases hm with h | h <;> subst h <;> simp [n1, n3, createCol, hsegp] at hty ⊢
  · intro m hm _
    simp only [List.mem_singleton] at hm
    simp [hm]
  · intro hA
    subst hA
    simp only [headOr_nil, Option.some.injEq] at hhd
    dsimp only
    rw [← hhd]
    simp [n3, hsegp]
  · intro _
    simp [createCol]
  · rfl
  · rfl
  · rfl

theorem appendCol_one_post {pg : Playground} {hs : List Nat} (w : WF pg hs) (x : Int)
    (hx0 : x ≠ 0) (hx : pg.endColX < x) (hpad : ¬ pg.endColX + 1 < x) :
    ∃ hs2, GetColPost pg hs x (appendCol pg x).1 (appendCol pg x).2 hs2 := by
  obtain ⟨hs2, h, -⟩ := appendCol_one_shape w x hx0 hx hpad
  exact ⟨hs2, h⟩

theorem appendCol_post {pg : Playground} {hs : List Nat} (w : WF pg hs) (x : Int)
    (hx0 : x ≠ 0) (hx : pg.endColX < x) :
    ∃ hs2, GetColPost pg hs x (appendCol pg x).1 (appendCol pg x).2 hs2 := by
  by_cases hpad : pg.endColX + 1 < x
  · exact appendCol_pad_post w x hx0 hpad
  · exact appendCol_one_post w x hx0 hx hpad

theorem appendCol_shape {pg : Playground} {hs : List Nat} (w : WF pg hs) (x : Int)
    (hx0 : x ≠ 0) (hx : pg.endColX < x) :
    ∃ hs2, GetColPost pg hs x (appendCol pg x).1 (appendCol pg x).2 hs2 ∧
      Grown pg.heap (appendCol pg x).1 pg.brk hs hs2 := by
  by_cases hpad : pg.endColX + 1 < x
  · exact appendCol_pad_shape w x hx0 hpad
  · exact appendCol_one_shape w x hx0 hx hpad

/-! ## `playgroundGetColAt`: extending past the start -/

theorem WF.exists_tail {pg : Playground} {hs : List Nat} (w : WF pg hs) :
    ∃ T, hs = [] ++ [pg.startCol] ++ T ∧ (pg.heap pg.startCol).next = headOr T none ∧
      (pg.heap pg.startCol).prev = none ∧ pg.startCol ∉ T ∧
      lastOr T (some pg.startCol) = some pg.endCol := by
  have h := w.next_startCol
  refine ⟨hs.tail, h.2.2, h.1, h.2.1, ?_, ?_⟩
  · have hnd := w.nodup
    rw [h.2.2] at hnd
    exact (List.nodup_cons.mp hnd).1
  · have hl := w.last
    rw [h.2.2, ← lastOr_none_eq, lastOr_cons] at hl
    exact hl

theorem prependCol_pad_eq (pg : Playground) (x : Int) (hpad : pg.startColX - 1 > x)
    (he : pg.startCol < pg.brk) :
    prependCol pg x = (pg.brk + 1, { pg with
      heap := fun k =>
        if k = pg.brk + 1 then { createCol with next := some pg.brk }
        else if k = pg.brk then
          { createPaddingCol (pg.startColX - x - 1).toNat with
            next := some pg.startCol, prev := some (pg.brk + 1) }
        else if k = pg.startCol then { pg.heap pg.startCol with prev := some pg.brk }
        else pg.heap k
      brk := pg.brk + 2
      startCol := pg.brk + 1
      startColX := x }) := by
  have n1 : pg.brk ≠ pg.startCol := by omega
  have n2 : pg.brk + 1 ≠ pg.startCol := by omega
  simp only [prependCol, hpad, if_true, linkBeforeStart, Prod.mk.injEq, true_and]
  congr 1
  funext k
  by_cases h1 : k = pg.brk + 1
  · subst h1; simp [modCol, setCol, n1, n2]
  · by_cases h2 : k = pg.brk
    · subst h2; simp [modCol, setCol, n1, n2]
    · by_cases h3 : k = pg.startCol
      · subst h3; simp [modCol, setCol, n1, n2, h1, h2]
      · simp [modCol, setCol, h1, h2, h3]

theorem prependCol_pad_shape {pg : Playground} {hs : List Nat} (w : WF pg hs) (x : Int)
    (hx0 : x ≠ 0) (hpad : pg.startColX - 1 > x) :
    ∃ hs2, GetColPost pg hs x (prependCol pg x).1 (prependCol pg x).2 hs2 ∧
      Grown pg.heap (prependCol pg x).1 pg.brk hs hs2 := by
  have he := w.startCol_lt
  have hcx := (w.pos_range w.currentAt).1
  have hsegp := w.startPieces
  have htot := w.total
  obtain ⟨T, hT, hnext, hprev, hnotin, hlt⟩ := w.exists_tail
  subst hT
  have n1 : pg.brk ≠ pg.startCol := by omega
  have n2 : pg.brk + 1 ≠ pg.startCol := by omega
  have n3 : pg.startCol ≠ pg.brk := by omega
  have n4 : pg.startCol ≠ pg.brk + 1 := by omega
  have hsz : (((pg.startColX - x - 1).toNat : Nat) : Int) = pg.startColX - x - 1 :=
    Int.toNat_of_nonneg (by omega)
  rw [prependCol_pad_eq pg x hpad he]
  generalize (pg.startColX - x - 1).toNat = n at hsz
  dsimp only
  refine ⟨[] ++ [pg.brk + 1, pg.brk, pg.startCol] ++ T, ?_, Grown.prependPad pg.startCol T hsegp⟩
  apply splice_post w hx0 (by simp) (by simp)
  · intro h hh hm
    have m1 : h ≠ pg.brk := by omega
    have m2 : h ≠ pg.brk + 1 := by omega
    have m3 : h ≠ pg.startCol := by simpa using hm
    simp [m1, m2, m3]
  · intro m hm
    simp only [List.mem_singleton] at hm
    subst hm
    simp [SameData, n3, n4]
  · simp [Seg, n1, n2, n3, n4, hnext, createCol, createPaddingCol]
  · intro h; exact absurd rfl h
  · intro _; rfl
  · simp [n1, n2, n3, n4]
  · intro m hm
    simp only [List.mem_cons, List.mem_singleton, List.not_mem_nil, or_false] at hm
    rcases hm with h | h | h
    · right; subst h; dsimp only; omega
    · right; subst h; dsimp only; omega
    · left; simp [h]
  · show pg.brk ≤ pg.brk + 2
    omega
  · rfl
  · rw [lastOr_append]
    simp only [lastOr]
    exact hlt
  · intro h; exact absurd rfl h
  · intro _
    simp only [wsum, Col.width, n1, n2, n3, n4, if_true, if_false, createCol, createPaddingCol,
      hsegp]
    simp
    omega
  · simp only [wsum, Col.width, n1, n2, n3, n4, if_true, if_false, createCol, createPaddingCol,
      hsegp] at htot ⊢
    simp at htot ⊢
    omega
  · intro x1 hx1
    dsimp only
    simp only [colAtFrom, wsum, Col.width, n1, n2, n3, n4, if_true, if_false, createCol,
      createPaddingCol, hsegp]
    have e1 : x + 1 + (n : Int) = pg.startColX := by omega
    simp [e1, hx1]
  · dsimp only
    simp only [colAtFrom, wsum, Col.width, n1, n2, n3, n4, if_true, if_false, createCol,
      createPaddingCol, hsegp]
    simp
  · exact w.before_start (by omega)
  · simp [createCol]
  · rfl
  · right; exact ⟨rfl, rfl, by omega⟩
  · intro m hm hty
    simp only [List.mem_cons, List.mem_singleton, List.not_mem_nil, or_false] at hm
    rcases hm with h | h | h <;> subst h <;>
      simp [n1, n2, n3, n4, createCol, createPaddingCol, hsegp] at hty ⊢
    omega
  · intro m hm hty
    simp only [List.mem_cons, List.mem_singleton, List.not_mem_nil, or_false] at hm
    rcases hm with h | h | h <;> subst h <;>
      simp [n1, n2, n3, n4, createCol, createPaddingCol, hsegp] at hty ⊢
  · intro m hm _
    simp only [List.mem_singleton] at hm
    simp [hm]
  · intro _
    simp [createCol]
  · intro hB
    subst hB
    simp only [lastOr_nil, Option.some.injEq] at hlt
    dsimp only
    rw [← hlt]
    simp [n3, n4, hsegp]
  · rfl
  · rfl
  · rfl

theorem prependCol_pad_post {pg : Playground} {hs : List Nat} (w : WF pg hs) (x : Int)
    (hx0 : x ≠ 0) (hpad : pg.startColX - 1 > x) :
    ∃ hs2, GetColPost pg hs x (prependCol pg x).1 (prependCol pg x).2 hs2 := by
  obtain ⟨hs2, h, -⟩ := prependCol_pad_shape w x hx0 hpad
  exact ⟨hs2, h⟩

theorem prependCol_one_eq (pg : Playground) (x : Int) (hpad : ¬ pg.startColX - 1 > x)
    (he : pg.startCol < pg.brk) :
    prependCol pg x = (pg.brk, { pg with
      heap := fun k =>
        if k = pg.brk then { createCol with next := some pg.startCol }
        else if k = pg.startCol then { pg.heap pg.startCol with prev := some pg.brk }
        else pg.heap k
      brk := pg.brk + 1
      startCol := pg.brk
      startColX := x }) := by
  have n1 : pg.brk ≠ pg.startCol := by omega
  simp only [prependCol, hpad, if_false, linkBeforeStart, Prod.mk.injEq, true_and]
  congr 1
  funext k
  by_cases h2 : k = pg.brk
  · subst h2; simp [modCol, setCol, n1]
  · by_cases h3 : k = pg.startCol
    · subst h3; simp [modCol, setCol, n1, h2]
    · simp [modCol, setCol, h2, h3]

theorem prependCol_one_shape {pg : Playground} {hs : List Nat} (w : WF pg hs) (x : Int)
    (hx0 : x ≠ 0) (hx : x < pg.startColX) (hpad : ¬ pg.startColX - 1 > x) :
    ∃ hs2, GetColPost pg hs x (prependCol pg x).1 (prependCol pg x).2 hs2 ∧
      Grown pg.heap (prependCol pg x).1 pg.brk hs hs2 := by
  have he := w.startCol_lt
  have hcx := (w.pos_range w.currentAt).1
  have hsegp := w.startPieces
  have htot := w.total
  obtain ⟨T, hT, hnext, hprev, hnotin, hlt⟩ := w.exists_tail
  subst hT
  have n1 : pg.brk ≠ pg.startCol := by omega
  have n3 : pg.startCol ≠ pg.brk := by omega
  rw [prependCol_one_eq pg x hpad he]
  dsimp only
  refine ⟨[] ++ [pg.brk, pg.startCol] ++ T, ?_, Grown.prepend pg.startCol T hsegp⟩
  apply splice_post w hx0 (by simp) (by simp)
  · intro h hh hm
    have m1 : h ≠ pg.brk := by omega
    have m3 : h ≠ pg.startCol := by simpa using hm
    simp [m1, m3]
  · intro m hm
    simp only [List.mem_singleton] at hm
    subst hm
    simp [SameData, n3]
  · simp [Seg, n1, n3, hnext, createCol]
  · intro h; exact absurd rfl h
  · intro _; rfl
  · simp [n1, n3]
  · intro m hm
    simp only [List.mem_cons, List.mem_singleton, List.not_mem_nil, or_false] at hm
    rcases hm with h | h
    · right; subst h; dsimp only; omega
    · left; simp [h]
  · show pg.brk ≤ pg.brk + 1
    omega
  · rfl
  · rw [lastOr_append]
    simp only [lastOr]
    exact hlt
  · intro h; exact absurd rfl h
  · intro _
    simp only [wsum, Col.width, n1, n3, if_true, if_false, createCol, hsegp]
    simp
    omega
  · simp only [wsum, Col.width, n1, n3, if_true, if_false, createCol, hsegp] at htot ⊢
    simp at htot ⊢
    omega
  · intro x1 hx1
    dsimp only
    simp only [colAtFrom, wsum, Col.width, n1, n3, if_true, if_false, createCol, hsegp]
    have e1 : x + 1 = pg.startColX := by omega
    simp [e1, hx1]
  · dsimp only
    simp only [colAtFrom, wsum, Col.width, n1, n3, if_true, if_false, createCol, hsegp]
    simp
  · exact w.before_start (by omega)
  · simp [createCol]
  · rfl
  · right; exact ⟨rfl, rfl, by omega⟩
  · intro m hm hty
    simp only [List.mem_cons, List.mem_singleton, List.not_mem_nil, or_false] at hm
    rcases hm with h | h <;> subst h <;> simp [n1, n3, createCol, hsegp] at hty ⊢
  · intro m hm hty
    simp only [List.mem_cons, List.mem_singleton, List.not_mem_nil, or_false] at hm
    rcases hm with h | h <;> subst h <;> simp [n1, n3, createCol, hsegp] at hty ⊢
  · intro m hm _
    simp only [List.mem_singleton] at hm
    simp [hm]
  · intro _
    simp [createCol]
  · intro hB
    subst hB
    simp only [lastOr_nil, Option.some.injEq] at hlt
    dsimp only
    rw [← hlt]
    simp [n3, hsegp]
  · rfl
  · rfl
  · rfl

theorem prependCol_one_post {pg : Playground} {hs : List Nat} (w : WF pg hs) (x : Int)
    (hx0 : x ≠ 0) (hx : x < pg.startColX) (hpad : ¬ pg.startColX - 1 > x) :
    ∃ hs2, GetColPost pg hs x (prependCol pg x).1 (prependCol pg x).2 hs2 := by
  obtain ⟨hs2, h, -⟩ := prependCol_one_shape w x hx0 hx hpad
  exact ⟨hs2, h⟩

theorem prependCol_post {pg : Playground} {hs : List Nat} (w : WF pg hs) (x : Int)
    (hx0 : x ≠ 0) (hx : x < pg.startColX) :
    ∃ hs2, GetColPost pg hs x (prependCol pg x).1 (prependCol pg x).2 hs2 := by
  by_cases hpad : pg.startColX - 1 > x
  · exact prependCol_pad_post w x hx0 hpad
  · exact prependCol_one_post w x hx0 hx hpad

theorem prependCol_shape {pg : Playground} {hs : List Nat} (w : WF pg hs) (x : Int)
    (hx0 : x ≠ 0) (hx : x < pg.startColX) :
    ∃ hs2, GetColPost pg hs x (prependCol pg x).1 (prependCol pg x).2 hs2 ∧
      Grown pg.heap (prependCol pg x).1 pg.brk hs hs2 := by
  by_cases hpad : pg.startColX - 1 > x
  · exact prependCol_pad_shape w x hx0 hpad
  · exact prependCol_one_shape w x hx0 hx hpad

/-! ## `playgroundGetColAt`: the col exists already -/

theorem found_post {pg : Playground} {hs : List Nat} (w : WF pg hs) (x : Int) (c : Nat)
    (pg2 : Playground) (hc : colAtFrom pg.heap hs pg.startColX x = some c)
    (h2 : pg2 = pg ∨ pg2 = { pg with currentCol := c, currentX := x }) :
    GetColPost pg hs x c pg2 hs := by
  have hwf : WF pg2 hs := by
    rcases h2 with h | h
    · rw [h]; exact w
    · rw [h]
      exact ⟨w.seg, w.nodup, w.bound, w.first, w.last, w.originAt, hc, w.total, w.endPieces,
        w.startPieces, w.padPos⟩
  rcases h2 with h | h <;> subst h
  · refine ⟨hwf, hc, fun _ _ => rfl, fun _ _ => SameData.rfl_data _, ?_, ?_, rfl, rfl, rfl,
      le_refl _, fun h hh hn => absurd hh hn, fun h hh _ => hh, fun h hh _ => Or.inl hh⟩
    · intro hn; rw [hn] at hc; exact absurd hc (by simp)
    · intro h hh
      rw [hc] at hh
      injection hh with hh
      exact ⟨hh, rfl, rfl, rfl⟩
  · refine ⟨hwf, hc, fun _ _ => rfl, fun _ _ => SameData.rfl_data _, ?_, ?_, rfl, rfl, rfl,
      le_refl _, fun h hh hn => absurd hh hn, fun h hh _ => hh, fun h hh _ => Or.inl hh⟩
    · intro hn; rw [hn] at hc; exact absurd hc (by simp)
    · intro h hh
      rw [hc] at hh
      injection hh with hh
      exact ⟨hh, rfl, rfl, rfl⟩

/-! ## `playgroundGetColAt`: splitting a padding run -/

theorem WF.mid_facts {pg : Playground} {A B : List Nat} {u v : Nat}
    (w : WF pg (A ++ [u, v] ++ B)) :
    u < pg.brk ∧ v < pg.brk ∧ u ≠ v ∧ (pg.heap v).prev = some u ∧ (pg.heap u).next = some v ∧
      (pg.heap u).prev = lastOr A none ∧ (pg.heap v).next = headOr B none := by
  have hseg := w.seg
  rw [List.append_assoc, Seg_append] at hseg
  have hnd := w.nodup
  rw [List.append_assoc] at hnd
  have hnd2 := (List.nodup_append.mp hnd).2.1
  have huv : u ≠ v := by
    intro h
    subst h
    simp at hnd2
  exact ⟨w.bound u (by simp), w.bound v (by simp), huv, hseg.2.2.2.1, hseg.2.2.1, hseg.2.1,
    hseg.2.2.2.2.1⟩

theorem splitPadding_pad_eq (pg : Playground) (x i : Int) (col lp : Nat)
    (hprev : (pg.heap col).prev = some lp) (hgt : i - x > 1) (h1 : lp < pg.brk)
    (h2 : col < pg.brk) (hne : lp ≠ col) :
    splitPadding pg x i col = .ok (pg.brk, { pg with
      heap := splitHeapPad pg (i - x).toNat (i - x - 1).toNat col lp
      brk := pg.brk + 2 }) := by
  have n1 : pg.brk ≠ lp := by omega
  have n2 : pg.brk + 1 ≠ lp := by omega
  have n3 : pg.brk ≠ col := by omega
  have n4 : pg.brk + 1 ≠ col := by omega
  simp only [splitPadding, hprev, hgt, if_true]
  congr 2
  congr 1
  funext k
  by_cases k1 : k = pg.brk + 1
  · subst k1; simp [splitHeapPad, modCol, setCol, n1, n2, n3, n4]
  · by_cases k2 : k = pg.brk
    · subst k2; simp [splitHeapPad, modCol, setCol, n1, n2, n3, n4]
    · by_cases k3 : k = col
      · subst k3; simp [splitHeapPad, modCol, setCol, n1, n2, n3, n4, k1, k2, hne.symm]
      · by_cases k4 : k = lp
        · subst k4; simp [splitHeapPad, modCol, setCol, n1, n2, n3, n4, k1, k2, k3, hne]
        · simp [splitHeapPad, modCol, setCol, k1, k2, k3, k4]

theorem splitPadding_one_eq (pg : Playground) (x i : Int) (col lp : Nat)
    (hprev : (pg.heap col).prev = some lp) (hgt : ¬ i - x > 1) (h1 : lp < pg.brk)
    (h2 : col < pg.brk) (hne : lp ≠ col) :
    splitPadding pg x i col = .ok (pg.brk, { pg with
      heap := splitHeapOne pg (i - x).toNat col lp
      brk := pg.brk + 1 }) := by
  have n1 : pg.brk ≠ lp := by omega
  have n3 : pg.brk ≠ col := by omega
  simp only [splitPadding, hprev, hgt, if_false]
  congr 2
  congr 1
  funext k
  by_cases k2 : k = pg.brk
  · subst k2; simp [splitHeapOne, modCol, setCol, n1, n3]
  · by_cases k3 : k = col
    · subst k3; simp [splitHeapOne, modCol, setCol, n1, n3, k2, hne.symm]
    · by_cases k4 : k = lp
      · subst k4; simp [splitHeapOne, modCol, setCol, n1, n3, k2, k3, hne]
      · simp [splitHeapOne, modCol, setCol, k2, k3, k4]

theorem colAtFrom_single (heap : Nat → Col) (c : Nat) (x0 x : Int) :
    colAtFrom heap [c] x0 x =
      if (heap c).type = .COL_PIECES ∧ x = x0 then some c else none := by
  rcases type_cases (heap c) with h | h
  · rw [colAtFrom_cons_pieces _ _ _ h]
    simp [colAtFrom, h]
  · rw [colAtFrom_cons_padding _ _ _ h]
    simp [colAtFrom, h]

theorem split_none {pg : Playground} {A B : List Nat} {lp col : Nat} {x : Int}
    (hpad : (pg.heap lp).type = .COL_PADDING)
    (hlo : pg.startColX + wsum pg.heap A < x)
    (hhi : x < pg.startColX + wsum pg.heap A + ((pg.heap lp).size : Int)) :
    colAtFrom pg.heap (A ++ [lp, col] ++ B) pg.startColX x = none := by
  rw [List.append_assoc, colAtFrom_append, colAtFrom_ge _ A _ _ (by omega)]
  have e : [lp, col] ++ B = lp :: (col :: B) := rfl
  rw [e, colAtFrom_cons_padding _ _ _ hpad]
  exact colAtFrom_lt _ _ _ _ hhi

theorem split_pad_post {pg : Playground} {A B : List Nat} {lp col : Nat} {x : Int} {d d1 : Nat}
    (w : WF pg (A ++ [lp, col] ++ B)) (hx0 : x ≠ 0)
    (hpad : (pg.heap lp).type = .COL_PADDING)
    (hlo : pg.startColX + wsum pg.heap A < x)
    (hd : (d : Int) = pg.startColX + wsum pg.heap A + ((pg.heap lp).size : Int) - x)
    (hd1 : (d1 : Int) = (d : Int) - 1) (hgt : 1 ≤ d1) :
    GetColPost pg (A ++ [lp, col] ++ B) x pg.brk
      { pg with heap := splitHeapPad pg d d1 col lp, brk := pg.brk + 2,
                currentCol := pg.brk, currentX := x }
      (A ++ [lp, pg.brk, pg.brk + 1, col] ++ B) := by
  obtain ⟨h1, h2, hne, hprev, hnext, hprevl, hnextc⟩ := w.mid_facts
  have htot := w.total
  have hfirst := w.first
  have hlast := w.last
  have hpp := w.padPos
  have n1 : pg.brk ≠ lp := by omega
  have n2 : pg.brk + 1 ≠ lp := by omega
  have n3 : pg.brk ≠ col := by omega
  have n4 : pg.brk + 1 ≠ col := by omega
  have n5 : lp ≠ pg.brk := by omega
  have n6 : lp ≠ pg.brk + 1 := by omega
  have n7 : col ≠ pg.brk := by omega
  have n8 : col ≠ pg.brk + 1 := by omega
  have n9 : col ≠ lp := hne.symm
  have hty : ∀ h, h < pg.brk → (splitHeapPad pg d d1 col lp h).type = (pg.heap h).type := by
    intro h hh
    have m1 : h ≠ pg.brk := by omega
    have m2 : h ≠ pg.brk + 1 := by omega
    simp only [splitHeapPad, m1, m2, if_false]
    split_ifs with c1 c2
    · rw [c1]
    · rw [c2]
    · rfl
  have hnp : ¬ (pg.heap lp).type = .COL_PIECES := by rw [hpad]; decide
  apply splice_post w hx0 (by simp) (by simp)
  · intro h hh hm
    have m1 : h ≠ pg.brk := by omega
    have m2 : h ≠ pg.brk + 1 := by omega
    simp only [List.mem_cons, List.mem_singleton, List.not_mem_nil, or_false, not_or] at hm
    simp [splitHeapPad, m1, m2, hm.1, hm.2]
  · intro m hm
    simp only [List.mem_cons, List.mem_singleton, List.not_mem_nil, or_false] at hm
    rcases hm with h | h <;> subst h
    · simp [SameData, splitHeapPad, n5, n6, hne, hnp]
    · simp [SameData, splitHeapPad, n7, n8]
  · simp [Seg, splitHeapPad, n1, n2, n3, n4, n5, n6, n7, n8, n9, hne, hprevl, hnextc, createCol,
      createPaddingCol]
  · intro _; rfl
  · intro _; rfl
  · simp [n1, n2, n3, n4, n5, n6, n7, n8, hne]
  · intro m hm
    simp only [List.mem_cons, List.mem_singleton, List.not_mem_nil, or_false] at hm
    rcases hm with h | h | h | h
    · left; simp [h]
    · right; subst h; dsimp only; omega
    · right; subst h; dsimp only; omega
    · left; simp [h]
  · show pg.brk ≤ pg.brk + 2
    omega
  · rw [← headOr_none_eq, List.append_assoc, headOr_append] at hfirst
    rw [headOr_append]
    exact hfirst
  · rw [← lastOr_none_eq, List.append_assoc, lastOr_append, lastOr_append] at hlast
    rw [lastOr_append]
    exact hlast
  · intro _; rfl
  · intro _
    dsimp only
    simp only [wsum, Col.width, splitHeapPad, n1, n2, n3, n4, n5, n6, n7, n8, n9, hne, if_true,
      if_false, createCol, createPaddingCol, hpad]
    simp
    omega
  · dsimp only
    rw [List.append_assoc, wsum_append, wsum_append] at htot
    simp only [wsum, Col.width, splitHeapPad, n1, n2, n3, n4, n5, n6, n7, n8, n9, hne, if_true,
      if_false, createCol, createPaddingCol, hpad] at htot ⊢
    simp at htot ⊢
    omega
  · intro x1 hx1
    dsimp only
    have e1 : pg.startColX + wsum pg.heap A + (((pg.heap lp).size - d : Nat) : Int) = x := by
      omega
    have e2 : x + 1 + (d1 : Int) = pg.startColX + wsum pg.heap A + ((pg.heap lp).size : Int) := by
      omega
    have e : [lp, pg.brk, pg.brk + 1, col] = [lp, pg.brk, pg.brk + 1] ++ [col] := rfl
    have e0 : [lp, col] = [lp] ++ [col] := rfl
    rw [e, e0, colAtFrom_append, colAtFrom_append, colAtFrom_single, colAtFrom_single]
    simp only [colAtFrom, wsum, Col.width, splitHeapPad, n1, n2, n3, n4, n5, n6, n7, n8, n9, hne,
      if_true, if_false, createCol, createPaddingCol, hpad, e1]
    simp [hx1, e2, e1]
    by_cases hc : (pg.heap col).type = .COL_PIECES
    · simp only [hc, true_and, if_true]
      congr 2
      omega
    · simp [hc]
  · dsimp only
    have e1 : pg.startColX + wsum pg.heap A + (((pg.heap lp).size - d : Nat) : Int) = x := by
      omega
    simp only [colAtFrom, wsum, Col.width, splitHeapPad, n1, n2, n3, n4, n5, n6, n7, n8, n9, hne,
      if_true, if_false, createCol, createPaddingCol, hpad, e1]
    simp
  · exact split_none hpad hlo (by omega)
  · simp [splitHeapPad, createCol]
  · rfl
  · left; exact ⟨rfl, rfl⟩
  · intro m hm hty2
    simp only [List.mem_cons, List.mem_singleton, List.not_mem_nil, or_false] at hm
    rcases hm with h | h | h | h <;> subst h
    · simp [splitHeapPad, n5, n6, hne]; omega
    · simp [splitHeapPad, createCol] at hty2
    · simp [splitHeapPad, createPaddingCol]; omega
    · have := hpp m (by simp) (by simpa [splitHeapPad, n7, n8] using hty2)
      simpa [splitHeapPad, n7, n8] using this
  · intro m hm hty2
    simp only [List.mem_cons, List.mem_singleton, List.not_mem_nil, or_false] at hm
    rcases hm with h | h | h | h <;> subst h
    · left; simp
    · right; rfl
    · simp [splitHeapPad, createPaddingCol] at hty2
    · left; simp
  · intro m hm hty2
    simp only [List.mem_cons, List.mem_singleton, List.not_mem_nil, or_false] at hm
    rcases hm with h | h <;> subst h <;> simp
  · intro _
    dsimp only
    rw [hty _ w.startCol_lt]
    exact w.startPieces
  · intro _
    dsimp only
    rw [hty _ w.endCol_lt]
    exact w.endPieces
  · rfl
  · rfl
  · rfl

theorem split_one_post {pg : Playground} {A B : List Nat} {lp col : Nat} {x : Int} {d : Nat}
    (w : WF pg (A ++ [lp, col] ++ B)) (hx0 : x ≠ 0)
    (hpad : (pg.heap lp).type = .COL_PADDING)
    (hlo : pg.startColX + wsum pg.heap A < x)
    (hd : (d : Int) = pg.startColX + wsum pg.heap A + ((pg.heap lp).size : Int) - x)
    (hd1 : d = 1) :
    GetColPost pg (A ++ [lp, col] ++ B) x pg.brk
      { pg with heap := splitHeapOne pg d col lp, brk := pg.brk + 1,
                currentCol := pg.brk, currentX := x }
      (A ++ [lp, pg.brk, col] ++ B) := by
  obtain ⟨h1, h2, hne, hprev, hnext, hprevl, hnextc⟩ := w.mid_facts
  have htot := w.total
  have hfirst := w.first
  have hlast := w.last
  have hpp := w.padPos
  have n1 : pg.brk ≠ lp := by omega
  have n3 : pg.brk ≠ col := by omega
  have n5 : lp ≠ pg.brk := by omega
  have n7 : col ≠ pg.brk := by omega
  have n9 : col ≠ lp := hne.symm
  have hty : ∀ h, h < pg.brk → (splitHeapOne pg d col lp h).type = (pg.heap h).type := by
    intro h hh
    have m1 : h ≠ pg.brk := by omega
    simp only [splitHeapOne, m1, if_false]
    split_ifs with c1 c2
    · rw [c1]
    · rw [c2]
    · rfl
  have hnp : ¬ (pg.heap lp).type = .COL_PIECES := by rw [hpad]; decide
  apply splice_post w hx0 (by simp) (by simp)
  · intro h hh hm
    have m1 : h ≠ pg.brk := by omega
    simp only [List.mem_cons, List.mem_singleton, List.not_mem_nil, or_false, not_or] at hm
    simp [splitHeapOne, m1, hm.1, hm.2]
  · intro m hm
    simp only [List.mem_cons, List.mem_singleton, List.not_mem_nil, or_false] at hm
    rcases hm with h | h <;> subst h
    · simp [SameData, splitHeapOne, n5, hne, hnp]
    · simp [SameData, splitHeapOne, n7]
  · simp [Seg, splitHeapOne, n1, n3, n5, n7, n9, hne, hprevl, hnextc, createCol]
  · intro _; rfl
  · intro _; rfl
  · simp [n1, n3, n5, n7, hne]
  · intro m hm
    simp only [List.mem_cons, List.mem_singleton, List.not_mem_nil, or_false] at hm
    rcases hm with h | h | h
    · left; simp [h]
    · right; subst h; dsimp only; omega
    · left; simp [h]
  · show pg.brk ≤ pg.brk + 1
    omega
  · rw [← headOr_none_eq, List.append_assoc, headOr_append] at hfirst
    rw [headOr_append]
    exact hfirst
  · rw [← lastOr_none_eq, List.append_assoc, lastOr_append, lastOr_append] at hlast
    rw [lastOr_append]
    exact hlast
  · intro _; rfl
  · intro _
    dsimp only
    simp only [wsum, Col.width, splitHeapOne, n1, n3, n5, n7, n9, hne, if_true,
      if_false, createCol, hpad]
    simp
    omega
  · dsimp only
    rw [List.append_assoc, wsum_append, wsum_append] at htot
    simp only [wsum, Col.width, splitHeapOne, n1, n3, n5, n7, n9, hne, if_true,
      if_false, createCol, hpad] at htot ⊢
    simp at htot ⊢
    omega
  · intro x1 hx1
    dsimp only
    have e1 : pg.startColX + wsum pg.heap A + (((pg.heap lp).size - d : Nat) : Int) = x := by
      omega
    have e : [lp, pg.brk, col] = [lp, pg.brk] ++ [col] := rfl
    have e0 : [lp, col] = [lp] ++ [col] := rfl
    rw [e, e0, colAtFrom_append, colAtFrom_append, colAtFrom_single, colAtFrom_single]
    simp only [colAtFrom, wsum, Col.width, splitHeapOne, n1, n3, n5, n7, n9, hne,
      if_true, if_false, createCol, hpad, e1]
    simp [hx1, e1]
    by_cases hc : (pg.heap col).type = .COL_PIECES
    · simp only [hc, true_and, if_true]
      congr 2
      omega
    · simp [hc]
  · dsimp only
    have e1 : pg.startColX + wsum pg.heap A + (((pg.heap lp).size - d : Nat) : Int) = x := by
      omega
    simp only [colAtFrom, wsum, Col.width, splitHeapOne, n1, n3, n5, n7, n9, hne,
      if_true, if_false, createCol, hpad, e1]
    simp
  · exact split_none hpad hlo (by omega)
  · simp [splitHeapOne, createCol]
  · rfl
  · left; exact ⟨rfl, rfl⟩
  · intro m hm hty2
    simp only [List.mem_cons, List.mem_singleton, List.not_mem_nil, or_false] at hm
    rcases hm with h | h | h <;> subst h
    · simp [splitHeapOne, n5, hne]; omega
    · simp [splitHeapOne, createCol] at hty2
    · have := hpp m (by simp) (by simpa [splitHeapOne, n7] using hty2)
      simpa [splitHeapOne, n7] using this
  · intro m hm hty2
    simp only [List.mem_cons, List.mem_singleton, List.not_mem_nil, or_false] at hm
    rcases hm with h | h | h <;> subst h
    · left; simp
    · right; rfl
    · left; simp
  · intro m hm hty2
    simp only [List.mem_cons, List.mem_singleton, List.not_mem_nil, or_false] at hm
    rcases hm with h | h <;> subst h <;> simp
  · intro _
    dsimp only
    rw [hty _ w.startCol_lt]
    exact w.startPieces
  · intro _
    dsimp only
    rw [hty _ w.endCol_lt]
    exact w.endPieces
  · rfl
  · rfl
  · rfl

/-! ## `playgroundGetColAt`: a padding run that starts at x -/

theorem replacePadding_one_eq (pg : Playground) (col p n : Nat)
    (hprev : (pg.heap col).prev = some p) (hnext : (pg.heap col).next = some n)
    (hsz : (pg.heap col).size = 1) (h1 : p < pg.brk) (h2 : col < pg.brk) (h3 : n < pg.brk)
    (hpc : p ≠ col) (hpn : p ≠ n) (hcn : col ≠ n) :
    replacePadding pg col = .ok (pg.brk, { pg with
      heap := replaceHeapOne pg p n
      brk := pg.brk + 1 }) := by
  have n1 : pg.brk ≠ p := by omega
  have n2 : pg.brk ≠ col := by omega
  have n3 : pg.brk ≠ n := by omega
  have n4 : col ≠ pg.brk := by omega
  have n5 : col ≠ p := hpc.symm
  simp only [replacePadding, modCol, setCol, n4, n5, if_false, hprev, hsz, if_true, hnext,
    n1, n2, n3]
  congr 2
  congr 1
  funext k
  by_cases k2 : k = pg.brk
  · subst k2; simp [replaceHeapOne, n1, n2, n3]
  · by_cases k3 : k = n
    · subst k3; simp [replaceHeapOne, k2, hpn.symm]
    · by_cases k4 : k = p
      · subst k4; simp [replaceHeapOne, k2, k3]
      · simp [replaceHeapOne, k2, k3, k4]

theorem replacePadding_more_eq (pg : Playground) (col p : Nat)
    (hprev : (pg.heap col).prev = some p)
    (hsz : (pg.heap col).size ≠ 1) (h1 : p < pg.brk) (h2 : col < pg.brk)
    (hpc : p ≠ col) :
    replacePadding pg col = .ok (pg.brk, { pg with
      heap := replaceHeapMore pg col p
      brk := pg.brk + 1 }) := by
  have n1 : pg.brk ≠ p := by omega
  have n2 : pg.brk ≠ col := by omega
  have n4 : col ≠ pg.brk := by omega
  have n5 : col ≠ p := hpc.symm
  simp only [replacePadding, modCol, setCol, n4, n5, if_false, hprev, hsz, if_true,
    n1, n2]
  congr 2
  congr 1
  funext k
  by_cases k2 : k = pg.brk
  · subst k2; simp [replaceHeapMore, n1, n2]
  · by_cases k3 : k = col
    · subst k3; simp [replaceHeapMore, k2, n5]
    · by_cases k4 : k = p
      · subst k4; simp [replaceHeapMore, k2, k3]
      · simp [replaceHeapMore, k2, k3, k4]

theorem WF.mid3_facts {pg : Playground} {A B : List Nat} {u v t : Nat}
    (w : WF pg (A ++ [u, v, t] ++ B)) :
    u < pg.brk ∧ v < pg.brk ∧ t < pg.brk ∧ u ≠ v ∧ u ≠ t ∧ v ≠ t ∧
      (pg.heap v).prev = some u ∧ (pg.heap v).next = some t ∧
      (pg.heap u).prev = lastOr A none ∧ (pg.heap t).next = headOr B none := by
  have hseg := w.seg
  rw [List.append_assoc, Seg_append] at hseg
  have hnd := w.nodup
  rw [List.append_assoc] at hnd
  have hnd2 := (List.nodup_append.mp hnd).2.1
  have hnd3 : [u, v, t].Nodup := (List.nodup_append.mp hnd2).1
  simp only [List.nodup_cons, List.mem_cons, List.mem_singleton, List.not_mem_nil, or_false,
    not_or, List.nodup_nil, and_true] at hnd3
  exact ⟨w.bound u (by simp), w.bound v (by simp), w.bound t (by simp), hnd3.1.1, hnd3.1.2,
    hnd3.2.1, hseg.2.2.2.1, hseg.2.2.2.2.1, hseg.2.1, hseg.2.2.2.2.2.2.1⟩

theorem replace_none {pg : Playground} {A : List Nat} (T : List Nat) {p col : Nat} {x : Int}
    (hpad : (pg.heap col).type = .COL_PADDING) (hsz : 1 ≤ (pg.heap col).size)
    (hx : x = pg.startColX + wsum pg.heap A + ((pg.heap p).width : Int)) :
    colAtFrom pg.heap (A ++ p :: col :: T) pg.startColX x = none := by
  have hw := wsum_nonneg pg.heap A
  rw [colAtFrom_append, colAtFrom_ge _ A _ _ (by omega)]
  rcases type_cases (pg.heap p) with hp | hp
  · rw [width_pieces hp] at hx
    rw [colAtFrom_cons_pieces _ _ _ hp, if_neg (by omega), colAtFrom_cons_padding _ _ _ hpad]
    exact colAtFrom_lt _ _ _ _ (by push_cast at hx; omega)
  · rw [width_padding hp] at hx
    rw [colAtFrom_cons_padding _ _ _ hp, colAtFrom_cons_padding _ _ _ hpad]
    exact colAtFrom_lt _ _ _ _ (by omega)

theorem replace_one_post {pg : Playground} {A B : List Nat} {p col n : Nat} {x : Int}
    (w : WF pg (A ++ [p, col, n] ++ B)) (hx0 : x ≠ 0)
    (hpad : (pg.heap col).type = .COL_PADDING) (hsz : (pg.heap col).size = 1)
    (hx : x = pg.startColX + wsum pg.heap A + ((pg.heap p).width : Int)) :
    GetColPost pg (A ++ [p, col, n] ++ B) x pg.brk
      { pg with heap := replaceHeapOne pg p n, brk := pg.brk + 1,
                currentCol := pg.brk, currentX := x }
      (A ++ [p, pg.brk, n] ++ B) := by
  obtain ⟨h1, h2, h3, hpc, hpn, hcn, hprev, hnext, hprevp, hnextn⟩ := w.mid3_facts
  have htot := w.total
  have hfirst := w.first
  have hlast := w.last
  have hpp := w.padPos
  have n1 : pg.brk ≠ p := by omega
  have n3 : pg.brk ≠ n := by omega
  have n5 : p ≠ pg.brk := by omega
  have n7 : n ≠ pg.brk := by omega
  have n9 : n ≠ p := hpn.symm
  have hty : ∀ h, h < pg.brk → (replaceHeapOne pg p n h).type = (pg.heap h).type := by
    intro h hh
    have m1 : h ≠ pg.brk := by omega
    simp only [replaceHeapOne, m1, if_false]
    split_ifs with c1 c2
    · rw [c1]
    · rw [c2]
    · rfl
  have hsize : ∀ h, h < pg.brk → (replaceHeapOne pg p n h).size = (pg.heap h).size := by
    intro h hh
    have m1 : h ≠ pg.brk := by omega
    simp only [replaceHeapOne, m1, if_false]
    split_ifs with c1 c2
    · rw [c1]
    · rw [c2]
    · rfl
  have hwid : ∀ h, h < pg.brk → (replaceHeapOne pg p n h).width = (pg.heap h).width := by
    intro h hh
    simp only [Col.width, hty h hh, hsize h hh]
  have hwb : (replaceHeapOne pg p n pg.brk).width = 1 := by
    simp [replaceHeapOne, Col.width, createCol]
  have hwc : (pg.heap col).width = 1 := by rw [width_padding hpad, hsz]
  apply splice_post w hx0 (by simp) (by simp)
  · intro h hh hm
    have m1 : h ≠ pg.brk := by omega
    simp only [List.mem_cons, List.mem_singleton, List.not_mem_nil, or_false, not_or] at hm
    simp [replaceHeapOne, m1, hm.1, hm.2.2]
  · intro m hm
    simp only [List.mem_cons, List.mem_singleton, List.not_mem_nil, or_false] at hm
    rcases hm with h | h | h <;> subst h
    · simp [SameData, replaceHeapOne, n5, hpn]
    · have m1 : m ≠ pg.brk := by omega
      simp [SameData, replaceHeapOne, m1, hcn, hpc.symm]
    · simp [SameData, replaceHeapOne, n7]
  · simp [Seg, replaceHeapOne, n1, n3, n5, n7, n9, hpn, hprevp, hnextn, createCol]
  · intro _; rfl
  · intro _; rfl
  · simp [n1, n3, n5, n7, hpn]
  · intro m hm
    simp only [List.mem_cons, List.mem_singleton, List.not_mem_nil, or_false] at hm
    rcases hm with h | h | h
    · left; simp [h]
    · right; subst h; dsimp only; omega
    · left; simp [h]
  · show pg.brk ≤ pg.brk + 1
    omega
  · rw [← headOr_none_eq, List.append_assoc, headOr_append] at hfirst
    rw [headOr_append]
    exact hfirst
  · rw [← lastOr_none_eq, List.append_assoc, lastOr_append, lastOr_append] at hlast
    rw [lastOr_append]
    exact hlast
  · intro _; rfl
  · intro _
    dsimp only
    simp only [wsum, hwid p h1, hwid n h3, hwb, hwc]
  · dsimp only
    rw [List.append_assoc, wsum_append, wsum_append] at htot
    simp only [wsum, hwid p h1, hwid n h3, hwb, hwc] at htot ⊢
    omega
  · intro x1 hx1
    dsimp only
    have e : [p, pg.brk, n] = [p] ++ ([pg.brk] ++ [n]) := rfl
    have e0 : [p, col, n] = [p] ++ ([col] ++ [n]) := rfl
    rw [e, e0, colAtFrom_append, colAtFrom_append, colAtFrom_append, colAtFrom_append,
      colAtFrom_single, colAtFrom_single, colAtFrom_single, colAtFrom_single,
      colAtFrom_single, colAtFrom_single]
    simp only [wsum, hwid p h1, hwb, hwc, hty p h1, hty n h3, add_zero, ← hx]
    simp [hpad, hx1]
  · dsimp only
    have e : [p, pg.brk, n] = [p] ++ ([pg.brk] ++ [n]) := rfl
    rw [e, colAtFrom_append, colAtFrom_append, colAtFrom_single, colAtFrom_single,
      colAtFrom_single]
    simp only [wsum, hwid p h1, hwb, hty p h1, hty n h3, add_zero, ← hx]
    have hw := Nat.zero_le (pg.heap p).width
    have hpw : 1 ≤ (pg.heap p).width := by
      rcases type_cases (pg.heap p) with hp | hp
      · rw [width_pieces hp]
      · rw [width_padding hp]; exact hpp p (by simp) hp
    have e2 : x ≠ pg.startColX + wsum pg.heap A := by omega
    simp [e2, replaceHeapOne, createCol]
  · have e0 : A ++ [p, col, n] ++ B = A ++ p :: col :: (n :: B) := by simp
    rw [e0]
    exact replace_none _ hpad (by omega) hx
  · simp [replaceHeapOne, createCol]
  · rfl
  · left; exact ⟨rfl, rfl⟩
  · intro m hm hty2
    simp only [List.mem_cons, List.mem_singleton, List.not_mem_nil, or_false] at hm
    rcases hm with h | h | h <;> subst h
    · rw [hty _ h1] at hty2; rw [hsize _ h1]; exact hpp m (by simp) hty2
    · simp [replaceHeapOne, createCol] at hty2
    · rw [hty _ h3] at hty2; rw [hsize _ h3]; exact hpp m (by simp) hty2
  · intro m hm hty2
    simp only [List.mem_cons, List.mem_singleton, List.not_mem_nil, or_false] at hm
    rcases hm with h | h | h <;> subst h
    · left; simp
    · right; rfl
    · left; simp
  · intro m hm hty2
    simp only [List.mem_cons, List.mem_singleton, List.not_mem_nil, or_false] at hm
    rcases hm with h | h | h <;> subst h
    · simp
    · rw [hpad] at hty2; exact absurd hty2 (by decide)
    · simp
  · intro _
    dsimp only
    rw [hty _ w.startCol_lt]
    exact w.startPieces
  · intro _
    dsimp only
    rw [hty _ w.endCol_lt]
    exact w.endPieces
  · rfl
  · rfl
  · rfl

theorem replace_more_post {pg : Playground} {A B : List Nat} {p col : Nat} {x : Int}
    (w : WF pg (A ++ [p, col] ++ B)) (hx0 : x ≠ 0)
    (hpad : (pg.heap col).type = .COL_PADDING) (hsz : 2 ≤ (pg.heap col).size)
    (hx : x = pg.startColX + wsum pg.heap A + ((pg.heap p).width : Int)) :
    GetColPost pg (A ++ [p, col] ++ B) x pg.brk
      { pg with heap := replaceHeapMore pg col p, brk := pg.brk + 1,
                currentCol := pg.brk, currentX := x }
      (A ++ [p, pg.brk, col] ++ B) := by
  obtain ⟨h1, h2, hpc, hprev, hnext, hprevp, hnextc⟩ := w.mid_facts
  have htot := w.total
  have hfirst := w.first
  have hlast := w.last
  have hpp := w.padPos
  have n1 : pg.brk ≠ p := by omega
  have n3 : pg.brk ≠ col := by omega
  have n5 : p ≠ pg.brk := by omega
  have n7 : col ≠ pg.brk := by omega
  have n9 : col ≠ p := hpc.symm
  have hnp : ¬ (pg.heap col).type = .COL_PIECES := by rw [hpad]; decide
  have hty : ∀ h, h < pg.brk → (replaceHeapMore pg col p h).type = (pg.heap h).type := by
    intro h hh
    have m1 : h ≠ pg.brk := by omega
    simp only [replaceHeapMore, m1, if_false]
    split_ifs with c1 c2
    · rw [c1]
    · rw [c2]
    · rfl
  have hwp : (replaceHeapMore pg col p p).width = (pg.heap p).width := by
    simp [replaceHeapMore, Col.width, n5, hpc]
  have hwb : (replaceHeapMore pg col p pg.brk).width = 1 := by
    simp [replaceHeapMore, Col.width, createCol]
  have hwc : (pg.heap col).width = (pg.heap col).size := width_padding hpad
  have hwc2 : (replaceHeapMore pg col p col).width = (pg.heap col).size - 1 := by
    simp [replaceHeapMore, Col.width, n7, hpad]
  have hpw : 1 ≤ (pg.heap p).width := by
    rcases type_cases (pg.heap p) with hp | hp
    · rw [width_pieces hp]
    · rw [width_padding hp]; exact hpp p (by simp) hp
  apply splice_post w hx0 (by simp) (by simp)
  · intro h hh hm
    have m1 : h ≠ pg.brk := by omega
    simp only [List.mem_cons, List.mem_singleton, List.not_mem_nil, or_false, not_or] at hm
    simp [replaceHeapMore, m1, hm.1, hm.2]
  · intro m hm
    simp only [List.mem_cons, List.mem_singleton, List.not_mem_nil, or_false] at hm
    rcases hm with h | h <;> subst h
    · simp [SameData, replaceHeapMore, n5, hpc]
    · simp [SameData, replaceHeapMore, n7, hnp]
  · simp [Seg, replaceHeapMore, n1, n3, n5, n7, n9, hpc, hprevp, hnextc, createCol]
  · intro _; rfl
  · intro _; rfl
  · simp [n1, n3, n5, n7, hpc]
  · intro m hm
    simp only [List.mem_cons, List.mem_singleton, List.not_mem_nil, or_false] at hm
    rcases hm with h | h | h
    · left; simp [h]
    · right; subst h; dsimp only; omega
    · left; simp [h]
  · show pg.brk ≤ pg.brk + 1
    omega
  · rw [← headOr_none_eq, List.append_assoc, headOr_append] at hfirst
    rw [headOr_append]
    exact hfirst
  · rw [← lastOr_none_eq, List.append_assoc, lastOr_append, lastOr_append] at hlast
    rw [lastOr_append]
    exact hlast
  · intro _; rfl
  · intro _
    dsimp only
    simp only [wsum, hwp, hwb, hwc, hwc2]
    omega
  · dsimp only
    rw [List.append_assoc, wsum_append, wsum_append] at htot
    simp only [wsum, hwp, hwb, hwc, hwc2] at htot ⊢
    omega
  · intro x1 hx1
    dsimp only
    have e : [p, pg.brk, col] = [p] ++ ([pg.brk] ++ [col]) := rfl
    have e0 : [p, col] = [p] ++ [col] := rfl
    rw [e, e0, colAtFrom_append, colAtFrom_append, colAtFrom_append,
      colAtFrom_single, colAtFrom_single, colAtFrom_single, colAtFrom_single,
      colAtFrom_single]
    simp only [wsum, hwp, hwb, hty p h1, hty col h2, add_zero, ← hx]
    simp [hpad, hx1]
  · dsimp only
    have e : [p, pg.brk, col] = [p] ++ ([pg.brk] ++ [col]) := rfl
    rw [e, colAtFrom_append, colAtFrom_append, colAtFrom_single, colAtFrom_single,
      colAtFrom_single]
    simp only [wsum, hwp, hwb, hty p h1, hty col h2, add_zero, ← hx]
    have e2 : x ≠ pg.startColX + wsum pg.heap A := by omega
    simp [e2, replaceHeapMore, createCol]
  · have e0 : A ++ [p, col] ++ B = A ++ p :: col :: B := by simp
    rw [e0]
    exact replace_none _ hpad (by omega) hx
  · simp [replaceHeapMore, createCol]
  · rfl
  · left; exact ⟨rfl, rfl⟩
  · intro m hm hty2
    simp only [List.mem_cons, List.mem_singleton, List.not_mem_nil, or_false] at hm
    rcases hm with h | h | h <;> subst h
    · rw [hty _ h1] at hty2
      have := hpp m (by simp) hty2
      simpa [replaceHeapMore, n5, hpc] using this
    · simp [replaceHeapMore, createCol] at hty2
    · simp [replaceHeapMore, n7]; omega
  · intro m hm hty2
    simp only [List.mem_cons, List.mem_singleton, List.not_mem_nil, or_false] at hm
    rcases hm with h | h | h <;> subst h
    · left; simp
    · right; rfl
    · left; simp
  · intro m hm hty2
    simp only [List.mem_cons, List.mem_singleton, List.not_mem_nil, or_false] at hm
    rcases hm with h | h <;> subst h <;> simp
  · intro _
    dsimp only
    rw [hty _ w.startCol_lt]
    exact w.startPieces
  · intro _
    dsimp only
    rw [hty _ w.endCol_lt]
    exact w.endPieces
  · rfl
  · rfl
  · rfl

/-! ## `playgroundGetColAt`: all branches together -/

theorem locateCol_shape {pg : Playground} {hs : List Nat} (w : WF pg hs) (x : Int)
    (hx0 : x ≠ 0) (h1 : pg.startColX < x) (h2 : x < pg.endColX) :
    ∃ c pg2 hs2, locateCol pg x = .ok (c, pg2) ∧ GetColPost pg hs x c pg2 hs2 ∧
      Grown pg.heap c (pg.brk + 1) hs hs2 := by
  obtain ⟨A, col, B, e, hseek, hle, hgt⟩ := seekCol_spec w x (le_of_lt h1) (le_of_lt h2)
  subst e
  by_cases hlt : x < pg.startColX + wsum pg.heap A
  · -- ran past x: split the padding run in front of `col`
    obtain ⟨A1, lp, hA, hpad, hlo⟩ := hgt hlt
    subst hA
    have w2 : WF pg (A1 ++ [lp, col] ++ B) := by
      have e : A1 ++ [lp, col] ++ B = (A1 ++ [lp]) ++ col :: B := by simp
      rw [e]; exact w
    obtain ⟨b1, b2, hne, hprev, -, -, -⟩ := w2.mid_facts
    have hi : pg.startColX + wsum pg.heap (A1 ++ [lp]) =
        pg.startColX + wsum pg.heap A1 + ((pg.heap lp).size : Int) := by
      rw [wsum_append]
      simp only [wsum, width_padding hpad, add_zero]
      ring
    rw [hi] at hseek hlt
    have e : (A1 ++ [lp]) ++ col :: B = A1 ++ [lp, col] ++ B := by simp
    rw [e]
    have hd : (((pg.startColX + wsum pg.heap A1 + ((pg.heap lp).size : Int) - x).toNat : Nat) :
        Int) = pg.startColX + wsum pg.heap A1 + ((pg.heap lp).size : Int) - x :=
      Int.toNat_of_nonneg (by omega)
    by_cases hup : pg.startColX + wsum pg.heap A1 + ((pg.heap lp).size : Int) - x > 1
    · have hd1 : (((pg.startColX + wsum pg.heap A1 + ((pg.heap lp).size : Int) - x - 1).toNat :
          Nat) : Int) =
          ((pg.startColX + wsum pg.heap A1 + ((pg.heap lp).size : Int) - x).toNat : Int) - 1 := by
        rw [hd]
        exact Int.toNat_of_nonneg (by omega)
      refine ⟨pg.brk, _, _, ?_, split_pad_post w2 hx0 hpad hlo hd hd1 (by omega),
        Grown.splitPad A1 lp col B hpad⟩
      simp only [locateCol, hseek, gt_iff_lt, hlt, if_true,
        splitPadding_pad_eq pg x _ col lp hprev hup b1 b2 hne]
      simp [splitHeapPad, createCol]
    · refine ⟨pg.brk, _, _, ?_, split_one_post w2 hx0 hpad hlo hd (by omega),
        Grown.between A1 lp col B⟩
      simp only [locateCol, hseek, gt_iff_lt, hlt, if_true,
        splitPadding_one_eq pg x _ col lp hprev hup b1 b2 hne]
      simp [splitHeapOne, createCol]
  · have hxe : pg.startColX + wsum pg.heap A = x := by omega
    rw [hxe] at hseek
    rcases type_cases (pg.heap col) with hty | hty
    · -- the col exists
      have hc : colAtFrom pg.heap (A ++ col :: B) pg.startColX x = some col := by
        rw [← hxe]; exact colAtFrom_mid _ _ _ _ _ hty
      refine ⟨col, { pg with currentCol := col, currentX := x }, _, ?_,
        found_post w x col _ hc (Or.inr rfl), Grown.same _⟩
      simp [locateCol, hseek, hty]
    · -- a padding run starts at x
      have hA : A ≠ [] := by
        intro h
        subst h
        have := w.first
        simp only [List.nil_append, List.head?_cons, Option.some.injEq] at this
        have hs := w.startPieces
        rw [← this, hty] at hs
        exact absurd hs (by decide)
      have hB : B ≠ [] := by
        intro h
        subst h
        have := w.last
        simp at this
        have hs := w.endPieces
        rw [← this, hty] at hs
        exact absurd hs (by decide)
      rcases nil_or_snoc A with h | ⟨A1, p, h⟩
      · exact absurd h hA
      · subst h
        have w2 : WF pg (A1 ++ [p, col] ++ B) := by
          have e : A1 ++ [p, col] ++ B = (A1 ++ [p]) ++ col :: B := by simp
          rw [e]; exact w
        obtain ⟨b1, b2, hne, hprev, -, -, hnext⟩ := w2.mid_facts
        have hx : x = pg.startColX + wsum pg.heap A1 + ((pg.heap p).width : Int) := by
          rw [← hxe, wsum_append]
          simp only [wsum, add_zero]
          ring
        have hsz := w2.padPos col (by simp) hty
        have e : (A1 ++ [p]) ++ col :: B = A1 ++ [p, col] ++ B := by simp
        rw [e]
        by_cases hone : (pg.heap col).size = 1
        · obtain ⟨n, B1, hBe⟩ := List.exists_cons_of_ne_nil hB
          subst hBe
          have w3 : WF pg (A1 ++ [p, col, n] ++ B1) := by
            have e : A1 ++ [p, col, n] ++ B1 = A1 ++ [p, col] ++ n :: B1 := by simp
            rw [e]; exact w2
          obtain ⟨c1, c2, c3, d1, d2, d3, -, hnx, -, -⟩ := w3.mid3_facts
          have e3 : A1 ++ [p, col] ++ n :: B1 = A1 ++ [p, col, n] ++ B1 := by simp
          rw [e3]
          refine ⟨pg.brk, _, _, ?_, replace_one_post w3 hx0 hty hone hx,
            Grown.replace A1 p col n B1⟩
          have hgt2 : ¬ x > x := by omega
          simp only [locateCol, hseek, hgt2, if_false, hty, if_true,
            replacePadding_one_eq pg col p n hprev hnx hone c1 c2 c3 d1 d2 d3]
        · refine ⟨pg.brk, _, _, ?_, replace_more_post w2 hx0 hty (by omega) hx,
            Grown.between A1 p col B⟩
          have hgt2 : ¬ x > x := by omega
          simp only [locateCol, hseek, hgt2, if_false, hty, if_true,
            replacePadding_more_eq pg col p hprev hone b1 b2 hne]

theorem locateCol_post {pg : Playground} {hs : List Nat} (w : WF pg hs) (x : Int)
    (hx0 : x ≠ 0) (h1 : pg.startColX < x) (h2 : x < pg.endColX) :
    ∃ c pg2 hs2, locateCol pg x = .ok (c, pg2) ∧ GetColPost pg hs x c pg2 hs2 := by
  obtain ⟨c, pg2, hs2, h, hp, -⟩ := locateCol_shape w x hx0 h1 h2
  exact ⟨c, pg2, hs2, h, hp⟩

theorem playgroundGetColAt_post {pg : Playground} {hs : List Nat} (w : WF pg hs) (x : Int) :
    ∃ c pg2 hs2, playgroundGetColAt pg x = .ok (c, pg2) ∧ GetColPost pg hs x c pg2 hs2 := by
  by_cases h0 : x = 0
  · subst h0
    exact ⟨pg.originCol, pg, hs, by simp [playgroundGetColAt],
      found_post w 0 _ pg w.originAt (Or.inl rfl)⟩
  by_cases h1 : x = pg.endColX
  · subst h1
    exact ⟨pg.endCol, pg, hs, by simp [playgroundGetColAt, h0],
      found_post w _ _ pg w.endAt (Or.inl rfl)⟩
  by_cases h2 : x > pg.endColX
  · obtain ⟨hs2, hp⟩ := appendCol_post w x h0 h2
    exact ⟨_, _, hs2, by simp [playgroundGetColAt, h0, h1, h2], hp⟩
  by_cases h3 : x = pg.startColX
  · subst h3
    exact ⟨pg.startCol, pg, hs, by simp [playgroundGetColAt, h0, h1, h2],
      found_post w _ _ pg w.startAt (Or.inl rfl)⟩
  by_cases h4 : x < pg.startColX
  · obtain ⟨hs2, hp⟩ := prependCol_post w x h0 h4
    exact ⟨_, _, hs2, by simp [playgroundGetColAt, h0, h1, h2, h3, h4], hp⟩
  obtain ⟨c, pg2, hs2, he, hp⟩ := locateCol_post w x h0 (by omega) (by omega)
  exact ⟨c, pg2, hs2, by simp [playgroundGetColAt, h0, h1, h2, h3, h4, he], hp⟩

theorem playgroundGetColAt_shape {pg : Playground} {hs : List Nat} (w : WF pg hs) (x : Int) :
    ∃ c pg2 hs2 g, playgroundGetColAt pg x = .ok (c, pg2) ∧ GetColPost pg hs x c pg2 hs2 ∧
      Grown pg.heap c g hs hs2 := by
  by_cases h0 : x = 0
  · subst h0
    exact ⟨pg.originCol, pg, hs, 0, by simp [playgroundGetColAt],
      found_post w 0 _ pg w.originAt (Or.inl rfl), Grown.same _⟩
  by_cases h1 : x = pg.endColX
  · subst h1
    exact ⟨pg.endCol, pg, hs, 0, by simp [playgroundGetColAt, h0],
      found_post w _ _ pg w.endAt (Or.inl rfl), Grown.same _⟩
  by_cases h2 : x > pg.endColX
  · obtain ⟨hs2, hp, hg⟩ := appendCol_shape w x h0 h2
    exact ⟨_, _, hs2, _, by simp [playgroundGetColAt, h0, h1, h2], hp, hg⟩
  by_cases h3 : x = pg.startColX
  · subst h3
    exact ⟨pg.startCol, pg, hs, 0, by simp [playgroundGetColAt, h0, h1, h2],
      found_post w _ _ pg w.startAt (Or.inl rfl), Grown.same _⟩
  by_cases h4 : x < pg.startColX
  · obtain ⟨hs2, hp, hg⟩ := prependCol_shape w x h0 h4
    exact ⟨_, _, hs2, _, by simp [playgroundGetColAt, h0, h1, h2, h3, h4], hp, hg⟩
  obtain ⟨c, pg2, hs2, he, hp, hg⟩ := locateCol_shape w x h0 (by omega) (by omega)
  exact ⟨c, pg2, hs2, _, by simp [playgroundGetColAt, h0, h1, h2, h3, h4, he], hp, hg⟩

theorem createPlayground_WF : WF createPlayground [0] := by
  refine ⟨?_, by simp, ?_, rfl, rfl, ?_, ?_, ?_, ?_, ?_, ?_⟩
  · simp [Seg, createPlayground, createCol]
  · intro h hh
    simp only [List.mem_singleton] at hh
    subst hh
    decide
  · simp [colAtFrom, createPlayground, createCol]
  · simp [colAtFrom, createPlayground, createCol]
  · simp [wsum, Col.width, createPlayground, createCol]
  · simp [createPlayground, createCol]
  · simp [createPlayground, createCol]
  · intro h hh hty
    simp only [List.mem_singleton] at hh
    subst hh
    simp [createPlayground, createCol] at hty

/-! ## Shape of the chain during a placement cycle -/

theorem SameLinks.rfl_links (c : Col) : SameLinks c c := ⟨rfl, rfl, rfl, rfl⟩

theorem SameLinks.then_links {a b c : Col} (h1 : SameLinks a b) (h2 : SameLinks b c) :
    SameLinks a c :=
  ⟨h1.1.trans h2.1, h1.2.1.trans h2.2.1, h1.2.2.1.trans h2.2.2.1, h1.2.2.2.trans h2.2.2.2⟩

theorem SameShape.rfl_shape (pg : Playground) : SameShape pg pg :=
  ⟨fun _ => SameLinks.rfl_links _, rfl, rfl, rfl, rfl, rfl, rfl, rfl, rfl, rfl⟩

theorem SameShape.then_shape {a b c : Playground} (h1 : SameShape a b) (h2 : SameShape b c) :
    SameShape a c :=
  ⟨fun h => (h1.links h).then_links (h2.links h), h2.brk.trans h1.brk,
    h2.startCol.trans h1.startCol, h2.startColX.trans h1.startColX,
    h2.originCol.trans h1.originCol, h2.endCol.trans h1.endCol, h2.endColX.trans h1.endColX,
    h2.currentCol.trans h1.currentCol, h2.currentX.trans h1.currentX,
    h2.changedColsSize.trans h1.changedColsSize⟩

theorem SameBoard.rfl_board (pg : Playground) : SameBoard pg pg :=
  ⟨SameShape.rfl_shape pg, fun _ => rfl, fun _ => rfl⟩

theorem SameBoard.then_board {a b c : Playground} (h1 : SameBoard a b) (h2 : SameBoard b c) :
    SameBoard a c :=
  ⟨h1.shape.then_shape h2.shape, fun h => (h2.count h).trans (h1.count h),
    fun h => (h2.pieces h).trans (h1.pieces h)⟩

theorem SameShape.colAtFrom {pg pg2 : Playground} (s : SameShape pg pg2) (l : List Nat)
    (x0 x : Int) : colAtFrom pg2.heap l x0 x = colAtFrom pg.heap l x0 x :=
  colAtFrom_congr x0 x (fun a _ => ⟨(s.links a).1.symm, (s.links a).2.1.symm⟩)

theorem SameShape.wsum {pg pg2 : Playground} (s : SameShape pg pg2) (l : List Nat) :
    wsum pg2.heap l = wsum pg.heap l :=
  wsum_congr (fun a _ => by
    simp only [Col.width, (s.links a).1, (s.links a).2.1])

theorem SameShape.wf_of {pg pg2 : Playground} {hs : List Nat} (s : SameShape pg pg2)
    (w : WF pg hs) : WF pg2 hs := by
  refine ⟨?_, w.nodup, ?_, ?_, ?_, ?_, ?_, ?_, ?_, ?_, ?_⟩
  · exact (Seg_congr none none
      (fun a _ => ⟨(s.links a).2.2.1.symm, (s.links a).2.2.2.symm⟩)).mpr w.seg
  · rw [s.brk]; exact w.bound
  · rw [s.startCol]; exact w.first
  · rw [s.endCol]; exact w.last
  · rw [s.colAtFrom, s.startColX, s.originCol]; exact w.originAt
  · rw [s.colAtFrom, s.startColX, s.currentCol, s.currentX]; exact w.currentAt
  · rw [s.wsum, s.startColX, s.endColX]; exact w.total
  · rw [s.endCol, ← (s.links _).1]; exact w.endPieces
  · rw [s.startCol, ← (s.links _).1]; exact w.startPieces
  · intro h hh hty
    rw [← (s.links h).1] at hty
    rw [← (s.links h).2.1]
    exact w.padPos h hh hty

theorem playgroundTrackChange_cases {pg pg2 : Playground} {col y : Nat}
    (h : playgroundTrackChange pg col y = .ok pg2) :
    (pg2 = pg ∧ ¬ ((pg.heap col).changeY = (pg.heap col).size ∨ (pg.heap col).changeY > y)) ∨
    (((pg.heap col).changeY = (pg.heap col).size ∨ (pg.heap col).changeY > y) ∧
      y = (pg.heap col).size ∧
      pg2 = { pg with heap := modCol pg.heap col (fun c => { c with changeY := y }) }) ∨
    (((pg.heap col).changeY = (pg.heap col).size ∨ (pg.heap col).changeY > y) ∧
      y ≠ (pg.heap col).size ∧
      pg2 = { pg with heap := modCol pg.heap col (fun c => { c with changeY := y }),
                      changedCols := pg.changedCols ++ [col] }) := by
  unfold playgroundTrackChange at h
  by_cases h1 : (pg.heap col).changeY = (pg.heap col).size ∨ (pg.heap col).changeY > y
  · rw [if_pos h1] at h
    dsimp only at h
    simp only [modCol_same] at h
    by_cases h2 : y = (pg.heap col).size
    · rw [if_neg (by simpa using h2)] at h
      injection h with h
      exact Or.inr (Or.inl ⟨h1, h2, h.symm⟩)
    · rw [if_pos (by simpa using h2)] at h
      injection h with h
      exact Or.inr (Or.inr ⟨h1, h2, h.symm⟩)
  · rw [if_neg h1] at h
    injection h with h
    exact Or.inl ⟨h.symm, h1⟩

theorem modCol_changeY_board (pg : Playground) (col y : Nat) (cc : List Nat) :
    SameBoard pg { pg with heap := modCol pg.heap col (fun c => { c with changeY := y }),
                           changedCols := cc } := by
  refine ⟨⟨?_, rfl, rfl, rfl, rfl, rfl, rfl, rfl, rfl, rfl⟩, ?_, ?_⟩
  · intro k; by_cases hk : k = col <;> simp [modCol, hk, SameLinks]
  · intro k; by_cases hk : k = col <;> simp [modCol, hk]
  · intro k; by_cases hk : k = col <;> simp [modCol, hk]

theorem playgroundTrackChange_board {pg pg2 : Playground} {col y : Nat}
    (h : playgroundTrackChange pg col y = .ok pg2) :
    SameBoard pg pg2 ∧ pg2.pieceRemovals = pg.pieceRemovals := by
  rcases playgroundTrackChange_cases h with ⟨h1, _⟩ | ⟨_, _, h1⟩ | ⟨_, _, h1⟩
  · subst h1; exact ⟨SameBoard.rfl_board _, rfl⟩
  · subst h1; exact ⟨modCol_changeY_board pg col y pg.changedCols, rfl⟩
  · subst h1; exact ⟨modCol_changeY_board pg col y _, rfl⟩

theorem playgroundRemovePiece_board {pg pg2 : Playground} {col y : Nat}
    (h : playgroundRemovePiece pg col y = .ok pg2) :
    SameBoard pg pg2 ∧ pg2.pieceRemovals = pg.pieceRemovals ++ [(col, y)] := by
  unfold playgroundRemovePiece at h
  split_ifs at h with h1
  obtain ⟨hb, hr⟩ := playgroundTrackChange_board h
  refine ⟨⟨⟨hb.shape.links, hb.shape.brk, hb.shape.startCol, hb.shape.startColX,
    hb.shape.originCol, hb.shape.endCol, hb.shape.endColX, hb.shape.currentCol,
    hb.shape.currentX, hb.shape.changedColsSize⟩, hb.count, hb.pieces⟩, hr⟩

theorem Marks.then_marks {a b c : Playground} (h1 : Marks a b) (h2 : Marks b c) : Marks a c := by
  induction h2 with
  | refl => exact h1
  | step col y _ hr ih => exact Marks.step col y ih hr

theorem Marks.single {pg pg2 : Playground} {col y : Nat}
    (h : playgroundRemovePiece pg col y = .ok pg2) : Marks pg pg2 :=
  Marks.step col y (Marks.refl pg) h

theorem Marks.board {pg pg2 : Playground} (h : Marks pg pg2) : SameBoard pg pg2 := by
  induction h with
  | refl => exact SameBoard.rfl_board _
  | step col y _ hr ih => exact ih.then_board (playgroundRemovePiece_board hr).1

theorem Marks.removals {pg pg2 : Playground} (h : Marks pg pg2) :
    ∃ l, pg2.pieceRemovals = pg.pieceRemovals ++ l ∧ (l = [] → pg2 = pg) := by
  induction h with
  | refl => exact ⟨[], by simp, fun _ => rfl⟩
  | step col y _ hr ih =>
    obtain ⟨l, hl, _⟩ := ih
    refine ⟨l ++ [(col, y)], ?_, ?_⟩
    · rw [(playgroundRemovePiece_board hr).2, hl, List.append_assoc]
    · intro h; simp at h

theorem Marks.eq_of_removals {pg pg2 : Playground} (h : Marks pg pg2)
    (hl : pg2.pieceRemovals = pg.pieceRemovals) : pg2 = pg := by
  obtain ⟨l, h1, h2⟩ := h.removals
  apply h2
  rw [h1] at hl
  simpa using hl

theorem removeRun_marks (delY : Int) (lineEndCol : Nat) :
    ∀ (fuel : Nat) (pg : Playground) (nextCol : Option Nat) (nextY : Int) (pg2 : Playground),
      removeRun delY lineEndCol fuel pg nextCol nextY = .ok pg2 → Marks pg pg2 := by
  intro fuel
  induction fuel with
  | zero => intro pg nextCol nextY pg2 h; simp [removeRun] at h
  | succ f ih =>
    intro pg nextCol nextY pg2 h
    cases nextCol with
    | none =>
      simp only [removeRun] at h
      injection h with h; subst h; exact Marks.refl _
    | some nc =>
      simp only [removeRun] at h
      split_ifs at h with h1
      · cases hr : playgroundRemovePiece pg nc nextY.toNat with
        | error e => rw [hr] at h; simp at h
        | ok pg1 =>
          rw [hr] at h
          exact (Marks.single hr).then_marks (ih _ _ _ _ h)
      · injection h with h; subst h; exact Marks.refl _

theorem scanCell_marks {pg pg2 : Playground} {col y cp : Nat} {delY : Int}
    (h : scanCell pg col y cp delY = .ok pg2) : Marks pg pg2 := by
  unfold scanCell at h
  split at h
  · simp at h
  · split at h
    · simp at h
    · split_ifs at h
      · exact removeRun_marks _ _ _ _ _ _ _ h
      · injection h with h; subst h; exact Marks.refl _

theorem scanRows_marks :
    ∀ (fuel : Nat) (pg : Playground) (col y : Nat) (pg2 : Playground),
      scanRows fuel pg col y = .ok pg2 → Marks pg pg2 := by
  intro fuel
  induction fuel with
  | zero => intro pg col y pg2 h; simp [scanRows] at h
  | succ f ih =>
    intro pg col y pg2 h
    simp only [scanRows] at h
    split_ifs at h with h1
    · cases h2 : scanCell pg col y ((pg.heap col).pieces y) (-1) with
      | error e => rw [h2] at h; simp at h
      | ok pg1 =>
        rw [h2] at h
        dsimp only at h
        cases h3 : scanCell pg1 col y ((pg.heap col).pieces y) 0 with
        | error e => rw [h3] at h; simp at h
        | ok pg3 =>
          rw [h3] at h
          dsimp only at h
          cases h4 : scanCell pg3 col y ((pg.heap col).pieces y) 1 with
          | error e => rw [h4] at h; simp at h
          | ok pg4 =>
            rw [h4] at h
            dsimp only at h
            exact (((scanCell_marks h2).then_marks (scanCell_marks h3)).then_marks
              (scanCell_marks h4)).then_marks (ih _ _ _ _ h)
    · injection h with h; subst h; exact Marks.refl _

theorem scanVertical_marks :
    ∀ (n : Nat) (pg : Playground) (col lineColor lineLength : Nat) (pg2 : Playground),
      scanVertical n pg col lineColor lineLength = .ok pg2 → Marks pg pg2 := by
  intro n
  induction n with
  | zero =>
    intro pg col lc ll pg2 h
    simp only [scanVertical] at h
    injection h with h; subst h; exact Marks.refl _
  | succ y ih =>
    intro pg col lc ll pg2 h
    simp only [scanVertical] at h
    split_ifs at h with h1 h2 h3 h4
    · cases r1 : playgroundRemovePiece pg col y with
      | error e => rw [r1] at h; simp at h
      | ok pg1 =>
        rw [r1] at h; dsimp only at h
        cases r2 : playgroundRemovePiece pg1 col (y + 1) with
        | error e => rw [r2] at h; simp at h
        | ok pg3 =>
          rw [r2] at h; dsimp only at h
          cases r3 : playgroundRemovePiece pg3 col (y + 2) with
          | error e => rw [r3] at h; simp at h
          | ok pg4 =>
            rw [r3] at h; dsimp only at h
            cases r4 : playgroundRemovePiece pg4 col (y + 3) with
            | error e => rw [r4] at h; simp at h
            | ok pg5 =>
              rw [r4] at h; dsimp only at h
              exact ((((Marks.single r1).then_marks (Marks.single r2)).then_marks
                (Marks.single r3)).then_marks (Marks.single r4)).then_marks (ih _ _ _ _ _ h)
    · cases r1 : playgroundRemovePiece pg col y with
      | error e => rw [r1] at h; simp at h
      | ok pg1 =>
        rw [r1] at h; dsimp only at h
        exact (Marks.single r1).then_marks (ih _ _ _ _ _ h)
    · exact ih _ _ _ _ _ h
    · exact ih _ _ _ _ _ h
    · injection h with h; subst h; exact Marks.refl _

theorem removeLinesFrom_marks :
    ∀ (fuel : Nat) (pg : Playground) (i : Nat) (pg2 : Playground),
      removeLinesFrom fuel pg i = .ok pg2 → Marks pg pg2 := by
  intro fuel
  induction fuel with
  | zero => intro pg i pg2 h; simp [removeLinesFrom] at h
  | succ f ih =>
    intro pg i pg2 h
    simp only [removeLinesFrom] at h
    split_ifs at h with h1
    · cases r1 : scanRows ((pg.heap (pg.changedCols.getD i 0)).count + 1) pg
          (pg.changedCols.getD i 0) (pg.heap (pg.changedCols.getD i 0)).changeY with
      | error e => rw [r1] at h; simp at h
      | ok pg1 =>
        rw [r1] at h; dsimp only at h
        cases r2 : scanVertical (pg1.heap (pg.changedCols.getD i 0)).count pg1
            (pg.changedCols.getD i 0) PIECE_EMPTY 0 with
        | error e => rw [r2] at h; simp at h
        | ok pg3 =>
          rw [r2] at h; dsimp only at h
          exact ((scanRows_marks _ _ _ _ _ r1).then_marks (scanVertical_marks _ _ _ _ _ _ r2)).then_marks
            (ih _ _ _ h)
    · injection h with h; subst h; exact Marks.refl _

theorem playgroundRemoveLines_marks {pg pg2 : Playground}
    (h : playgroundRemoveLines pg = .ok pg2) : Marks pg pg2 :=
  removeLinesFrom_marks _ _ _ _ h

theorem foldl_modCol_links {α : Type} (g : α → Nat) (f : α → Col → Col)
    (hf : ∀ a c, SameLinks c (f a c)) (l : List α) (heap : Nat → Col) (h : Nat) :
    SameLinks (heap h) ((l.foldl (fun hp a => modCol hp (g a) (f a)) heap) h) := by
  induction l generalizing heap with
  | nil => exact SameLinks.rfl_links _
  | cons a t ih =>
    simp only [List.foldl_cons]
    refine SameLinks.then_links ?_ (ih _)
    by_cases hk : h = g a
    · subst hk; rw [modCol_same]; exact hf a _
    · rw [modCol_other _ _ hk]; exact SameLinks.rfl_links _

theorem playgroundCauseGravity_shape (pg : Playground) :
    SameShape pg (playgroundCauseGravity pg) := by
  refine ⟨?_, rfl, rfl, rfl, rfl, rfl, rfl, rfl, rfl, rfl⟩
  intro h
  simp only [playgroundCauseGravity, applyRemovals]
  refine SameLinks.then_links
    (foldl_modCol_links (fun r : Nat × Nat => r.1)
      (fun r c => { c with pieces := setPiece c.pieces r.2 PIECE_EMPTY })
      (fun _ _ => ⟨rfl, rfl, rfl, rfl⟩) pg.pieceRemovals pg.heap h) ?_
  exact foldl_modCol_links (fun c : Nat => c) (fun _ c => compactCol c)
    (fun _ _ => ⟨rfl, rfl, rfl, rfl⟩) pg.changedCols _ h

theorem clearChanges_board (pg : Playground) : SameBoard pg (clearChanges pg) := by
  have key : ∀ (l : List Nat) (heap : Nat → Col) (h : Nat),
      SameLinks (heap h)
        ((l.foldl (fun hp col => modCol hp col (fun c => { c with changeY := c.size })) heap) h) ∧
      ((l.foldl (fun hp col => modCol hp col (fun c => { c with changeY := c.size })) heap)
        h).count = (heap h).count ∧
      ((l.foldl (fun hp col => modCol hp col (fun c => { c with changeY := c.size })) heap)
        h).pieces = (heap h).pieces := by
    intro l
    induction l with
    | nil => intro heap h; exact ⟨SameLinks.rfl_links _, rfl, rfl⟩
    | cons a t ih =>
      intro heap h
      simp only [List.foldl_cons]
      obtain ⟨i1, i2, i3⟩ := ih (modCol heap a (fun c => { c with changeY := c.size })) h
      by_cases hk : h = a
      · subst hk
        rw [modCol_same] at i1 i2 i3
        exact ⟨SameLinks.then_links ⟨rfl, rfl, rfl, rfl⟩ i1, i2, i3⟩
      · rw [modCol_other _ _ hk] at i1 i2 i3
        exact ⟨i1, i2, i3⟩
  exact ⟨⟨fun h => (key _ _ h).1, rfl, rfl, rfl, rfl, rfl, rfl, rfl, rfl, rfl⟩,
    fun h => (key _ _ h).2.1, fun h => (key _ _ h).2.2⟩

theorem appendPiece_shape {pg pg2 : Playground} {col p : Nat}
    (h : appendPiece pg col p = .ok pg2) : SameShape pg pg2 := by
  unfold appendPiece at h
  dsimp only at h
  split at h
  · simp at h
  · rename_i pg1 h1
    injection h with h
    subst h
    have s1 := (playgroundTrackChange_board h1).1.shape
    refine ⟨?_, s1.brk, s1.startCol, s1.startColX, s1.originCol, s1.endCol, s1.endColX,
      s1.currentCol, s1.currentX, s1.changedColsSize⟩
    intro k
    have := s1.links k
    by_cases hk : k = col
    · subst hk
      simp only [modCol_same] at this ⊢
      exact ⟨this.1, this.2.1, this.2.2.1, this.2.2.2⟩
    · simp only [modCol_other _ _ hk] at this ⊢
      exact this

theorem stabilize_shape :
    ∀ (fuel : Nat) (pg pg2 : Playground), stabilize fuel pg = .ok pg2 → SameShape pg pg2 := by
  intro fuel
  induction fuel with
  | zero => intro pg pg2 h; simp [stabilize] at h
  | succ f ih =>
    intro pg pg2 h
    simp only [stabilize] at h
    split_ifs at h with h1
    · cases r1 : playgroundRemoveLines (playgroundCauseGravity pg) with
      | error e => rw [r1] at h; simp at h
      | ok pg1 =>
        rw [r1] at h; dsimp only at h
        exact ((playgroundCauseGravity_shape pg).then_shape
          (playgroundRemoveLines_marks r1).board.shape).then_shape (ih _ _ h)
    · injection h with h; subst h; exact SameShape.rfl_shape _

/-! ## Growing a col: `expandCol` -/

theorem split_unique {l1 l2 m1 m2 : List Nat} {a : Nat} (hnd : (l1 ++ a :: l2).Nodup)
    (h : l1 ++ a :: l2 = m1 ++ a :: m2) : l1 = m1 ∧ l2 = m2 := by
  induction l1 generalizing m1 with
  | nil =>
    cases m1 with
    | nil => simpa using h
    | cons b t =>
      simp only [List.nil_append, List.cons_append, List.cons.injEq] at h
      obtain ⟨hb, ht⟩ := h
      subst hb
      rw [ht] at hnd
      simp at hnd
  | cons c t ih =>
    cases m1 with
    | nil =>
      simp only [List.nil_append, List.cons_append, List.cons.injEq] at h
      obtain ⟨hb, ht⟩ := h
      subst hb
      simp at hnd
    | cons b t2 =>
      simp only [List.cons_append, List.cons.injEq] at h
      obtain ⟨hb, ht⟩ := h
      subst hb
      have hnd2 : (t ++ a :: l2).Nodup := by
        simp only [List.cons_append, List.nodup_cons] at hnd
        exact hnd.2
      obtain ⟨e1, e2⟩ := ih hnd2 ht
      exact ⟨by rw [e1], e2⟩

theorem WF.links_at {pg : Playground} {l1 l2 : List Nat} {h : Nat}
    (w : WF pg (l1 ++ h :: l2)) :
    (pg.heap h).prev = lastOr l1 none ∧ (pg.heap h).next = headOr l2 none := by
  have hseg := w.seg
  rw [Seg_append] at hseg
  exact ⟨hseg.2.1, hseg.2.2.1⟩

theorem lastOr_mem {l : List Nat} {a : Nat} (h : lastOr l none = some a) : a ∈ l := by
  rw [lastOr_none_eq] at h
  exact List.mem_of_getLast?_eq_some h

theorem headOr_mem {l : List Nat} {a : Nat} (h : headOr l none = some a) : a ∈ l := by
  rw [headOr_none_eq] at h
  exact List.mem_of_mem_head? h

theorem WF.next_eq {pg : Playground} {A B : List Nat} {col h : Nat}
    (w : WF pg (A ++ col :: B)) (hh : h ∈ A ++ col :: B)
    (hn : (pg.heap h).next = some col) : (pg.heap col).prev = some h := by
  obtain ⟨l1, l2, e⟩ := List.append_of_mem hh
  have w2 := w
  rw [e] at w2
  have hl := w2.links_at.2
  rw [hn] at hl
  cases l2 with
  | nil => simp at hl
  | cons c t =>
    simp only [headOr_cons, Option.some.injEq] at hl
    subst hl
    have e2 : A ++ col :: B = (l1 ++ [h]) ++ col :: t := by rw [e]; simp
    obtain ⟨e3, -⟩ := split_unique w.nodup e2
    rw [w.links_at.1, e3, lastOr_append]
    rfl

theorem WF.prev_eq {pg : Playground} {A B : List Nat} {col h : Nat}
    (w : WF pg (A ++ col :: B)) (hh : h ∈ A ++ col :: B)
    (hn : (pg.heap h).prev = some col) : (pg.heap col).next = some h := by
  obtain ⟨l1, l2, e⟩ := List.append_of_mem hh
  have w2 := w
  rw [e] at w2
  have hl := w2.links_at.1
  rw [hn] at hl
  rcases nil_or_snoc l1 with h1 | ⟨t, c, h1⟩
  · subst h1; simp at hl
  · subst h1
    rw [lastOr_append] at hl
    simp only [lastOr_singleton, Option.some.injEq] at hl
    subst hl
    have e2 : A ++ col :: B = t ++ col :: (h :: l2) := by rw [e]; simp
    obtain ⟨-, e3⟩ := split_unique w.nodup e2
    rw [w.links_at.2, e3]
    rfl

theorem Seg_map {heap H : Nat → Col} (r : Nat → Nat) :
    ∀ (l : List Nat) (p n : Option Nat), Seg heap p l n →
      (∀ h ∈ l, (H (r h)).prev = (heap h).prev.map r ∧ (H (r h)).next = (heap h).next.map r) →
      Seg H (p.map r) (l.map r) (n.map r) := by
  intro l
  induction l with
  | nil => intro p n _ _; trivial
  | cons a t ih =>
    intro p n hs hh
    obtain ⟨h1, h2, h3⟩ := hs
    have ha := hh a (List.mem_cons_self a t)
    refine ⟨?_, ?_, ih (some a) n h3 (fun h hm => hh h (List.mem_cons_of_mem a hm))⟩
    · rw [ha.1, h1]
    · rw [ha.2, h2]
      cases t <;> rfl

theorem colAtFrom_map {heap H : Nat → Col} (r : Nat → Nat) :
    ∀ (l : List Nat) (x0 x : Int),
      (∀ h ∈ l, (H (r h)).type = (heap h).type ∧ (H (r h)).width = (heap h).width) →
      colAtFrom H (l.map r) x0 x = (colAtFrom heap l x0 x).map r := by
  intro l
  induction l with
  | nil => intro x0 x _; rfl
  | cons a t ih =>
    intro x0 x hh
    have ha := hh a (List.mem_cons_self a t)
    have ht := fun h hm => hh h (List.mem_cons_of_mem a hm)
    rw [List.map_cons]
    rcases type_cases (heap a) with hty | hty
    · have hty2 : (H (r a)).type = .COL_PIECES := by rw [ha.1, hty]
      rw [colAtFrom_cons_pieces _ _ _ hty, colAtFrom_cons_pieces _ _ _ hty2, ih _ _ ht]
      by_cases hx : x = x0 <;> simp [hx]
    · have hty2 : (H (r a)).type = .COL_PADDING := by rw [ha.1, hty]
      have hw := ha.2
      rw [width_padding hty, width_padding hty2] at hw
      rw [colAtFrom_cons_padding _ _ _ hty, colAtFrom_cons_padding _ _ _ hty2, ih _ _ ht, hw]

theorem wsum_map {heap H : Nat → Col} (r : Nat → Nat) (l : List Nat)
    (hh : ∀ h ∈ l, (H (r h)).width = (heap h).width) :
    wsum H (l.map r) = wsum heap l := by
  induction l with
  | nil => rfl
  | cons a t ih =>
    rw [List.map_cons]
    simp only [wsum, hh a (List.mem_cons_self a t),
      ih (fun h hm => hh h (List.mem_cons_of_mem a hm))]

theorem reallocCol_heap (pg : Playground) (col k : Nat) :
    (reallocCol pg col).heap k =
      if k = pg.brk then
        { pg.heap col with
          size := (pg.heap col).size * 2
          changeY := if (pg.heap col).changeY = (pg.heap col).size then (pg.heap col).size * 2
            else (pg.heap col).changeY }
      else pg.heap k := by
  simp only [reallocCol, setCol_same]
  by_cases hc : (pg.heap col).changeY = (pg.heap col).size
  · by_cases hk : k = pg.brk
    · subst hk; simp [modCol, setCol, hc]
    · simp [modCol, setCol, hc, hk]
  · by_cases hk : k = pg.brk
    · subst hk; simp [modCol, setCol, hc]
    · simp [modCol, setCol, hc, hk]

theorem fixNext_heap (pg : Playground) (e k : Nat) :
    (fixNext pg e).heap k =
      if (pg.heap e).next = some k then { pg.heap k with prev := some e } else pg.heap k := by
  unfold fixNext
  cases hnx : (pg.heap e).next with
  | none => simp
  | some n =>
    by_cases hkn : k = n
    · subst hkn; simp [modCol]
    · have : ¬ n = k := fun h => hkn h.symm
      simp [modCol, hkn, this]

theorem fixPrev_heap (pg : Playground) (e k : Nat) :
    (fixPrev pg e).heap k =
      if (pg.heap e).prev = some k then { pg.heap k with next := some e } else pg.heap k := by
  unfold fixPrev
  cases hnx : (pg.heap e).prev with
  | none => simp
  | some n =>
    by_cases hkn : k = n
    · subst hkn; simp [modCol]
    · have : ¬ n = k := fun h => hkn h.symm
      simp [modCol, hkn, this]

theorem fixNamed_heap (pg : Playground) (col e : Nat) : (fixNamed pg col e).heap = pg.heap := by
  unfold fixNamed
  dsimp only
  split_ifs <;> rfl

theorem expandCol_heap_new (pg : Playground) (col : Nat)
    (hn : ∀ n, (pg.heap col).next = some n → n ≠ pg.brk)
    (hq : ∀ q, (pg.heap col).prev = some q → q ≠ pg.brk) :
    (expandCol pg col).2.heap pg.brk =
      { pg.heap col with
        size := (pg.heap col).size * 2
        changeY := if (pg.heap col).changeY = (pg.heap col).size then (pg.heap col).size * 2
          else (pg.heap col).changeY } := by
  have h1 : ¬ (pg.heap col).next = some pg.brk := fun h => hn _ h rfl
  have h2 : ¬ (pg.heap col).prev = some pg.brk := fun h => hq _ h rfl
  simp only [expandCol, fixNamed_heap, fixPrev_heap, fixNext_heap, reallocCol_heap, if_true, h1,
    h2, if_false]

theorem expandCol_heap_old (pg : Playground) (col : Nat) (k : Nat) (hk : k ≠ pg.brk)
    (hn : ∀ n, (pg.heap col).next = some n → n ≠ pg.brk) :
    (expandCol pg col).2.heap k =
      { pg.heap k with
        prev := if (pg.heap col).next = some k then some pg.brk else (pg.heap k).prev
        next := if (pg.heap col).prev = some k then some pg.brk else (pg.heap k).next } := by
  have h1 : ¬ (pg.heap col).next = some pg.brk := fun h => hn _ h rfl
  simp only [expandCol, fixNamed_heap, fixPrev_heap, fixNext_heap, reallocCol_heap, if_true, h1,
    hk, if_false]
  split_ifs <;> rfl

theorem expandCol_fields (pg : Playground) (col : Nat)
    (hn : ∀ n, (pg.heap col).next = some n → n ≠ pg.brk) :
    (expandCol pg col).1 = pg.brk ∧
    (expandCol pg col).2.brk = pg.brk + 1 ∧
    (expandCol pg col).2.startColX = pg.startColX ∧
    (expandCol pg col).2.endColX = pg.endColX ∧
    (expandCol pg col).2.currentX = pg.currentX ∧
    (expandCol pg col).2.changedCols = pg.changedCols ∧
    (expandCol pg col).2.changedColsSize = pg.changedColsSize ∧
    (expandCol pg col).2.pieceRemovals = pg.pieceRemovals ∧
    (expandCol pg col).2.startCol = (if (pg.heap col).prev = none then pg.brk else pg.startCol) ∧
    (expandCol pg col).2.endCol = (if (pg.heap col).next = none then pg.brk else pg.endCol) ∧
    (expandCol pg col).2.originCol = rename col pg.brk pg.originCol ∧
    (expandCol pg col).2.currentCol = rename col pg.brk pg.currentCol := by
  have h1 : ¬ (pg.heap col).next = some pg.brk := fun h => hn _ h rfl
  have a1 : ∀ p : Playground, ∀ e, (fixNext p e).brk = p.brk ∧ (fixNext p e).startColX = p.startColX ∧
      (fixNext p e).endColX = p.endColX ∧ (fixNext p e).currentX = p.currentX ∧
      (fixNext p e).changedCols = p.changedCols ∧
      (fixNext p e).changedColsSize = p.changedColsSize ∧
      (fixNext p e).pieceRemovals = p.pieceRemovals ∧ (fixNext p e).startCol = p.startCol ∧
      (fixNext p e).originCol = p.originCol ∧ (fixNext p e).currentCol = p.currentCol ∧
      (fixNext p e).endCol = (if (p.heap e).next = none then e else p.endCol) := by
    intro p e
    unfold fixNext
    cases (p.heap e).next <;> simp
  have a2 : ∀ p : Playground, ∀ e, (fixPrev p e).brk = p.brk ∧ (fixPrev p e).startColX = p.startColX ∧
      (fixPrev p e).endColX = p.endColX ∧ (fixPrev p e).currentX = p.currentX ∧
      (fixPrev p e).changedCols = p.changedCols ∧
      (fixPrev p e).changedColsSize = p.changedColsSize ∧
      (fixPrev p e).pieceRemovals = p.pieceRemovals ∧ (fixPrev p e).endCol = p.endCol ∧
      (fixPrev p e).originCol = p.originCol ∧ (fixPrev p e).currentCol = p.currentCol ∧
      (fixPrev p e).startCol = (if (p.heap e).prev = none then e else p.startCol) := by
    intro p e
    unfold fixPrev
    cases (p.heap e).prev <;> simp
  have a3 : ∀ p : Playground, ∀ e, (fixNamed p col e).brk = p.brk ∧
      (fixNamed p col e).startColX = p.startColX ∧
      (fixNamed p col e).endColX = p.endColX ∧ (fixNamed p col e).currentX = p.currentX ∧
      (fixNamed p col e).changedCols = p.changedCols ∧
      (fixNamed p col e).changedColsSize = p.changedColsSize ∧
      (fixNamed p col e).pieceRemovals = p.pieceRemovals ∧
      (fixNamed p col e).endCol = p.endCol ∧ (fixNamed p col e).startCol = p.startCol ∧
      (fixNamed p col e).originCol = rename col e p.originCol ∧
      (fixNamed p col e).currentCol = rename col e p.currentCol := by
    intro p e
    unfold fixNamed rename
    dsimp only
    by_cases c1 : col = p.originCol
    · have c1s : p.originCol = col := c1.symm
      by_cases c2 : col = p.currentCol
      · have c2s : p.currentCol = col := c2.symm
        simp [c1s, c2s]
      · have c2s : ¬ p.currentCol = col := fun h => c2 h.symm
        simp [c1s, c2, c2s]
    · have c1s : ¬ p.originCol = col := fun h => c1 h.symm
      by_cases c2 : col = p.currentCol
      · have c2s : p.currentCol = col := c2.symm
        simp [c1, c1s, c2s]
      · have c2s : ¬ p.currentCol = col := fun h => c2 h.symm
        simp [c1, c1s, c2, c2s]
  have b1 := a1 (reallocCol pg col) pg.brk
  have b2 := a2 (fixNext (reallocCol pg col) pg.brk) pg.brk
  have b3 := a3 (fixPrev (fixNext (reallocCol pg col) pg.brk) pg.brk) pg.brk
  have hx : ((fixNext (reallocCol pg col) pg.brk).heap pg.brk).prev = (pg.heap col).prev := by
    simp only [fixNext_heap, reallocCol_heap, if_true, h1, if_false]
  have hy : ((reallocCol pg col).heap pg.brk).next = (pg.heap col).next := by
    simp only [reallocCol_heap, if_true]
  simp only [expandCol]
  refine ⟨trivial, ?_, ?_, ?_, ?_, ?_, ?_, ?_, ?_, ?_, ?_, ?_⟩
  · rw [b3.1, b2.1, b1.1]; rfl
  · rw [b3.2.1, b2.2.1, b1.2.1]; rfl
  · rw [b3.2.2.1, b2.2.2.1, b1.2.2.1]; rfl
  · rw [b3.2.2.2.1, b2.2.2.2.1, b1.2.2.2.1]; rfl
  · rw [b3.2.2.2.2.1, b2.2.2.2.2.1, b1.2.2.2.2.1]; rfl
  · rw [b3.2.2.2.2.2.1, b2.2.2.2.2.2.1, b1.2.2.2.2.2.1]; rfl
  · rw [b3.2.2.2.2.2.2.1, b2.2.2.2.2.2.2.1, b1.2.2.2.2.2.2.1]; rfl
  · rw [b3.2.2.2.2.2.2.2.2.1, b2.2.2.2.2.2.2.2.2.2.2, hx, b1.2.2.2.2.2.2.2.1]; rfl
  · rw [b3.2.2.2.2.2.2.2.1, b2.2.2.2.2.2.2.2.1, b1.2.2.2.2.2.2.2.2.2.2, hy]; rfl
  · rw [b3.2.2.2.2.2.2.2.2.2.1, b2.2.2.2.2.2.2.2.2.1, b1.2.2.2.2.2.2.2.2.1]; rfl
  · rw [b3.2.2.2.2.2.2.2.2.2.2, b2.2.2.2.2.2.2.2.2.2.1, b1.2.2.2.2.2.2.2.2.2.1]; rfl

theorem lastOr_eq_none {l : List Nat} (h : lastOr l none = none) : l = [] := by
  rw [lastOr_none_eq] at h
  simpa using h

theorem headOr_eq_none {l : List Nat} (h : headOr l none = none) : l = [] := by
  cases l with
  | nil => rfl
  | cons a t => simp at h

theorem lastOr_some_ne_none (l : List Nat) (d : Nat) : lastOr l (some d) ≠ none := by
  induction l generalizing d with
  | nil => simp
  | cons a t ih => rw [lastOr_cons]; exact ih a

theorem rename_of_ne {col new h : Nat} (hne : h ≠ col) : rename col new h = h := by
  simp [rename, hne]

theorem rename_self (col new : Nat) : rename col new col = new := by
  simp [rename]

theorem expandCol_wf {pg : Playground} {A B : List Nat} {col : Nat}
    (w : WF pg (A ++ col :: B)) (hty : (pg.heap col).type = .COL_PIECES) :
    WF (expandCol pg col).2 ((A ++ col :: B).map (rename col pg.brk)) ∧
    (∀ x1, colAtFrom (expandCol pg col).2.heap ((A ++ col :: B).map (rename col pg.brk))
        (expandCol pg col).2.startColX x1 =
      (colAtFrom pg.heap (A ++ col :: B) pg.startColX x1).map (rename col pg.brk)) ∧
    (∀ h, h ∈ A ++ col :: B → h ≠ col →
      ((expandCol pg col).2.heap h).count = (pg.heap h).count ∧
      ((expandCol pg col).2.heap h).changeY = (pg.heap h).changeY ∧
      ((expandCol pg col).2.heap h).pieces = (pg.heap h).pieces ∧
      ((expandCol pg col).2.heap h).size = (pg.heap h).size ∧
      ((expandCol pg col).2.heap h).type = (pg.heap h).type) := by
  have hl := w.links_at
  have hb := w.bound
  have hnd := w.nodup
  have hcolA : col ∉ A := by
    intro h
    exact List.disjoint_of_nodup_append hnd h (List.mem_cons_self _ _)
  have hcolB : col ∉ B := by
    have := (List.nodup_append.mp hnd).2.1
    exact (List.nodup_cons.mp this).1
  have hn : ∀ n, (pg.heap col).next = some n → n ≠ pg.brk := by
    intro n hn
    rw [hl.2] at hn
    have := hb n (by simp [headOr_mem hn])
    omega
  have hq : ∀ q, (pg.heap col).prev = some q → q ≠ pg.brk := by
    intro q hq
    rw [hl.1] at hq
    have := hb q (by simp [lastOr_mem hq])
    omega
  have hnc : ¬ (pg.heap col).next = some col := by
    intro h
    rw [hl.2] at h
    exact hcolB (headOr_mem h)
  have hpc : ¬ (pg.heap col).prev = some col := by
    intro h
    rw [hl.1] at h
    exact hcolA (lastOr_mem h)
  obtain ⟨f1, f2, f3, f4, f5, f6, f7, f8, f9, f10, f11, f12⟩ := expandCol_fields pg col hn
  have hnew := expandCol_heap_new pg col hn hq
  have hold := fun k hk => expandCol_heap_old pg col k hk hn
  have hne : ∀ h ∈ A ++ col :: B, h ≠ pg.brk := fun h hh => Nat.ne_of_lt (hb h hh)
  -- pointers of the renamed cols
  have hptr : ∀ h ∈ A ++ col :: B,
      ((expandCol pg col).2.heap (rename col pg.brk h)).prev =
        (pg.heap h).prev.map (rename col pg.brk) ∧
      ((expandCol pg col).2.heap (rename col pg.brk h)).next =
        (pg.heap h).next.map (rename col pg.brk) := by
    intro h hh
    by_cases hc : h = col
    · subst hc
      rw [rename_self, hnew]
      constructor
      · cases hp : (pg.heap h).prev with
        | none => rfl
        | some q =>
          have : q ≠ h := fun e => hpc (by rw [hp, e])
          simp [rename, this]
      · cases hp : (pg.heap h).next with
        | none => rfl
        | some q =>
          have : q ≠ h := fun e => hnc (by rw [hp, e])
          simp [rename, this]
    · rw [rename_of_ne hc, hold h (hne h hh)]
      constructor
      · by_cases c1 : (pg.heap col).next = some h
        · have : (pg.heap h).prev = some col := by
            rw [hl.2] at c1
            cases B with
            | nil => simp at c1
            | cons b t =>
              simp only [headOr_cons, Option.some.injEq] at c1
              subst c1
              have w2 : WF pg ((A ++ [col]) ++ b :: t) := by
                rw [List.append_assoc]; exact w
              rw [w2.links_at.1, lastOr_append]
              rfl
          simp [c1, this, rename]
        · have c2 : ¬ (pg.heap h).prev = some col := fun e => c1 (w.prev_eq hh e)
          simp only [c1, if_false]
          cases hp : (pg.heap h).prev with
          | none => rfl
          | some q =>
            have : q ≠ col := fun e => c2 (by rw [hp, e])
            simp [rename, this]
      · by_cases c1 : (pg.heap col).prev = some h
        · have : (pg.heap h).next = some col := by
            rw [hl.1] at c1
            rcases nil_or_snoc A with e | ⟨t, b, e⟩
            · subst e; simp at c1
            · subst e
              rw [lastOr_append] at c1
              simp only [lastOr_singleton, Option.some.injEq] at c1
              subst c1
              have w2 : WF pg (t ++ b :: (col :: B)) := by
                have e : t ++ b :: (col :: B) = (t ++ [b]) ++ col :: B := by simp
                rw [e]; exact w
              rw [w2.links_at.2]
              rfl
          simp [c1, this, rename]
        · have c2 : ¬ (pg.heap h).next = some col := fun e => c1 (w.next_eq hh e)
          simp only [c1, if_false]
          cases hp : (pg.heap h).next with
          | none => rfl
          | some q =>
            have : q ≠ col := fun e => c2 (by rw [hp, e])
            simp [rename, this]
  have hdat : ∀ h ∈ A ++ col :: B,
      ((expandCol pg col).2.heap (rename col pg.brk h)).type = (pg.heap h).type ∧
      ((expandCol pg col).2.heap (rename col pg.brk h)).width = (pg.heap h).width := by
    intro h hh
    by_cases hc : h = col
    · subst hc
      rw [rename_self, hnew]
      simp [Col.width, hty]
    · rw [rename_of_ne hc, hold h (hne h hh)]
      simp [Col.width]
  have hcolAt : ∀ x1, colAtFrom (expandCol pg col).2.heap
      ((A ++ col :: B).map (rename col pg.brk)) (expandCol pg col).2.startColX x1 =
      (colAtFrom pg.heap (A ++ col :: B) pg.startColX x1).map (rename col pg.brk) := by
    intro x1
    rw [f3]
    exact colAtFrom_map _ _ _ _ hdat
  have hstart : (expandCol pg col).2.startCol = rename col pg.brk pg.startCol := by
    rw [f9, hl.1]
    have hf := w.first
    cases A with
    | nil =>
      simp only [List.nil_append, List.head?_cons, Option.some.injEq] at hf
      rw [← hf, rename_self]; simp
    | cons a t =>
      simp only [List.cons_append, List.head?_cons, Option.some.injEq] at hf
      have : a ≠ col := fun e => hcolA (by rw [← e]; exact List.mem_cons_self _ _)
      rw [← hf, rename_of_ne this, if_neg]
      rw [lastOr_cons]
      exact lastOr_some_ne_none _ _
  have hend : (expandCol pg col).2.endCol = rename col pg.brk pg.endCol := by
    rw [f10, hl.2]
    have hf := w.last
    rw [← lastOr_none_eq, lastOr_append, lastOr_cons] at hf
    cases B with
    | nil =>
      simp only [lastOr_nil, Option.some.injEq] at hf
      rw [← hf, rename_self]; simp
    | cons b t =>
      have hm : pg.endCol ∈ b :: t := by
        rw [lastOr_ne_nil (List.cons_ne_nil _ _)] at hf
        exact lastOr_mem hf
      have : pg.endCol ≠ col := fun e => hcolB (by rw [← e]; exact hm)
      rw [rename_of_ne this, if_neg]
      simp
  have hinj : ∀ a ∈ A ++ col :: B, ∀ b ∈ A ++ col :: B,
      rename col pg.brk a = rename col pg.brk b → a = b := by
    intro a ha b hb2 e
    have h1 := hne a ha
    have h2 := hne b hb2
    unfold rename at e
    split_ifs at e with c1 c2 c2
    · rw [c1, c2]
    · exact absurd e.symm h2
    · exact absurd e h1
    · exact e
  refine ⟨⟨?_, ?_, ?_, ?_, ?_, ?_, ?_, ?_, ?_, ?_, ?_⟩, hcolAt, ?_⟩
  · exact Seg_map _ _ none none w.seg hptr
  · exact List.Nodup.map_on hinj hnd
  · intro h hh
    rw [List.mem_map] at hh
    obtain ⟨a, ha, rfl⟩ := hh
    rw [f2]
    have := hb a ha
    unfold rename
    split_ifs <;> omega
  · rw [List.head?_map, w.first, hstart]; rfl
  · rw [List.getLast?_map, w.last, hend]; rfl
  · rw [hcolAt, f11, w.originAt]; rfl
  · rw [f5, hcolAt, f12, w.currentAt]; rfl
  · rw [f3, f4, wsum_map _ _ (fun h hh => (hdat h hh).2)]
    exact w.total
  · rw [hend, (hdat _ (colAtFrom_mem w.endAt)).1]
    exact w.endPieces
  · rw [hstart, (hdat _ (colAtFrom_mem w.startAt)).1]
    exact w.startPieces
  · intro h hh hpad
    rw [List.mem_map] at hh
    obtain ⟨a, ha, rfl⟩ := hh
    have hac : a ≠ col := by
      intro e
      subst e
      rw [(hdat a ha).1, hty] at hpad
      exact absurd hpad (by decide)
    rw [rename_of_ne hac] at hpad ⊢
    rw [hold a (hne a ha)] at hpad ⊢
    exact w.padPos a ha hpad
  · intro h hh hc
    rw [hold h (hne h hh)]
    exact ⟨rfl, rfl, rfl, rfl, rfl⟩

/-! ## The chain invariant holds in every reachable playground -/

theorem cycle_shape {pg1 pg2 : Playground} {col p : Nat}
    (h : (match appendPiece pg1 col p with
      | .error e => .error e
      | .ok q1 =>
        match playgroundRemoveLines q1 with
        | .error e => .error e
        | .ok q2 =>
          match stabilize (totalPieces q2 + 1) q2 with
          | .error e => .error e
          | .ok q3 => .ok (clearChanges q3)) = Except.ok pg2) :
    SameShape pg1 pg2 := by
  cases h1 : appendPiece pg1 col p with
  | error e => rw [h1] at h; simp at h
  | ok q1 =>
    rw [h1] at h; dsimp only at h
    cases h2 : playgroundRemoveLines q1 with
    | error e => rw [h2] at h; simp at h
    | ok q2 =>
      rw [h2] at h; dsimp only at h
      cases h3 : stabilize (totalPieces q2 + 1) q2 with
      | error e => rw [h3] at h; simp at h
      | ok q3 =>
        rw [h3] at h; dsimp only at h
        injection h with h
        subst h
        exact (((appendPiece_shape h1).then_shape (playgroundRemoveLines_marks h2).board.shape).then_shape
          (stabilize_shape _ _ _ h3)).then_shape (clearChanges_board q3).shape

theorem playgroundPlacePiece_wf {pg pg2 : Playground} {hs : List Nat} {x : Int} {p : Nat}
    (w : WF pg hs) (h : playgroundPlacePiece pg x p = .ok pg2) :
    ∃ hs2, WF pg2 hs2 ∧ ∀ x1, (colAtFrom pg.heap hs pg.startColX x1).isSome →
      (colAtFrom pg2.heap hs2 pg2.startColX x1).isSome := by
  obtain ⟨c, pg0, hs0, hg, post⟩ := playgroundGetColAt_post w x
  unfold playgroundPlacePiece at h
  rw [hg] at h
  dsimp only at h
  have hkeep : ∀ x1, (colAtFrom pg.heap hs pg.startColX x1).isSome →
      (colAtFrom pg0.heap hs0 pg0.startColX x1).isSome := by
    intro x1 hx1
    by_cases e : x1 = x
    · subst e; rw [post.here]; rfl
    · rw [post.frame x1 e]; exact hx1
  by_cases hfull : (pg0.heap c).count = (pg0.heap c).size
  · rw [if_pos hfull] at h
    obtain ⟨A, B, e, -, hty⟩ := colAtFrom_some post.here
    have w0 := post.wf
    rw [e] at w0
    obtain ⟨w1, hcol, -⟩ := expandCol_wf w0 hty
    have s := cycle_shape h
    refine ⟨_, s.wf_of w1, ?_⟩
    intro x1 hx1
    rw [s.colAtFrom, s.startColX, hcol, ← e]
    have := hkeep x1 hx1
    cases hc : colAtFrom pg0.heap hs0 pg0.startColX x1 with
    | none => rw [hc] at this; simp at this
    | some v => rfl
  · rw [if_neg hfull] at h
    have s := cycle_shape h
    refine ⟨hs0, s.wf_of post.wf, ?_⟩
    intro x1 hx1
    rw [s.colAtFrom, s.startColX]
    exact hkeep x1 hx1

theorem Reachable.wf_chain {pg : Playground} (h : Reachable pg) : ∃ hs, WF pg hs := by
  induction h with
  | init => exact ⟨[0], createPlayground_WF⟩
  | place x p _ _ hp ih =>
    obtain ⟨hs, w⟩ := ih
    obtain ⟨hs2, w2, -⟩ := playgroundPlacePiece_wf w hp
    exact ⟨hs2, w2⟩

/-! ## Runs on the empty playground, evaluated -/

set_option maxRecDepth 100000 in
set_option maxHeartbeats 4000000 in
/-- A row of four started at a position of at least 2: three placements stay, the fourth clears the row. -/
theorem row_far_right (A : Nat) (hA : A ≤ 253) (n : Nat) (hn : 2 ≤ n) :
    (∃ pg3, placeAll createPlayground [((n : Int), A), ((n : Int) + 1, A), ((n : Int) + 2, A)] = .ok pg3 ∧
      stackAt pg3 ((n : Int)) = some [A] ∧ stackAt pg3 ((n : Int) + 1) = some [A] ∧
      stackAt pg3 ((n : Int) + 2) = some [A]) ∧
    (∃ pg4, placeAll createPlayground [((n : Int), A), ((n : Int) + 1, A), ((n : Int) + 2, A), ((n : Int) + 3, A)] = .ok pg4 ∧
      stackAt pg4 ((n : Int)) = some [] ∧ stackAt pg4 ((n : Int) + 1) = some [] ∧
      stackAt pg4 ((n : Int) + 2) = some [] ∧ stackAt pg4 ((n : Int) + 3) = some []) := by
  have h1 : ¬ (A = 255) := by omega
  have h2 : ¬ (255 = A) := by omega
  have f0 : ¬ n = 0 := by omega
  have f1 : 0 < n := by omega
  have f2 : 1 < n := by omega
  have f3 : ¬ ((n : Int) + 1 = 0) := by omega
  have f4 : ¬ ((n : Int) + 2 = 0) := by omega
  have f5 : ¬ ((n : Int) + 3 = 0) := by omega
  have f6 : (n : Int) + 1 + 1 = (n : Int) + 2 := by omega
  have f7 : (n : Int) + 2 + 1 = (n : Int) + 3 := by omega
  have f8 : ((n - 1 : Nat) : Int) = (n : Int) - 1 := by omega
  simp [placeAll, playgroundPlacePiece, playgroundGetColAt, createPlayground, appendPiece,
    playgroundTrackChange, playgroundRemoveLines, removeLinesFrom, scanRows, scanCell, scanLine,
    scanVertical, stabilize, clearChanges, totalPieces, chain, chainFrom, stackAt, colAt,
    colAtFrom, Col.stack, modCol, setCol, setPiece, createCol, createPaddingCol, MIN_COL_SIZE,
    INITIAL_CHANGES_SIZE, PIECE_EMPTY, MIN_LINE_COUNT, removeRun, playgroundRemovePiece,
    List.range_succ, List.getD, h1, h2, playgroundCauseGravity, applyRemovals, compactCol,
    compactLoop, appendCol, linkAfterEnd, prependCol, linkBeforeStart, locateCol, seekCol,
    walkForward, walkBackward, splitPadding, replacePadding, Col.width, f0, f1, f2, f3, f4, f5, f6, f7, f8]

set_option maxRecDepth 100000 in
set_option maxHeartbeats 4000000 in
/-- A row of four started at a position of at most -5. -/
theorem row_far_left (A : Nat) (hA : A ≤ 253) (n : Nat) (hn : 5 ≤ n) :
    (∃ pg3, placeAll createPlayground [(-(n : Int), A), (-(n : Int) + 1, A), (-(n : Int) + 2, A)] = .ok pg3 ∧
      stackAt pg3 (-(n : Int)) = some [A] ∧ stackAt pg3 (-(n : Int) + 1) = some [A] ∧
      stackAt pg3 (-(n : Int) + 2) = some [A]) ∧
    (∃ pg4, placeAll createPlayground [(-(n : Int), A), (-(n : Int) + 1, A), (-(n : Int) + 2, A), (-(n : Int) + 3, A)] = .ok pg4 ∧
      stackAt pg4 (-(n : Int)) = some [] ∧ stackAt pg4 (-(n : Int) + 1) = some [] ∧
      stackAt pg4 (-(n : Int) + 2) = some [] ∧ stackAt pg4 (-(n : Int) + 3) = some []) := by
  have h1 : ¬ (A = 255) := by omega
  have h2 : ¬ (255 = A) := by omega
  have f0 : ¬ n = 0 := by omega
  have f1 : 0 < n := by omega
  have f2 : 1 < n := by omega
  have f3 : ((n - 1 : Nat) : Int) = (n : Int) - 1 := by omega
  have f4 : ¬ ((n:Int) < 0) := by omega
  have f5 : ¬ (-(n:Int) + 1 = 0) := by omega
  have f6 : ¬ (-(n:Int) + 2 = 0) := by omega
  have f7 : ¬ (-(n:Int) + 3 = 0) := by omega
  have f8 : ¬ n ≤ 1 := by omega
  have f9 : ¬ n = 1 := by omega
  have f10 : ¬ n = 2 := by omega
  have f11 : ¬ n = 3 := by omega
  have f12 : ¬ n = 4 := by omega
  have f13 : ¬ n ≤ 2 := by omega
  have f14 : ¬ n ≤ 3 := by omega
  have f15 : ¬ n ≤ 4 := by omega
  have f16 : 2 < n := by omega
  have f17 : 3 < n := by omega
  have f18 : 4 < n := by omega
  have f19 : ¬ n < 2 := by omega
  have f20 : ¬ n < 3 := by omega
  have f21 : ¬ n < 4 := by omega
  have f22 : ¬ n < 5 := by omega
  have f23 : -(n:Int) + 1 + 1 = -(n:Int) + 2 := by omega
  have f24 : -(n:Int) + 2 + 1 = -(n:Int) + 3 := by omega
  have f25 : (n:Int) + (-(n:Int) + 2) = 2 := by omega
  have f26 : (n:Int) + (-(n:Int) + 3) = 3 := by omega
  have f27 : (n:Int) + (-(n:Int) + 1) = 1 := by omega
  simp [placeAll, playgroundPlacePiece, playgroundGetColAt, createPlayground, appendPiece,
    playgroundTrackChange, playgroundRemoveLines, removeLinesFrom, scanRows, scanCell, scanLine,
    scanVertical, stabilize, clearChanges, totalPieces, chain, chainFrom, stackAt, colAt,
    colAtFrom, Col.stack, modCol, setCol, setPiece, createCol, createPaddingCol, MIN_COL_SIZE,
    INITIAL_CHANGES_SIZE, PIECE_EMPTY, MIN_LINE_COUNT, removeRun, playgroundRemovePiece,
    List.range_succ, List.getD, h1, h2, playgroundCauseGravity, applyRemovals, compactCol,
    compactLoop, appendCol, linkAfterEnd, prependCol, linkBeforeStart, locateCol, seekCol,
    walkForward, walkBackward, splitPadding, replacePadding, Col.width, f0, f1, f2, f3, f4, f5, f6, f7, f8, f9, f10, f11, f12, f13, f14, f15, f16, f17, f18, f19, f20, f21, f22, f23, f24, f25, f26, f27]

set_option maxRecDepth 100000 in
set_option maxHeartbeats 4000000 in
/-- A row of four started at position 1. -/
theorem row_at_one (A : Nat) (hA : A ≤ 253) :
    (∃ pg3, placeAll createPlayground [((1 : Int), A), ((1 : Int) + 1, A), ((1 : Int) + 2, A)] = .ok pg3 ∧
      stackAt pg3 ((1 : Int)) = some [A] ∧ stackAt pg3 ((1 : Int) + 1) = some [A] ∧
      stackAt pg3 ((1 : Int) + 2) = some [A]) ∧
    (∃ pg4, placeAll createPlayground [((1 : Int), A), ((1 : Int) + 1, A), ((1 : Int) + 2, A), ((1 : Int) + 3, A)] = .ok pg4 ∧
      stackAt pg4 ((1 : Int)) = some [] ∧ stackAt pg4 ((1 : Int) + 1) = some [] ∧
      stackAt pg4 ((1 : Int) + 2) = some [] ∧ stackAt pg4 ((1 : Int) + 3) = some []) := by
  have h1 : ¬ (A = 255) := by omega
  have h2 : ¬ (255 = A) := by omega
  simp [placeAll, playgroundPlacePiece, playgroundGetColAt, createPlayground, appendPiece,
    playgroundTrackChange, playgroundRemoveLines, removeLinesFrom, scanRows, scanCell, scanLine,
    scanVertical, stabilize, clearChanges, totalPieces, chain, chainFrom, stackAt, colAt,
    colAtFrom, Col.stack, modCol, setCol, setPiece, createCol, createPaddingCol, MIN_COL_SIZE,
    INITIAL_CHANGES_SIZE, PIECE_EMPTY, MIN_LINE_COUNT, removeRun, playgroundRemovePiece,
    List.range_succ, List.getD, h1, h2, playgroundCauseGravity, applyRemovals, compactCol,
    compactLoop, appendCol, linkAfterEnd, prependCol, linkBeforeStart, locateCol, seekCol,
    walkForward, walkBackward, splitPadding, replacePadding, Col.width]

set_option maxRecDepth 100000 in
set_option maxHeartbeats 4000000 in
/-- A row of four started at position 0. -/
theorem row_at_zero (A : Nat) (hA : A ≤ 253) :
    (∃ pg3, placeAll createPlayground [((0 : Int), A), ((0 : Int) + 1, A), ((0 : Int) + 2, A)] = .ok pg3 ∧
      stackAt pg3 ((0 : Int)) = some [A] ∧ stackAt pg3 ((0 : Int) + 1) = some [A] ∧
      stackAt pg3 ((0 : Int) + 2) = some [A]) ∧
    (∃ pg4, placeAll createPlayground [((0 : Int), A), ((0 : Int) + 1, A), ((0 : Int) + 2, A), ((0 : Int) + 3, A)] = .ok pg4 ∧
      stackAt pg4 ((0 : Int)) = some [] ∧ stackAt pg4 ((0 : Int) + 1) = some [] ∧
      stackAt pg4 ((0 : Int) + 2) = some [] ∧ stackAt pg4 ((0 : Int) + 3) = some []) := by
  have h1 : ¬ (A = 255) := by omega
  have h2 : ¬ (255 = A) := by omega
  simp [placeAll, playgroundPlacePiece, playgroundGetColAt, createPlayground, appendPiece,
    playgroundTrackChange, playgroundRemoveLines, removeLinesFrom, scanRows, scanCell, scanLine,
    scanVertical, stabilize, clearChanges, totalPieces, chain, chainFrom, stackAt, colAt,
    colAtFrom, Col.stack, modCol, setCol, setPiece, createCol, createPaddingCol, MIN_COL_SIZE,
    INITIAL_CHANGES_SIZE, PIECE_EMPTY, MIN_LINE_COUNT, removeRun, playgroundRemovePiece,
    List.range_succ, List.getD, h1, h2, playgroundCauseGravity, applyRemovals, compactCol,
    compactLoop, appendCol, linkAfterEnd, prependCol, linkBeforeStart, locateCol, seekCol,
    walkForward, walkBackward, splitPadding, replacePadding, Col.width]

set_option maxRecDepth 100000 in
set_option maxHeartbeats 4000000 in
/-- A row of four started at position -1. -/
theorem row_at_minus_one (A : Nat) (hA : A ≤ 253) :
    (∃ pg3, placeAll createPlayground [((-1 : Int), A), ((-1 : Int) + 1, A), ((-1 : Int) + 2, A)] = .ok pg3 ∧
      stackAt pg3 ((-1 : Int)) = some [A] ∧ stackAt pg3 ((-1 : Int) + 1) = some [A] ∧
      stackAt pg3 ((-1 : Int) + 2) = some [A]) ∧
    (∃ pg4, placeAll createPlayground [((-1 : Int), A), ((-1 : Int) + 1, A), ((-1 : Int) + 2, A), ((-1 : Int) + 3, A)] = .ok pg4 ∧
      stackAt pg4 ((-1 : Int)) = some [] ∧ stackAt pg4 ((-1 : Int) + 1) = some [] ∧
      stackAt pg4 ((-1 : Int) + 2) = some [] ∧ stackAt pg4 ((-1 : Int) + 3) = some []) := by
  have h1 : ¬ (A = 255) := by omega
  have h2 : ¬ (255 = A) := by omega
  simp [placeAll, playgroundPlacePiece, playgroundGetColAt, createPlayground, appendPiece,
    playgroundTrackChange, playgroundRemoveLines, removeLinesFrom, scanRows, scanCell, scanLine,
    scanVertical, stabilize, clearChanges, totalPieces, chain, chainFrom, stackAt, colAt,
    colAtFrom, Col.stack, modCol, setCol, setPiece, createCol, createPaddingCol, MIN_COL_SIZE,
    INITIAL_CHANGES_SIZE, PIECE_EMPTY, MIN_LINE_COUNT, removeRun, playgroundRemovePiece,
    List.range_succ, List.getD, h1, h2, playgroundCauseGravity, applyRemovals, compactCol,
    compactLoop, appendCol, linkAfterEnd, prependCol, linkBeforeStart, locateCol, seekCol,
    walkForward, walkBackward, splitPadding, replacePadding, Col.width]

set_option maxRecDepth 100000 in
set_option maxHeartbeats 4000000 in
/-- A row of four started at position -2. -/
theorem row_at_minus_two (A : Nat) (hA : A ≤ 253) :
    (∃ pg3, placeAll createPlayground [((-2 : Int), A), ((-2 : Int) + 1, A), ((-2 : Int) + 2, A)] = .ok pg3 ∧
      stackAt pg3 ((-2 : Int)) = some [A] ∧ stackAt pg3 ((-2 : Int) + 1) = some [A] ∧
      stackAt pg3 ((-2 : Int) + 2) = some [A]) ∧
    (∃ pg4, placeAll createPlayground [((-2 : Int), A), ((-2 : Int) + 1, A), ((-2 : Int) + 2, A), ((-2 : Int) + 3, A)] = .ok pg4 ∧
      stackAt pg4 ((-2 : Int)) = some [] ∧ stackAt pg4 ((-2 : Int) + 1) = some [] ∧
      stackAt pg4 ((-2 : Int) + 2) = some [] ∧ stackAt pg4 ((-2 : Int) + 3) = some []) := by
  have h1 : ¬ (A = 255) := by omega
  have h2 : ¬ (255 = A) := by omega
  simp [placeAll, playgroundPlacePiece, playgroundGetColAt, createPlayground, appendPiece,
    playgroundTrackChange, playgroundRemoveLines, removeLinesFrom, scanRows, scanCell, scanLine,
    scanVertical, stabilize, clearChanges, totalPieces, chain, chainFrom, stackAt, colAt,
    colAtFrom, Col.stack, modCol, setCol, setPiece, createCol, createPaddingCol, MIN_COL_SIZE,
    INITIAL_CHANGES_SIZE, PIECE_EMPTY, MIN_LINE_COUNT, removeRun, playgroundRemovePiece,
    List.range_succ, List.getD, h1, h2, playgroundCauseGravity, applyRemovals, compactCol,
    compactLoop, appendCol, linkAfterEnd, prependCol, linkBeforeStart, locateCol, seekCol,
    walkForward, walkBackward, splitPadding, replacePadding, Col.width]

set_option maxRecDepth 100000 in
set_option maxHeartbeats 4000000 in
/-- A row of four started at position -3. -/
theorem row_at_minus_three (A : Nat) (hA : A ≤ 253) :
    (∃ pg3, placeAll createPlayground [((-3 : Int), A), ((-3 : Int) + 1, A), ((-3 : Int) + 2, A)] = .ok pg3 ∧
      stackAt pg3 ((-3 : Int)) = some [A] ∧ stackAt pg3 ((-3 : Int) + 1) = some [A] ∧
      stackAt pg3 ((-3 : Int) + 2) = some [A]) ∧
    (∃ pg4, placeAll createPlayground [((-3 : Int), A), ((-3 : Int) + 1, A), ((-3 : Int) + 2, A), ((-3 : Int) + 3, A)] = .ok pg4 ∧
      stackAt pg4 ((-3 : Int)) = some [] ∧ stackAt pg4 ((-3 : Int) + 1) = some [] ∧
      stackAt pg4 ((-3 : Int) + 2) = some [] ∧ stackAt pg4 ((-3 : Int) + 3) = some []) := by
  have h1 : ¬ (A = 255) := by omega
  have h2 : ¬ (255 = A) := by omega
  simp [placeAll, playgroundPlacePiece, playgroundGetColAt, createPlayground, appendPiece,
    playgroundTrackChange, playgroundRemoveLines, removeLinesFrom, scanRows, scanCell, scanLine,
    scanVertical, stabilize, clearChanges, totalPieces, chain, chainFrom, stackAt, colAt,
    colAtFrom, Col.stack, modCol, setCol, setPiece, createCol, createPaddingCol, MIN_COL_SIZE,
    INITIAL_CHANGES_SIZE, PIECE_EMPTY, MIN_LINE_COUNT, removeRun, playgroundRemovePiece,
    List.range_succ, List.getD, h1, h2, playgroundCauseGravity, applyRemovals, compactCol,
    compactLoop, appendCol, linkAfterEnd, prependCol, linkBeforeStart, locateCol, seekCol,
    walkForward, walkBackward, splitPadding, replacePadding, Col.width]

set_option maxRecDepth 100000 in
set_option maxHeartbeats 4000000 in
/-- A row of four started at position -4. -/
theorem row_at_minus_four (A : Nat) (hA : A ≤ 253) :
    (∃ pg3, placeAll createPlayground [((-4 : Int), A), ((-4 : Int) + 1, A), ((-4 : Int) + 2, A)] = .ok pg3 ∧
      stackAt pg3 ((-4 : Int)) = some [A] ∧ stackAt pg3 ((-4 : Int) + 1) = some [A] ∧
      stackAt pg3 ((-4 : Int) + 2) = some [A]) ∧
    (∃ pg4, placeAll createPlayground [((-4 : Int), A), ((-4 : Int) + 1, A), ((-4 : Int) + 2, A), ((-4 : Int) + 3, A)] = .ok pg4 ∧
      stackAt pg4 ((-4 : Int)) = some [] ∧ stackAt pg4 ((-4 : Int) + 1) = some [] ∧
      stackAt pg4 ((-4 : Int) + 2) = some [] ∧ stackAt pg4 ((-4 : Int) + 3) = some []) := by
  have h1 : ¬ (A = 255) := by omega
  have h2 : ¬ (255 = A) := by omega
  simp [placeAll, playgroundPlacePiece, playgroundGetColAt, createPlayground, appendPiece,
    playgroundTrackChange, playgroundRemoveLines, removeLinesFrom, scanRows, scanCell, scanLine,
    scanVertical, stabilize, clearChanges, totalPieces, chain, chainFrom, stackAt, colAt,
    colAtFrom, Col.stack, modCol, setCol, setPiece, createCol, createPaddingCol, MIN_COL_SIZE,
    INITIAL_CHANGES_SIZE, PIECE_EMPTY, MIN_LINE_COUNT, removeRun, playgroundRemovePiece,
    List.range_succ, List.getD, h1, h2, playgroundCauseGravity, applyRemovals, compactCol,
    compactLoop, appendCol, linkAfterEnd, prependCol, linkBeforeStart, locateCol, seekCol,
    walkForward, walkBackward, splitPadding, replacePadding, Col.width]


set_option maxRecDepth 100000 in
set_option maxHeartbeats 4000000 in
/-- Five drops into one column at a position of at least 2: three stay, the fourth clears the column, the fifth stays alone. -/
theorem drops_far_right (A : Nat) (hA : A ≤ 253) (n : Nat) (hn : 2 ≤ n) :
    (∃ pg3, placeAll createPlayground [((n : Int), A), ((n : Int), A), ((n : Int), A)] = .ok pg3 ∧
      stackAt pg3 ((n : Int)) = some [A, A, A]) ∧
    (∃ pg4, placeAll createPlayground [((n : Int), A), ((n : Int), A), ((n : Int), A), ((n : Int), A)] = .ok pg4 ∧
      stackAt pg4 ((n : Int)) = some []) ∧
    (∃ pg5, placeAll createPlayground
        [((n : Int), A), ((n : Int), A), ((n : Int), A), ((n : Int), A), ((n : Int), A)] = .ok pg5 ∧
      stackAt pg5 ((n : Int)) = some [A]) := by
  have h1 : ¬ (A = 255) := by omega
  have h2 : ¬ (255 = A) := by omega
  have f0 : ¬ n = 0 := by omega
  have f1 : 0 < n := by omega
  have f2 : 1 < n := by omega
  have f3 : ((n - 1 : Nat) : Int) = (n : Int) - 1 := by omega
  simp [placeAll, playgroundPlacePiece, playgroundGetColAt, createPlayground, appendPiece,
    playgroundTrackChange, playgroundRemoveLines, removeLinesFrom, scanRows, scanCell, scanLine,
    scanVertical, stabilize, clearChanges, totalPieces, chain, chainFrom, stackAt, colAt,
    colAtFrom, Col.stack, modCol, setCol, setPiece, createCol, createPaddingCol, MIN_COL_SIZE,
    INITIAL_CHANGES_SIZE, PIECE_EMPTY, MIN_LINE_COUNT, removeRun, playgroundRemovePiece,
    List.range_succ, List.getD, h1, h2, playgroundCauseGravity, applyRemovals, compactCol,
    compactLoop, appendCol, linkAfterEnd, prependCol, linkBeforeStart, locateCol, seekCol,
    walkForward, walkBackward, splitPadding, replacePadding, Col.width, f0, f1, f2, f3]

set_option maxRecDepth 100000 in
set_option maxHeartbeats 4000000 in
/-- Five drops into one column at a position of at most -2. -/
theorem drops_far_left (A : Nat) (hA : A ≤ 253) (n : Nat) (hn : 2 ≤ n) :
    (∃ pg3, placeAll createPlayground [(-(n : Int), A), (-(n : Int), A), (-(n : Int), A)] = .ok pg3 ∧
      stackAt pg3 (-(n : Int)) = some [A, A, A]) ∧
    (∃ pg4, placeAll createPlayground [(-(n : Int), A), (-(n : Int), A), (-(n : Int), A), (-(n : Int), A)] = .ok pg4 ∧
      stackAt pg4 (-(n : Int)) = some []) ∧
    (∃ pg5, placeAll createPlayground
        [(-(n : Int), A), (-(n : Int), A), (-(n : Int), A), (-(n : Int), A), (-(n : Int), A)] = .ok pg5 ∧
      stackAt pg5 (-(n : Int)) = some [A]) := by
  have h1 : ¬ (A = 255) := by omega
  have h2 : ¬ (255 = A) := by omega
  have f0 : ¬ n = 0 := by omega
  have f1 : 0 < n := by omega
  have f2 : 1 < n := by omega
  have f3 : ((n - 1 : Nat) : Int) = (n : Int) - 1 := by omega
  have f4 : ¬ ((n : Int) < 0) := by omega
  simp [placeAll, playgroundPlacePiece, playgroundGetColAt, createPlayground, appendPiece,
    playgroundTrackChange, playgroundRemoveLines, removeLinesFrom, scanRows, scanCell, scanLine,
    scanVertical, stabilize, clearChanges, totalPieces, chain, chainFrom, stackAt, colAt,
    colAtFrom, Col.stack, modCol, setCol, setPiece, createCol, createPaddingCol, MIN_COL_SIZE,
    INITIAL_CHANGES_SIZE, PIECE_EMPTY, MIN_LINE_COUNT, removeRun, playgroundRemovePiece,
    List.range_succ, List.getD, h1, h2, playgroundCauseGravity, applyRemovals, compactCol,
    compactLoop, appendCol, linkAfterEnd, prependCol, linkBeforeStart, locateCol, seekCol,
    walkForward, walkBackward, splitPadding, replacePadding, Col.width, f0, f1, f2, f3, f4]

set_option maxRecDepth 100000 in
set_option maxHeartbeats 4000000 in
/-- Five drops into the column at position 1. -/
theorem drops_at_one (A : Nat) (hA : A ≤ 253) :
    (∃ pg3, placeAll createPlayground [((1 : Int), A), ((1 : Int), A), ((1 : Int), A)] = .ok pg3 ∧
      stackAt pg3 ((1 : Int)) = some [A, A, A]) ∧
    (∃ pg4, placeAll createPlayground [((1 : Int), A), ((1 : Int), A), ((1 : Int), A), ((1 : Int), A)] = .ok pg4 ∧
      stackAt pg4 ((1 : Int)) = some []) ∧
    (∃ pg5, placeAll createPlayground
        [((1 : Int), A), ((1 : Int), A), ((1 : Int), A), ((1 : Int), A), ((1 : Int), A)] = .ok pg5 ∧
      stackAt pg5 ((1 : Int)) = some [A]) := by
  have h1 : ¬ (A = 255) := by omega
  have h2 : ¬ (255 = A) := by omega
  simp [placeAll, playgroundPlacePiece, playgroundGetColAt, createPlayground, appendPiece,
    playgroundTrackChange, playgroundRemoveLines, removeLinesFrom, scanRows, scanCell, scanLine,
    scanVertical, stabilize, clearChanges, totalPieces, chain, chainFrom, stackAt, colAt,
    colAtFrom, Col.stack, modCol, setCol, setPiece, createCol, createPaddingCol, MIN_COL_SIZE,
    INITIAL_CHANGES_SIZE, PIECE_EMPTY, MIN_LINE_COUNT, removeRun, playgroundRemovePiece,
    List.range_succ, List.getD, h1, h2, playgroundCauseGravity, applyRemovals, compactCol,
    compactLoop, appendCol, linkAfterEnd, prependCol, linkBeforeStart, locateCol, seekCol,
    walkForward, walkBackward, splitPadding, replacePadding, Col.width]

set_option maxRecDepth 100000 in
set_option maxHeartbeats 4000000 in
/-- Five drops into the column at position 0. -/
theorem drops_at_zero (A : Nat) (hA : A ≤ 253) :
    (∃ pg3, placeAll createPlayground [((0 : Int), A), ((0 : Int), A), ((0 : Int), A)] = .ok pg3 ∧
      stackAt pg3 ((0 : Int)) = some [A, A, A]) ∧
    (∃ pg4, placeAll createPlayground [((0 : Int), A), ((0 : Int), A), ((0 : Int), A), ((0 : Int), A)] = .ok pg4 ∧
      stackAt pg4 ((0 : Int)) = some []) ∧
    (∃ pg5, placeAll createPlayground
        [((0 : Int), A), ((0 : Int), A), ((0 : Int), A), ((0 : Int), A), ((0 : Int), A)] = .ok pg5 ∧
      stackAt pg5 ((0 : Int)) = some [A]) := by
  have h1 : ¬ (A = 255) := by omega
  have h2 : ¬ (255 = A) := by omega
  simp [placeAll, playgroundPlacePiece, playgroundGetColAt, createPlayground, appendPiece,
    playgroundTrackChange, playgroundRemoveLines, removeLinesFrom, scanRows, scanCell, scanLine,
    scanVertical, stabilize, clearChanges, totalPieces, chain, chainFrom, stackAt, colAt,
    colAtFrom, Col.stack, modCol, setCol, setPiece, createCol, createPaddingCol, MIN_COL_SIZE,
    INITIAL_CHANGES_SIZE, PIECE_EMPTY, MIN_LINE_COUNT, removeRun, playgroundRemovePiece,
    List.range_succ, List.getD, h1, h2, playgroundCauseGravity, applyRemovals, compactCol,
    compactLoop, appendCol, linkAfterEnd, prependCol, linkBeforeStart, locateCol, seekCol,
    walkForward, walkBackward, splitPadding, replacePadding, Col.width]

set_option maxRecDepth 100000 in
set_option maxHeartbeats 4000000 in
/-- Five drops into the column at position -1. -/
theorem drops_at_minus_one (A : Nat) (hA : A ≤ 253) :
    (∃ pg3, placeAll createPlayground [((-1 : Int), A), ((-1 : Int), A), ((-1 : Int), A)] = .ok pg3 ∧
      stackAt pg3 ((-1 : Int)) = some [A, A, A]) ∧
    (∃ pg4, placeAll createPlayground [((-1 : Int), A), ((-1 : Int), A), ((-1 : Int), A), ((-1 : Int), A)] = .ok pg4 ∧
      stackAt pg4 ((-1 : Int)) = some []) ∧
    (∃ pg5, placeAll createPlayground
        [((-1 : Int), A), ((-1 : Int), A), ((-1 : Int), A), ((-1 : Int), A), ((-1 : Int), A)] = .ok pg5 ∧
      stackAt pg5 ((-1 : Int)) = some [A]) := by
  have h1 : ¬ (A = 255) := by omega
  have h2 : ¬ (255 = A) := by omega
  simp [placeAll, playgroundPlacePiece, playgroundGetColAt, createPlayground, appendPiece,
    playgroundTrackChange, playgroundRemoveLines, removeLinesFrom, scanRows, scanCell, scanLine,
    scanVertical, stabilize, clearChanges, totalPieces, chain, chainFrom, stackAt, colAt,
    colAtFrom, Col.stack, modCol, setCol, setPiece, createCol, createPaddingCol, MIN_COL_SIZE,
    INITIAL_CHANGES_SIZE, PIECE_EMPTY, MIN_LINE_COUNT, removeRun, playgroundRemovePiece,
    List.range_succ, List.getD, h1, h2, playgroundCauseGravity, applyRemovals, compactCol,
    compactLoop, appendCol, linkAfterEnd, prependCol, linkBeforeStart, locateCol, seekCol,
    walkForward, walkBackward, splitPadding, replacePadding, Col.width]


/-- The five drops at any position. -/
theorem drops_anywhere (A : Nat) (hA : A ≤ 253) (x : Int) :
    (∃ pg3, placeAll createPlayground [(x, A), (x, A), (x, A)] = .ok pg3 ∧
      stackAt pg3 (x) = some [A, A, A]) ∧
    (∃ pg4, placeAll createPlayground [(x, A), (x, A), (x, A), (x, A)] = .ok pg4 ∧
      stackAt pg4 (x) = some []) ∧
    (∃ pg5, placeAll createPlayground
        [(x, A), (x, A), (x, A), (x, A), (x, A)] = .ok pg5 ∧
      stackAt pg5 (x) = some [A]) := by
  by_cases hp : 2 ≤ x
  · obtain ⟨n, rfl⟩ : ∃ n : Nat, x = (n : Int) := ⟨x.toNat, by omega⟩
    exact drops_far_right A hA n (by omega)
  by_cases hq : x ≤ -2
  · obtain ⟨n, rfl⟩ : ∃ n : Nat, x = -(n : Int) := ⟨(-x).toNat, by omega⟩
    exact drops_far_left A hA n (by omega)
  have hc : x = 1 ∨ x = 0 ∨ x = -1 := by omega
  rcases hc with rfl | rfl | rfl
  · exact drops_at_one A hA
  · exact drops_at_zero A hA
  · exact drops_at_minus_one A hA
set_option maxRecDepth 100000 in
set_option maxHeartbeats 4000000 in
/-- Placements at a, b and then c with 2 ≤ a: the chain, the cols and the padding runs. -/
theorem gap_after_far (A B C : Nat) (hA : A ≤ 253) (hB : B ≤ 253) (hC : C ≤ 253)
    (na nb nc : Nat) (h1a : 2 ≤ na) (hab : na + 1 < nb) (hac : na + 1 < nc) (hcb : nc + 1 < nb) :
    (∃ pg2, placeAll createPlayground [((na : Int), A), ((nb : Int), B)] = .ok pg2 ∧
      chain pg2 = [0, 1, 2, 3, 4] ∧ colAt pg2 (na : Int) = some 2 ∧
      colAt pg2 (nb : Int) = some 4 ∧ (pg2.heap 3).type = .COL_PADDING ∧
      (pg2.heap 3).size = nb - na - 1) ∧
      (∃ pg3, placeAll createPlayground [((na : Int), A), ((nb : Int), B), ((nc : Int), C)] = .ok pg3 ∧
      chain pg3 = [0, 1, 2, 3, 5, 6, 4] ∧ colAt pg3 (na : Int) = some 2 ∧
      colAt pg3 (nc : Int) = some 5 ∧ colAt pg3 (nb : Int) = some 4 ∧
      (pg3.heap 3).type = .COL_PADDING ∧ (pg3.heap 3).size = nc - na - 1 ∧
      (pg3.heap 5).type = .COL_PIECES ∧ (pg3.heap 6).type = .COL_PADDING ∧
      (pg3.heap 6).size = nb - nc - 1) := by
  have h1 : ¬ (A = 255) := by omega
  have h2 : ¬ (255 = A) := by omega
  have f0 : ¬ B = 255 := by omega
  have f1 : ¬ 255 = B := by omega
  have f2 : ¬ C = 255 := by omega
  have f3 : ¬ 255 = C := by omega
  have f4 : ¬ na = 0 := by omega
  have f5 : 0 < na := by omega
  have f6 : 1 < na := by omega
  have f7 : ((na - 1 : Nat) : Int) = (na : Int) - 1 := by omega
  have f8 : na < nb := by omega
  have f9 : na < nc := by omega
  have f10 : nc < nb := by omega
  have f11 : ¬ nb = 0 := by omega
  have f12 : ¬ nc = 0 := by omega
  have f13 : ¬ nb = na := by omega
  have f14 : ¬ na = nb := by omega
  have f15 : ¬ nc = na := by omega
  have f16 : ¬ na = nc := by omega
  have f17 : ¬ nc = nb := by omega
  have f18 : ¬ nb = nc := by omega
  have f19 : ¬ nb < na := by omega
  have f20 : ¬ nc < na := by omega
  have f21 : ¬ nb < nc := by omega
  have f22 : ¬ nb ≤ na := by omega
  have f23 : ¬ nc ≤ na := by omega
  have f24 : ¬ nb ≤ nc := by omega
  have f25 : na + 1 < nb := by omega
  have f26 : na + 1 < nc := by omega
  have f27 : nc + 1 < nb := by omega
  have f28 : ¬ (nb = na + 1) := by omega
  have f29 : ¬ (nc = na + 1) := by omega
  have f30 : ¬ (nb = nc + 1) := by omega
  have f31 : (na:Int) + 1 < (nb:Int) := by omega
  have f32 : (na:Int) + 1 < (nc:Int) := by omega
  have f33 : (nc:Int) + 1 < (nb:Int) := by omega
  have f34 : ¬ ((nb:Int) = (na:Int) + 1) := by omega
  have f35 : ¬ ((nc:Int) = (na:Int) + 1) := by omega
  have f36 : ¬ ((nb:Int) = (nc:Int) + 1) := by omega
  have f37 : ¬ ((nb:Int) < (na:Int) + 1) := by omega
  have f38 : ¬ ((nc:Int) < (na:Int) + 1) := by omega
  have f39 : ¬ ((nb:Int) < (nc:Int) + 1) := by omega
  have f40 : ¬ ((nb:Int) ≤ (na:Int) + 1) := by omega
  have f41 : ¬ ((nc:Int) ≤ (na:Int) + 1) := by omega
  have f42 : ¬ ((nb:Int) ≤ (nc:Int) + 1) := by omega
  have f43 : ((nb - na : Nat) : Int) = (nb : Int) - (na : Int) := by omega
  have f44 : ((nc - na : Nat) : Int) = (nc : Int) - (na : Int) := by omega
  have f45 : ((nb - nc : Nat) : Int) = (nb : Int) - (nc : Int) := by omega
  have f46 : ((nb - na - 1 : Nat) : Int) = (nb : Int) - (na : Int) - 1 := by omega
  have f47 : ((nc - na - 1 : Nat) : Int) = (nc : Int) - (na : Int) - 1 := by omega
  have f48 : ((nb - nc - 1 : Nat) : Int) = (nb : Int) - (nc : Int) - 1 := by omega
  have f49 : ¬ ((nc : Int) < 0) := by omega
  have f50 : ¬ ((nb : Int) < 0) := by omega
  have f51 : ¬ ((na : Int) < 0) := by omega
  have f52 : 0 < nc := by omega
  have f53 : 1 < nc := by omega
  have f54 : 0 < nb := by omega
  have f55 : 1 < nb := by omega
  have f56 : 2 < nc := by omega
  have f57 : 2 < nb := by omega
  have f58 : (0:Int) < nc := by omega
  have f59 : (1:Int) < nc := by omega
  have f60 : (0:Int) < nb := by omega
  have f61 : (1:Int) < nb := by omega
  have f62 : (1:Int) < (nb:Int) - (nc:Int) := by omega
  have f63 : (1:Int) < (nb:Int) - (na:Int) := by omega
  have f64 : (1:Int) < (nc:Int) - (na:Int) := by omega
  have f65 : (0:Int) < (nb:Int) - (nc:Int) := by omega
  have f66 : (0:Int) < (nb:Int) - (na:Int) := by omega
  have f67 : (0:Int) < (nc:Int) - (na:Int) := by omega
  have f68 : nb - na - 1 - (nb - nc) = nc - na - 1 := by omega
  have f69 : (na:Int) + 1 + ((nc:Int) - (na:Int) - 1) = (nc:Int) := by omega
  have f70 : (na:Int) + 1 + ((nb:Int) - (na:Int) - 1) = (nb:Int) := by omega
  simp [placeAll, playgroundPlacePiece, playgroundGetColAt, createPlayground, appendPiece,
    playgroundTrackChange, playgroundRemoveLines, removeLinesFrom, scanRows, scanCell, scanLine,
    scanVertical, stabilize, clearChanges, totalPieces, chain, chainFrom, stackAt, colAt,
    colAtFrom, Col.stack, modCol, setCol, setPiece, createCol, createPaddingCol, MIN_COL_SIZE,
    INITIAL_CHANGES_SIZE, PIECE_EMPTY, MIN_LINE_COUNT, removeRun, playgroundRemovePiece,
    List.range_succ, List.getD, h1, h2, playgroundCauseGravity, applyRemovals, compactCol,
    compactLoop, appendCol, linkAfterEnd, prependCol, linkBeforeStart, locateCol, seekCol,
    walkForward, walkBackward, splitPadding, replacePadding, Col.width,
    f0, f1, f2, f3, f4, f5, f6, f7, f8, f9, f10, f11, f12, f13, f14, f15, f16, f17, f18, f19,
    f20, f21, f22, f23, f24, f25, f26, f27, f28, f29, f30, f31, f32, f33, f34, f35, f36, f37,
    f38, f39, f40, f41, f42, f43, f44, f45, f46, f47, f48, f49, f50, f51, f52, f53, f54, f55,
    f56, f57, f58, f59, f60, f61, f62, f63, f64, f65, f66, f67, f68, f69, f70]

set_option maxRecDepth 100000 in
set_option maxHeartbeats 4000000 in
/-- Placements at 1, b and then c: the chain, the cols and the padding runs. -/
theorem gap_after_one (A B C : Nat) (hA : A ≤ 253) (hB : B ≤ 253) (hC : C ≤ 253)
    (nb nc : Nat) (hac : 2 < nc) (hcb : nc + 1 < nb) :
    (∃ pg2, placeAll createPlayground [((1 : Int), A), ((nb : Int), B)] = .ok pg2 ∧
      chain pg2 = [0, 1, 2, 3] ∧ colAt pg2 (1 : Int) = some 1 ∧ colAt pg2 (nb : Int) = some 3 ∧
      (pg2.heap 2).type = .COL_PADDING ∧ (pg2.heap 2).size = nb - 1 - 1) ∧
      (∃ pg3, placeAll createPlayground [((1 : Int), A), ((nb : Int), B), ((nc : Int), C)] = .ok pg3 ∧
      chain pg3 = [0, 1, 2, 4, 5, 3] ∧ colAt pg3 (1 : Int) = some 1 ∧
      colAt pg3 (nc : Int) = some 4 ∧ colAt pg3 (nb : Int) = some 3 ∧
      (pg3.heap 2).type = .COL_PADDING ∧ (pg3.heap 2).size = nc - 1 - 1 ∧
      (pg3.heap 4).type = .COL_PIECES ∧ (pg3.heap 5).type = .COL_PADDING ∧
      (pg3.heap 5).size = nb - nc - 1) := by
  have h1 : ¬ (A = 255) := by omega
  have h2 : ¬ (255 = A) := by omega
  have f0 : ¬ B = 255 := by omega
  have f1 : ¬ 255 = B := by omega
  have f2 : ¬ C = 255 := by omega
  have f3 : ¬ 255 = C := by omega
  have f4 : nc < nb := by omega
  have f5 : ¬ nb = 0 := by omega
  have f6 : ¬ nc = 0 := by omega
  have f7 : ¬ nb = 1 := by omega
  have f8 : ¬ nc = 1 := by omega
  have f9 : ¬ nb = 2 := by omega
  have f10 : ¬ nc = 2 := by omega
  have f11 : ¬ nc = nb := by omega
  have f12 : ¬ nb = nc := by omega
  have f13 : ¬ nb < nc := by omega
  have f14 : ¬ nb ≤ nc := by omega
  have f15 : nc + 1 < nb := by omega
  have f16 : ¬ (nb = nc + 1) := by omega
  have f17 : (nc:Int) + 1 < (nb:Int) := by omega
  have f18 : ¬ ((nb:Int) = (nc:Int) + 1) := by omega
  have f19 : ¬ ((nb:Int) < (nc:Int) + 1) := by omega
  have f20 : ¬ ((nb:Int) ≤ (nc:Int) + 1) := by omega
  have f21 : ((nb - 1 : Nat) : Int) = (nb : Int) - 1 := by omega
  have f22 : ((nc - 1 : Nat) : Int) = (nc : Int) - 1 := by omega
  have f23 : ((nb - nc : Nat) : Int) = (nb : Int) - (nc : Int) := by omega
  have f24 : ((nb - 1 - 1 : Nat) : Int) = (nb : Int) - 1 - 1 := by omega
  have f25 : ((nc - 1 - 1 : Nat) : Int) = (nc : Int) - 1 - 1 := by omega
  have f26 : ((nb - nc - 1 : Nat) : Int) = (nb : Int) - (nc : Int) - 1 := by omega
  have f27 : ¬ ((nc : Int) < 0) := by omega
  have f28 : ¬ ((nb : Int) < 0) := by omega
  have f29 : 0 < nc := by omega
  have f30 : 1 < nc := by omega
  have f31 : 0 < nb := by omega
  have f32 : 1 < nb := by omega
  have f33 : 2 < nc := by omega
  have f34 : 2 < nb := by omega
  have f35 : (0:Int) < nc := by omega
  have f36 : (1:Int) < nc := by omega
  have f37 : (0:Int) < nb := by omega
  have f38 : (1:Int) < nb := by omega
  have f39 : (2:Int) < nc := by omega
  have f40 : (2:Int) < nb := by omega
  have f41 : (1:Int) < (nb:Int) - (nc:Int) := by omega
  have f42 : (0:Int) < (nb:Int) - (nc:Int) := by omega
  have f43 : nb - 1 - 1 - (nb - nc) = nc - 1 - 1 := by omega
  have f44 : (2:Int) + ((nb:Int) - 1 - 1) = (nb:Int) := by omega
  have f45 : (2:Int) + ((nc:Int) - 1 - 1) = (nc:Int) := by omega
  simp [placeAll, playgroundPlacePiece, playgroundGetColAt, createPlayground, appendPiece,
    playgroundTrackChange, playgroundRemoveLines, removeLinesFrom, scanRows, scanCell, scanLine,
    scanVertical, stabilize, clearChanges, totalPieces, chain, chainFrom, stackAt, colAt,
    colAtFrom, Col.stack, modCol, setCol, setPiece, createCol, createPaddingCol, MIN_COL_SIZE,
    INITIAL_CHANGES_SIZE, PIECE_EMPTY, MIN_LINE_COUNT, removeRun, playgroundRemovePiece,
    List.range_succ, List.getD, h1, h2, playgroundCauseGravity, applyRemovals, compactCol,
    compactLoop, appendCol, linkAfterEnd, prependCol, linkBeforeStart, locateCol, seekCol,
    walkForward, walkBackward, splitPadding, replacePadding, Col.width,
    f0, f1, f2, f3, f4, f5, f6, f7, f8, f9, f10, f11, f12, f13, f14, f15, f16, f17, f18, f19,
    f20, f21, f22, f23, f24, f25, f26, f27, f28, f29, f30, f31, f32, f33, f34, f35, f36, f37,
    f38, f39, f40, f41, f42, f43, f44, f45]

set_option maxRecDepth 100000 in
set_option maxHeartbeats 4000000 in
/-- The cycle of the fourth drop of colour 1 into the column at position 0, state by state. -/
theorem fourth_drop_states :
    ∃ pg3, placeAll createPlayground [((0 : Int), 1), ((0 : Int), 1), ((0 : Int), 1)] = .ok pg3 ∧
      playgroundGetColAt pg3 0 = .ok (0, pg3) ∧
      ∃ q1, appendPiece
          (if (pg3.heap 0).count = (pg3.heap 0).size then expandCol pg3 0 else (0, pg3)).2
          (if (pg3.heap 0).count = (pg3.heap 0).size then expandCol pg3 0 else (0, pg3)).1
          1 = .ok q1 ∧
        q1.changedCols = [0] ∧ (q1.heap 0).changeY = 3 ∧ (q1.heap 0).size = 8 ∧
        (∃ q1b, playgroundTrackChange q1 0 0 = .ok q1b ∧ q1b.changedCols = [0, 0]) ∧
        ∃ q2, playgroundRemoveLines q1 = .ok q2 ∧
          q2.changedCols = [0, 0] ∧ q2.pieceRemovals =
            [(0, 0), (0, 1), (0, 2), (0, 3), (0, 0), (0, 1), (0, 2), (0, 3)] ∧
          (q2.heap 0).changeY = 0 ∧ (q2.heap 0).size = 8 ∧
          (∃ q2b, playgroundRemovePiece q2 0 0 = .ok q2b ∧
            q2b.pieceRemovals =
              [(0, 0), (0, 1), (0, 2), (0, 3), (0, 0), (0, 1), (0, 2), (0, 3), (0, 0)] ∧
            q2b.changedCols = [0, 0]) ∧
          ∃ pg4, playgroundPlacePiece pg3 0 1 = .ok pg4 ∧ stackAt pg4 0 = some [] := by
  simp [placeAll, playgroundPlacePiece, playgroundGetColAt, createPlayground, appendPiece,
    playgroundTrackChange, playgroundRemoveLines, removeLinesFrom, scanRows, scanCell, scanLine,
    scanVertical, stabilize, clearChanges, totalPieces, chain, chainFrom, stackAt, colAt,
    colAtFrom, Col.stack, modCol, setCol, setPiece, createCol, createPaddingCol, MIN_COL_SIZE,
    INITIAL_CHANGES_SIZE, PIECE_EMPTY, MIN_LINE_COUNT, removeRun, playgroundRemovePiece,
    List.range_succ, List.getD, playgroundCauseGravity, applyRemovals, compactCol,
    compactLoop, appendCol, linkAfterEnd, prependCol, linkBeforeStart, locateCol, seekCol,
    walkForward, walkBackward, splitPadding, replacePadding, Col.width]

set_option maxRecDepth 100000 in
set_option maxHeartbeats 4000000 in
/-- Nine drops into the column at position 0, colours 1 and 2 in turn: the ninth finds the col
full and moves it to a block of twice the capacity. -/
theorem ninth_drop_grows :
    ∃ pg8, placeAll createPlayground [((0 : Int), 1), ((0 : Int), 2), ((0 : Int), 1),
        ((0 : Int), 2), ((0 : Int), 1), ((0 : Int), 2), ((0 : Int), 1), ((0 : Int), 2)] = .ok pg8 ∧
      playgroundGetColAt pg8 0 = .ok (0, pg8) ∧
      (pg8.heap 0).count = 8 ∧ (pg8.heap 0).size = 8 ∧
      ∃ pg9, playgroundPlacePiece pg8 0 1 = .ok pg9 ∧ colAt pg9 0 = some 1 ∧
        pg9.originCol = 1 ∧ pg9.startCol = 1 ∧ pg9.endCol = 1 ∧ pg9.currentCol = 1 ∧
        (pg9.heap 1).size = 16 ∧ (pg9.heap 1).count = 9 ∧ (pg9.heap 1).changeY = 16 ∧
        stackAt pg9 0 = some [1, 2, 1, 2, 1, 2, 1, 2, 1] := by
  simp [placeAll, playgroundPlacePiece, playgroundGetColAt, createPlayground, appendPiece,
    playgroundTrackChange, playgroundRemoveLines, removeLinesFrom, scanRows, scanCell, scanLine,
    scanVertical, stabilize, clearChanges, totalPieces, chain, chainFrom, stackAt, colAt,
    colAtFrom, Col.stack, modCol, setCol, setPiece, createCol, createPaddingCol, MIN_COL_SIZE,
    INITIAL_CHANGES_SIZE, PIECE_EMPTY, MIN_LINE_COUNT, removeRun, playgroundRemovePiece,
    List.range_succ, List.getD, playgroundCauseGravity, applyRemovals, compactCol,
    compactLoop, appendCol, linkAfterEnd, prependCol, linkBeforeStart, locateCol, seekCol,
    walkForward, walkBackward, splitPadding, replacePadding, Col.width, expandCol, reallocCol,
    fixNext, fixPrev, fixNamed]

theorem nonEmptyFrom_zero (ps : Nat → Nat) (y : Nat) : nonEmptyFrom ps y 0 = [] := by
  simp [nonEmptyFrom]

theorem nonEmptyFrom_succ (ps : Nat → Nat) (y n : Nat) :
    nonEmptyFrom ps y (n + 1) =
      if ps y = PIECE_EMPTY then nonEmptyFrom ps (y + 1) n
      else ps y :: nonEmptyFrom ps (y + 1) n := by
  unfold nonEmptyFrom
  rw [List.range'_succ, List.map_cons, List.filter_cons]
  by_cases h : ps y = PIECE_EMPTY <;> simp [h]

theorem nonEmptyFrom_congr {ps qs : Nat → Nat} (y n : Nat) (h : ∀ i, y ≤ i → qs i = ps i) :
    nonEmptyFrom qs y n = nonEmptyFrom ps y n := by
  induction n generalizing y with
  | zero => simp [nonEmptyFrom_zero]
  | succ n ih =>
    rw [nonEmptyFrom_succ, nonEmptyFrom_succ, h y (Nat.le_refl y),
      ih (y + 1) (fun i hi => h i (by omega))]

theorem nonEmptyFrom_length_le (ps : Nat → Nat) (y n : Nat) :
    (nonEmptyFrom ps y n).length ≤ n := by
  unfold nonEmptyFrom
  calc (List.filter _ _).length ≤ ((List.range' y n).map ps).length := List.length_filter_le _ _
    _ = n := by simp

theorem nonEmptyFrom_ne (ps : Nat → Nat) (y n : Nat) :
    ∀ p ∈ nonEmptyFrom ps y n, p ≠ PIECE_EMPTY := by
  intro p hp
  unfold nonEmptyFrom at hp
  simpa using (List.mem_filter.mp hp).2

/-- The compaction loop: the count of removed pieces, the untouched slots below and above,
and the slots that receive the non-Empty pieces. -/
theorem compactLoop_spec (n : Nat) : ∀ (y : Nat) (ps : Nat → Nat) (r : Nat), r ≤ y →
    (compactLoop n y ps r).2 + (nonEmptyFrom ps y n).length = r + n ∧
    (∀ i, i < y - r → (compactLoop n y ps r).1 i = ps i) ∧
    (∀ j p, (nonEmptyFrom ps y n)[j]? = some p → (compactLoop n y ps r).1 (y - r + j) = p) ∧
    (∀ i, y - r + (nonEmptyFrom ps y n).length ≤ i → (compactLoop n y ps r).1 i = ps i) := by
  induction n with
  | zero =>
    intro y ps r _
    simp [compactLoop, nonEmptyFrom_zero]
  | succ n ih =>
    intro y ps r hr
    by_cases he : ps y = PIECE_EMPTY
    · have hstep : compactLoop (n + 1) y ps r = compactLoop n (y + 1) ps (r + 1) := by
        simp [compactLoop, he]
      have hF : nonEmptyFrom ps y (n + 1) = nonEmptyFrom ps (y + 1) n := by
        rw [nonEmptyFrom_succ, if_pos he]
      obtain ⟨i1, i2, i3, i4⟩ := ih (y + 1) ps (r + 1) (by omega)
      have hsub : y + 1 - (r + 1) = y - r := by omega
      rw [hsub] at i2 i3 i4
      rw [hstep]
      simp only [hF]
      exact ⟨by omega, i2, i3, i4⟩
    · have hstep : compactLoop (n + 1) y ps r =
          compactLoop n (y + 1) (setPiece ps (y - r) (ps y)) r := by
        simp [compactLoop, he]
      have hF : nonEmptyFrom ps y (n + 1) = ps y :: nonEmptyFrom ps (y + 1) n := by
        rw [nonEmptyFrom_succ, if_neg he]
      have hc : nonEmptyFrom (setPiece ps (y - r) (ps y)) (y + 1) n =
          nonEmptyFrom ps (y + 1) n :=
        nonEmptyFrom_congr (y + 1) n (fun i hi => setPiece_other ps (ps y) (by omega))
      obtain ⟨i1, i2, i3, i4⟩ := ih (y + 1) (setPiece ps (y - r) (ps y)) r (by omega)
      rw [hc] at i1 i3 i4
      have hsub : y + 1 - r = y - r + 1 := by omega
      rw [hsub] at i2 i3 i4
      rw [hstep]
      simp only [hF, List.length_cons]
      refine ⟨by omega, ?_, ?_, ?_⟩
      · intro i hi
        rw [i2 i (by omega), setPiece_other ps (ps y) (by omega)]
      · intro j p hj
        cases j with
        | zero =>
          rw [List.getElem?_cons_zero] at hj
          have h0 := i2 (y - r) (by omega)
          rw [setPiece_same] at h0
          simp only [Nat.add_zero]
          rw [h0]
          exact Option.some.inj hj
        | succ j =>
          rw [List.getElem?_cons_succ] at hj
          rw [show y - r + (j + 1) = y - r + 1 + j by omega]
          exact i3 j p hj
      · intro i hi
        rw [i4 i (by omega), setPiece_other ps (ps y) (by omega)]

/-- One col after its compaction, when the change mark is not above the count. -/
theorem compactCol_spec (c : Col) (h : c.changeY ≤ c.count) :
    (compactCol c).count =
      c.changeY + (nonEmptyFrom c.pieces c.changeY (c.count - c.changeY)).length ∧
    (compactCol c).stack = (List.range c.changeY).map c.pieces ++
      nonEmptyFrom c.pieces c.changeY (c.count - c.changeY) ∧
    (∀ y, y < c.changeY → (compactCol c).pieces y = c.pieces y) ∧
    (compactCol c).size = c.size ∧ (compactCol c).changeY = c.changeY ∧
    (compactCol c).type = c.type ∧ (compactCol c).next = c.next ∧
    (compactCol c).prev = c.prev := by
  obtain ⟨k1, k2, k3, _⟩ :=
    compactLoop_spec (c.count - c.changeY) c.changeY c.pieces 0 (Nat.zero_le _)
  have hle := nonEmptyFrom_length_le c.pieces c.changeY (c.count - c.changeY)
  simp only [Nat.sub_zero] at k2 k3
  have hcount : (compactCol c).count =
      c.changeY + (nonEmptyFrom c.pieces c.changeY (c.count - c.changeY)).length := by
    show c.count - (compactLoop (c.count - c.changeY) c.changeY c.pieces 0).2 = _
    omega
  refine ⟨hcount, ?_, k2, rfl, rfl, rfl, rfl, rfl⟩
  unfold Col.stack
  rw [hcount, List.range_add, List.map_append]
  congr 1
  · exact List.map_congr_left (fun y hy => k2 y (List.mem_range.mp hy))
  · apply List.ext_getElem?
    intro j
    by_cases hj : j < (nonEmptyFrom c.pieces c.changeY (c.count - c.changeY)).length
    · rw [List.getElem?_eq_getElem hj]
      have := k3 j _ (List.getElem?_eq_getElem hj)
      simp [List.getElem?_map, List.getElem?_range hj]
      exact this
    · have e1 : (nonEmptyFrom c.pieces c.changeY (c.count - c.changeY))[j]? = none :=
        List.getElem?_eq_none (by omega)
      rw [e1]
      exact List.getElem?_eq_none (by simp only [List.length_map, List.length_range]; omega)

/-- Compaction of a compacted col changes nothing. -/
theorem compactCol_idem (c : Col) : compactCol (compactCol c) = compactCol c := by
  by_cases h : c.changeY ≤ c.count
  · obtain ⟨hc, _, _, _, hm, _, _, _⟩ := compactCol_spec c h
    obtain ⟨j1, j2, j3, j4⟩ :=
      compactLoop_spec (c.count - c.changeY) c.changeY c.pieces 0 (Nat.zero_le _)
    simp only [Nat.sub_zero] at j2 j3 j4
    -- the pieces of the compacted col above the change mark are the non-Empty pieces
    have hF : nonEmptyFrom (compactCol c).pieces c.changeY
        (nonEmptyFrom c.pieces c.changeY (c.count - c.changeY)).length =
        nonEmptyFrom c.pieces c.changeY (c.count - c.changeY) := by
      have hne := nonEmptyFrom_ne c.pieces c.changeY (c.count - c.changeY)
      generalize nonEmptyFrom c.pieces c.changeY (c.count - c.changeY) = F at j3 hne
      have key : ∀ (k : Nat) (G : List Nat) (qs : Nat → Nat), (∀ p ∈ G, p ≠ PIECE_EMPTY) →
          (∀ j p, G[j]? = some p → qs (k + j) = p) → nonEmptyFrom qs k G.length = G := by
        intro k G
        induction G generalizing k with
        | nil => intro qs _ _; simp [nonEmptyFrom_zero]
        | cons a G ih =>
          intro qs hn hq
          have ha : qs k = a := by simpa using hq 0 a (by simp)
          rw [List.length_cons, nonEmptyFrom_succ, ha,
            if_neg (hn a (List.mem_cons_self _ _)),
            ih (k + 1) qs (fun p hp => hn p (List.mem_cons_of_mem _ hp))
              (fun j p hj => by
                have := hq (j + 1) p (by simpa using hj)
                rw [show k + 1 + j = k + (j + 1) by omega]; exact this)]
      exact key c.changeY F _ hne j3
    obtain ⟨l1, l2, l3, l4⟩ :=
      compactLoop_spec ((compactCol c).count - (compactCol c).changeY) (compactCol c).changeY
        (compactCol c).pieces 0 (Nat.zero_le _)
    simp only [Nat.sub_zero] at l2 l3 l4
    rw [hm, hc, Nat.add_sub_cancel_left] at l1 l2 l3 l4
    rw [hF] at l1 l3 l4
    have hr : (compactLoop ((compactCol c).count - (compactCol c).changeY)
        (compactCol c).changeY (compactCol c).pieces 0).2 = 0 := by
      rw [hm, hc, Nat.add_sub_cancel_left]; omega
    have hp : (compactLoop ((compactCol c).count - (compactCol c).changeY)
        (compactCol c).changeY (compactCol c).pieces 0).1 = (compactCol c).pieces := by
      rw [hm, hc, Nat.add_sub_cancel_left]
      funext i
      by_cases hi1 : i < c.changeY
      · exact l2 i hi1
      by_cases hi2 : c.changeY +
          (nonEmptyFrom c.pieces c.changeY (c.count - c.changeY)).length ≤ i
      · exact l4 i hi2
      · have hj : i - c.changeY <
            (nonEmptyFrom c.pieces c.changeY (c.count - c.changeY)).length := by omega
        have e1 := l3 (i - c.changeY) _ (List.getElem?_eq_getElem hj)
        have e2 := j3 (i - c.changeY) _ (List.getElem?_eq_getElem hj)
        rw [show c.changeY + (i - c.changeY) = i by omega] at e1 e2
        rw [e1]
        exact e2.symm
    show ({ compactCol c with pieces := _, count := _ } : Col) = compactCol c
    rw [hp, hr]
    rfl
  · have hz : c.count - c.changeY = 0 := by omega
    have h1 : compactCol c = c := by
      simp [compactCol, hz, compactLoop]
    rw [h1, h1]

/-- The heap after the queued removals are written: the marker sits at every queued height
of a col, everything else is as before. -/
theorem applyRemovals_apply (rs : List (Nat × Nat)) (heap : Nat → Col) (c : Nat) :
    applyRemovals heap rs c =
      { heap c with
        pieces := fun y => if (c, y) ∈ rs then PIECE_EMPTY else (heap c).pieces y } := by
  induction rs generalizing heap with
  | nil => simp [applyRemovals]
  | cons r rs ih =>
    have hstep : applyRemovals heap (r :: rs) =
        applyRemovals (modCol heap r.1
          (fun c => { c with pieces := setPiece c.pieces r.2 PIECE_EMPTY })) rs := rfl
    rw [hstep, ih]
    by_cases hc : c = r.1
    · subst hc
      rw [modCol_same]
      dsimp only
      congr 1
      funext y
      by_cases hy : y = r.2
      · subst hy
        simp [setPiece]
      · have hne : ¬ ((r.1, y) = r) := by
          intro h
          exact hy (by rw [← h])
        simp [setPiece, hy, hne]
    · rw [modCol_other _ _ hc]
      dsimp only
      congr 1
      funext y
      have hne : ¬ ((c, y) = r) := by
        intro h
        exact hc (by rw [← h])
      simp [hne]

/-- The heap after the compaction of the cols of a list. -/
theorem foldl_compactCol (cs : List Nat) (heap : Nat → Col) (c : Nat) :
    (cs.foldl (fun hp col => modCol hp col compactCol) heap) c =
      if c ∈ cs then compactCol (heap c) else heap c := by
  induction cs generalizing heap with
  | nil => simp
  | cons a cs ih =>
    rw [List.foldl_cons, ih]
    by_cases hc : c = a
    · subst hc
      rw [modCol_same]
      by_cases hm : c ∈ cs
      · simp [hm, compactCol_idem]
      · simp [hm]
    · rw [modCol_other _ _ hc]
      simp [hc]

/-- The heap after gravity, col by col. -/
theorem playgroundCauseGravity_heap (pg : Playground) (c : Nat) :
    (playgroundCauseGravity pg).heap c =
      if c ∈ pg.changedCols then
        compactCol { pg.heap c with pieces := markedPieces pg c }
      else { pg.heap c with pieces := markedPieces pg c } := by
  show (pg.changedCols.foldl (fun hp col => modCol hp col compactCol)
    (applyRemovals pg.heap pg.pieceRemovals)) c = _
  rw [foldl_compactCol, applyRemovals_apply]
  rfl

/-! ## Neighbours on the board -/

/-- The piece-stack col one position to the right is the successor in the chain, when that
is a piece-stack col; otherwise there is none. -/
theorem WF.colAt_succ {pg : Playground} {hs : List Nat} (w : WF pg hs) {x : Int} {c : Nat}
    (hc : colAtFrom pg.heap hs pg.startColX x = some c) :
    colAtFrom pg.heap hs pg.startColX (x + 1) = pieceCol pg.heap (pg.heap c).next := by
  obtain ⟨l1, l2, rfl, hx, hty⟩ := colAtFrom_some hc
  have hl := (WF.links_at w).2
  have hw1 : wsum pg.heap (l1 ++ [c]) = wsum pg.heap l1 + 1 := by
    rw [wsum_append, wsum_cons_pieces _ hty]; simp [wsum]
  cases l2 with
  | nil =>
    rw [hl]
    exact colAtFrom_ge _ _ _ _ (by rw [hw1]; omega)
  | cons n l3 =>
    rw [hl]
    show _ = if (pg.heap n).type = .COL_PIECES then some n else none
    have he : l1 ++ c :: n :: l3 = (l1 ++ [c]) ++ n :: l3 := by simp
    rcases type_cases (pg.heap n) with hn | hn
    · rw [if_pos hn, he]
      have := colAtFrom_mid pg.heap (l1 ++ [c]) l3 n pg.startColX hn
      rw [hw1] at this
      rw [← this]
      congr 1
      omega
    · rw [if_neg (by rw [hn]; decide), he, colAtFrom_append,
        colAtFrom_ge _ _ _ _ (by rw [hw1]; omega), colAtFrom_cons_padding _ _ _ hn]
      have hp := w.padPos n (by simp) hn
      rw [hw1]
      exact colAtFrom_lt _ _ _ _ (by omega)

/-- The piece-stack col one position to the left is the predecessor in the chain, when that
is a piece-stack col; otherwise there is none. -/
theorem WF.colAt_pred {pg : Playground} {hs : List Nat} (w : WF pg hs) {x : Int} {c : Nat}
    (hc : colAtFrom pg.heap hs pg.startColX x = some c) :
    colAtFrom pg.heap hs pg.startColX (x - 1) = pieceCol pg.heap (pg.heap c).prev := by
  obtain ⟨l1, l2, rfl, hx, hty⟩ := colAtFrom_some hc
  have hl := (WF.links_at w).1
  rcases nil_or_snoc l1 with rfl | ⟨l0, q, rfl⟩
  · rw [hl]
    simp only [wsum, Int.add_zero] at hx
    exact colAtFrom_lt _ _ _ _ (by omega)
  · rw [hl, lastOr_append]
    show _ = if (pg.heap q).type = .COL_PIECES then some q else none
    have he : l0 ++ [q] ++ c :: l2 = l0 ++ q :: c :: l2 := by simp
    rcases type_cases (pg.heap q) with hq | hq
    · have hw1 : wsum pg.heap (l0 ++ [q]) = wsum pg.heap l0 + 1 := by
        rw [wsum_append, wsum_cons_pieces _ hq]; simp [wsum]
      rw [if_pos hq, he]
      have := colAtFrom_mid pg.heap l0 (c :: l2) q pg.startColX hq
      rw [← this]
      congr 1
      omega
    · have hw1 : wsum pg.heap (l0 ++ [q]) = wsum pg.heap l0 + ((pg.heap q).size : Int) := by
        rw [wsum_append, wsum_cons_padding _ hq]; simp [wsum]
      have hp := w.padPos q (by simp) hq
      rw [if_neg (by rw [hq]; decide), he, colAtFrom_append,
        colAtFrom_ge _ _ _ _ (by omega), colAtFrom_cons_padding _ _ _ hq]
      exact colAtFrom_lt _ _ _ _ (by omega)

theorem after_of_mem {hs : List Nat} {c : Nat} (h : c ∈ hs) : ∃ m, After hs c m ∧ m < hs.length := by
  obtain ⟨l1, l2, rfl⟩ := List.append_of_mem h
  exact ⟨l2.length, ⟨l1, l2, rfl, rfl⟩, by simp; omega⟩

theorem before_of_mem {hs : List Nat} {c : Nat} (h : c ∈ hs) :
    ∃ m, Before hs c m ∧ m < hs.length := by
  obtain ⟨l1, l2, rfl⟩ := List.append_of_mem h
  exact ⟨l1.length, ⟨l1, l2, rfl, rfl⟩, by simp⟩

theorem After.mem_after {hs : List Nat} {c m : Nat} (h : After hs c m) : c ∈ hs := by
  obtain ⟨l1, l2, rfl, _⟩ := h
  simp

theorem Before.mem_before {hs : List Nat} {c m : Nat} (h : Before hs c m) : c ∈ hs := by
  obtain ⟨l1, l2, rfl, _⟩ := h
  simp

theorem WF.after_next {pg : Playground} {hs : List Nat} (w : WF pg hs) {c m n : Nat}
    (h : After hs c m) (hn : (pg.heap c).next = some n) : ∃ k, After hs n k ∧ k < m := by
  obtain ⟨l1, l2, rfl, hm⟩ := h
  have hl := (WF.links_at w).2
  rw [hn] at hl
  cases l2 with
  | nil => simp at hl
  | cons a l3 =>
    simp only [headOr_cons, Option.some.injEq] at hl
    subst hl
    exact ⟨l3.length, ⟨l1 ++ [c], l3, by simp, rfl⟩, by simp at hm; omega⟩

theorem WF.before_prev {pg : Playground} {hs : List Nat} (w : WF pg hs) {c m n : Nat}
    (h : Before hs c m) (hn : (pg.heap c).prev = some n) : ∃ k, Before hs n k ∧ k < m := by
  obtain ⟨l1, l2, rfl, hm⟩ := h
  have hl := (WF.links_at w).1
  rw [hn] at hl
  rcases nil_or_snoc l1 with rfl | ⟨l0, q, rfl⟩
  · simp at hl
  · rw [lastOr_append] at hl
    simp only [lastOr_singleton, Option.some.injEq] at hl
    subst hl
    exact ⟨l0.length, ⟨l0, c :: l2, by simp, rfl⟩, by simp at hm; omega⟩

/-- A col sits at one position only. -/
theorem WF.colAt_inj {pg : Playground} {hs : List Nat} (w : WF pg hs) {x1 x2 : Int} {c : Nat}
    (h1 : colAt pg x1 = some c) (h2 : colAt pg x2 = some c) : x1 = x2 := by
  rw [w.colAt_eq] at h1 h2
  obtain ⟨a1, b1, e1, p1, _⟩ := colAtFrom_some h1
  obtain ⟨a2, b2, e2, p2, _⟩ := colAtFrom_some h2
  have hnd := w.nodup
  rw [e1] at hnd
  obtain ⟨ha, _⟩ := split_unique hnd (e1.symm.trans e2)
  rw [← p1, ← p2, ha]

theorem WF.colAt_mem {pg : Playground} {hs : List Nat} (w : WF pg hs) {x : Int} {c : Nat}
    (h : colAt pg x = some c) : c ∈ hs ∧ (pg.heap c).type = .COL_PIECES := by
  rw [w.colAt_eq] at h
  exact ⟨colAtFrom_mem h, colAtFrom_pieces h⟩

theorem WF.colAt_right {pg : Playground} {hs : List Nat} (w : WF pg hs) {x : Int} {c : Nat}
    (hc : colAt pg x = some c) : colAt pg (x + 1) = pieceCol pg.heap (pg.heap c).next := by
  rw [w.colAt_eq] at hc ⊢
  exact w.colAt_succ hc

theorem WF.colAt_left {pg : Playground} {hs : List Nat} (w : WF pg hs) {x : Int} {c : Nat}
    (hc : colAt pg x = some c) : colAt pg (x + -1) = pieceCol pg.heap (pg.heap c).prev := by
  rw [w.colAt_eq] at hc ⊢
  exact w.colAt_pred hc

/-- Every piece-stack col of the chain sits at some position. -/
theorem WF.colAt_of_mem {pg : Playground} {hs : List Nat} (w : WF pg hs) {c : Nat}
    (hm : c ∈ hs) (hty : (pg.heap c).type = .COL_PIECES) : ∃ x, colAt pg x = some c := by
  obtain ⟨l1, l2, rfl⟩ := List.append_of_mem hm
  exact ⟨pg.startColX + wsum pg.heap l1, by rw [w.colAt_eq]; exact colAtFrom_mid _ _ _ _ _ hty⟩

theorem pieceAt_of_col {pg : Playground} {x : Int} {c : Nat} (h : colAt pg x = some c)
    (y : Int) :
    pieceAt pg x y =
      if 0 ≤ y ∧ y < ((pg.heap c).count : Int) then some ((pg.heap c).pieces y.toNat)
      else none := by
  simp [pieceAt, h]

theorem pieceAt_of_none {pg : Playground} {x : Int} (h : colAt pg x = none) (y : Int) :
    pieceAt pg x y = none := by
  simp [pieceAt, h]

theorem pieceAt_some {pg : Playground} {x y : Int} {p : Nat} (h : pieceAt pg x y = some p) :
    ∃ c, colAt pg x = some c ∧ 0 ≤ y ∧ y < ((pg.heap c).count : Int) ∧
      (pg.heap c).pieces y.toNat = p := by
  cases hc : colAt pg x with
  | none => rw [pieceAt_of_none hc] at h; exact absurd h (by simp)
  | some c =>
    rw [pieceAt_of_col hc] at h
    by_cases hy : 0 ≤ y ∧ y < ((pg.heap c).count : Int)
    · rw [if_pos hy] at h
      exact ⟨c, rfl, hy.1, hy.2, Option.some.inj h⟩
    · rw [if_neg hy] at h
      exact absurd h (by simp)

/-! ## The neighbour walks of the line detector -/

theorem scanLine_none (heap : Nat → Col) (link : Col → Option Nat) (d : Int) (p fuel : Nat)
    (y : Int) (e len : Nat) :
    scanLine heap link d p (fuel + 1) none y e len = .ok (e, y, len) := rfl

theorem scanLine_some (heap : Nat → Col) (link : Col → Option Nat) (d : Int) (p fuel : Nat)
    (nc : Nat) (y : Int) (e len : Nat) :
    scanLine heap link d p (fuel + 1) (some nc) y e len =
      if (heap nc).type = .COL_PIECES ∧ 0 ≤ y ∧ y < ((heap nc).count : Int) ∧
          (heap nc).pieces y.toNat = p then
        scanLine heap link d p fuel (link (heap nc)) (y + d) nc (len + 1)
      else .ok (e, y, len) := rfl

/-- A neighbour walk of the line detector stops, and what it reports is the maximal run of
cells of colour `p` that starts next to the col `c` at position `x`. -/
theorem scanLine_spec {pg : Playground} (link : Col → Option Nat) (sgn : Int)
    (Rk : Nat → Nat → Prop)
    (hadj : ∀ x c, colAt pg x = some c →
      colAt pg (x + sgn) = pieceCol pg.heap (link (pg.heap c)))
    (hrk : ∀ c m n, Rk c m → link (pg.heap c) = some n → ∃ k, Rk n k ∧ k < m)
    (d : Int) (p : Nat) :
    ∀ (fuel : Nat) (x : Int) (c : Nat) (y : Int) (len m : Nat),
      colAt pg x = some c → Rk c m → m < fuel →
      ∃ (r : Nat) (e : Nat),
        scanLine pg.heap link d p fuel (link (pg.heap c)) y c len =
          .ok (e, y + (r : Int) * d, len + r) ∧
        colAt pg (x + (r : Int) * sgn) = some e ∧
        (∀ k : Nat, k < r → pieceAt pg (x + ((k : Int) + 1) * sgn) (y + (k : Int) * d) = some p) ∧
        pieceAt pg (x + ((r : Int) + 1) * sgn) (y + (r : Int) * d) ≠ some p := by
  intro fuel
  induction fuel with
  | zero => intro x c y len m _ _ hm; omega
  | succ fuel ih =>
    intro x c y len m hc hr hm
    have hadj1 := hadj x c hc
    cases hl : link (pg.heap c) with
    | none =>
      rw [hl] at hadj1
      refine ⟨0, c, ?_, ?_, ?_, ?_⟩
      · rw [scanLine_none]; simp
      · simpa using hc
      · intro k hk; omega
      · have h0 : pieceAt pg (x + sgn) y = none := pieceAt_of_none hadj1 y
        simpa using (by rw [h0]; simp : pieceAt pg (x + sgn) y ≠ some p)
    | some nc =>
      rw [hl] at hadj1
      rw [scanLine_some]
      by_cases hcond : (pg.heap nc).type = .COL_PIECES ∧ 0 ≤ y ∧
          y < ((pg.heap nc).count : Int) ∧ (pg.heap nc).pieces y.toNat = p
      · rw [if_pos hcond]
        have hcol : colAt pg (x + sgn) = some nc := by
          rw [hadj1]; simp [pieceCol, hcond.1]
        obtain ⟨k, hk, hkm⟩ := hrk c m nc hr hl
        obtain ⟨r, e, h1, h2, h3, h4⟩ :=
          ih (x + sgn) nc (y + d) (len + 1) k hcol hk (by omega)
        refine ⟨r + 1, e, ?_, ?_, ?_, ?_⟩
        · have e1 : y + d + (r : Int) * d = y + ((r + 1 : Nat) : Int) * d := by
            push_cast; ring
          have e2 : len + 1 + r = len + (r + 1) := by omega
          rw [h1, e1, e2]
        · rw [← h2]; congr 1; push_cast; ring
        · intro j hj
          cases j with
          | zero =>
            have : pieceAt pg (x + sgn) y = some p := by
              rw [pieceAt_of_col hcol, if_pos ⟨hcond.2.1, hcond.2.2.1⟩, hcond.2.2.2]
            simpa using this
          | succ j =>
            have := h3 j (by omega)
            rw [← this]
            congr 1 <;> (push_cast; ring)
        · intro hcontra
          apply h4
          rw [← hcontra]
          congr 1 <;> (push_cast; ring)
      · rw [if_neg hcond]
        refine ⟨0, c, by simp, by simpa using hc, fun k hk => by omega, ?_⟩
        have h0 : pieceAt pg (x + sgn) y ≠ some p := by
          by_cases hty : (pg.heap nc).type = .COL_PIECES
          · have hcol : colAt pg (x + sgn) = some nc := by
              rw [hadj1]; simp [pieceCol, hty]
            rw [pieceAt_of_col hcol]
            by_cases hy : 0 ≤ y ∧ y < ((pg.heap nc).count : Int)
            · rw [if_pos hy]
              intro hp
              exact hcond ⟨hty, hy.1, hy.2, Option.some.inj hp⟩
            · rw [if_neg hy]; simp
          · have hcol : colAt pg (x + sgn) = none := by
              rw [hadj1]; simp [pieceCol, hty]
            rw [pieceAt_of_none hcol]; simp
        simpa using h0

/-! ## The cycle invariant under the removal queue -/

theorem Lower.rfl_lower (hs : List Nat) (q : Playground) : Lower hs q q :=
  fun _ _ _ => Nat.le_refl _

theorem Lower.then_lower {hs : List Nat} {a b c : Playground} (h1 : Lower hs a b)
    (h2 : Lower hs b c) (hb : SameBoard a b) : Lower hs a c :=
  fun k hk hty =>
    Nat.le_trans (h2 k hk (by rw [← (hb.shape.links k).1]; exact hty)) (h1 k hk hty)

theorem modCol_changeY_apply (heap : Nat → Col) (col y c : Nat) :
    modCol heap col (fun e => { e with changeY := y }) c =
      { heap c with changeY := if c = col then y else (heap c).changeY } := by
  by_cases h : c = col
  · subst h; simp
  · rw [modCol_other _ _ h]; simp [h]

/-- Queueing a cell of the board keeps the cycle invariant, unless the removal array is
full. -/
theorem playgroundRemovePiece_cyc {hs : List Nat} {pg : Playground} {col y : Nat}
    (hc : Cyc hs pg) (hm : col ∈ hs) (hty : (pg.heap col).type = .COL_PIECES)
    (hy : y < (pg.heap col).count) :
    (∃ pg2, playgroundRemovePiece pg col y = .ok pg2 ∧ Cyc hs pg2 ∧ Lower hs pg pg2 ∧
      pg2.pieceRemovals = pg.pieceRemovals ++ [(col, y)]) ∨
    Aborts (playgroundRemovePiece pg col y) := by
  have hcap := hc.cap col hm hty
  by_cases hfull : pg.pieceRemovals.length = pg.changedColsSize
  · right
    simp [playgroundRemovePiece, hfull, Aborts]
  have hroom2 : (pg.pieceRemovals ++ [(col, y)]).length ≤ pg.changedColsSize := by
    have := hc.room
    simp only [List.length_append, List.length_singleton]
    omega
  have hstep : playgroundRemovePiece pg col y =
      playgroundTrackChange { pg with pieceRemovals := pg.pieceRemovals ++ [(col, y)] } col y := by
    simp [playgroundRemovePiece, hfull]
  rw [hstep]
  by_cases hcond : (pg.heap col).changeY = (pg.heap col).size ∨ (pg.heap col).changeY > y
  · left
    refine ⟨{ pg with
        heap := modCol pg.heap col (fun e => { e with changeY := y })
        changedCols := pg.changedCols ++ [col]
        pieceRemovals := pg.pieceRemovals ++ [(col, y)] }, ?_, ?_, ?_, rfl⟩
    · have hne : ¬ y = (pg.heap col).size := by omega
      simp [playgroundTrackChange, hcond, hne]
    · have hb : SameBoard pg { pg with
          heap := modCol pg.heap col (fun e => { e with changeY := y })
          changedCols := pg.changedCols ++ [col]
          pieceRemovals := pg.pieceRemovals ++ [(col, y)] } :=
        ⟨⟨fun h => by
            show SameLinks (pg.heap h) (modCol pg.heap col _ h)
            rw [modCol_changeY_apply]; exact ⟨rfl, rfl, rfl, rfl⟩,
          rfl, rfl, rfl, rfl, rfl, rfl, rfl, rfl, rfl⟩,
          fun h => by
            show (modCol pg.heap col _ h).count = _
            rw [modCol_changeY_apply],
          fun h => by
            show (modCol pg.heap col _ h).pieces = _
            rw [modCol_changeY_apply]⟩
      refine ⟨hb.shape.wf_of hc.wf, ?_, ?_, ?_, ?_, ?_, ?_⟩
      · intro c hcm ht
        show (modCol pg.heap col _ c).count ≤ (modCol pg.heap col _ c).size
        rw [modCol_changeY_apply]
        exact hc.cap c hcm (by
          have : (modCol pg.heap col (fun e => { e with changeY := y }) c).type = _ := ht
          rw [modCol_changeY_apply] at this; exact this)
      · intro c hcm ht
        show ∀ z, z < (modCol pg.heap col _ c).count →
          (modCol pg.heap col _ c).pieces z ≠ PIECE_EMPTY
        rw [modCol_changeY_apply]
        exact hc.noEmpty c hcm (by
          have : (modCol pg.heap col (fun e => { e with changeY := y }) c).type = _ := ht
          rw [modCol_changeY_apply] at this; exact this)
      · intro c hcm ht hd
        show c ∈ pg.changedCols ++ [col]
        by_cases hcc : c = col
        · simp [hcc]
        · have ht2 : (modCol pg.heap col (fun e => { e with changeY := y }) c).type = _ := ht
          have hd2 : (modCol pg.heap col (fun e => { e with changeY := y }) c).changeY ≠
              (modCol pg.heap col (fun e => { e with changeY := y }) c).size := hd
          rw [modCol_other _ _ hcc] at ht2 hd2
          exact List.mem_append_left _ (hc.dirty c hcm ht2 hd2)
      · intro c hcm
        have hcm2 : c ∈ pg.changedCols ++ [col] := hcm
        show c ∈ hs ∧ (modCol pg.heap col _ c).type = _ ∧
          (modCol pg.heap col _ c).changeY ≤ (modCol pg.heap col _ c).count
        rw [modCol_changeY_apply]
        by_cases hcc : c = col
        · subst hcc
          simp only [if_true]
          exact ⟨hm, hty, by omega⟩
        · simp only [if_neg hcc]
          rcases List.mem_append.mp hcm2 with h1 | h1
          · exact hc.changed c h1
          · simp at h1; exact absurd h1 hcc
      · intro r hr
        have hr2 : r ∈ pg.pieceRemovals ++ [(col, y)] := hr
        show r.1 ∈ pg.changedCols ++ [col] ∧ (modCol pg.heap col _ r.1).changeY ≤ r.2 ∧
          r.2 < (modCol pg.heap col _ r.1).count
        rw [modCol_changeY_apply]
        rcases List.mem_append.mp hr2 with h1 | h1
        · obtain ⟨q1, q2, q3⟩ := hc.queued r h1
          refine ⟨List.mem_append_left _ q1, ?_, q3⟩
          by_cases hcc : r.1 = col
          · simp only [if_pos hcc]
            rw [hcc] at q2 q3
            omega
          · simp only [if_neg hcc]; exact q2
        · simp at h1
          subst h1
          simp only [if_true]
          exact ⟨by simp, Nat.le_refl _, hy⟩
      · exact hroom2
    · intro c hcm ht
      show (modCol pg.heap col _ c).changeY ≤ _
      rw [modCol_changeY_apply]
      by_cases hcc : c = col
      · subst hcc; simp only [if_true]; omega
      · simp only [if_neg hcc]; exact Nat.le_refl _
  · left
    refine ⟨{ pg with pieceRemovals := pg.pieceRemovals ++ [(col, y)] }, ?_, ?_, ?_, rfl⟩
    · simp [playgroundTrackChange, hcond]
    · have w := hc.wf
      refine ⟨⟨w.seg, w.nodup, w.bound, w.first, w.last, w.originAt, w.currentAt, w.total,
        w.endPieces, w.startPieces, w.padPos⟩,
        hc.cap, hc.noEmpty, hc.dirty, hc.changed, ?_, hroom2⟩
      intro r hr
      have hr2 : r ∈ pg.pieceRemovals ++ [(col, y)] := hr
      rcases List.mem_append.mp hr2 with h1 | h1
      · exact hc.queued r h1
      · simp at h1
        subst h1
        have hd : (pg.heap col).changeY ≠ (pg.heap col).size := fun h => hcond (Or.inl h)
        exact ⟨hc.dirty col hm hty hd, by show (pg.heap col).changeY ≤ y; omega, hy⟩
    · exact Lower.rfl_lower hs _

theorem Det.rfl_det {hs : List Nat} {q : Playground} (h : Cyc hs q) : Det hs q q :=
  ⟨h, Lower.rfl_lower hs q, Marks.refl q⟩

theorem Det.then_det {hs : List Nat} {a b c : Playground} (h1 : Det hs a b) (h2 : Det hs b c) :
    Det hs a c :=
  ⟨h2.cyc, Lower.then_lower h1.lower h2.lower h1.marks.board, h1.marks.then_marks h2.marks⟩

theorem SameBoard.colAt_same {pg pg2 : Playground} {hs : List Nat} (hb : SameBoard pg pg2)
    (w : WF pg hs) (x : Int) : colAt pg2 x = colAt pg x := by
  rw [(hb.shape.wf_of w).colAt_eq, w.colAt_eq, hb.shape.colAtFrom, hb.shape.startColX]

theorem SameBoard.pieceAt_same {pg pg2 : Playground} {hs : List Nat} (hb : SameBoard pg pg2)
    (w : WF pg hs) (x y : Int) : pieceAt pg2 x y = pieceAt pg x y := by
  unfold pieceAt
  rw [hb.colAt_same w]
  cases colAt pg x with
  | none => rfl
  | some c => simp only [hb.count c, hb.pieces c]

theorem pieceCol_some {heap : Nat → Col} {o : Option Nat} {n : Nat}
    (h : pieceCol heap o = some n) : o = some n ∧ (heap n).type = .COL_PIECES := by
  cases o with
  | none => simp [pieceCol] at h
  | some k =>
    by_cases hk : (heap k).type = .COL_PIECES
    · simp [pieceCol, hk] at h
      subst h
      exact ⟨rfl, hk⟩
    · simp [pieceCol, hk] at h

theorem removeRun_some (d : Int) (e fuel : Nat) (pg : Playground) (nc : Nat) (y : Int) :
    removeRun d e (fuel + 1) pg (some nc) y =
      if (pg.heap nc).prev ≠ some e then
        match playgroundRemovePiece pg nc y.toNat with
        | .error er => .error er
        | .ok pg1 => removeRun d e fuel pg1 (pg1.heap nc).next (y + d)
      else .ok pg := rfl

theorem removeRun_none (d : Int) (e fuel : Nat) (pg : Playground) (y : Int) :
    removeRun d e (fuel + 1) pg none y = .ok pg := rfl

/-- A position that lies on a line of one board lies on a line of every state that shows the
same board. -/
theorem SameBoard.onRun {pg pg2 : Playground} {hs : List Nat} (hb : SameBoard pg pg2)
    (w : WF pg hs) {r : Nat × Nat} (h : OnRun pg r) : OnRun pg2 r := by
  obtain ⟨x, h1, h2, dx, dy, hd, i, hi, p, hp⟩ := h
  refine ⟨x, by rw [hb.colAt_same w]; exact h1, by rw [hb.count]; exact h2, dx, dy, hd, i, hi, p,
    ?_⟩
  intro k hk
  rw [hb.pieceAt_same w]
  exact hp k hk

/-- A cell of a run of at least four cells of one colour along the direction `(1, d)` lies on a
line. -/
theorem run_cell_onRun {pg : Playground} {x : Int} {y : Nat} {d : Int} {p r s : Nat}
    (hcells : ∀ j : Int, -(s : Int) ≤ j → j ≤ (r : Int) →
      pieceAt pg (x + j) ((y : Int) + j * d) = some p)
    (hlong : 3 ≤ r + s) (hdir : IsDir 1 d) {j : Int} (hj1 : -(s : Int) ≤ j) (hj2 : j ≤ (r : Int))
    {ck : Nat} (hck : colAt pg (x + j) = some ck) :
    OnRun pg (ck, ((y : Int) + j * d).toNat) := by
  obtain ⟨c2, q1, q2, q3, _⟩ := pieceAt_some (hcells j hj1 hj2)
  rw [hck] at q1
  obtain rfl := Option.some.inj q1
  have hcast : ((((y : Int) + j * d).toNat : Nat) : Int) = (y : Int) + j * d :=
    Int.toNat_of_nonneg q2
  have hlt : ((y : Int) + j * d).toNat < (pg.heap ck).count := by
    have h := q3
    rw [← hcast] at h
    exact_mod_cast h
  refine ⟨x + j, hck, hlt, 1, d, hdir, ?_⟩
  show OnLine pg (x + j) ((((y : Int) + j * d).toNat : Nat) : Int) 1 d
  rw [hcast]
  refine ⟨min (j + s).toNat 3, by omega, p, ?_⟩
  intro k hk
  have hi : ((min (j + s).toNat 3 : Nat) : Int) = min (j + s) 3 := by omega
  have := hcells (j - min (j + s) 3 + k) (by omega) (by omega)
  rw [← this, hi]
  congr 1 <;> ring

/-- The removal walk over a run of `n + 1` cells from the col `c` at `xs` to the col `e`:
it queues `n + 1` cells and keeps the cycle invariant, unless the removal array is full; when
the cells of the run lie on a line, it keeps the queue sound. -/
theorem removeRun_full {hs : List Nat} (d : Int) (e : Nat) :
    ∀ (n fuel : Nat) (pg : Playground) (xs : Int) (c : Nat) (y : Int) (m : Nat),
      Cyc hs pg → colAt pg xs = some c → colAt pg (xs + (n : Int)) = some e →
      (∀ k : Nat, k ≤ n → ∃ ck, colAt pg (xs + (k : Int)) = some ck ∧ 0 ≤ y + (k : Int) * d ∧
        y + (k : Int) * d < ((pg.heap ck).count : Int)) →
      After hs c m → m + 1 < fuel →
      (∃ pg2, removeRun d e fuel pg (some c) y = .ok pg2 ∧ Det hs pg pg2 ∧
        pg2.pieceRemovals.length = pg.pieceRemovals.length + n + 1 ∧
        (Sound pg →
          (∀ k : Nat, k ≤ n → ∀ ck, colAt pg (xs + (k : Int)) = some ck →
            OnRun pg (ck, (y + (k : Int) * d).toNat)) →
          Sound pg2)) ∨
      Aborts (removeRun d e fuel pg (some c) y) := by
  intro n
  induction n with
  | zero =>
    intro fuel pg xs c y m hc hcs hce hcells ha hf
    obtain ⟨fuel, rfl⟩ : ∃ f, fuel = f + 1 := ⟨fuel - 1, by omega⟩
    obtain ⟨fuel, rfl⟩ : ∃ f, fuel = f + 1 := ⟨fuel - 1, by omega⟩
    simp only [Nat.cast_zero, Int.add_zero] at hce
    have hce2 : e = c := by rw [hcs] at hce; exact (Option.some.inj hce).symm
    subst hce2
    obtain ⟨hmem, hty⟩ := hc.wf.colAt_mem hcs
    obtain ⟨ck, hck, hy0, hy1⟩ := hcells 0 (Nat.le_refl 0)
    simp only [Nat.cast_zero, Int.add_zero, Int.zero_mul] at hck hy0 hy1
    rw [hcs] at hck
    obtain rfl := Option.some.inj hck
    have hprev : (pg.heap e).prev ≠ some e := by
      intro hp
      have h1 := hc.wf.colAt_left hcs
      rw [hp] at h1
      simp only [pieceCol, hty, if_true] at h1
      have := hc.wf.colAt_inj h1 hcs
      omega
    rw [removeRun_some, if_pos hprev]
    rcases playgroundRemovePiece_cyc hc hmem hty (by omega : y.toNat < (pg.heap e).count)
      with ⟨pg1, h1, hc1, hl1, hr1⟩ | hab
    · left
      rw [h1]
      have hb := (Marks.single h1).board
      have hsnd : Sound pg →
          (∀ k : Nat, k ≤ 0 → ∀ ck, colAt pg (xs + (k : Int)) = some ck →
            OnRun pg (ck, (y + (k : Int) * d).toNat)) → Sound pg1 := by
        intro hs0 hrun r hr
        rw [hr1] at hr
        rcases List.mem_append.mp hr with h | h
        · exact hb.onRun hc.wf (hs0 r h)
        · obtain rfl : r = (e, y.toNat) := by simpa using h
          have := hrun 0 (Nat.le_refl 0) e (by simpa using hcs)
          simp only [Nat.cast_zero, Int.zero_mul, Int.add_zero] at this
          exact hb.onRun hc.wf this
      refine ⟨pg1, ?_, ⟨hc1, hl1, Marks.single h1⟩, by rw [hr1]; simp, hsnd⟩
      show removeRun d e (fuel + 1) pg1 (pg1.heap e).next (y + d) = .ok pg1
      cases hn : (pg1.heap e).next with
      | none => rfl
      | some n1 =>
        have hp1 : (pg1.heap n1).prev = some e := by
          obtain ⟨k0, hk0, _⟩ := after_of_mem hmem
          obtain ⟨k1, hk1, _⟩ := hc1.wf.after_next hk0 hn
          obtain ⟨l1, l2, hl⟩ := List.append_of_mem hk1.mem_after
          subst hl
          exact WF.next_eq hc1.wf hmem hn
        rw [removeRun_some, if_neg (by simp [hp1])]
    · right
      unfold Aborts at hab ⊢; rw [hab]
  | succ n ih =>
    intro fuel pg xs c y m hc hcs hce hcells ha hf
    obtain ⟨fuel, rfl⟩ : ∃ f, fuel = f + 1 := ⟨fuel - 1, by omega⟩
    obtain ⟨hmem, hty⟩ := hc.wf.colAt_mem hcs
    obtain ⟨hemem, hety⟩ := hc.wf.colAt_mem hce
    obtain ⟨ck, hck, hy0, hy1⟩ := hcells 0 (Nat.zero_le _)
    simp only [Nat.cast_zero, Int.add_zero, Int.zero_mul] at hck hy0 hy1
    rw [hcs] at hck
    obtain rfl := Option.some.inj hck
    have hprev : (pg.heap c).prev ≠ some e := by
      intro hp
      have h1 := hc.wf.colAt_left hcs
      rw [hp] at h1
      simp only [pieceCol, hety, if_true] at h1
      have := hc.wf.colAt_inj h1 hce
      push_cast at this
      omega
    rw [removeRun_some, if_pos hprev]
    rcases playgroundRemovePiece_cyc hc hmem hty (by omega : y.toNat < (pg.heap c).count)
      with ⟨pg1, h1, hc1, hl1, hr1⟩ | hab
    · rw [h1]
      have hb := (Marks.single h1).board
      obtain ⟨c1, hc1at, _, _⟩ := hcells 1 (by omega)
      simp only [Nat.cast_one] at hc1at
      have hnext : (pg.heap c).next = some c1 := by
        have := hc.wf.colAt_right hcs
        rw [hc1at] at this
        exact (pieceCol_some this.symm).1
      have hnext1 : (pg1.heap c).next = some c1 := by
        rw [← (hb.shape.links c).2.2.1]; exact hnext
      obtain ⟨m1, ha1, hm1⟩ := hc.wf.after_next ha hnext
      show (∃ pg2, removeRun d e fuel pg1 (pg1.heap c).next (y + d) = .ok pg2 ∧ _) ∨
        Aborts (removeRun d e fuel pg1 (pg1.heap c).next (y + d))
      rw [hnext1]
      have hcells1 : ∀ k : Nat, k ≤ n → ∃ c2, colAt pg1 (xs + 1 + (k : Int)) = some c2 ∧
          0 ≤ y + d + (k : Int) * d ∧ y + d + (k : Int) * d < ((pg1.heap c2).count : Int) := by
        intro k hk
        obtain ⟨c2, g1, g2, g3⟩ := hcells (k + 1) (by omega)
        refine ⟨c2, ?_, ?_, ?_⟩
        · rw [hb.colAt_same hc.wf, ← g1]; congr 1; push_cast; ring
        · have : y + d + (k : Int) * d = y + ((k + 1 : Nat) : Int) * d := by push_cast; ring
          rw [this]; exact g2
        · have : y + d + (k : Int) * d = y + ((k + 1 : Nat) : Int) * d := by push_cast; ring
          rw [this, hb.count c2]; exact g3
      rcases ih fuel pg1 (xs + 1) c1 (y + d) m1 hc1
          (by rw [hb.colAt_same hc.wf]; exact hc1at)
          (by rw [hb.colAt_same hc.wf, ← hce]; congr 1; push_cast; ring)
          hcells1 ha1 (by omega) with ⟨pg2, g1, g2, g3, g4⟩ | hab
      · left
        refine ⟨pg2, g1, Det.then_det ⟨hc1, hl1, Marks.single h1⟩ g2,
          by rw [g3, hr1]; simp; omega, ?_⟩
        intro hs0 hrun
        apply g4
        · intro r hr
          rw [hr1] at hr
          rcases List.mem_append.mp hr with h | h
          · exact hb.onRun hc.wf (hs0 r h)
          · obtain rfl : r = (c, y.toNat) := by simpa using h
            have := hrun 0 (Nat.zero_le _) c (by simpa using hcs)
            simp only [Nat.cast_zero, Int.zero_mul, Int.add_zero] at this
            exact hb.onRun hc.wf this
        · intro k hk ck hck
          have h1k : colAt pg (xs + ((k + 1 : Nat) : Int)) = some ck := by
            rw [← hb.colAt_same hc.wf, ← hck]; congr 1; push_cast; ring
          have := hrun (k + 1) (by omega) ck h1k
          have e1 : y + d + (k : Int) * d = y + ((k + 1 : Nat) : Int) * d := by push_cast; ring
          rw [e1]
          exact hb.onRun hc.wf this
      · right; exact hab
    · right
      unfold Aborts at hab ⊢; rw [hab]

/-- The removal walk over a run of `n + 1` cells from the col `c` at `xs` to the col `e`:
it queues `n + 1` cells and keeps the cycle invariant, unless the removal array is full. -/
theorem removeRun_spec {hs : List Nat} (d : Int) (e : Nat) :
    ∀ (n fuel : Nat) (pg : Playground) (xs : Int) (c : Nat) (y : Int) (m : Nat),
      Cyc hs pg → colAt pg xs = some c → colAt pg (xs + (n : Int)) = some e →
      (∀ k : Nat, k ≤ n → ∃ ck, colAt pg (xs + (k : Int)) = some ck ∧ 0 ≤ y + (k : Int) * d ∧
        y + (k : Int) * d < ((pg.heap ck).count : Int)) →
      After hs c m → m + 1 < fuel →
      (∃ pg2, removeRun d e fuel pg (some c) y = .ok pg2 ∧ Det hs pg pg2 ∧
        pg2.pieceRemovals.length = pg.pieceRemovals.length + n + 1) ∨
      Aborts (removeRun d e fuel pg (some c) y) := by
  intro n fuel pg xs c y m hc hcs hce hcells ha hf
  rcases removeRun_full d e n fuel pg xs c y m hc hcs hce hcells ha hf
    with ⟨pg2, g1, g2, g3, _⟩ | hab
  · exact Or.inl ⟨pg2, g1, g2, g3⟩
  · exact Or.inr hab

/-- One direction of the line detector at the cell `(x, y)`: the maximal run of the colour of
the cell through it has `s` cells before and `r` cells behind the cell; a run shorter than four
leaves the state alone, a longer one is queued cell by cell, and the queue stays sound. -/
theorem scanCell_full {hs : List Nat} {pg : Playground} (hc : Cyc hs pg) {x : Int}
    {col y : Nat} (hcol : colAt pg x = some col) (hy : y < (pg.heap col).count) (d : Int) :
    ∃ r s : Nat,
      (∀ j : Int, -(s : Int) ≤ j → j ≤ (r : Int) →
        pieceAt pg (x + j) ((y : Int) + j * d) = some ((pg.heap col).pieces y)) ∧
      pieceAt pg (x + ((r : Int) + 1)) ((y : Int) + ((r : Int) + 1) * d) ≠
        some ((pg.heap col).pieces y) ∧
      pieceAt pg (x - ((s : Int) + 1)) ((y : Int) - ((s : Int) + 1) * d) ≠
        some ((pg.heap col).pieces y) ∧
      ((r + s + 1 < MIN_LINE_COUNT ∧ scanCell pg col y ((pg.heap col).pieces y) d = .ok pg) ∨
       (MIN_LINE_COUNT ≤ r + s + 1 ∧
        ((∃ pg2, scanCell pg col y ((pg.heap col).pieces y) d = .ok pg2 ∧ Det hs pg pg2 ∧
            pg2.pieceRemovals.length = pg.pieceRemovals.length + (r + s) + 1 ∧
            (IsDir 1 d → Sound pg → Sound pg2)) ∨
          Aborts (scanCell pg col y ((pg.heap col).pieces y) d)))) := by
  obtain ⟨hmem, hty⟩ := hc.wf.colAt_mem hcol
  obtain ⟨ma, hma, hma2⟩ := after_of_mem hmem
  obtain ⟨mb, hmb, hmb2⟩ := before_of_mem hmem
  have hlen := hc.wf.length_le
  obtain ⟨r, e, f1, f2, f3, f4⟩ := scanLine_spec Col.next 1 (After hs)
    (fun x c h => hc.wf.colAt_right h) (fun c m n h1 h2 => hc.wf.after_next h1 h2) d
    ((pg.heap col).pieces y) (pg.brk + 1) x col ((y : Int) + d) 1 ma hcol hma (by omega)
  obtain ⟨s, b, g1, g2, g3, g4⟩ := scanLine_spec Col.prev (-1) (Before hs)
    (fun x c h => hc.wf.colAt_left h) (fun c m n h1 h2 => hc.wf.before_prev h1 h2) (-d)
    ((pg.heap col).pieces y) (pg.brk + 1) x col ((y : Int) - d) (1 + r) mb hcol hmb (by omega)
  have hcell0 : pieceAt pg x (y : Int) = some ((pg.heap col).pieces y) := by
    rw [pieceAt_of_col hcol, if_pos ⟨by omega, by omega⟩]; simp
  have hcells : ∀ j : Int, -(s : Int) ≤ j → j ≤ (r : Int) →
      pieceAt pg (x + j) ((y : Int) + j * d) = some ((pg.heap col).pieces y) := by
    intro j hj1 hj2
    rcases Int.lt_trichotomy j 0 with hneg | hz | hpos
    · have := g3 (-j - 1).toNat (by omega)
      rw [← this]
      have e1 : (((-j - 1).toNat : Nat) : Int) = -j - 1 := Int.toNat_of_nonneg (by omega)
      congr 1
      · rw [e1]; ring
      · rw [e1]; ring
    · subst hz; simpa using hcell0
    · have := f3 (j - 1).toNat (by omega)
      rw [← this]
      have e1 : (((j - 1).toNat : Nat) : Int) = j - 1 := Int.toNat_of_nonneg (by omega)
      congr 1
      · rw [e1]; ring
      · rw [e1]; ring
  refine ⟨r, s, hcells, ?_, ?_, ?_⟩
  · intro h; apply f4; rw [← h]; congr 1 <;> ring
  · intro h; apply g4; rw [← h]; congr 1 <;> ring
  · have hunf : scanCell pg col y ((pg.heap col).pieces y) d =
        if 1 + r + s ≥ MIN_LINE_COUNT then
          removeRun d e (pg.brk + 1) pg (some b) ((y : Int) - d + (s : Int) * -d + d)
        else .ok pg := by
      unfold scanCell
      rw [f1]
      dsimp only
      rw [g1]
    by_cases hlong : 1 + r + s ≥ MIN_LINE_COUNT
    · right
      refine ⟨by omega, ?_⟩
      rw [hunf, if_pos hlong]
      obtain ⟨hbmem, _⟩ := hc.wf.colAt_mem g2
      obtain ⟨m2, hm2, hm2lt⟩ := after_of_mem hbmem
      have hrun := removeRun_full d e (r + s) (pg.brk + 1) pg (x + (s : Int) * -1) b
        ((y : Int) - d + (s : Int) * -d + d) m2 hc g2
        (by rw [← f2]; congr 1; push_cast; ring)
        (by
          intro k hk
          have hk1 := hcells ((k : Int) - s) (by omega) (by omega)
          obtain ⟨ck, q1, q2, q3, _⟩ := pieceAt_some hk1
          refine ⟨ck, ?_, ?_, ?_⟩
          · rw [← q1]; congr 1; ring
          · have : (y : Int) - d + (s : Int) * -d + d + (k : Int) * d =
                (y : Int) + ((k : Int) - s) * d := by ring
            rw [this]; exact q2
          · have : (y : Int) - d + (s : Int) * -d + d + (k : Int) * d =
                (y : Int) + ((k : Int) - s) * d := by ring
            rw [this]; exact q3)
        hm2 (by omega)
      rcases hrun with ⟨pg2, q1, q2, q3, q4⟩ | hab
      · refine Or.inl ⟨pg2, q1, q2, q3, fun hdir hs0 => q4 hs0 ?_⟩
        intro k hk ck hck
        have h4 : MIN_LINE_COUNT = 4 := rfl
        have hck2 : colAt pg (x + ((k : Int) - s)) = some ck := by
          rw [← hck]; congr 1; ring
        have := run_cell_onRun hcells (by omega) hdir (by omega : -(s : Int) ≤ (k : Int) - s)
          (by omega) hck2
        have e1 : (y : Int) - d + (s : Int) * -d + d + (k : Int) * d =
            (y : Int) + ((k : Int) - s) * d := by ring
        rw [e1]
        exact this
      · exact Or.inr hab
    · left
      refine ⟨by omega, ?_⟩
      rw [hunf, if_neg hlong]

/-- One direction of the line detector at the cell `(x, y)`: the maximal run of the colour of
the cell through it has `s` cells before and `r` cells behind the cell; a run shorter than four
leaves the state alone, a longer one is queued cell by cell. -/
theorem scanCell_spec {hs : List Nat} {pg : Playground} (hc : Cyc hs pg) {x : Int}
    {col y : Nat} (hcol : colAt pg x = some col) (hy : y < (pg.heap col).count) (d : Int) :
    ∃ r s : Nat,
      (∀ j : Int, -(s : Int) ≤ j → j ≤ (r : Int) →
        pieceAt pg (x + j) ((y : Int) + j * d) = some ((pg.heap col).pieces y)) ∧
      pieceAt pg (x + ((r : Int) + 1)) ((y : Int) + ((r : Int) + 1) * d) ≠
        some ((pg.heap col).pieces y) ∧
      pieceAt pg (x - ((s : Int) + 1)) ((y : Int) - ((s : Int) + 1) * d) ≠
        some ((pg.heap col).pieces y) ∧
      ((r + s + 1 < MIN_LINE_COUNT ∧ scanCell pg col y ((pg.heap col).pieces y) d = .ok pg) ∨
       (MIN_LINE_COUNT ≤ r + s + 1 ∧
        ((∃ pg2, scanCell pg col y ((pg.heap col).pieces y) d = .ok pg2 ∧ Det hs pg pg2 ∧
            pg2.pieceRemovals.length = pg.pieceRemovals.length + (r + s) + 1) ∨
          Aborts (scanCell pg col y ((pg.heap col).pieces y) d)))) := by
  obtain ⟨r, s, h1, h2, h3, h4⟩ := scanCell_full hc hcol hy d
  refine ⟨r, s, h1, h2, h3, ?_⟩
  rcases h4 with h | ⟨hl, ⟨pg2, g1, g2, g3, _⟩ | hab⟩
  · exact Or.inl h
  · exact Or.inr ⟨hl, Or.inl ⟨pg2, g1, g2, g3⟩⟩
  · exact Or.inr ⟨hl, Or.inr hab⟩

/-- A direction without a line through the scanned cell leaves the state alone. -/
theorem scanCell_quiet {hs : List Nat} {pg : Playground} (hc : Cyc hs pg) {x : Int}
    {col y : Nat} (hcol : colAt pg x = some col) (hy : y < (pg.heap col).count) (d : Int)
    (hno : ¬ OnLine pg x y 1 d) :
    scanCell pg col y ((pg.heap col).pieces y) d = .ok pg := by
  obtain ⟨r, s, hcells, _, _, hres⟩ := scanCell_spec hc hcol hy d
  have h4 : MIN_LINE_COUNT = 4 := rfl
  rcases hres with ⟨_, h⟩ | ⟨hlong, _⟩
  · exact h
  · exfalso
    apply hno
    refine ⟨min s 3, by omega, (pg.heap col).pieces y, ?_⟩
    intro k hk
    have := hcells ((k : Int) - ((min s 3 : Nat) : Int)) (by omega) (by omega)
    rw [← this]
    congr 1 <;> ring

/-- A direction that queues nothing has no line through the scanned cell. -/
theorem scanCell_found {hs : List Nat} {pg pg2 : Playground} (hc : Cyc hs pg) {x : Int}
    {col y : Nat} (hcol : colAt pg x = some col) (hy : y < (pg.heap col).count) (d : Int)
    (h : scanCell pg col y ((pg.heap col).pieces y) d = .ok pg2)
    (hq : pg2.pieceRemovals = pg.pieceRemovals) : ¬ OnLine pg x y 1 d := by
  obtain ⟨r, s, hcells, hfw, hbw, hres⟩ := scanCell_spec hc hcol hy d
  have h4 : MIN_LINE_COUNT = 4 := rfl
  rcases hres with ⟨hshort, _⟩ | ⟨_, ⟨pg3, h3, _, hl⟩ | hab⟩
  · rintro ⟨i, hi, p, hp⟩
    have hpc : p = (pg.heap col).pieces y := by
      have h1 := hp i hi
      have h2 := hcells 0 (by omega) (by omega)
      have e1 : x - (i : Int) * 1 + (i : Int) * 1 = x + 0 := by ring
      have e2 : (y : Int) - (i : Int) * d + (i : Int) * d = (y : Int) + 0 * d := by ring
      rw [e1, e2, h2] at h1
      exact (Option.some.inj h1).symm
    subst hpc
    have hr : 3 ≤ i + r := by
      by_contra hlt
      apply hfw
      have := hp (i + r + 1) (by omega)
      rw [← this]
      congr 1 <;> (push_cast; ring)
    have hs : i ≤ s := by
      by_contra hlt
      apply hbw
      have := hp (i - s - 1) (by omega)
      rw [← this]
      have e1 : ((i - s - 1 : Nat) : Int) = (i : Int) - s - 1 := by omega
      congr 1 <;> (rw [e1]; ring)
    omega
  · rw [h] at h3
    obtain rfl := Except.ok.inj h3
    rw [hq] at hl
    omega
  · unfold Aborts at hab; rw [h] at hab; exact absurd hab (by simp)

/-- One direction of the line detector keeps the cycle invariant, unless the removal array is
full. -/
theorem scanCell_progress {hs : List Nat} {pg : Playground} (hc : Cyc hs pg) {x : Int}
    {col y : Nat} (hcol : colAt pg x = some col) (hy : y < (pg.heap col).count) (d : Int) :
    (∃ pg2, scanCell pg col y ((pg.heap col).pieces y) d = .ok pg2 ∧ Det hs pg pg2) ∨
    Aborts (scanCell pg col y ((pg.heap col).pieces y) d) := by
  obtain ⟨r, s, _, _, _, hres⟩ := scanCell_spec hc hcol hy d
  rcases hres with ⟨_, h⟩ | ⟨_, ⟨pg3, h3, hd, _⟩ | hab⟩
  · exact Or.inl ⟨pg, h, Det.rfl_det hc⟩
  · exact Or.inl ⟨pg3, h3, hd⟩
  · exact Or.inr hab

/-! ## The rows of a changed col -/

theorem Marks.squeeze {a b c : Playground} (h1 : Marks a b) (h2 : Marks b c)
    (h : c.pieceRemovals = a.pieceRemovals) : b = a ∧ c = a := by
  obtain ⟨l1, e1, k1⟩ := h1.removals
  obtain ⟨l2, e2, k2⟩ := h2.removals
  rw [e2, e1, List.append_assoc] at h
  have hl : l1 ++ l2 = [] := by simpa using h
  obtain ⟨hl1, hl2⟩ := List.append_eq_nil.mp hl
  have hb := k1 hl1
  exact ⟨hb, by rw [k2 hl2, hb]⟩

theorem Marks.length_le_removals {a b : Playground} (h : Marks a b) :
    a.pieceRemovals.length ≤ b.pieceRemovals.length := by
  obtain ⟨l, e, _⟩ := h.removals
  rw [e]; simp

theorem scanRows_step (fuel : Nat) (pg : Playground) (col y : Nat) :
    scanRows (fuel + 1) pg col y =
      if y < (pg.heap col).count then
        match scanCell pg col y ((pg.heap col).pieces y) (-1) with
        | .error e => .error e
        | .ok pg1 =>
          match scanCell pg1 col y ((pg.heap col).pieces y) 0 with
          | .error e => .error e
          | .ok pg2 =>
            match scanCell pg2 col y ((pg.heap col).pieces y) 1 with
            | .error e => .error e
            | .ok pg3 => scanRows fuel pg3 col (y + 1)
      else .ok pg := rfl

/-- The scan of the rows of a col from height `y` on keeps the cycle invariant, unless an array
is full; when it queues nothing, no cell of the col from `y` on lies on a horizontal or diagonal
line. -/
theorem scanRows_spec {hs : List Nat} :
    ∀ (fuel : Nat) (pg : Playground) (col y : Nat) (x : Int),
      Cyc hs pg → colAt pg x = some col → (pg.heap col).count - y < fuel →
      (∃ pg2, scanRows fuel pg col y = .ok pg2 ∧ Det hs pg pg2 ∧
        (pg2.pieceRemovals = pg.pieceRemovals →
          ∀ z, y ≤ z → z < (pg.heap col).count →
            ¬ OnLine pg x z 1 (-1) ∧ ¬ OnLine pg x z 1 0 ∧ ¬ OnLine pg x z 1 1)) ∨
      Aborts (scanRows fuel pg col y) := by
  intro fuel
  induction fuel with
  | zero => intro pg col y x _ _ hf; omega
  | succ fuel ih =>
    intro pg col y x hc hcol hf
    rw [scanRows_step]
    by_cases hy : y < (pg.heap col).count
    · rw [if_pos hy]
      rcases scanCell_progress hc hcol hy (-1) with ⟨pg1, h1, d1⟩ | hab
      · rw [h1]
        dsimp only
        have b1 := d1.marks.board
        have hcol1 : colAt pg1 x = some col := by rw [b1.colAt_same hc.wf]; exact hcol
        have hy1 : y < (pg1.heap col).count := by rw [b1.count]; exact hy
        have hp1 : (pg.heap col).pieces y = (pg1.heap col).pieces y := by rw [b1.pieces]
        rw [hp1]
        rcases scanCell_progress d1.cyc hcol1 hy1 0 with ⟨pg2, h2, d2⟩ | hab
        · rw [h2]
          dsimp only
          have b2 := d2.marks.board
          have hcol2 : colAt pg2 x = some col := by rw [b2.colAt_same d1.cyc.wf]; exact hcol1
          have hy2 : y < (pg2.heap col).count := by rw [b2.count]; exact hy1
          have hp2 : (pg1.heap col).pieces y = (pg2.heap col).pieces y := by rw [b2.pieces]
          rw [hp2]
          rcases scanCell_progress d2.cyc hcol2 hy2 1 with ⟨pg3, h3, d3⟩ | hab
          · rw [h3]
            dsimp only
            have b3 := d3.marks.board
            have hcol3 : colAt pg3 x = some col := by
              rw [b3.colAt_same d2.cyc.wf]; exact hcol2
            have hc3 : (pg3.heap col).count = (pg.heap col).count := by
              rw [b3.count, b2.count, b1.count]
            rcases ih pg3 col (y + 1) x d3.cyc hcol3 (by rw [hc3]; omega)
              with ⟨pg4, h4, d4, hq⟩ | hab
            · left
              refine ⟨pg4, h4, d1.then_det (d2.then_det (d3.then_det d4)), ?_⟩
              intro hrem z hz1 hz2
              obtain ⟨e1, _⟩ := Marks.squeeze d1.marks
                (d2.marks.then_marks (d3.marks.then_marks d4.marks)) hrem
              subst e1
              obtain ⟨e2, _⟩ := Marks.squeeze d2.marks (d3.marks.then_marks d4.marks) hrem
              subst e2
              obtain ⟨e3, e4⟩ := Marks.squeeze d3.marks d4.marks hrem
              subst e3
              by_cases hzy : z = y
              · subst hzy
                exact ⟨scanCell_found hc hcol hy (-1) h1 rfl, scanCell_found hc hcol hy 0 h2 rfl,
                  scanCell_found hc hcol hy 1 h3 rfl⟩
              · exact hq hrem z (by omega) hz2
            · right
              exact hab
          · right
            unfold Aborts at hab ⊢; rw [hab]
        · right
          unfold Aborts at hab ⊢; rw [hab]
      · right
        unfold Aborts at hab ⊢; rw [hab]
    · rw [if_neg hy]
      left
      exact ⟨pg, rfl, Det.rfl_det hc, fun _ z hz1 hz2 => by omega⟩

/-- The scan of the rows of a col queues nothing when no cell from `y` on lies on a horizontal
or diagonal line. -/
theorem scanRows_quiet {hs : List Nat} :
    ∀ (fuel : Nat) (pg : Playground) (col y : Nat) (x : Int),
      Cyc hs pg → colAt pg x = some col → (pg.heap col).count - y < fuel →
      (∀ z, y ≤ z → z < (pg.heap col).count →
        ¬ OnLine pg x z 1 (-1) ∧ ¬ OnLine pg x z 1 0 ∧ ¬ OnLine pg x z 1 1) →
      scanRows fuel pg col y = .ok pg := by
  intro fuel
  induction fuel with
  | zero => intro pg col y x _ _ hf; omega
  | succ fuel ih =>
    intro pg col y x hc hcol hf hno
    rw [scanRows_step]
    by_cases hy : y < (pg.heap col).count
    · obtain ⟨n1, n2, n3⟩ := hno y (Nat.le_refl y) hy
      rw [if_pos hy, scanCell_quiet hc hcol hy (-1) n1]
      dsimp only
      rw [scanCell_quiet hc hcol hy 0 n2]
      dsimp only
      rw [scanCell_quiet hc hcol hy 1 n3]
      dsimp only
      exact ih pg col (y + 1) x hc hcol (by omega) (fun z hz1 hz2 => hno z (by omega) hz2)
    · rw [if_neg hy]

/-! ## The vertical scan of a changed col -/

theorem playgroundRemovePiece_det {hs : List Nat} {pg : Playground} {col y : Nat}
    (hc : Cyc hs pg) (hm : col ∈ hs) (hty : (pg.heap col).type = .COL_PIECES)
    (hy : y < (pg.heap col).count) :
    (∃ pg2, playgroundRemovePiece pg col y = .ok pg2 ∧ Det hs pg pg2 ∧
      pg2.pieceRemovals.length = pg.pieceRemovals.length + 1) ∨
    Aborts (playgroundRemovePiece pg col y) := by
  rcases playgroundRemovePiece_cyc hc hm hty hy with ⟨pg2, h1, h2, h3, h4⟩ | hab
  · exact Or.inl ⟨pg2, h1, ⟨h2, h3, Marks.single h1⟩, by rw [h4]; simp⟩
  · exact Or.inr hab

theorem scanVertical_step (y : Nat) (pg : Playground) (col lineColor lineLength : Nat) :
    scanVertical (y + 1) pg col lineColor lineLength =
      if (pg.heap col).pieces y = lineColor then
        if lineLength + 1 = MIN_LINE_COUNT then
          match playgroundRemovePiece pg col y with
          | .error e => .error e
          | .ok pg1 =>
            match playgroundRemovePiece pg1 col (y + 1) with
            | .error e => .error e
            | .ok pg2 =>
              match playgroundRemovePiece pg2 col (y + 2) with
              | .error e => .error e
              | .ok pg3 =>
                match playgroundRemovePiece pg3 col (y + 3) with
                | .error e => .error e
                | .ok pg4 => scanVertical y pg4 col lineColor (lineLength + 1)
        else if lineLength + 1 > MIN_LINE_COUNT then
          match playgroundRemovePiece pg col y with
          | .error e => .error e
          | .ok pg1 => scanVertical y pg1 col lineColor (lineLength + 1)
        else scanVertical y pg col lineColor (lineLength + 1)
      else if y ≥ (pg.heap col).changeY then scanVertical y pg col ((pg.heap col).pieces y) 1
      else .ok pg := rfl

/-- The vertical scan below height `n`, with `len` cells of colour `color` counted so far:
either it queues nothing, and then no four cells of one colour whose top is at or above the
change mark start below `n`; or it queues cells and keeps the cycle invariant; or an array is
full. -/
theorem scanVertical_spec {hs : List Nat} {col : Nat} (hm : col ∈ hs) :
    ∀ (n : Nat) (pg : Playground) (color len : Nat),
      Cyc hs pg → (pg.heap col).type = .COL_PIECES → n + len ≤ (pg.heap col).count →
      (∀ k, k < len → (pg.heap col).pieces (n + k) = color) →
      (len = 0 → n = (pg.heap col).count ∧ ∀ y, y < n → (pg.heap col).pieces y ≠ color) →
      (0 < len → n + len = (pg.heap col).count ∨ (pg.heap col).pieces (n + len) ≠ color) →
      (scanVertical n pg col color len = .ok pg ∧
        ∀ z, z < n → z + 3 < (pg.heap col).count → (pg.heap col).changeY ≤ z + 3 →
          ¬ ((pg.heap col).pieces (z + 1) = (pg.heap col).pieces z ∧
            (pg.heap col).pieces (z + 2) = (pg.heap col).pieces z ∧
            (pg.heap col).pieces (z + 3) = (pg.heap col).pieces z)) ∨
      (∃ pg2, scanVertical n pg col color len = .ok pg2 ∧ Det hs pg pg2 ∧
        pg.pieceRemovals.length < pg2.pieceRemovals.length) ∨
      Aborts (scanVertical n pg col color len) := by
  intro n
  induction n with
  | zero =>
    intro pg color len _ _ _ _ _ _
    exact Or.inl ⟨rfl, fun z hz => by omega⟩
  | succ y ih =>
    intro pg color len hc hty hle hcells hzero hmax
    have h4 : MIN_LINE_COUNT = 4 := rfl
    rw [scanVertical_step]
    by_cases hcol : (pg.heap col).pieces y = color
    · rw [if_pos hcol]
      have hlen : 0 < len := by
        by_contra h0
        exact (hzero (by omega)).2 y (by omega) hcol
      have hcells2 : ∀ (q : Playground), (q.heap col).pieces = (pg.heap col).pieces →
          ∀ k, k < len + 1 → (q.heap col).pieces (y + k) = color := by
        intro q hq k hk
        rw [hq]
        cases k with
        | zero => exact hcol
        | succ k =>
          have := hcells k (by omega)
          rw [show y + (k + 1) = y + 1 + k by omega]; exact this
      have hmax2 : ∀ (q : Playground), (q.heap col).pieces = (pg.heap col).pieces →
          (q.heap col).count = (pg.heap col).count →
          (0 < len + 1 → y + (len + 1) = (q.heap col).count ∨
            (q.heap col).pieces (y + (len + 1)) ≠ color) := by
        intro q hq hqc _
        rw [hq, hqc, show y + (len + 1) = y + 1 + len by omega]
        exact hmax hlen
      by_cases hfour : len + 1 = MIN_LINE_COUNT
      · rw [if_pos hfour]
        right
        rcases playgroundRemovePiece_det hc hm hty (by omega : y < (pg.heap col).count)
          with ⟨pg1, h1, d1, l1⟩ | hab
        · rw [h1]; dsimp only
          have b1 := d1.marks.board
          rcases playgroundRemovePiece_det d1.cyc hm (by rw [← (b1.shape.links col).1]; exact hty)
            (by rw [b1.count]; omega : y + 1 < (pg1.heap col).count)
            with ⟨pg2, h2, d2, l2⟩ | hab
          · rw [h2]; dsimp only
            have b2 := (d1.then_det d2).marks.board
            rcases playgroundRemovePiece_det d2.cyc hm
              (by rw [← (b2.shape.links col).1]; exact hty)
              (by rw [b2.count]; omega : y + 2 < (pg2.heap col).count)
              with ⟨pg3, h3, d3, l3⟩ | hab
            · rw [h3]; dsimp only
              have b3 := (d1.then_det (d2.then_det d3)).marks.board
              rcases playgroundRemovePiece_det d3.cyc hm
                (by rw [← (b3.shape.links col).1]; exact hty)
                (by rw [b3.count]; omega : y + 3 < (pg3.heap col).count)
                with ⟨pg4, h5, d4, l4⟩ | hab
              · rw [h5]; dsimp only
                have d04 := d1.then_det (d2.then_det (d3.then_det d4))
                have b4 := d04.marks.board
                rcases ih pg4 color (len + 1) d4.cyc
                  (by rw [← (b4.shape.links col).1]; exact hty)
                  (by rw [b4.count]; omega) (hcells2 pg4 (b4.pieces col))
                  (fun h0 => by omega) (hmax2 pg4 (b4.pieces col) (b4.count col))
                  with ⟨g1, _⟩ | ⟨pg5, g1, g2, g3⟩ | hab
                · exact Or.inl ⟨pg4, g1, d04, by omega⟩
                · exact Or.inl ⟨pg5, g1, d04.then_det g2, by omega⟩
                · exact Or.inr hab
              · right; unfold Aborts at hab ⊢; rw [hab]
            · right; unfold Aborts at hab ⊢; rw [hab]
          · right; unfold Aborts at hab ⊢; rw [hab]
        · right; unfold Aborts at hab ⊢; rw [hab]
      · rw [if_neg hfour]
        by_cases hmore : len + 1 > MIN_LINE_COUNT
        · rw [if_pos hmore]
          right
          rcases playgroundRemovePiece_det hc hm hty (by omega : y < (pg.heap col).count)
            with ⟨pg1, h1, d1, l1⟩ | hab
          · rw [h1]; dsimp only
            have b1 := d1.marks.board
            rcases ih pg1 color (len + 1) d1.cyc
              (by rw [← (b1.shape.links col).1]; exact hty)
              (by rw [b1.count]; omega) (hcells2 pg1 (b1.pieces col))
              (fun h0 => by omega) (hmax2 pg1 (b1.pieces col) (b1.count col))
              with ⟨g1, _⟩ | ⟨pg5, g1, g2, g3⟩ | hab
            · exact Or.inl ⟨pg1, g1, d1, by omega⟩
            · exact Or.inl ⟨pg5, g1, d1.then_det g2, by omega⟩
            · exact Or.inr hab
          · right; unfold Aborts at hab ⊢; rw [hab]
        · rw [if_neg hmore]
          rcases ih pg color (len + 1) hc hty (by omega) (hcells2 pg rfl)
            (fun h0 => by omega) (hmax2 pg rfl rfl) with ⟨g1, g2⟩ | hrest
          · left
            refine ⟨g1, ?_⟩
            intro z hz hz3 hzc
            by_cases hzy : z = y
            · subst hzy
              rintro ⟨e1, e2, e3⟩
              rcases hmax hlen with hm1 | hm1
              · omega
              · apply hm1
                have hl2 : len = 1 ∨ len = 2 := by omega
                rcases hl2 with hl2 | hl2
                · rw [hl2, show z + 1 + 1 = z + 2 by omega, e2, hcol]
                · rw [hl2, show z + 1 + 2 = z + 3 by omega, e3, hcol]
            · exact g2 z (by omega) hz3 hzc
          · exact Or.inr hrest
    · rw [if_neg hcol]
      by_cases hch : y ≥ (pg.heap col).changeY
      · rw [if_pos hch]
        have hmax1 : 0 < 1 → y + 1 = (pg.heap col).count ∨
            (pg.heap col).pieces (y + 1) ≠ (pg.heap col).pieces y := by
          intro _
          by_cases h0 : len = 0
          · exact Or.inl (hzero h0).1
          · right
            have := hcells 0 (by omega)
            rw [Nat.add_zero] at this
            rw [this]
            exact fun h => hcol h.symm
        rcases ih pg ((pg.heap col).pieces y) 1 hc hty (by omega)
          (fun k hk => by
            obtain rfl : k = 0 := by omega
            rfl)
          (fun h0 => by omega) hmax1 with ⟨g1, g2⟩ | hrest
        · left
          refine ⟨g1, ?_⟩
          intro z hz hz3 hzc
          by_cases hzy : z = y
          · subst hzy
            rintro ⟨e1, _, _⟩
            rcases hmax1 (by omega) with hm1 | hm1
            · omega
            · exact hm1 e1
          · exact g2 z (by omega) hz3 hzc
        · exact Or.inr hrest
      · rw [if_neg hch]
        left
        refine ⟨rfl, ?_⟩
        intro z hz hz3 hzc
        rintro ⟨e1, e2, e3⟩
        have hyy : (pg.heap col).pieces (y + 1) = (pg.heap col).pieces y := by
          have hz2 : y = z ∨ y = z + 1 ∨ y = z + 2 := by omega
          rcases hz2 with rfl | rfl | rfl
          · exact e1
          · rw [show z + 1 + 1 = z + 2 by omega, e2, e1]
          · rw [show z + 2 + 1 = z + 3 by omega, e3, e2]
        by_cases h0 : len = 0
        · have := (hzero h0).1
          omega
        · have := hcells 0 (by omega)
          rw [Nat.add_zero] at this
          exact hcol (by rw [← hyy, this])

/-- The vertical scan queues nothing when no four cells of one colour have their top at or
above the change mark. -/
theorem scanVertical_quiet {col : Nat} :
    ∀ (n : Nat) (pg : Playground) (color len : Nat),
      n + len ≤ (pg.heap col).count → len ≤ 3 →
      (∀ k, k < len → (pg.heap col).pieces (n + k) = color) →
      (len = 0 → ∀ y, y < n → (pg.heap col).pieces y ≠ color) →
      (0 < len → (pg.heap col).changeY ≤ n + len - 1) →
      (∀ z, z + 3 < (pg.heap col).count → (pg.heap col).changeY ≤ z + 3 →
        ¬ ((pg.heap col).pieces (z + 1) = (pg.heap col).pieces z ∧
          (pg.heap col).pieces (z + 2) = (pg.heap col).pieces z ∧
          (pg.heap col).pieces (z + 3) = (pg.heap col).pieces z)) →
      scanVertical n pg col color len = .ok pg := by
  intro n
  induction n with
  | zero => intro pg color len _ _ _ _ _ _; rfl
  | succ y ih =>
    intro pg color len hle h3 hcells hzero htop hno
    have h4 : MIN_LINE_COUNT = 4 := rfl
    rw [scanVertical_step]
    by_cases hcol : (pg.heap col).pieces y = color
    · have hlen : 0 < len := by
        by_contra h0
        exact hzero (by omega) y (by omega) hcol
      have hshort : len + 1 < 4 := by
        by_contra hlong
        have hl3 : len = 3 := by omega
        apply hno y (by omega) (by have := htop hlen; omega)
        have c0 := hcells 0 (by omega)
        have c1 := hcells 1 (by omega)
        have c2 := hcells 2 (by omega)
        rw [show y + 1 + 0 = y + 1 by omega] at c0
        rw [show y + 1 + 1 = y + 2 by omega] at c1
        rw [show y + 1 + 2 = y + 3 by omega] at c2
        rw [c0, c1, c2, hcol]
        exact ⟨rfl, rfl, rfl⟩
      rw [if_pos hcol, if_neg (by omega), if_neg (by omega)]
      apply ih pg color (len + 1) (by omega) (by omega) _ (fun h0 => by omega)
        (fun _ => by have := htop hlen; omega) hno
      intro k hk
      cases k with
      | zero => exact hcol
      | succ k =>
        have := hcells k (by omega)
        rw [show y + (k + 1) = y + 1 + k by omega]; exact this
    · rw [if_neg hcol]
      by_cases hch : y ≥ (pg.heap col).changeY
      · rw [if_pos hch]
        apply ih pg ((pg.heap col).pieces y) 1 (by omega) (by omega) _ (fun h0 => by omega)
          (fun _ => by omega) hno
        intro k hk
        obtain rfl : k = 0 := by omega
        rfl
      · rw [if_neg hch]

/-- A vertical line on the board, in terms of the col at its position. -/
theorem lineAt_vertical {pg : Playground} {x : Int} {col : Nat} (hcol : colAt pg x = some col)
    (z : Nat) :
    LineAt pg x (z : Int) 0 1 ↔
      z + 3 < (pg.heap col).count ∧
        (pg.heap col).pieces (z + 1) = (pg.heap col).pieces z ∧
        (pg.heap col).pieces (z + 2) = (pg.heap col).pieces z ∧
        (pg.heap col).pieces (z + 3) = (pg.heap col).pieces z := by
  have hcell : ∀ k : Nat, pieceAt pg (x + (k : Int) * 0) ((z : Int) + (k : Int) * 1) =
      if z + k < (pg.heap col).count then some ((pg.heap col).pieces (z + k)) else none := by
    intro k
    have hx : x + (k : Int) * 0 = x := by ring
    rw [hx, pieceAt_of_col hcol]
    have e1 : ((z : Int) + (k : Int) * 1).toNat = z + k := by omega
    by_cases hk : z + k < (pg.heap col).count
    · rw [if_pos ⟨by omega, by omega⟩, if_pos hk, e1]
    · rw [if_neg (by omega), if_neg hk]
  constructor
  · rintro ⟨p, hp⟩
    have h0 := hp 0 (by omega)
    have h1 := hp 1 (by omega)
    have h2 := hp 2 (by omega)
    have h3 := hp 3 (by omega)
    rw [hcell] at h0 h1 h2 h3
    have k3 : z + 3 < (pg.heap col).count := by
      by_contra hn
      rw [if_neg hn] at h3
      exact absurd h3 (by simp)
    rw [if_pos (by omega)] at h0 h1 h2 h3
    have e0 := Option.some.inj h0
    have e1 := Option.some.inj h1
    have e2 := Option.some.inj h2
    have e3 := Option.some.inj h3
    rw [Nat.add_zero] at e0
    exact ⟨k3, by rw [e1, e0], by rw [e2, e0], by rw [e3, e0]⟩
  · rintro ⟨k3, e1, e2, e3⟩
    refine ⟨(pg.heap col).pieces z, ?_⟩
    intro k hk
    rw [hcell, if_pos (by omega)]
    have hk4 : k = 0 ∨ k = 1 ∨ k = 2 ∨ k = 3 := by omega
    rcases hk4 with rfl | rfl | rfl | rfl
    · rfl
    · rw [e1]
    · rw [e2]
    · rw [e3]

/-! ## The loop over the changed cols -/

theorem playgroundRemovePiece_changed {pg pg2 : Playground} {col y : Nat}
    (h : playgroundRemovePiece pg col y = .ok pg2) :
    ∃ l, pg2.changedCols = pg.changedCols ++ l := by
  unfold playgroundRemovePiece at h
  split_ifs at h with h1
  rcases playgroundTrackChange_cases h with ⟨e, _⟩ | ⟨_, _, e⟩ | ⟨_, _, e⟩
  · exact ⟨[], by rw [e]; simp⟩
  · exact ⟨[], by rw [e]; simp⟩
  · exact ⟨[col], by rw [e]⟩

theorem Marks.changed_grows {pg pg2 : Playground} (h : Marks pg pg2) :
    ∃ l, pg2.changedCols = pg.changedCols ++ l := by
  induction h with
  | refl => exact ⟨[], by simp⟩
  | step col y _ hr ih =>
    obtain ⟨l1, e1⟩ := ih
    obtain ⟨l2, e2⟩ := playgroundRemovePiece_changed hr
    exact ⟨l1 ++ l2, by rw [e2, e1, List.append_assoc]⟩

/-- One queued removal lists at most one col. -/
theorem playgroundRemovePiece_lists_one {pg pg2 : Playground} {col y : Nat}
    (h : playgroundRemovePiece pg col y = .ok pg2) :
    pg2.changedCols.length + pg.pieceRemovals.length ≤
      pg.changedCols.length + pg2.pieceRemovals.length := by
  have hq := (playgroundRemovePiece_board h).2
  unfold playgroundRemovePiece at h
  split_ifs at h with h1
  rcases playgroundTrackChange_cases h with ⟨e, _⟩ | ⟨_, _, e⟩ | ⟨_, _, e⟩ <;>
    · rw [hq, e]
      dsimp only
      simp only [List.length_append, List.length_singleton]
      omega

/-- A part of the detect pass lists at most as many cols as it queues removals: every store
into the list of changed cols comes with a store into the removal queue. -/
theorem Marks.changed_le {pg pg2 : Playground} (h : Marks pg pg2) :
    pg2.changedCols.length + pg.pieceRemovals.length ≤
      pg.changedCols.length + pg2.pieceRemovals.length := by
  induction h with
  | refl => exact Nat.le_refl _
  | step col y _ hr ih =>
    have := playgroundRemovePiece_lists_one hr
    omega

theorem removeLinesFrom_step (fuel : Nat) (pg : Playground) (i : Nat) :
    removeLinesFrom (fuel + 1) pg i =
      if i < pg.changedCols.length then
        match scanRows ((pg.heap (pg.changedCols.getD i 0)).count + 1) pg
            (pg.changedCols.getD i 0) (pg.heap (pg.changedCols.getD i 0)).changeY with
        | .error e => .error e
        | .ok pg1 =>
          match scanVertical (pg1.heap (pg.changedCols.getD i 0)).count pg1
              (pg.changedCols.getD i 0) PIECE_EMPTY 0 with
          | .error e => .error e
          | .ok pg2 => removeLinesFrom fuel pg2 (i + 1)
      else .ok pg := rfl

/-- The loop over the changed cols from index `i` on returns and keeps the cycle invariant,
unless the removal array is full; when it queues nothing, every col of the list from `i` on is
settled.  The fuel covers the cols still to scan and the removals still to queue. -/
theorem removeLinesFrom_spec {hs : List Nat} :
    ∀ (fuel : Nat) (pg : Playground) (i : Nat),
      Cyc hs pg →
      pg.changedCols.length + pg.changedColsSize < fuel + i + pg.pieceRemovals.length →
      i ≤ pg.changedCols.length →
      (∃ pg2, removeLinesFrom fuel pg i = .ok pg2 ∧ Det hs pg pg2 ∧
        (pg2.pieceRemovals = pg.pieceRemovals →
          ∀ j, i ≤ j → j < pg.changedCols.length →
            ∀ x, colAt pg x = some (pg.changedCols.getD j 0) →
              SettledAt pg x (pg.changedCols.getD j 0))) ∨
      Aborts (removeLinesFrom fuel pg i) := by
  intro fuel
  induction fuel with
  | zero =>
    intro pg i hc hf hi
    have := hc.room
    omega
  | succ fuel ih =>
    intro pg i hc hf hi
    rw [removeLinesFrom_step]
    by_cases hlt : i < pg.changedCols.length
    · rw [if_pos hlt]
      have hget : pg.changedCols.getD i 0 ∈ pg.changedCols := by
        rw [List.getD_eq_getElem _ _ hlt]
        exact List.getElem_mem _
      generalize hcoleq : pg.changedCols.getD i 0 = col at hget ⊢
      obtain ⟨hm, hty, hcc⟩ := hc.changed col hget
      obtain ⟨x, hx⟩ := hc.wf.colAt_of_mem hm hty
      rcases scanRows_spec ((pg.heap col).count + 1) pg col (pg.heap col).changeY x hc hx
        (by omega) with ⟨pg1, h1, d1, hq1⟩ | hab
      · rw [h1]
        dsimp only
        have b1 := d1.marks.board
        have hty1 : (pg1.heap col).type = .COL_PIECES := by
          rw [← (b1.shape.links col).1]; exact hty
        have hne1 : ∀ y, y < (pg1.heap col).count → (pg1.heap col).pieces y ≠ PIECE_EMPTY :=
          d1.cyc.noEmpty col hm hty1
        rcases scanVertical_spec hm (pg1.heap col).count pg1 PIECE_EMPTY 0 d1.cyc hty1
          (by omega) (fun k hk => by omega) (fun _ => ⟨rfl, hne1⟩) (fun h0 => by omega)
          with ⟨h2, hq2⟩ | ⟨pg2, h2, d2, hl2⟩ | hab
        · rw [h2]
          dsimp only
          obtain ⟨l, hl⟩ := d1.marks.changed_grows
          have hle1 := d1.marks.changed_le
          rcases ih pg1 (i + 1) d1.cyc (by rw [b1.shape.changedColsSize]; omega)
            (by rw [hl]; simp; omega) with ⟨pg3, h3, d3, hq3⟩ | hab
          · left
            refine ⟨pg3, h3, d1.then_det d3, ?_⟩
            intro hrem j hj1 hj2 x2 hx2
            obtain ⟨e1, e3⟩ := Marks.squeeze d1.marks d3.marks hrem
            rw [e1] at hq2 hq3
            by_cases hji : j = i
            · rw [hji, hcoleq] at hx2 ⊢
              obtain rfl : x2 = x := hc.wf.colAt_inj hx2 hx
              refine ⟨hq1 (by rw [e1]), ?_⟩
              intro z hz hline
              obtain ⟨k3, k4⟩ := (lineAt_vertical hx z).mp hline
              exact hq2 z (by omega) k3 hz k4
            · exact hq3 (by rw [e3]) j (by omega) hj2 x2 hx2
          · exact Or.inr hab
        · rw [h2]
          dsimp only
          have d02 := d1.then_det d2
          have b2 := d02.marks.board
          obtain ⟨l, hl⟩ := d02.marks.changed_grows
          have hle2 := d02.marks.changed_le
          rcases ih pg2 (i + 1) d2.cyc (by rw [b2.shape.changedColsSize]; omega)
            (by rw [hl]; simp; omega) with ⟨pg3, h3, d3, hq3⟩ | hab
          · left
            refine ⟨pg3, h3, d02.then_det d3, ?_⟩
            intro hrem
            exfalso
            have := d3.marks.length_le_removals
            have := d1.marks.length_le_removals
            rw [hrem] at *
            omega
          · exact Or.inr hab
        · right
          unfold Aborts at hab ⊢; rw [hab]
      · right
        unfold Aborts at hab ⊢; rw [hab]
    · rw [if_neg hlt]
      left
      exact ⟨pg, rfl, Det.rfl_det hc, fun _ j hj1 hj2 => by omega⟩

/-! ## Gravity inside a cycle -/

theorem nonEmptyFrom_lt (ps : Nat → Nat) :
    ∀ (n y0 : Nat), (∃ y, y0 ≤ y ∧ y < y0 + n ∧ ps y = PIECE_EMPTY) →
      (nonEmptyFrom ps y0 n).length < n := by
  intro n
  induction n with
  | zero => rintro y0 ⟨y, h1, h2, _⟩; omega
  | succ n ih =>
    rintro y0 ⟨y, h1, h2, h3⟩
    rw [nonEmptyFrom_succ]
    by_cases he : ps y0 = PIECE_EMPTY
    · rw [if_pos he]
      have := nonEmptyFrom_length_le ps (y0 + 1) n
      omega
    · rw [if_neg he, List.length_cons]
      have hne : y ≠ y0 := fun h => he (h ▸ h3)
      have := ih (y0 + 1) ⟨y, by omega, by omega, h3⟩
      omega

theorem compactCol_upper (c : Col) (j p : Nat)
    (h : (nonEmptyFrom c.pieces c.changeY (c.count - c.changeY))[j]? = some p) :
    (compactCol c).pieces (c.changeY + j) = p := by
  obtain ⟨_, _, k3, _⟩ :=
    compactLoop_spec (c.count - c.changeY) c.changeY c.pieces 0 (Nat.zero_le _)
  simp only [Nat.sub_zero] at k3
  exact k3 j p h

/-- Below the change mark of a col nothing is queued. -/
theorem Cyc.marked_below {hs : List Nat} {q : Playground} (hc : Cyc hs q) {c y : Nat}
    (hy : y < (q.heap c).changeY) : markedPieces q c y = (q.heap c).pieces y := by
  have hn : (c, y) ∉ q.pieceRemovals := by
    intro h
    have := (hc.queued (c, y) h).2.1
    simp only at this
    omega
  simp [markedPieces, hn]

/-- A col outside the changed list after gravity. -/
theorem Cyc.gravity_other {hs : List Nat} {q : Playground} (hc : Cyc hs q) {c : Nat}
    (hcc : c ∉ q.changedCols) : (playgroundCauseGravity q).heap c = q.heap c := by
  rw [playgroundCauseGravity_heap, if_neg hcc]
  have hp : markedPieces q c = (q.heap c).pieces := by
    funext y
    have hn : (c, y) ∉ q.pieceRemovals := fun h => hcc (hc.queued (c, y) h).1
    simp [markedPieces, hn]
  rw [hp]

/-- A col of the changed list after gravity. -/
theorem Cyc.gravity_changed {hs : List Nat} {q : Playground} (hc : Cyc hs q) {c : Nat}
    (hcc : c ∈ q.changedCols) :
    ((playgroundCauseGravity q).heap c).changeY = (q.heap c).changeY ∧
    ((playgroundCauseGravity q).heap c).size = (q.heap c).size ∧
    ((playgroundCauseGravity q).heap c).type = (q.heap c).type ∧
    (q.heap c).changeY ≤ ((playgroundCauseGravity q).heap c).count ∧
    ((playgroundCauseGravity q).heap c).count ≤ (q.heap c).count ∧
    (∀ y, y < (q.heap c).changeY →
      ((playgroundCauseGravity q).heap c).pieces y = (q.heap c).pieces y) ∧
    (∀ y, y < ((playgroundCauseGravity q).heap c).count →
      ((playgroundCauseGravity q).heap c).pieces y ≠ PIECE_EMPTY) ∧
    ((∃ y, (c, y) ∈ q.pieceRemovals) →
      ((playgroundCauseGravity q).heap c).count < (q.heap c).count) := by
  obtain ⟨hm, hty, hle⟩ := hc.changed c hcc
  rw [playgroundCauseGravity_heap, if_pos hcc]
  obtain ⟨h1, _, h3, h4, h5, h6, _, _⟩ :=
    compactCol_spec { q.heap c with pieces := markedPieces q c } hle
  have hF := nonEmptyFrom_length_le (markedPieces q c) (q.heap c).changeY
    ((q.heap c).count - (q.heap c).changeY)
  dsimp only at h1 h3 h4 h5 h6
  refine ⟨h5, h4, h6, by rw [h1]; exact Nat.le_add_right _ _, by rw [h1]; omega,
    ?_, ?_, ?_⟩
  · intro y hy
    rw [h3 y hy]
    exact hc.marked_below hy
  · intro y hy
    rw [h1] at hy
    by_cases hym : y < (q.heap c).changeY
    · rw [h3 y hym]
      show markedPieces q c y ≠ _
      rw [hc.marked_below hym]
      exact hc.noEmpty c hm hty y (by omega)
    · have hj : y - (q.heap c).changeY < (nonEmptyFrom (markedPieces q c) (q.heap c).changeY
          ((q.heap c).count - (q.heap c).changeY)).length := by
        omega
      have hup := compactCol_upper { q.heap c with pieces := markedPieces q c }
        (y - (q.heap c).changeY) _ (List.getElem?_eq_getElem hj)
      have e : (q.heap c).changeY + (y - (q.heap c).changeY) = y := by omega
      dsimp only at hup
      rw [e] at hup
      rw [hup]
      exact nonEmptyFrom_ne _ _ _ _ (List.getElem_mem _)
  · rintro ⟨y, hy⟩
    obtain ⟨_, q2, q3⟩ := hc.queued (c, y) hy
    simp only at q2 q3
    rw [h1]
    have := nonEmptyFrom_lt (markedPieces q c) ((q.heap c).count - (q.heap c).changeY)
      (q.heap c).changeY ⟨y, q2, by omega, by simp [markedPieces, hy]⟩
    omega

theorem SameShape.colAt_shape {pg pg2 : Playground} {hs : List Nat} (s : SameShape pg pg2)
    (w : WF pg hs) (x : Int) : colAt pg2 x = colAt pg x := by
  rw [(s.wf_of w).colAt_eq, w.colAt_eq, s.colAtFrom, s.startColX]

/-- Gravity keeps the cycle invariant and empties the queue. -/
theorem Cyc.gravity {hs : List Nat} {q : Playground} (hc : Cyc hs q) :
    Cyc hs (playgroundCauseGravity q) := by
  refine ⟨(playgroundCauseGravity_shape q).wf_of hc.wf, ?_, ?_, ?_, ?_, ?_, Nat.zero_le _⟩
  · intro c hm hty
    by_cases hcc : c ∈ q.changedCols
    · obtain ⟨_, g2, g3, _, g5, _⟩ := hc.gravity_changed hcc
      rw [g2]
      exact Nat.le_trans g5 (hc.cap c hm (by rw [← g3]; exact hty))
    · rw [hc.gravity_other hcc] at hty ⊢
      exact hc.cap c hm hty
  · intro c hm hty
    by_cases hcc : c ∈ q.changedCols
    · exact (hc.gravity_changed hcc).2.2.2.2.2.2.1
    · rw [hc.gravity_other hcc] at hty ⊢
      exact hc.noEmpty c hm hty
  · intro c hm hty hd
    by_cases hcc : c ∈ q.changedCols
    · exact hcc
    · rw [hc.gravity_other hcc] at hty hd
      exact hc.dirty c hm hty hd
  · intro c hcc
    have hcc2 : c ∈ q.changedCols := hcc
    obtain ⟨hm, hty, _⟩ := hc.changed c hcc2
    obtain ⟨g1, _, g3, g4, _⟩ := hc.gravity_changed hcc2
    exact ⟨hm, by rw [g3]; exact hty, by rw [g1]; exact g4⟩
  · intro r hr
    have : r ∈ ([] : List (Nat × Nat)) := hr
    simp at this

theorem sum_map_le (l : List Nat) (f g : Nat → Nat) (h : ∀ a ∈ l, g a ≤ f a) :
    (l.map g).sum ≤ (l.map f).sum := by
  induction l with
  | nil => simp
  | cons a t ih =>
    simp only [List.map_cons, List.sum_cons]
    have := h a (by simp)
    have := ih (fun b hb => h b (by simp [hb]))
    omega

theorem sum_map_lt (l : List Nat) (f g : Nat → Nat) (h : ∀ a ∈ l, g a ≤ f a)
    (hlt : ∃ a ∈ l, g a < f a) : (l.map g).sum < (l.map f).sum := by
  induction l with
  | nil => obtain ⟨a, ha, _⟩ := hlt; simp at ha
  | cons a t ih =>
    simp only [List.map_cons, List.sum_cons]
    have h1 := h a (by simp)
    have h2 := sum_map_le t f g (fun b hb => h b (by simp [hb]))
    obtain ⟨b, hb, hbl⟩ := hlt
    rcases List.mem_cons.mp hb with rfl | hbt
    · omega
    · have := ih (fun b hb => h b (by simp [hb])) ⟨b, hbt, hbl⟩
      omega

/-- Gravity with a queued removal takes pieces off the board. -/
theorem Cyc.gravity_fewer {hs : List Nat} {q : Playground} (hc : Cyc hs q)
    (hq : 0 < q.pieceRemovals.length) :
    totalPieces (playgroundCauseGravity q) < totalPieces q := by
  unfold totalPieces
  rw [hc.gravity.wf.chain_eq, hc.wf.chain_eq]
  apply sum_map_lt
  · intro c hm
    by_cases hcc : c ∈ q.changedCols
    · obtain ⟨_, _, g3, _, g5, _⟩ := hc.gravity_changed hcc
      rw [g3]
      split_ifs
      · exact g5
      · exact Nat.le_refl _
    · rw [hc.gravity_other hcc]
  · obtain ⟨r, hr⟩ := List.exists_mem_of_length_pos hq
    obtain ⟨hcc, _, _⟩ := hc.queued r hr
    obtain ⟨hm, hty, _⟩ := hc.changed r.1 hcc
    obtain ⟨_, _, g3, _, _, _, _, g8⟩ := hc.gravity_changed hcc
    refine ⟨r.1, hm, ?_⟩
    rw [g3, if_pos hty, if_pos hty]
    exact g8 ⟨r.2, hr⟩

/-- Below the change mark of a col gravity leaves the board alone. -/
theorem Cyc.gravity_below {hs : List Nat} {q : Playground} (hc : Cyc hs q) {x y : Int}
    {c : Nat} (hcol : colAt q x = some c) (hy : y < ((q.heap c).changeY : Int)) :
    pieceAt (playgroundCauseGravity q) x y = pieceAt q x y := by
  have hcol2 : colAt (playgroundCauseGravity q) x = some c := by
    rw [(playgroundCauseGravity_shape q).colAt_shape hc.wf]; exact hcol
  rw [pieceAt_of_col hcol2, pieceAt_of_col hcol]
  by_cases hcc : c ∈ q.changedCols
  · obtain ⟨_, _, _, g4, _, g6, _⟩ := hc.gravity_changed hcc
    obtain ⟨_, _, hle⟩ := hc.changed c hcc
    by_cases h0 : 0 ≤ y
    · rw [if_pos ⟨h0, by omega⟩, if_pos ⟨h0, by omega⟩, g6 y.toNat (by omega)]
    · rw [if_neg (fun h => h0 h.1), if_neg (fun h => h0 h.1)]
  · rw [hc.gravity_other hcc]

/-- Gravity keeps every line covered by a cell at or above a change mark. -/
theorem Cyc.gravity_covered {hs : List Nat} {q : Playground} (hc : Cyc hs q)
    (hcov : Covered q) : Covered (playgroundCauseGravity q) := by
  intro x y dx dy hdir hline
  by_contra hnone
  have hbelow : ∀ k : Nat, k < 4 → ∃ c, colAt q (x + (k : Int) * dx) = some c ∧
      y + (k : Int) * dy < ((q.heap c).changeY : Int) ∧
      pieceAt q (x + (k : Int) * dx) (y + (k : Int) * dy) =
        pieceAt (playgroundCauseGravity q) (x + (k : Int) * dx) (y + (k : Int) * dy) := by
    intro k hk
    obtain ⟨p, hp⟩ := hline
    obtain ⟨c, h1, h2, h3, _⟩ := pieceAt_some (hp k hk)
    have hcq : colAt q (x + (k : Int) * dx) = some c := by
      rw [← (playgroundCauseGravity_shape q).colAt_shape hc.wf]; exact h1
    have hch : ((playgroundCauseGravity q).heap c).changeY = (q.heap c).changeY := by
      by_cases hcc : c ∈ q.changedCols
      · exact (hc.gravity_changed hcc).1
      · rw [hc.gravity_other hcc]
    have hlt : y + (k : Int) * dy < ((q.heap c).changeY : Int) := by
      by_contra hge
      exact hnone ⟨k, hk, c, h1, by rw [hch]; omega, h3⟩
    exact ⟨c, hcq, hlt, (hc.gravity_below hcq hlt).symm⟩
  have hold : LineAt q x y dx dy := by
    obtain ⟨p, hp⟩ := hline
    refine ⟨p, fun k hk => ?_⟩
    obtain ⟨c, _, _, e⟩ := hbelow k hk
    rw [e]
    exact hp k hk
  obtain ⟨k, hk, c, d1, d2, _⟩ := hcov x y dx dy hdir hold
  obtain ⟨c2, e1, e2, _⟩ := hbelow k hk
  rw [d1] at e1
  obtain rfl := Option.some.inj e1
  omega

/-! ## Lines and change marks -/

theorem pieceAt_eq_stack (pg : Playground) (x y : Int) :
    pieceAt pg x y =
      match stackAt pg x with
      | none => none
      | some s => if 0 ≤ y then s[y.toNat]? else none := by
  unfold pieceAt stackAt
  cases colAt pg x with
  | none => rfl
  | some c =>
    simp only [Option.map_some', Col.stack]
    by_cases h0 : 0 ≤ y
    · by_cases h1 : y < ((pg.heap c).count : Int)
      · rw [if_pos ⟨h0, h1⟩, if_pos h0, List.getElem?_map,
          List.getElem?_range (by omega)]
        rfl
      · rw [if_neg (fun h => h1 h.2), if_pos h0, List.getElem?_eq_none (by simp; omega)]
    · rw [if_neg (fun h => h0 h.1), if_neg h0]

/-- Equal stacks show equal pieces. -/
theorem pieceAt_congr {pg pg2 : Playground} {x : Int} (h : stackAt pg2 x = stackAt pg x)
    (y : Int) : pieceAt pg2 x y = pieceAt pg x y := by
  rw [pieceAt_eq_stack, pieceAt_eq_stack, h]

/-- A detect pass keeps every line covered. -/
theorem Det.covered {hs : List Nat} {q q2 : Playground} (d : Det hs q q2) (hc : Cyc hs q)
    (hcov : Covered q) : Covered q2 := by
  have hb := d.marks.board
  intro x y dx dy hdir hline
  have hold : LineAt q x y dx dy := by
    obtain ⟨p, hp⟩ := hline
    exact ⟨p, fun k hk => by rw [← hb.pieceAt_same hc.wf]; exact hp k hk⟩
  obtain ⟨k, hk, c, d1, d2, d3⟩ := hcov x y dx dy hdir hold
  obtain ⟨hm, hty⟩ := hc.wf.colAt_mem d1
  have hl := d.lower c hm hty
  exact ⟨k, hk, c, by rw [hb.colAt_same hc.wf]; exact d1, by omega, by rw [hb.count]; exact d3⟩

/-- A covered board whose changed cols are all settled has no line. -/
theorem Cyc.noLines {hs : List Nat} {q : Playground} (hc : Cyc hs q) (hcov : Covered q)
    (hset : ∀ c ∈ q.changedCols, ∀ x, colAt q x = some c → SettledAt q x c) : NoLines q := by
  intro x y dx dy hdir hline
  obtain ⟨k, hk, c, d1, d2, d3⟩ := hcov x y dx dy hdir hline
  obtain ⟨hm, hty⟩ := hc.wf.colAt_mem d1
  have hcap := hc.cap c hm hty
  have hcc : c ∈ q.changedCols := hc.dirty c hm hty (by omega)
  obtain ⟨hrows, hvert⟩ := hset c hcc _ d1
  rcases hdir with ⟨rfl, hdy⟩ | ⟨rfl, rfl⟩
  · have hz : ((y + (k : Int) * dy).toNat : Int) = y + (k : Int) * dy :=
      Int.toNat_of_nonneg (by omega)
    obtain ⟨n1, n2, n3⟩ := hrows (y + (k : Int) * dy).toNat (by omega) (by omega)
    have hon : OnLine q (x + (k : Int) * 1) ((y + (k : Int) * dy).toNat : Int) 1 dy := by
      refine ⟨k, hk, ?_⟩
      rw [hz]
      have e1 : x + (k : Int) * 1 - (k : Int) * 1 = x := by ring
      have e2 : y + (k : Int) * dy - (k : Int) * dy = y := by ring
      rw [e1, e2]
      exact hline
    rcases hdy with rfl | rfl | rfl
    · exact n2 hon
    · exact n3 hon
    · exact n1 hon
  · obtain ⟨p, hp⟩ := hline
    obtain ⟨_, _, h0, _⟩ := pieceAt_some (hp 0 (by omega))
    simp only [Nat.cast_zero, Int.zero_mul, Int.add_zero] at h0
    have hx : x + (k : Int) * 0 = x := by ring
    rw [hx] at d1 hvert
    have hz : ((y.toNat : Nat) : Int) = y := Int.toNat_of_nonneg h0
    apply hvert y.toNat (by omega)
    rw [hz]
    exact ⟨p, hp⟩

theorem Clean.toCyc {hs : List Nat} {pg : Playground} (h : Clean hs pg) : Cyc hs pg :=
  ⟨h.wf, fun c hm hty => (h.cap c hm hty).1, h.noEmpty,
    fun c hm hty hd => absurd (h.clean c hm hty) hd,
    fun c hcc => by rw [h.changedCols] at hcc; simp at hcc,
    fun r hr => by rw [h.pieceRemovals] at hr; simp at hr,
    by rw [h.pieceRemovals]; simp⟩

/-! ## From one placement cycle to the next -/

theorem stackAt_of_col {pg : Playground} {x : Int} {c : Nat} (h : colAt pg x = some c) :
    stackAt pg x = some (pg.heap c).stack := by
  simp [stackAt, h]

theorem stackAt_of_none {pg : Playground} {x : Int} (h : colAt pg x = none) :
    stackAt pg x = none := by
  simp [stackAt, h]

/-- The lookup of the col at `x` keeps the invariant between cycles and every stack; a col
that it creates is empty. -/
theorem Clean.getColAt {hs : List Nat} {pg : Playground} (hcl : Clean hs pg) (x : Int) :
    ∃ c pg0 hs0, playgroundGetColAt pg x = .ok (c, pg0) ∧ Clean hs0 pg0 ∧
      colAt pg0 x = some c ∧
      (∀ x1, stackAt pg0 x1 = if x1 = x then some ((stackAt pg x).getD []) else stackAt pg x1) := by
  obtain ⟨c, pg0, hs0, hg, post⟩ := playgroundGetColAt_post hcl.wf x
  have w := hcl.wf
  have hother : ∀ x1, x1 ≠ x → stackAt pg0 x1 = stackAt pg x1 := by
    intro x1 hx1
    simp only [stackAt, w.colAt_eq, post.wf.colAt_eq, post.frame x1 hx1]
    cases hc : colAtFrom pg.heap hs pg.startColX x1 with
    | none => rfl
    | some v =>
      have hd := post.data v (w.bound v (colAtFrom_mem hc))
      simp only [Option.map_some', Col.stack, hd.2.1, hd.2.2.2.1]
  have hhere : colAt pg0 x = some c := by rw [post.wf.colAt_eq]; exact post.here
  refine ⟨c, pg0, hs0, hg, ?_, hhere, ?_⟩
  · cases hc : colAtFrom pg.heap hs pg.startColX x with
    | some v =>
      obtain ⟨_, e2, e3, _⟩ := post.old v hc
      refine ⟨post.wf, ?_, ?_, ?_, by rw [post.changedCols]; exact hcl.changedCols,
        by rw [post.pieceRemovals]; exact hcl.pieceRemovals,
        by rw [post.changedColsSize]; exact hcl.room⟩
      · rw [e2, e3]; exact hcl.cap
      · rw [e2, e3]; exact hcl.noEmpty
      · rw [e2, e3]; exact hcl.clean
    | none =>
      obtain ⟨_, f1, f2, f3⟩ := post.fresh hc
      have hcase : ∀ h ∈ hs0, (pg0.heap h).type = .COL_PIECES →
          (h ∈ hs ∧ (pg.heap h).type = .COL_PIECES ∧ (pg0.heap h).count = (pg.heap h).count ∧
            (pg0.heap h).changeY = (pg.heap h).changeY ∧
            (pg0.heap h).pieces = (pg.heap h).pieces ∧ (pg0.heap h).size = (pg.heap h).size) ∨
          h = c := by
        intro h hm hty
        rcases post.onlyNew h hm hty with hin | heq
        · left
          obtain ⟨s1, s2, s3, s4, s5⟩ := post.data h (w.bound h hin)
          have hty0 : (pg.heap h).type = .COL_PIECES := by rw [s1]; exact hty
          exact ⟨hin, hty0, s2.symm, s3.symm, s4.symm, (s5 hty0).symm⟩
        · exact Or.inr heq
      refine ⟨post.wf, ?_, ?_, ?_, by rw [post.changedCols]; exact hcl.changedCols,
        by rw [post.pieceRemovals]; exact hcl.pieceRemovals,
        by rw [post.changedColsSize]; exact hcl.room⟩
      · intro h hm hty
        rcases hcase h hm hty with ⟨hin, hty0, e1, _, _, e4⟩ | rfl
        · rw [e1, e4]; exact hcl.cap h hin hty0
        · rw [f1, f2]; exact ⟨Nat.zero_le _, by decide⟩
      · intro h hm hty
        rcases hcase h hm hty with ⟨hin, hty0, e1, _, e3, _⟩ | rfl
        · rw [e1, e3]; exact hcl.noEmpty h hin hty0
        · rw [f1]; intro y hy; omega
      · intro h hm hty
        rcases hcase h hm hty with ⟨hin, hty0, _, e2, _, e4⟩ | rfl
        · rw [e2, e4]; exact hcl.clean h hin hty0
        · rw [f2, f3]
  · intro x1
    by_cases hx1 : x1 = x
    · subst hx1
      rw [if_pos rfl]
      cases hc : colAtFrom pg.heap hs pg.startColX x1 with
      | some v =>
        obtain ⟨e1, _, e3, _⟩ := post.old v hc
        have hcv : colAt pg x1 = some v := by rw [w.colAt_eq]; exact hc
        rw [stackAt_of_col hhere, stackAt_of_col hcv, e1, e3]
        rfl
      | none =>
        obtain ⟨_, f1, _, _⟩ := post.fresh hc
        have hcv : colAt pg x1 = none := by rw [w.colAt_eq]; exact hc
        rw [stackAt_of_col hhere, stackAt_of_none hcv]
        simp [Col.stack, f1]
    · rw [if_neg hx1]
      exact hother x1 hx1

/-- The reallocation of a full col keeps the invariant between cycles and every stack; the col
has room afterwards. -/
theorem Clean.expand {hs : List Nat} {pg : Playground} (hcl : Clean hs pg) {x : Int} {c : Nat}
    (hcol : colAt pg x = some c) :
    ∃ hs1, Clean hs1 (expandCol pg c).2 ∧
      colAt (expandCol pg c).2 x = some (expandCol pg c).1 ∧
      ((expandCol pg c).2.heap (expandCol pg c).1).count <
        ((expandCol pg c).2.heap (expandCol pg c).1).size ∧
      (∀ x1, stackAt (expandCol pg c).2 x1 = stackAt pg x1) := by
  have w := hcl.wf
  rw [w.colAt_eq] at hcol
  obtain ⟨A, B, e, _, hty⟩ := colAtFrom_some hcol
  subst e
  have hmem : c ∈ A ++ c :: B := by simp
  obtain ⟨hlp, hln⟩ := w.links_at
  have hn : ∀ n, (pg.heap c).next = some n → n ≠ pg.brk := by
    intro n h
    rw [hln] at h
    have : n ∈ A ++ c :: B := by
      have := headOr_mem h
      simp [this]
    have := w.bound n this
    omega
  have hq : ∀ n, (pg.heap c).prev = some n → n ≠ pg.brk := by
    intro n h
    rw [hlp] at h
    have : n ∈ A ++ c :: B := by
      have := lastOr_mem h
      simp [this]
    have := w.bound n this
    omega
  obtain ⟨w1, hmap, hfields⟩ := expandCol_wf w hty
  obtain ⟨f1, _, _, _, _, f6, f7, f8, _⟩ := expandCol_fields pg c hn
  have hnew := expandCol_heap_new pg c hn hq
  obtain ⟨hcap, hpos⟩ := hcl.cap c hmem hty
  have hclean := hcl.clean c hmem hty
  have hcases : ∀ k ∈ (A ++ c :: B).map (rename c pg.brk),
      k = pg.brk ∨ (k ∈ A ++ c :: B ∧ k ≠ c) := by
    intro k hk
    obtain ⟨h, hh, rfl⟩ := List.mem_map.mp hk
    by_cases hc : h = c
    · left; rw [hc, rename_self]
    · right; rw [rename_of_ne hc]; exact ⟨hh, hc⟩
  refine ⟨_, ⟨w1, ?_, ?_, ?_, by rw [f6]; exact hcl.changedCols,
    by rw [f8]; exact hcl.pieceRemovals, by rw [f7]; exact hcl.room⟩, ?_, ?_, ?_⟩
  · intro k hk hkt
    rcases hcases k hk with rfl | ⟨hin, hne⟩
    · rw [hnew]
      exact ⟨by show (pg.heap c).count ≤ (pg.heap c).size * 2; omega,
        by show 0 < (pg.heap c).size * 2; omega⟩
    · obtain ⟨g1, _, _, g4, g5⟩ := hfields k hin hne
      rw [g1, g4]
      exact hcl.cap k hin (by rw [← g5]; exact hkt)
  · intro k hk hkt
    rcases hcases k hk with rfl | ⟨hin, hne⟩
    · rw [hnew]
      exact hcl.noEmpty c hmem hty
    · obtain ⟨g1, _, g3, _, g5⟩ := hfields k hin hne
      rw [g1, g3]
      exact hcl.noEmpty k hin (by rw [← g5]; exact hkt)
  · intro k hk hkt
    rcases hcases k hk with rfl | ⟨hin, hne⟩
    · rw [hnew]
      show (if (pg.heap c).changeY = (pg.heap c).size then (pg.heap c).size * 2
        else (pg.heap c).changeY) = (pg.heap c).size * 2
      rw [if_pos hclean]
    · obtain ⟨_, g2, _, g4, g5⟩ := hfields k hin hne
      rw [g2, g4]
      exact hcl.clean k hin (by rw [← g5]; exact hkt)
  · rw [w1.colAt_eq, hmap, hcol, f1]
    simp [rename_self]
  · rw [f1, hnew]
    show (pg.heap c).count < (pg.heap c).size * 2
    omega
  · intro x1
    simp only [stackAt, w1.colAt_eq, w.colAt_eq, hmap]
    cases hc : colAtFrom pg.heap (A ++ c :: B) pg.startColX x1 with
    | none => rfl
    | some v =>
      simp only [Option.map_some']
      by_cases hvc : v = c
      · rw [hvc, rename_self, hnew]
        rfl
      · obtain ⟨g1, _, g3, _, _⟩ := hfields v (colAtFrom_mem hc) hvc
        rw [rename_of_ne hvc]
        simp only [Col.stack, g1, g3]

theorem modCol_modCol (heap : Nat → Col) (c : Nat) (f g : Col → Col) :
    modCol (modCol heap c f) c g = modCol heap c (fun e => g (f e)) := by
  funext k
  by_cases hk : k = c
  · subst hk; simp
  · simp [modCol_other _ _ hk]

/-- The state after the piece is appended to a col with room, from a state between cycles. -/
theorem appendPiece_clean {hs : List Nat} {pg : Playground} (hcl : Clean hs pg) {c : Nat}
    (hm : c ∈ hs) (hty : (pg.heap c).type = .COL_PIECES)
    (hlt : (pg.heap c).count < (pg.heap c).size) (p : Nat) :
    appendPiece pg c p = .ok (appended pg c p) := by
  have hclean := hcl.clean c hm hty
  have hroom := hcl.room
  have hcc := hcl.changedCols
  have hne : ¬ (pg.heap c).count = (pg.heap c).size := by omega
  simp only [appendPiece, playgroundTrackChange, modCol_same, hclean, true_or, if_true, ne_eq,
    hne, not_false_eq_true, hcc, List.length_nil, hroom, List.nil_append, modCol_modCol,
    appended]

theorem appended_heap (pg : Playground) (c p k : Nat) :
    (appended pg c p).heap k =
      if k = c then
        { pg.heap c with pieces := setPiece (pg.heap c).pieces (pg.heap c).count p,
                         changeY := (pg.heap c).count, count := (pg.heap c).count + 1 }
      else pg.heap k := by
  by_cases hk : k = c
  · subst hk; simp [appended]
  · simp [appended, hk]

theorem appended_shape (pg : Playground) (c p : Nat) : SameShape pg (appended pg c p) := by
  refine ⟨fun h => ?_, rfl, rfl, rfl, rfl, rfl, rfl, rfl, rfl, rfl⟩
  rw [appended_heap]
  by_cases hk : h = c
  · subst hk; rw [if_pos rfl]; exact ⟨rfl, rfl, rfl, rfl⟩
  · rw [if_neg hk]; exact ⟨rfl, rfl, rfl, rfl⟩

/-- The appended state satisfies the cycle invariant. -/
theorem appended_cyc {hs : List Nat} {pg : Playground} (hcl : Clean hs pg) {c : Nat}
    (hm : c ∈ hs) (hty : (pg.heap c).type = .COL_PIECES)
    (hlt : (pg.heap c).count < (pg.heap c).size) {p : Nat} (hp : p ≤ 253) :
    Cyc hs (appended pg c p) := by
  have hfield : ∀ k, k ≠ c → (appended pg c p).heap k = pg.heap k := by
    intro k hk; rw [appended_heap, if_neg hk]
  have hself := appended_heap pg c p c
  rw [if_pos rfl] at hself
  refine ⟨(appended_shape pg c p).wf_of hcl.wf, ?_, ?_, ?_, ?_, ?_, ?_⟩
  · intro k hk hkt
    by_cases hkc : k = c
    · subst hkc; rw [hself]; show (pg.heap k).count + 1 ≤ (pg.heap k).size; omega
    · rw [hfield k hkc] at hkt ⊢; exact (hcl.cap k hk hkt).1
  · intro k hk hkt
    by_cases hkc : k = c
    · subst hkc
      rw [hself]
      intro y hy
      have hy2 : y < (pg.heap k).count + 1 := hy
      show setPiece (pg.heap k).pieces (pg.heap k).count p y ≠ PIECE_EMPTY
      by_cases hyc : y = (pg.heap k).count
      · rw [hyc, setPiece_same]
        show p ≠ 255
        omega
      · rw [setPiece_other _ _ hyc]
        exact hcl.noEmpty k hk hty y (by omega)
    · rw [hfield k hkc] at hkt ⊢; exact hcl.noEmpty k hk hkt
  · intro k hk hkt hd
    by_cases hkc : k = c
    · subst hkc; show k ∈ [k]; simp
    · rw [hfield k hkc] at hkt hd
      exact absurd (hcl.clean k hk hkt) hd
  · intro k hk
    have hk2 : k ∈ [c] := hk
    obtain rfl : k = c := by simpa using hk2
    rw [hself]
    exact ⟨hm, hty, by show (pg.heap k).count ≤ (pg.heap k).count + 1; omega⟩
  · intro r hr
    have hr2 : r ∈ pg.pieceRemovals := hr
    rw [hcl.pieceRemovals] at hr2
    simp at hr2
  · show pg.pieceRemovals.length ≤ pg.changedColsSize
    rw [hcl.pieceRemovals]
    simp

/-- The stacks of the appended state. -/
theorem appended_stackAt {hs : List Nat} {pg : Playground} (w : WF pg hs) {x : Int} {c : Nat}
    (hcol : colAt pg x = some c) (p : Nat) (x1 : Int) :
    stackAt (appended pg c p) x1 =
      if x1 = x then some ((pg.heap c).stack ++ [p]) else stackAt pg x1 := by
  have hca : ∀ z, colAt (appended pg c p) z = colAt pg z :=
    fun z => (appended_shape pg c p).colAt_shape w z
  by_cases hx : x1 = x
  · subst hx
    rw [if_pos rfl, stackAt_of_col (by rw [hca]; exact hcol), appended_heap, if_pos rfl]
    simp only [Col.stack, List.range_succ, List.map_append, List.map_cons, List.map_nil,
      setPiece_same]
    congr 2
    apply List.map_congr_left
    intro y hy
    rw [setPiece_other _ _ (by have := List.mem_range.mp hy; omega)]
  · rw [if_neg hx]
    cases hc1 : colAt pg x1 with
    | none => rw [stackAt_of_none hc1, stackAt_of_none (by rw [hca]; exact hc1)]
    | some v =>
      have hvc : v ≠ c := by
        intro h
        rw [h] at hc1
        exact hx (w.colAt_inj hc1 hcol)
      rw [stackAt_of_col hc1, stackAt_of_col (by rw [hca]; exact hc1), appended_heap,
        if_neg hvc]

theorem playgroundPlacePiece_eq (pg : Playground) (x : Int) (p : Nat) :
    playgroundPlacePiece pg x p =
      match playgroundGetColAt pg x with
      | .error e => .error e
      | .ok (col0, pg0) =>
        match appendPiece
            (if (pg0.heap col0).count = (pg0.heap col0).size then expandCol pg0 col0
              else (col0, pg0)).2
            (if (pg0.heap col0).count = (pg0.heap col0).size then expandCol pg0 col0
              else (col0, pg0)).1 p with
        | .error e => .error e
        | .ok pg1 => finishCycle pg1 := by
  unfold playgroundPlacePiece finishCycle
  cases playgroundGetColAt pg x with
  | error e => rfl
  | ok v =>
    obtain ⟨col0, pg0⟩ := v
    rfl

/-- The first half of a placement from a state between cycles: the col is found or created,
reallocated when full, and the piece is appended. -/
theorem Clean.prepare {hs : List Nat} {pg : Playground} (hcl : Clean hs pg) (x : Int)
    {p : Nat} (hp : p ≤ 253) :
    ∃ hs1 q1 c c0 pg0, playgroundGetColAt pg x = .ok (c0, pg0) ∧
      appendPiece
        (if (pg0.heap c0).count = (pg0.heap c0).size then expandCol pg0 c0 else (c0, pg0)).2
        (if (pg0.heap c0).count = (pg0.heap c0).size then expandCol pg0 c0 else (c0, pg0)).1
        p = .ok q1 ∧
      playgroundPlacePiece pg x p = finishCycle q1 ∧ Cyc hs1 q1 ∧
      q1.pieceRemovals = [] ∧ q1.changedCols = [c] ∧ colAt q1 x = some c ∧
      (q1.heap c).changeY = heightAt pg x ∧ (q1.heap c).count = heightAt pg x + 1 ∧
      0 < q1.changedColsSize ∧
      (∀ k ∈ hs1, (q1.heap k).type = .COL_PIECES → 0 < (q1.heap k).size) ∧
      (∀ x1, stackAt q1 x1 =
        if x1 = x then some ((stackAt pg x).getD [] ++ [p]) else stackAt pg x1) := by
  obtain ⟨c0, pg0, hs0, hg, hcl0, hcol0, hst0⟩ := hcl.getColAt x
  have key : ∀ (hs1 : List Nat) (r : Playground) (c : Nat), Clean hs1 r → colAt r x = some c →
      (r.heap c).count < (r.heap c).size → (∀ x1, stackAt r x1 = stackAt pg0 x1) →
      ∃ q1, appendPiece r c p = .ok q1 ∧ Cyc hs1 q1 ∧
        q1.pieceRemovals = [] ∧ q1.changedCols = [c] ∧ colAt q1 x = some c ∧
        (q1.heap c).changeY = heightAt pg x ∧ (q1.heap c).count = heightAt pg x + 1 ∧
        0 < q1.changedColsSize ∧
        (∀ k ∈ hs1, (q1.heap k).type = .COL_PIECES → 0 < (q1.heap k).size) ∧
        (∀ x1, stackAt q1 x1 =
          if x1 = x then some ((stackAt pg x).getD [] ++ [p]) else stackAt pg x1) := by
    intro hs1 r c hclr hcolr hlt hstr
    obtain ⟨hm, hty⟩ := hclr.wf.colAt_mem hcolr
    have hstack : (r.heap c).stack = (stackAt pg x).getD [] := by
      have h1 := hstr x
      rw [hst0 x, if_pos rfl, stackAt_of_col hcolr] at h1
      exact Option.some.inj h1
    have hh : (r.heap c).count = heightAt pg x := by
      unfold heightAt
      rw [← hstack]
      simp [Col.stack]
    have hself := appended_heap r c p c
    rw [if_pos rfl] at hself
    refine ⟨appended r c p, appendPiece_clean hclr hm hty hlt p,
      appended_cyc hclr hm hty hlt hp, hclr.pieceRemovals, rfl,
      by rw [(appended_shape r c p).colAt_shape hclr.wf]; exact hcolr,
      by rw [hself]; exact hh, by rw [hself]; show (r.heap c).count + 1 = _; rw [hh],
      hclr.room, ?_, ?_⟩
    · intro k hk hkt
      have hl := (appended_shape r c p).links k
      rw [← hl.2.1]
      exact (hclr.cap k hk (by rw [hl.1]; exact hkt)).2
    · intro x1
      rw [appended_stackAt hclr.wf hcolr p x1, hstack]
      by_cases hx : x1 = x
      · rw [if_pos hx, if_pos hx]
      · rw [if_neg hx, if_neg hx, hstr x1, hst0 x1, if_neg hx]
  have hplace := playgroundPlacePiece_eq pg x p
  rw [hg] at hplace
  dsimp only at hplace
  by_cases hfull : (pg0.heap c0).count = (pg0.heap c0).size
  · obtain ⟨hs1, hcl1, hcol1, hlt1, hst1⟩ := hcl0.expand hcol0
    obtain ⟨q1, happ, rest⟩ := key hs1 _ _ hcl1 hcol1 hlt1 hst1
    have happ2 : appendPiece
        (if (pg0.heap c0).count = (pg0.heap c0).size then expandCol pg0 c0 else (c0, pg0)).2
        (if (pg0.heap c0).count = (pg0.heap c0).size then expandCol pg0 c0 else (c0, pg0)).1
        p = .ok q1 := by
      rw [if_pos hfull]; exact happ
    rw [happ2] at hplace
    exact ⟨hs1, q1, _, c0, pg0, hg, happ2, hplace, rest⟩
  · obtain ⟨hm0, hty0⟩ := hcl0.wf.colAt_mem hcol0
    have := (hcl0.cap c0 hm0 hty0).1
    obtain ⟨q1, happ, rest⟩ := key hs0 pg0 c0 hcl0 hcol0 (by omega) (fun _ => rfl)
    have happ2 : appendPiece
        (if (pg0.heap c0).count = (pg0.heap c0).size then expandCol pg0 c0 else (c0, pg0)).2
        (if (pg0.heap c0).count = (pg0.heap c0).size then expandCol pg0 c0 else (c0, pg0)).1
        p = .ok q1 := by
      rw [if_neg hfull]; exact happ
    rw [happ2] at hplace
    exact ⟨hs0, q1, _, c0, pg0, hg, happ2, hplace, rest⟩

/-- The board after the piece is appended is the old board with the piece on top of the stack
at `x`. -/
theorem pieceAt_with {pg q1 : Playground} {x : Int} {p : Nat}
    (h : ∀ x1, stackAt q1 x1 =
      if x1 = x then some ((stackAt pg x).getD [] ++ [p]) else stackAt pg x1)
    (x1 y : Int) : pieceAt q1 x1 y = pieceWith pg x p x1 y := by
  unfold pieceWith
  by_cases hx : x1 = x
  · subst hx
    have hL : pieceAt q1 x1 y =
        if 0 ≤ y then ((stackAt pg x1).getD [] ++ [p])[y.toNat]? else none := by
      rw [pieceAt_eq_stack, h x1, if_pos rfl]
    have hR : pieceAt pg x1 y =
        if 0 ≤ y then ((stackAt pg x1).getD [])[y.toNat]? else none := by
      rw [pieceAt_eq_stack]
      cases h2 : stackAt pg x1 <;> simp
    have hh : (heightAt pg x1 : Int) = (((stackAt pg x1).getD []).length : Int) := rfl
    rw [hL]
    by_cases hy : y = (heightAt pg x1 : Int)
    · rw [if_pos (show x1 = x1 ∧ y = (heightAt pg x1 : Int) from ⟨rfl, hy⟩),
        if_pos (show 0 ≤ y by omega)]
      have : y.toNat = ((stackAt pg x1).getD []).length := by omega
      rw [this]
      simp
    · rw [if_neg (show ¬ (x1 = x1 ∧ y = (heightAt pg x1 : Int)) from fun hh => hy hh.2), hR]
      by_cases h0 : 0 ≤ y
      · rw [if_pos h0, if_pos h0]
        by_cases hlt : y.toNat < ((stackAt pg x1).getD []).length
        · rw [List.getElem?_append_left hlt]
        · rw [List.getElem?_eq_none (by simp; omega), List.getElem?_eq_none (by omega)]
      · rw [if_neg h0, if_neg h0]
  · rw [if_neg (fun hh => hx hh.1)]
    exact pieceAt_congr (by rw [h x1, if_neg hx]) y

/-- After the piece is appended to a board without lines, every line goes through the new
piece. -/
theorem covered_of_with {pg q1 : Playground} {x : Int} {p : Nat}
    (h : ∀ x1 y, pieceAt q1 x1 y = pieceWith pg x p x1 y) (hno : NoLines pg)
    (hd : DirtyAt q1 x (heightAt pg x : Int)) : Covered q1 := by
  intro xl yl dx dy hdir hline
  by_cases hk : ∃ k : Nat, k < 4 ∧ xl + (k : Int) * dx = x ∧
      yl + (k : Int) * dy = (heightAt pg x : Int)
  · obtain ⟨k, hk4, e1, e2⟩ := hk
    exact ⟨k, hk4, by rw [e1, e2]; exact hd⟩
  · exfalso
    apply hno xl yl dx dy hdir
    obtain ⟨c, hc⟩ := hline
    refine ⟨c, fun k hk4 => ?_⟩
    have := hc k hk4
    rw [h] at this
    unfold pieceWith at this
    rw [if_neg (fun hh => hk ⟨k, hk4, hh.1, hh.2⟩)] at this
    exact this

theorem SameBoard.totalPieces_same {pg pg2 : Playground} {hs : List Nat}
    (hb : SameBoard pg pg2) (w : WF pg hs) : totalPieces pg2 = totalPieces pg := by
  unfold totalPieces
  rw [(hb.shape.wf_of w).chain_eq, w.chain_eq]
  congr 1
  apply List.map_congr_left
  intro c _
  rw [hb.count c, (hb.shape.links c).1]

theorem SameBoard.stackAt_same {pg pg2 : Playground} {hs : List Nat}
    (hb : SameBoard pg pg2) (w : WF pg hs) (x : Int) : stackAt pg2 x = stackAt pg x := by
  unfold stackAt
  rw [hb.colAt_same w]
  cases colAt pg x with
  | none => rfl
  | some c => simp only [Option.map_some', Col.stack, hb.count c, hb.pieces c]

theorem SameBoard.noLines_same {pg pg2 : Playground} {hs : List Nat}
    (hb : SameBoard pg pg2) (w : WF pg hs) (h : NoLines pg) : NoLines pg2 := by
  intro x y dx dy hdir hline
  apply h x y dx dy hdir
  obtain ⟨p, hp⟩ := hline
  exact ⟨p, fun k hk => by rw [← hb.pieceAt_same w]; exact hp k hk⟩

/-- A detect pass from a state with an empty queue. -/
theorem playgroundRemoveLines_pass {hs : List Nat} {q0 : Playground} (hc : Cyc hs q0)
    (hcov : Covered q0) (hq : q0.pieceRemovals = []) :
    (∃ q, playgroundRemoveLines q0 = .ok q ∧ Pass hs q ∧ totalPieces q = totalPieces q0 ∧
      SameBoard q0 q) ∨
    Aborts (playgroundRemoveLines q0) := by
  unfold playgroundRemoveLines
  rcases removeLinesFrom_spec (q0.changedCols.length + q0.changedColsSize + 1) q0 0 hc
    (by omega) (Nat.zero_le _) with ⟨q, h1, d, hset⟩ | hab
  · left
    refine ⟨q, h1, ⟨d.cyc, d.covered hc hcov, ?_⟩, d.marks.board.totalPieces_same hc.wf,
      d.marks.board⟩
    intro hq2 c hcc x hx
    have heq : q = q0 := d.marks.eq_of_removals (by rw [hq2, hq])
    subst heq
    obtain ⟨j, hj, e⟩ := List.getElem_of_mem hcc
    have := hset rfl j (Nat.zero_le _) hj x (by rw [List.getD_eq_getElem _ _ hj, e]; exact hx)
    rw [List.getD_eq_getElem _ _ hj, e] at this
    exact this
  · exact Or.inr hab

theorem stabilize_step (fuel : Nat) (pg : Playground) :
    stabilize (fuel + 1) pg =
      if pg.pieceRemovals.length > 0 then
        match playgroundRemoveLines (playgroundCauseGravity pg) with
        | .error e => .error e
        | .ok pg1 => stabilize fuel pg1
      else .ok pg := rfl

/-- The loop of gravity and detect passes ends, with an empty queue, unless the removal array
is full. -/
theorem stabilize_spec {hs : List Nat} :
    ∀ (fuel : Nat) (q : Playground), Pass hs q → totalPieces q < fuel →
      (∃ q3, stabilize fuel q = .ok q3 ∧ Pass hs q3 ∧ q3.pieceRemovals = [] ∧
        SameShape q q3) ∨
      Aborts (stabilize fuel q) := by
  intro fuel
  induction fuel with
  | zero => intro q _ h; omega
  | succ fuel ih =>
    intro q hp hf
    rw [stabilize_step]
    by_cases hlen : q.pieceRemovals.length > 0
    · rw [if_pos hlen]
      have hfew := hp.cyc.gravity_fewer hlen
      rcases playgroundRemoveLines_pass hp.cyc.gravity (hp.cyc.gravity_covered hp.covered) rfl
        with ⟨q2, h2, p2, ht2, b2⟩ | hab
      · rw [h2]
        dsimp only
        rcases ih q2 p2 (by omega) with ⟨q3, h3, p3, e3, s3⟩ | hab
        · exact Or.inl ⟨q3, h3, p3, e3,
            (playgroundCauseGravity_shape q).then_shape (b2.shape.then_shape s3)⟩
        · exact Or.inr hab
      · right
        unfold Aborts at hab ⊢; rw [hab]
    · rw [if_neg hlen]
      exact Or.inl ⟨q, rfl, hp, List.length_eq_zero.mp (by omega), SameShape.rfl_shape q⟩

theorem clearChanges_heap (q : Playground) (c : Nat) :
    (clearChanges q).heap c =
      if c ∈ q.changedCols then { q.heap c with changeY := (q.heap c).size } else q.heap c := by
  have key : ∀ (l : List Nat) (heap : Nat → Col),
      (l.foldl (fun hp col => modCol hp col (fun e => { e with changeY := e.size })) heap) c =
        if c ∈ l then { heap c with changeY := (heap c).size } else heap c := by
    intro l
    induction l with
    | nil => intro heap; simp
    | cons a t ih =>
      intro heap
      rw [List.foldl_cons, ih]
      by_cases hc : c = a
      · subst hc
        rw [modCol_same]
        by_cases hm : c ∈ t
        · simp [hm]
        · simp [hm]
      · rw [modCol_other _ _ hc]
        simp [hc]
  exact key q.changedCols q.heap

/-- The end of a cycle: with an empty queue, clearing the changes gives a state between
cycles. -/
theorem clearChanges_clean {hs : List Nat} {q : Playground} (hc : Cyc hs q)
    (hq : q.pieceRemovals = []) (hpos : ∀ k ∈ hs, (q.heap k).type = .COL_PIECES →
      0 < (q.heap k).size) (hroom : 0 < q.changedColsSize) : Clean hs (clearChanges q) := by
  have hb := clearChanges_board q
  have hf : ∀ c, ((clearChanges q).heap c).type = (q.heap c).type ∧
      ((clearChanges q).heap c).size = (q.heap c).size ∧
      ((clearChanges q).heap c).count = (q.heap c).count ∧
      ((clearChanges q).heap c).pieces = (q.heap c).pieces := fun c =>
    ⟨((hb.shape.links c).1).symm, ((hb.shape.links c).2.1).symm, hb.count c, hb.pieces c⟩
  refine ⟨hb.shape.wf_of hc.wf, ?_, ?_, ?_, rfl, hq, hroom⟩
  · intro c hm hty
    obtain ⟨f1, f2, f3, _⟩ := hf c
    rw [f1] at hty
    rw [f2, f3]
    exact ⟨hc.cap c hm hty, hpos c hm hty⟩
  · intro c hm hty
    obtain ⟨f1, _, f3, f4⟩ := hf c
    rw [f1] at hty
    rw [f3, f4]
    exact hc.noEmpty c hm hty
  · intro c hm hty
    obtain ⟨f1, _, _, _⟩ := hf c
    rw [f1] at hty
    rw [clearChanges_heap]
    by_cases hcc : c ∈ q.changedCols
    · rw [if_pos hcc]
    · rw [if_neg hcc]
      by_contra hd
      exact hcc (hc.dirty c hm hty hd)

/-- The second half of a placement cycle, from the appended state: it ends in a state between
cycles without lines, unless the removal array is full. -/
theorem finishCycle_spec {hs : List Nat} {q1 : Playground} (hc : Cyc hs q1)
    (hcov : Covered q1) (hq : q1.pieceRemovals = [])
    (hpos : ∀ k ∈ hs, (q1.heap k).type = .COL_PIECES → 0 < (q1.heap k).size)
    (hroom : 0 < q1.changedColsSize) :
    (∃ pg2, finishCycle q1 = .ok pg2 ∧ Clean hs pg2 ∧ NoLines pg2) ∨
    Aborts (finishCycle q1) := by
  unfold finishCycle
  rcases playgroundRemoveLines_pass hc hcov hq with ⟨q2, h2, p2, _, b2⟩ | hab
  · rw [h2]
    dsimp only
    rcases stabilize_spec (totalPieces q2 + 1) q2 p2 (by omega) with ⟨q3, h3, p3, e3, s3⟩ | hab
    · rw [h3]
      dsimp only
      left
      have s13 := b2.shape.then_shape s3
      refine ⟨clearChanges q3, rfl, clearChanges_clean p3.cyc e3 ?_ ?_, ?_⟩
      · intro k hk hkt
        have hl := s13.links k
        rw [← hl.2.1]
        exact hpos k hk (by rw [hl.1]; exact hkt)
      · rw [s13.changedColsSize]; exact hroom
      · exact (clearChanges_board q3).noLines_same p3.cyc.wf
          (p3.cyc.noLines p3.covered (p3.settled e3))
    · right
      unfold Aborts at hab ⊢; rw [hab]
  · right
    unfold Aborts at hab ⊢; rw [hab]

/-- A placement from a state between cycles without lines ends in such a state, unless the
removal array is full. -/
theorem playgroundPlacePiece_spec {hs : List Nat} {pg : Playground} (hcl : Clean hs pg)
    (hno : NoLines pg) (x : Int) {p : Nat} (hp : p ≤ 253) :
    (∃ pg2 hs2, playgroundPlacePiece pg x p = .ok pg2 ∧ Clean hs2 pg2 ∧ NoLines pg2) ∨
    Aborts (playgroundPlacePiece pg x p) := by
  obtain ⟨hs1, q1, c, _, _, _, _, hplace, hc1, hq1, hcc1, hcol1, hch1, hcnt1, hroom1, hpos1,
    hst1⟩ := hcl.prepare x hp
  have hcov : Covered q1 :=
    covered_of_with (pieceAt_with hst1) hno
      ⟨c, hcol1, by rw [hch1], by rw [hcnt1]; push_cast; omega⟩
  rw [hplace]
  rcases finishCycle_spec hc1 hcov hq1 hpos1 hroom1 with ⟨pg2, h2, c2, n2⟩ | hab
  · exact Or.inl ⟨pg2, hs1, h2, c2, n2⟩
  · exact Or.inr hab

theorem createPlayground_clean : Clean [0] createPlayground := by
  refine ⟨createPlayground_WF, ?_, ?_, ?_, rfl, rfl, by decide⟩
  · intro c hc _
    obtain rfl : c = 0 := by simpa using hc
    exact ⟨by decide, by decide⟩
  · intro c hc _ y hy
    obtain rfl : c = 0 := by simpa using hc
    have h0 : (createPlayground.heap 0).count = 0 := rfl
    rw [h0] at hy
    omega
  · intro c hc _
    obtain rfl : c = 0 := by simpa using hc
    rfl

theorem createPlayground_noLines : NoLines createPlayground := by
  intro x y dx dy _ hline
  obtain ⟨p, hp⟩ := hline
  obtain ⟨c, hc, _, h2, _⟩ := pieceAt_some (hp 0 (by omega))
  have hm := (createPlayground_WF.colAt_mem hc).1
  obtain rfl : c = 0 := by simpa using hm
  have : (createPlayground.heap 0).count = 0 := rfl
  rw [this] at h2
  omega

/-- Every reachable playground is a state between cycles and has no line. -/
theorem Reachable.clean {pg : Playground} (h : Reachable pg) :
    ∃ hs, Clean hs pg ∧ NoLines pg := by
  induction h with
  | init => exact ⟨[0], createPlayground_clean, createPlayground_noLines⟩
  | place x p _ hp hrun ih =>
    obtain ⟨hs, hcl, hno⟩ := ih
    rcases playgroundPlacePiece_spec hcl hno x hp with ⟨pg3, hs3, h3, c3, n3⟩ | hab
    · rw [hrun] at h3
      obtain rfl := Except.ok.inj h3
      exact ⟨hs3, c3, n3⟩
    · unfold Aborts at hab; rw [hrun] at hab; exact absurd hab (by simp)

/-! ## Runs of placements -/

theorem placeAll_reachable (l : List (Int × Nat)) :
    ∀ (pg pg2 : Playground), Reachable pg → (∀ e ∈ l, e.2 ≤ 253) →
      placeAll pg l = .ok pg2 → Reachable pg2 := by
  induction l with
  | nil =>
    intro pg pg2 h _ hrun
    obtain rfl := Except.ok.inj hrun
    exact h
  | cons e t ih =>
    intro pg pg2 h hcol hrun
    obtain ⟨x, p⟩ := e
    simp only [placeAll] at hrun
    cases hp : playgroundPlacePiece pg x p with
    | error er => rw [hp] at hrun; simp at hrun
    | ok pg1 =>
      rw [hp] at hrun
      exact ih pg1 pg2 (Reachable.place x p h (hcol (x, p) (by simp)) hp)
        (fun e he => hcol e (by simp [he])) hrun

theorem Aborts.not_outOfFuel {α : Type} {r : Except Fault α} (h : Aborts r) :
    r ≠ .error .outOfFuel := by
  unfold Aborts at h; rw [h]; simp

/-- A detect pass on a state inside a cycle ends. -/
theorem playgroundRemoveLines_ends {hs : List Nat} {q : Playground} (hc : Cyc hs q) :
    playgroundRemoveLines q ≠ .error .outOfFuel := by
  unfold playgroundRemoveLines
  rcases removeLinesFrom_spec (q.changedCols.length + q.changedColsSize + 1) q 0 hc
    (by omega) (Nat.zero_le _) with ⟨q2, h1, _⟩ | hab
  · rw [h1]; simp
  · exact hab.not_outOfFuel

/-- The placement of a piece that completes no line: the detect pass queues nothing and the
cycle ends at once. -/
theorem finishCycle_quiet {hs : List Nat} {q1 : Playground} (hc : Cyc hs q1) {x : Int}
    {c : Nat} (hcc : q1.changedCols = [c]) (hq : q1.pieceRemovals = [])
    (hcol : colAt q1 x = some c) (hcnt : (q1.heap c).count = (q1.heap c).changeY + 1)
    (hno : ∀ dx dy, IsDir dx dy → ¬ OnLine q1 x ((q1.heap c).changeY : Int) dx dy) :
    finishCycle q1 = .ok (clearChanges q1) := by
  obtain ⟨hm, hty⟩ := hc.wf.colAt_mem hcol
  have hrows : scanRows ((q1.heap c).count + 1) q1 c (q1.heap c).changeY = .ok q1 := by
    apply scanRows_quiet _ q1 c _ x hc hcol (by omega)
    intro z hz1 hz2
    obtain rfl : z = (q1.heap c).changeY := by omega
    exact ⟨hno 1 (-1) (Or.inl ⟨rfl, Or.inr (Or.inr rfl)⟩),
      hno 1 0 (Or.inl ⟨rfl, Or.inl rfl⟩), hno 1 1 (Or.inl ⟨rfl, Or.inr (Or.inl rfl)⟩)⟩
  have hvert : scanVertical (q1.heap c).count q1 c PIECE_EMPTY 0 = .ok q1 := by
    apply scanVertical_quiet _ q1 _ _ (by omega) (by omega) (fun k hk => by omega)
      (fun _ => hc.noEmpty c hm hty) (fun h0 => by omega)
    intro z hz1 hz2 hsame
    apply hno 0 1 (Or.inr ⟨rfl, rfl⟩)
    refine ⟨3, by omega, ?_⟩
    have e1 : x - ((3 : Nat) : Int) * 0 = x := by ring
    have e2 : ((q1.heap c).changeY : Int) - ((3 : Nat) : Int) * 1 = (z : Int) := by
      push_cast; omega
    rw [e1, e2]
    exact (lineAt_vertical hcol z).mpr ⟨hz1, hsame⟩
  have hdet : playgroundRemoveLines q1 = .ok q1 := by
    have hfuel : q1.changedCols.length + q1.changedColsSize = q1.changedColsSize + 1 := by
      rw [hcc, List.length_singleton, Nat.add_comm]
    unfold playgroundRemoveLines
    rw [hfuel, removeLinesFrom_step, hcc]
    simp only [List.length_singleton, Nat.lt_one_iff, if_true, List.getD_cons_zero]
    rw [hrows]
    dsimp only
    rw [hvert]
    dsimp only
    rw [removeLinesFrom_step, hcc]
    simp
  unfold finishCycle
  rw [hdet]
  dsimp only
  rw [stabilize_step, if_neg (by rw [hq]; simp)]

theorem pieceAt_createPlayground (x y : Int) : pieceAt createPlayground x y = none := by
  cases h : pieceAt createPlayground x y with
  | none => rfl
  | some p =>
    obtain ⟨c, hc, _, h2, _⟩ := pieceAt_some h
    have hm := (createPlayground_WF.colAt_mem hc).1
    obtain rfl : c = 0 := by simpa using hm
    have : (createPlayground.heap 0).count = 0 := rfl
    rw [this] at h2
    omega

/-- A single piece on the empty board lies on no line. -/
theorem fresh_piece_alone (x : Int) (p : Nat) (dx dy : Int) (hd : dx ≠ 0 ∨ dy ≠ 0) :
    ¬ OnLineIn (pieceWith createPlayground x p) x (heightAt createPlayground x : Int) dx dy := by
  rintro ⟨i, _, c, hl⟩
  have h0 := hl 0 (by omega)
  have h1 := hl 1 (by omega)
  unfold pieceWith at h0 h1
  rw [pieceAt_createPlayground] at h0 h1
  by_cases c0 : x - (i : Int) * dx + ((0 : Nat) : Int) * dx = x ∧
      (heightAt createPlayground x : Int) - (i : Int) * dy + ((0 : Nat) : Int) * dy =
        (heightAt createPlayground x : Int)
  · by_cases c1 : x - (i : Int) * dx + ((1 : Nat) : Int) * dx = x ∧
        (heightAt createPlayground x : Int) - (i : Int) * dy + ((1 : Nat) : Int) * dy =
          (heightAt createPlayground x : Int)
    · obtain ⟨a1, a2⟩ := c0
      obtain ⟨b1, b2⟩ := c1
      push_cast at a1 a2 b1 b2
      rcases hd with hd | hd
      · apply hd; linarith
      · apply hd; linarith
    · rw [if_neg c1] at h1
      exact absurd h1 (by simp)
  · rw [if_neg c0] at h0
    exact absurd h0 (by simp)

/-! ## No two padding runs side by side -/

theorem NoPadPair.congr_types {heap heap2 : Nat → Col} :
    ∀ {l : List Nat}, (∀ a ∈ l, (heap2 a).type = (heap a).type) →
      NoPadPair heap l → NoPadPair heap2 l := by
  intro l
  induction l with
  | nil => intro _ _; exact List.chain'_nil
  | cons a t ih =>
    intro hty h
    cases t with
    | nil => exact List.chain'_singleton a
    | cons b t2 =>
      unfold NoPadPair at h ⊢
      rw [List.chain'_cons] at h ⊢
      refine ⟨?_, ih (fun k hk => hty k (List.mem_cons_of_mem _ hk)) h.2⟩
      rw [hty a (List.mem_cons_self _ _), hty b (by simp)]
      exact h.1

theorem padding_ne_pieces {c : Col} (h : c.type = .COL_PADDING) : ¬ c.type = .COL_PIECES := by
  rw [h]; decide

theorem Grown.noPadPair {heap heap2 : Nat → Col} {c g : Nat} {hs hs2 : List Nat}
    (hg : Grown heap c g hs hs2) (hty : ∀ a ∈ hs, (heap2 a).type = (heap a).type)
    (hc : (heap2 c).type = .COL_PIECES) (ha : NoPadPair heap hs) : NoPadPair heap2 hs2 := by
  have h2 := ha.congr_types hty
  cases hg with
  | same => exact h2
  | append D e he =>
    have te := hty e (by simp)
    unfold NoPadPair at h2 ⊢
    simp only [List.append_nil, List.append_assoc, List.singleton_append, List.cons_append,
      List.nil_append] at h2 ⊢
    rw [List.chain'_split]
    exact ⟨h2, by simp [hc]⟩
  | appendPad D e he =>
    have te := hty e (by simp)
    unfold NoPadPair at h2 ⊢
    simp only [List.append_nil, List.append_assoc, List.singleton_append, List.cons_append,
      List.nil_append] at h2 ⊢
    rw [List.chain'_split]
    exact ⟨h2, by simp [hc, te, he]⟩
  | prepend s T he =>
    have te := hty s (by simp)
    unfold NoPadPair at h2 ⊢
    simp only [List.append_nil, List.append_assoc, List.singleton_append, List.cons_append,
      List.nil_append] at h2 ⊢
    rw [List.chain'_cons]
    exact ⟨Or.inl hc, h2⟩
  | prependPad s T he =>
    have te := hty s (by simp)
    unfold NoPadPair at h2 ⊢
    simp only [List.append_nil, List.append_assoc, List.singleton_append, List.cons_append,
      List.nil_append] at h2 ⊢
    rw [List.chain'_cons, List.chain'_cons]
    exact ⟨Or.inl hc, Or.inr (by rw [te]; exact he), h2⟩
  | splitPad A lp col B hpad =>
    have tl := hty lp (by simp)
    unfold NoPadPair at h2 ⊢
    simp only [List.append_nil, List.append_assoc, List.singleton_append, List.cons_append,
      List.nil_append] at h2 ⊢
    rw [List.chain'_split, List.chain'_cons] at h2
    rw [List.chain'_split, List.chain'_cons, List.chain'_cons, List.chain'_cons]
    have hcol : (heap2 col).type = .COL_PIECES := by
      rcases h2.2.1 with h | h
      · rw [tl] at h; exact absurd h (padding_ne_pieces hpad)
      · exact h
    exact ⟨h2.1, Or.inr hc, Or.inl hc, Or.inr hcol, h2.2.2⟩
  | between A p col B =>
    unfold NoPadPair at h2 ⊢
    simp only [List.append_nil, List.append_assoc, List.singleton_append, List.cons_append,
      List.nil_append] at h2 ⊢
    rw [List.chain'_split, List.chain'_cons] at h2
    rw [List.chain'_split, List.chain'_cons, List.chain'_cons]
    exact ⟨h2.1, Or.inr hc, Or.inl hc, h2.2.2⟩
  | replace A p col n B =>
    unfold NoPadPair at h2 ⊢
    simp only [List.append_nil, List.append_assoc, List.singleton_append, List.cons_append,
      List.nil_append] at h2 ⊢
    rw [List.chain'_split, List.chain'_cons, List.chain'_cons] at h2
    rw [List.chain'_split, List.chain'_cons, List.chain'_cons]
    exact ⟨h2.1, Or.inr hc, Or.inl hc, h2.2.2.2⟩

theorem NoPadPair.map_types {heap heap2 : Nat → Col} (r : Nat → Nat) :
    ∀ {l : List Nat}, (∀ a ∈ l, (heap2 (r a)).type = (heap a).type) →
      NoPadPair heap l → NoPadPair heap2 (l.map r) := by
  intro l
  induction l with
  | nil => intro _ _; exact List.chain'_nil
  | cons a t ih =>
    intro hty h
    cases t with
    | nil => exact List.chain'_singleton _
    | cons b t2 =>
      unfold NoPadPair at h ⊢
      rw [List.chain'_cons] at h
      simp only [List.map_cons]
      rw [List.chain'_cons]
      refine ⟨?_, ih (fun k hk => hty k (List.mem_cons_of_mem _ hk)) h.2⟩
      rw [hty a (List.mem_cons_self _ _), hty b (by simp)]
      exact h.1

/-- The col store keeps padding runs apart. -/
theorem playgroundGetColAt_noPadPair {pg : Playground} {hs : List Nat} (w : WF pg hs)
    (ha : NoPadPair pg.heap hs) (x : Int) :
    ∃ c pg2 hs2, playgroundGetColAt pg x = .ok (c, pg2) ∧ GetColPost pg hs x c pg2 hs2 ∧
      NoPadPair pg2.heap hs2 := by
  obtain ⟨c, pg2, hs2, g, he, post, hg⟩ := playgroundGetColAt_shape w x
  refine ⟨c, pg2, hs2, he, post, hg.noPadPair ?_ (colAtFrom_pieces post.here) ha⟩
  intro a hm
  exact (post.data a (w.bound a hm)).1.symm

/-- Growing a col keeps padding runs apart. -/
theorem expandCol_noPadPair {pg : Playground} {A B : List Nat} {col : Nat}
    (w : WF pg (A ++ col :: B)) (hty : (pg.heap col).type = .COL_PIECES)
    (ha : NoPadPair pg.heap (A ++ col :: B)) :
    NoPadPair (expandCol pg col).2.heap ((A ++ col :: B).map (rename col pg.brk)) := by
  obtain ⟨hlp, hln⟩ := w.links_at
  have hn : ∀ n, (pg.heap col).next = some n → n ≠ pg.brk := by
    intro n h
    rw [hln] at h
    have : n ∈ A ++ col :: B := by
      have := headOr_mem h
      simp [this]
    have := w.bound n this
    omega
  have hq : ∀ n, (pg.heap col).prev = some n → n ≠ pg.brk := by
    intro n h
    rw [hlp] at h
    have : n ∈ A ++ col :: B := by
      have := lastOr_mem h
      simp [this]
    have := w.bound n this
    omega
  obtain ⟨_, _, hfields⟩ := expandCol_wf w hty
  have hnew := expandCol_heap_new pg col hn hq
  apply ha.map_types
  intro a hm
  by_cases hac : a = col
  · rw [hac, rename_self, hnew]
  · rw [rename_of_ne hac]
    exact (hfields a hm hac).2.2.2.2

theorem SameShape.pads_apart {pg pg2 : Playground} (s : SameShape pg pg2) {l : List Nat}
    (ha : NoPadPair pg.heap l) : NoPadPair pg2.heap l :=
  ha.congr_types (fun a _ => (s.links a).1.symm)

/-- A placement keeps padding runs apart. -/
theorem playgroundPlacePiece_noPadPair {pg pg2 : Playground} {hs : List Nat} {x : Int} {p : Nat}
    (w : WF pg hs) (ha : NoPadPair pg.heap hs) (h : playgroundPlacePiece pg x p = .ok pg2) :
    ∃ hs2, WF pg2 hs2 ∧ NoPadPair pg2.heap hs2 := by
  obtain ⟨c, pg0, hs0, hg, post, ha0⟩ := playgroundGetColAt_noPadPair w ha x
  unfold playgroundPlacePiece at h
  rw [hg] at h
  dsimp only at h
  by_cases hfull : (pg0.heap c).count = (pg0.heap c).size
  · rw [if_pos hfull] at h
    obtain ⟨A, B, e, -, hty⟩ := colAtFrom_some post.here
    have w0 := post.wf
    rw [e] at w0 ha0
    obtain ⟨w1, -, -⟩ := expandCol_wf w0 hty
    have s := cycle_shape h
    exact ⟨_, s.wf_of w1, s.pads_apart (expandCol_noPadPair w0 hty ha0)⟩
  · rw [if_neg hfull] at h
    have s := cycle_shape h
    exact ⟨hs0, s.wf_of post.wf, s.pads_apart ha0⟩

/-! ## Capacities -/

/-- The col store keeps the capacities; a col it creates has the minimum capacity. -/
theorem GetColPost.capsDoubled {pg pg2 : Playground} {hs hs2 : List Nat} {x : Int} {c : Nat}
    (post : GetColPost pg hs x c pg2 hs2) (w : WF pg hs) (hc : CapsDoubled pg.heap hs) :
    CapsDoubled pg2.heap hs2 := by
  intro k hk hty
  have hold : ∀ k, k ∈ hs → (pg2.heap k).type = .COL_PIECES →
      ∃ n : Nat, (pg2.heap k).size = MIN_COL_SIZE * 2 ^ n := by
    intro k hk hty
    obtain ⟨d1, _, _, _, d5⟩ := post.data k (w.bound k hk)
    rw [← d1] at hty
    rw [← d5 hty]
    exact hc k hk hty
  rcases post.onlyNew k hk hty with h | h
  · exact hold k h hty
  · subst h
    cases hx : colAtFrom pg.heap hs pg.startColX x with
    | none =>
      obtain ⟨_, _, hsz, _⟩ := post.fresh hx
      exact ⟨0, by rw [hsz]; simp⟩
    | some v =>
      obtain ⟨e1, _, _, _⟩ := post.old v hx
      rw [e1] at hty ⊢
      exact hold v (colAtFrom_mem hx) hty

/-- Growing a col doubles its capacity and keeps the others. -/
theorem expandCol_capsDoubled {pg : Playground} {A B : List Nat} {col : Nat}
    (w : WF pg (A ++ col :: B)) (hty : (pg.heap col).type = .COL_PIECES)
    (hc : CapsDoubled pg.heap (A ++ col :: B)) :
    CapsDoubled (expandCol pg col).2.heap ((A ++ col :: B).map (rename col pg.brk)) := by
  obtain ⟨hlp, hln⟩ := w.links_at
  have hn : ∀ n, (pg.heap col).next = some n → n ≠ pg.brk := by
    intro n h
    rw [hln] at h
    have : n ∈ A ++ col :: B := by
      have := headOr_mem h
      simp [this]
    have := w.bound n this
    omega
  have hq : ∀ n, (pg.heap col).prev = some n → n ≠ pg.brk := by
    intro n h
    rw [hlp] at h
    have : n ∈ A ++ col :: B := by
      have := lastOr_mem h
      simp [this]
    have := w.bound n this
    omega
  obtain ⟨_, _, hfields⟩ := expandCol_wf w hty
  have hnew := expandCol_heap_new pg col hn hq
  intro k hk hkt
  obtain ⟨a, ha, rfl⟩ := List.mem_map.mp hk
  by_cases hac : a = col
  · rw [hac, rename_self, hnew]
    obtain ⟨n, hn⟩ := hc col (by simp) hty
    refine ⟨n + 1, ?_⟩
    show (pg.heap col).size * 2 = MIN_COL_SIZE * 2 ^ (n + 1)
    rw [hn, pow_succ, Nat.mul_assoc]
  · rw [rename_of_ne hac] at hkt ⊢
    obtain ⟨_, _, _, g4, g5⟩ := hfields a ha hac
    rw [g4]
    exact hc a ha (by rw [← g5]; exact hkt)

theorem SameShape.caps_same {pg pg2 : Playground} (s : SameShape pg pg2) {l : List Nat}
    (hc : CapsDoubled pg.heap l) : CapsDoubled pg2.heap l := by
  intro k hk hty
  obtain ⟨l1, l2, _, _⟩ := s.links k
  rw [← l2]
  exact hc k hk (by rw [l1]; exact hty)

/-- A placement keeps padding runs apart and every capacity a doubling of the minimum. -/
theorem playgroundPlacePiece_chain {pg pg2 : Playground} {hs : List Nat} {x : Int} {p : Nat}
    (w : WF pg hs) (ha : NoPadPair pg.heap hs) (hc : CapsDoubled pg.heap hs)
    (h : playgroundPlacePiece pg x p = .ok pg2) :
    ∃ hs2, WF pg2 hs2 ∧ NoPadPair pg2.heap hs2 ∧ CapsDoubled pg2.heap hs2 := by
  obtain ⟨c, pg0, hs0, hg, post, ha0⟩ := playgroundGetColAt_noPadPair w ha x
  have hc0 := post.capsDoubled w hc
  unfold playgroundPlacePiece at h
  rw [hg] at h
  dsimp only at h
  by_cases hfull : (pg0.heap c).count = (pg0.heap c).size
  · rw [if_pos hfull] at h
    obtain ⟨A, B, e, -, hty⟩ := colAtFrom_some post.here
    have w0 := post.wf
    rw [e] at w0 ha0 hc0
    obtain ⟨w1, -, -⟩ := expandCol_wf w0 hty
    have s := cycle_shape h
    exact ⟨_, s.wf_of w1, s.pads_apart (expandCol_noPadPair w0 hty ha0),
      s.caps_same (expandCol_capsDoubled w0 hty hc0)⟩
  · rw [if_neg hfull] at h
    have s := cycle_shape h
    exact ⟨hs0, s.wf_of post.wf, s.pads_apart ha0, s.caps_same hc0⟩

/-! ## The invariants of the playgrounds reached by lookups and placements -/

theorem WF.unique {pg : Playground} {hs hs2 : List Nat} (w : WF pg hs) (w2 : WF pg hs2) :
    hs2 = hs := by
  rw [← w.chain_eq, ← w2.chain_eq]

/-- A lookup shows the same board. -/
theorem Clean.getColAt_noLines {hs : List Nat} {pg : Playground} (hcl : Clean hs pg)
    (hno : NoLines pg) {x : Int} {c : Nat} {pg0 : Playground}
    (hg : playgroundGetColAt pg x = .ok (c, pg0)) : NoLines pg0 := by
  obtain ⟨c1, pg1, hs0, hg1, _, _, hst⟩ := hcl.getColAt x
  rw [hg] at hg1
  obtain ⟨rfl, rfl⟩ := Prod.mk.inj (Except.ok.inj hg1)
  have hp : ∀ x1 y, pieceAt pg0 x1 y = pieceAt pg x1 y := by
    intro x1 y
    rw [pieceAt_eq_stack, pieceAt_eq_stack, hst x1]
    by_cases hx : x1 = x
    · subst hx
      rw [if_pos rfl]
      cases stackAt pg x1 with
      | none => simp
      | some s => rfl
    · rw [if_neg hx]
  intro x1 y dx dy hd hline
  apply hno x1 y dx dy hd
  obtain ⟨q, hq⟩ := hline
  exact ⟨q, fun k hk => by rw [← hp]; exact hq k hk⟩

theorem createPlayground_noPadPair : NoPadPair createPlayground.heap [0] :=
  List.chain'_singleton 0

theorem createPlayground_capsDoubled : CapsDoubled createPlayground.heap [0] := by
  intro c hc _
  obtain rfl : c = 0 := by simpa using hc
  exact ⟨0, rfl⟩

/-- Every playground reached by lookups and placements is a state between cycles without a
line, in which padding runs lie apart and every capacity is a doubling of the minimum. -/
theorem Accessible.inv {pg : Playground} (h : Accessible pg) :
    ∃ hs, Clean hs pg ∧ NoLines pg ∧ NoPadPair pg.heap hs ∧ CapsDoubled pg.heap hs := by
  induction h with
  | init =>
    exact ⟨[0], createPlayground_clean, createPlayground_noLines, createPlayground_noPadPair,
      createPlayground_capsDoubled⟩
  | getCol x c _ hg ih =>
    obtain ⟨hs, hcl, hno, ha, hc⟩ := ih
    obtain ⟨c1, pg1, hs0, hg1, hcl0, _, _⟩ := hcl.getColAt x
    obtain ⟨c2, pg2, hs2, hg2, post, ha2⟩ := playgroundGetColAt_noPadPair hcl.wf ha x
    have hno0 := hcl.getColAt_noLines hno hg
    rw [hg] at hg1 hg2
    obtain ⟨rfl, rfl⟩ := Prod.mk.inj (Except.ok.inj hg1)
    obtain ⟨rfl, rfl⟩ := Prod.mk.inj (Except.ok.inj hg2)
    have e := hcl0.wf.unique post.wf
    subst e
    exact ⟨_, hcl0, hno0, ha2, post.capsDoubled hcl.wf hc⟩
  | place x p _ hp hrun ih =>
    obtain ⟨hs, hcl, hno, ha, hc⟩ := ih
    obtain ⟨hs2, w2, ha2, hc2⟩ := playgroundPlacePiece_chain hcl.wf ha hc hrun
    rcases playgroundPlacePiece_spec hcl hno x hp with ⟨pg3, hs3, h3, c3, n3⟩ | hab
    · rw [hrun] at h3
      obtain rfl := Except.ok.inj h3
      have e := c3.wf.unique w2
      subst e
      exact ⟨_, c3, n3, ha2, hc2⟩
    · unfold Aborts at hab; rw [hrun] at hab; exact absurd hab (by simp)

theorem Reachable.accessible {pg : Playground} (h : Reachable pg) : Accessible pg := by
  induction h with
  | init => exact Accessible.init
  | place x p _ hp hrun ih => exact Accessible.place x p ih hp hrun

/-- The positions covered by a list of cols: the sizes of its padding runs plus the number of its
piece-stack cols. -/
theorem wsum_eq_parts (heap : Nat → Col) (l : List Nat) :
    wsum heap l =
      (((l.filter (fun h => (heap h).type = .COL_PADDING)).map (fun h => (heap h).size)).sum : Nat) +
        ((l.filter (fun h => (heap h).type = .COL_PIECES)).length : Nat) := by
  induction l with
  | nil => simp [wsum]
  | cons a t ih =>
    rcases type_cases (heap a) with h | h
    · have hn : ¬ (heap a).type = .COL_PADDING := by rw [h]; decide
      rw [wsum, width_pieces h, ih, List.filter_cons_of_neg (by simpa using hn),
        List.filter_cons_of_pos (by simpa using h), List.length_cons]
      push_cast
      ring
    · have hn : ¬ (heap a).type = .COL_PIECES := by rw [h]; decide
      rw [wsum, width_padding h, ih, List.filter_cons_of_pos (by simpa using h),
        List.filter_cons_of_neg (by simpa using hn), List.map_cons, List.sum_cons]
      push_cast
      ring

theorem appendCol_first : playgroundGetColAt createPlayground 7 =
    .ok ((appendCol createPlayground 7).1, (appendCol createPlayground 7).2) := rfl

/-! ## The cursor -/

theorem linkAfterEnd_cursor (pg : Playground) (c : Col) :
    (linkAfterEnd pg c).2.currentX = pg.currentX ∧
    (linkAfterEnd pg c).2.currentCol = pg.currentCol := ⟨rfl, rfl⟩

theorem linkBeforeStart_cursor (pg : Playground) (c : Col) :
    (linkBeforeStart pg c).2.currentX = pg.currentX ∧
    (linkBeforeStart pg c).2.currentCol = pg.currentCol := ⟨rfl, rfl⟩

/-- Extending past the end leaves the cursor where it was. -/
theorem appendCol_cursor (pg : Playground) (x : Int) :
    (appendCol pg x).2.currentX = pg.currentX ∧
    (appendCol pg x).2.currentCol = pg.currentCol := by
  unfold appendCol
  dsimp only
  split_ifs <;> exact ⟨rfl, rfl⟩

/-- Extending past the start leaves the cursor where it was. -/
theorem prependCol_cursor (pg : Playground) (x : Int) :
    (prependCol pg x).2.currentX = pg.currentX ∧
    (prependCol pg x).2.currentCol = pg.currentCol := by
  unfold prependCol
  dsimp only
  split_ifs <;> exact ⟨rfl, rfl⟩

/-- The general path ends with the cursor on the col it returns. -/
theorem locateCol_cursor {pg pg2 : Playground} {x : Int} {c : Nat}
    (h : locateCol pg x = .ok (c, pg2)) : pg2.currentX = x ∧ pg2.currentCol = c := by
  unfold locateCol at h
  cases h1 : seekCol pg x with
  | error e => rw [h1] at h; simp at h
  | ok r =>
    obtain ⟨i, col⟩ := r
    rw [h1] at h
    dsimp only at h
    cases h2 : (if i > x then splitPadding pg x i col else .ok (col, pg)) with
    | error e => rw [h2] at h; simp at h
    | ok r1 =>
      obtain ⟨col1, pg1⟩ := r1
      rw [h2] at h
      dsimp only at h
      cases h3 : (if (pg1.heap col1).type = .COL_PADDING then replacePadding pg1 col1
          else .ok (col1, pg1)) with
      | error e => rw [h3] at h; simp at h
      | ok r2 =>
        obtain ⟨col2, pg3⟩ := r2
        rw [h3] at h
        dsimp only at h
        obtain ⟨rfl, rfl⟩ := Prod.mk.inj (Except.ok.inj h)
        exact ⟨rfl, rfl⟩

/-- Where `playgroundGetColAt` leaves the cursor: on the col it returns when it had to iterate,
and where it was on each of the five cheap paths. -/
theorem playgroundGetColAt_cursor {pg pg2 : Playground} {x : Int} {c : Nat}
    (h : playgroundGetColAt pg x = .ok (c, pg2)) :
    if x ≠ 0 ∧ pg.startColX < x ∧ x < pg.endColX then pg2.currentX = x ∧ pg2.currentCol = c
    else pg2.currentX = pg.currentX ∧ pg2.currentCol = pg.currentCol := by
  unfold playgroundGetColAt at h
  by_cases h0 : x = 0
  · rw [if_pos h0] at h
    obtain ⟨-, rfl⟩ := Prod.mk.inj (Except.ok.inj h)
    rw [if_neg (by simp [h0])]
    exact ⟨rfl, rfl⟩
  rw [if_neg h0] at h
  by_cases h1 : x = pg.endColX
  · rw [if_pos h1] at h
    obtain ⟨-, rfl⟩ := Prod.mk.inj (Except.ok.inj h)
    rw [if_neg (by omega)]
    exact ⟨rfl, rfl⟩
  rw [if_neg h1] at h
  by_cases h2 : x > pg.endColX
  · rw [if_pos h2] at h
    obtain ⟨-, rfl⟩ := Prod.mk.inj (Except.ok.inj h)
    rw [if_neg (by omega)]
    exact appendCol_cursor pg x
  rw [if_neg h2] at h
  by_cases h3 : x = pg.startColX
  · rw [if_pos h3] at h
    obtain ⟨-, rfl⟩ := Prod.mk.inj (Except.ok.inj h)
    rw [if_neg (by omega)]
    exact ⟨rfl, rfl⟩
  rw [if_neg h3] at h
  by_cases h4 : x < pg.startColX
  · rw [if_pos h4] at h
    obtain ⟨-, rfl⟩ := Prod.mk.inj (Except.ok.inj h)
    rw [if_neg (by omega)]
    exact prependCol_cursor pg x
  rw [if_neg h4] at h
  rw [if_pos ⟨h0, by omega, by omega⟩]
  exact locateCol_cursor h

/-! ## Runs of placements, one call at a time -/

theorem placeAll_accessible {l : List (Int × Nat)} {pg : Playground}
    (hcol : ∀ e ∈ l, e.2 ≤ 253) (h : placeAll createPlayground l = .ok pg) : Accessible pg :=
  (placeAll_reachable l createPlayground pg Reachable.init hcol h).accessible

/-! ## Entries that are listed or queued again -/

/-- A removal that is queued twice marks the same slot: the heap after the removals are applied
is the same. -/
theorem applyRemovals_again (heap : Nat → Col) (rs : List (Nat × Nat)) {r : Nat × Nat}
    (h : r ∈ rs) : applyRemovals heap (rs ++ [r]) = applyRemovals heap rs := by
  funext c
  rw [applyRemovals_apply, applyRemovals_apply]
  have e : (fun y => if (c, y) ∈ rs ++ [r] then PIECE_EMPTY else (heap c).pieces y) =
      (fun y => if (c, y) ∈ rs then PIECE_EMPTY else (heap c).pieces y) := by
    funext y
    by_cases hm : (c, y) ∈ rs
    · simp [hm]
    · have hne : (c, y) ≠ r := fun e => hm (e ▸ h)
      simp [hm, hne]
  dsimp only
  rw [e]

/-! ## Growing a full col, seen from the placement -/

/-- What growing the piece-stack col `col` of a well-formed chain does: the col moves to the
handle `pg.brk` with twice the capacity, its count and pieces are kept, a clean change mark
becomes the new capacity and any other mark is kept; the chain is the old one with the handle
renamed, every position finds the renamed col, the four named handles are renamed, and the
neighbours link to the new handle. -/
theorem expandCol_spec {pg : Playground} {hs : List Nat} (w : WF pg hs) {col : Nat}
    (hm : col ∈ hs) (hty : (pg.heap col).type = .COL_PIECES) :
    (expandCol pg col).1 = pg.brk ∧
    (expandCol pg col).2.heap pg.brk =
      { pg.heap col with
        size := (pg.heap col).size * 2
        changeY := if (pg.heap col).changeY = (pg.heap col).size then (pg.heap col).size * 2
          else (pg.heap col).changeY } ∧
    WF (expandCol pg col).2 (hs.map (rename col pg.brk)) ∧
    (∀ x1, colAt (expandCol pg col).2 x1 = (colAt pg x1).map (rename col pg.brk)) ∧
    ((expandCol pg col).2.startCol = rename col pg.brk pg.startCol ∧
      (expandCol pg col).2.originCol = rename col pg.brk pg.originCol ∧
      (expandCol pg col).2.endCol = rename col pg.brk pg.endCol ∧
      (expandCol pg col).2.currentCol = rename col pg.brk pg.currentCol ∧
      (expandCol pg col).2.startColX = pg.startColX ∧
      (expandCol pg col).2.endColX = pg.endColX ∧
      (expandCol pg col).2.currentX = pg.currentX) ∧
    (∀ n, (pg.heap col).next = some n → ((expandCol pg col).2.heap n).prev = some pg.brk) ∧
    (∀ q, (pg.heap col).prev = some q → ((expandCol pg col).2.heap q).next = some pg.brk) ∧
    (∀ k ∈ hs, k ≠ col →
      ((expandCol pg col).2.heap k).count = (pg.heap k).count ∧
      ((expandCol pg col).2.heap k).changeY = (pg.heap k).changeY ∧
      ((expandCol pg col).2.heap k).pieces = (pg.heap k).pieces ∧
      ((expandCol pg col).2.heap k).size = (pg.heap k).size ∧
      ((expandCol pg col).2.heap k).type = (pg.heap k).type) := by
  obtain ⟨A, B, e⟩ := List.append_of_mem hm
  subst e
  obtain ⟨hlp, hln⟩ := w.links_at
  have hn : ∀ n, (pg.heap col).next = some n → n ≠ pg.brk := by
    intro n h
    rw [hln] at h
    have : n ∈ A ++ col :: B := by
      have := headOr_mem h
      simp [this]
    have := w.bound n this
    omega
  have hq : ∀ n, (pg.heap col).prev = some n → n ≠ pg.brk := by
    intro n h
    rw [hlp] at h
    have : n ∈ A ++ col :: B := by
      have := lastOr_mem h
      simp [this]
    have := w.bound n this
    omega
  obtain ⟨w1, hmap, hfields⟩ := expandCol_wf w hty
  obtain ⟨f1, _, f3, f4, f5, _, _, _, _, _, f11, f12⟩ := expandCol_fields pg col hn
  have hnew := expandCol_heap_new pg col hn hq
  have hfirst : (expandCol pg col).2.startCol = rename col pg.brk pg.startCol := by
    have h1 := w1.first
    rw [List.head?_map, w.first] at h1
    exact (Option.some.inj h1).symm
  have hlast : (expandCol pg col).2.endCol = rename col pg.brk pg.endCol := by
    have h1 := w1.last
    rw [List.getLast?_map, w.last] at h1
    exact (Option.some.inj h1).symm
  refine ⟨f1, hnew, w1, ?_, ⟨hfirst, f11, hlast, f12, f3, f4, f5⟩, ?_, ?_, hfields⟩
  · intro x1
    rw [w1.colAt_eq, w.colAt_eq, hmap]
  · intro n hnx
    rw [expandCol_heap_old pg col n (hn n hnx) hn]
    simp [hnx]
  · intro q hpv
    rw [expandCol_heap_old pg col q (hq q hpv) hn]
    simp [hpv]

/-! ## Runs of placements and the fatal exits -/

/-- Whatever is placed, the chain stays well formed, with padding runs apart. -/
theorem Visited.chain_inv {pg : Playground} (h : Visited pg) :
    ∃ hs, WF pg hs ∧ NoPadPair pg.heap hs := by
  induction h with
  | init => exact ⟨[0], createPlayground_WF, createPlayground_noPadPair⟩
  | getCol x c _ hg ih =>
    obtain ⟨hs, w, ha⟩ := ih
    obtain ⟨c2, pg2, hs2, hg2, post, ha2⟩ := playgroundGetColAt_noPadPair w ha x
    rw [hg] at hg2
    obtain ⟨rfl, rfl⟩ := Prod.mk.inj (Except.ok.inj hg2)
    exact ⟨hs2, post.wf, ha2⟩
  | place x p _ hrun ih =>
    obtain ⟨hs, w, ha⟩ := ih
    exact playgroundPlacePiece_noPadPair w ha hrun

theorem Accessible.visited {pg : Playground} (h : Accessible pg) : Visited pg := by
  induction h with
  | init => exact Visited.init
  | getCol x c _ hg ih => exact Visited.getCol x c ih hg
  | place x p _ _ hrun ih => exact Visited.place x p ih hrun

/-! ## Only pieces on a line are queued -/

/-- C9: in every reachable playground `playgroundGetColAt` returns, for every position `x`,
without reaching its consistency abort or any other fault; the col it returns is a piece
stack, and it is the col found at position `x` when the chain is walked from `startCol` at
`startColX`, one position per piece stack and `size` positions per padding run. -/
theorem getColAt_returns_col_at (pg : Playground) (h : Reachable pg) (x : Int) :
    ∃ c pg2, playgroundGetColAt pg x = .ok (c, pg2) ∧
      (pg2.heap c).type = .COL_PIECES ∧ colAt pg2 x = some c := by
  obtain ⟨hs, w⟩ := h.wf_chain
  obtain ⟨c, pg2, hs2, hg, post⟩ := playgroundGetColAt_post w x
  exact ⟨c, pg2, hg, colAtFrom_pieces post.here, by rw [post.wf.colAt_eq]; exact post.here⟩

/-- Witness for C9: the empty playground, asked for position 7. -/
theorem getColAt_returns_col_at_witness :
    Reachable createPlayground ∧
      ∃ c pg2, playgroundGetColAt createPlayground 7 = .ok (c, pg2) ∧
        (pg2.heap c).type = .COL_PIECES ∧ colAt pg2 7 = some c :=
  ⟨Reachable.init, getColAt_returns_col_at createPlayground Reachable.init 7⟩

/-- C10: in every reachable playground `playgroundGetColAt pg x` keeps every piece stack:
the stack found at a position before the call is found there afterwards; no stack appears
at another position; a stack created at `x` is empty; when `x` had a stack already, the
heap and the chain are left as they were.  A whole placement (`playgroundPlacePiece`) never
removes a piece-stack col either, whatever happens to its count. -/
theorem getColAt_keeps_piece_stacks (pg : Playground) (h : Reachable pg) (x : Int) :
    (∃ c pg2, playgroundGetColAt pg x = .ok (c, pg2) ∧
      (∀ x1 s, stackAt pg x1 = some s → stackAt pg2 x1 = some s) ∧
      (∀ x1, x1 ≠ x → stackAt pg2 x1 = stackAt pg x1) ∧
      (stackAt pg x = none → stackAt pg2 x = some []) ∧
      ((stackAt pg x).isSome → pg2.heap = pg.heap ∧ chain pg2 = chain pg ∧
        layout pg2 = layout pg)) ∧
    (∀ p pg3, playgroundPlacePiece pg x p = .ok pg3 →
      ∀ x1, (stackAt pg x1).isSome → (stackAt pg3 x1).isSome) := by
  obtain ⟨hs, w⟩ := h.wf_chain
  obtain ⟨c, pg2, hs2, hg, post⟩ := playgroundGetColAt_post w x
  have hother : ∀ x1, x1 ≠ x → stackAt pg2 x1 = stackAt pg x1 := by
    intro x1 hx1
    simp only [stackAt, w.colAt_eq, post.wf.colAt_eq, post.frame x1 hx1]
    cases hc : colAtFrom pg.heap hs pg.startColX x1 with
    | none => rfl
    | some v =>
      have hd := post.data v (w.bound v (colAtFrom_mem hc))
      simp only [Option.map_some', Col.stack, hd.2.1, hd.2.2.2.1]
  constructor
  · refine ⟨c, pg2, hg, ?_, hother, ?_, ?_⟩
    · intro x1 s hs1
      by_cases hx1 : x1 = x
      · subst hx1
        simp only [stackAt, w.colAt_eq] at hs1
        cases hc : colAtFrom pg.heap hs pg.startColX x1 with
        | none => rw [hc] at hs1; simp at hs1
        | some v =>
          obtain ⟨e1, e2, e3, -⟩ := post.old v hc
          rw [hc] at hs1
          have hh := post.here
          simp only [stackAt, post.wf.colAt_eq, hh, Option.map_some']
          rw [e1, e3]
          simpa using hs1
      · rw [hother x1 hx1]; exact hs1
    · intro hnone
      simp only [stackAt, w.colAt_eq, Option.map_eq_none'] at hnone
      obtain ⟨-, h0, -, -⟩ := post.fresh hnone
      simp [stackAt, post.wf.colAt_eq, post.here, Col.stack, h0]
    · intro hsome
      simp only [stackAt, w.colAt_eq, Option.isSome_map'] at hsome
      cases hc : colAtFrom pg.heap hs pg.startColX x with
      | none => rw [hc] at hsome; simp at hsome
      | some v =>
        obtain ⟨-, e2, e3, -⟩ := post.old v hc
        have e4 : chain pg2 = chain pg := by rw [post.wf.chain_eq, w.chain_eq, e2]
        exact ⟨e3, e4, by simp only [layout, e3, e4]⟩
  · intro p pg3 hp x1 hx1
    obtain ⟨hs3, w3, hk⟩ := playgroundPlacePiece_wf w hp
    simp only [stackAt, w.colAt_eq, w3.colAt_eq, Option.isSome_map'] at hx1 ⊢
    exact hk x1 hx1

/-- Witness for C10: the empty playground, asked for position 7. -/
theorem getColAt_keeps_piece_stacks_witness :
    Reachable createPlayground ∧
    ((∃ c pg2, playgroundGetColAt createPlayground 7 = .ok (c, pg2) ∧
      (∀ x1 s, stackAt createPlayground x1 = some s → stackAt pg2 x1 = some s) ∧
      (∀ x1, x1 ≠ 7 → stackAt pg2 x1 = stackAt createPlayground x1) ∧
      (stackAt createPlayground 7 = none → stackAt pg2 7 = some []) ∧
      ((stackAt createPlayground 7).isSome → pg2.heap = createPlayground.heap ∧
        chain pg2 = chain createPlayground ∧ layout pg2 = layout createPlayground)) ∧
    (∀ p pg3, playgroundPlacePiece createPlayground 7 p = .ok pg3 →
      ∀ x1, (stackAt createPlayground x1).isSome → (stackAt pg3 x1).isSome)) :=
  ⟨Reachable.init, getColAt_keeps_piece_stacks createPlayground Reachable.init 7⟩
/-- C4: for every colour A in [0,253] and every integer x0, on a fresh playground the placements
of A at x0, x0+1 and x0+2 all succeed and leave exactly one piece A (at height 0) in each of the
three columns; with the fourth placement of A at x0+3 the run succeeds as well and the columns
at x0, x0+1, x0+2 and x0+3 all hold no piece afterwards. -/
theorem row_of_four_clears (A : Nat) (hA : A ≤ 253) (x0 : Int) :
    (∃ pg3, placeAll createPlayground [(x0, A), (x0 + 1, A), (x0 + 2, A)] = .ok pg3 ∧
      stackAt pg3 (x0) = some [A] ∧ stackAt pg3 (x0 + 1) = some [A] ∧
      stackAt pg3 (x0 + 2) = some [A]) ∧
    (∃ pg4, placeAll createPlayground [(x0, A), (x0 + 1, A), (x0 + 2, A), (x0 + 3, A)] = .ok pg4 ∧
      stackAt pg4 (x0) = some [] ∧ stackAt pg4 (x0 + 1) = some [] ∧
      stackAt pg4 (x0 + 2) = some [] ∧ stackAt pg4 (x0 + 3) = some []) := by
  by_cases hp : 2 ≤ x0
  · obtain ⟨n, rfl⟩ : ∃ n : Nat, x0 = (n : Int) := ⟨x0.toNat, by omega⟩
    exact row_far_right A hA n (by omega)
  by_cases hq : x0 ≤ -5
  · obtain ⟨n, rfl⟩ : ∃ n : Nat, x0 = -(n : Int) := ⟨(-x0).toNat, by omega⟩
    exact row_far_left A hA n (by omega)
  have hc : x0 = 1 ∨ x0 = 0 ∨ x0 = -1 ∨ x0 = -2 ∨ x0 = -3 ∨ x0 = -4 := by omega
  rcases hc with rfl | rfl | rfl | rfl | rfl | rfl
  · exact row_at_one A hA
  · exact row_at_zero A hA
  · exact row_at_minus_one A hA
  · exact row_at_minus_two A hA
  · exact row_at_minus_three A hA
  · exact row_at_minus_four A hA

theorem row_of_four_clears_witness :
    (1 : Nat) ≤ 253 ∧
    ((∃ pg3, placeAll createPlayground [((0 : Int), 1), ((0 : Int) + 1, 1), ((0 : Int) + 2, 1)] = .ok pg3 ∧
      stackAt pg3 ((0 : Int)) = some [1] ∧ stackAt pg3 ((0 : Int) + 1) = some [1] ∧
      stackAt pg3 ((0 : Int) + 2) = some [1]) ∧
    (∃ pg4, placeAll createPlayground [((0 : Int), 1), ((0 : Int) + 1, 1), ((0 : Int) + 2, 1), ((0 : Int) + 3, 1)] = .ok pg4 ∧
      stackAt pg4 ((0 : Int)) = some [] ∧ stackAt pg4 ((0 : Int) + 1) = some [] ∧
      stackAt pg4 ((0 : Int) + 2) = some [] ∧ stackAt pg4 ((0 : Int) + 3) = some [])) :=
  ⟨by decide, row_of_four_clears 1 (by decide) 0⟩

/-- C5: for every colour A in [0,253] and every integer x, on a fresh playground three successive
placements of A at x succeed and leave the column at x with exactly the three pieces A, A, A, and
four successive placements succeed and leave the column at x without any piece (count 0). -/
theorem four_drops_clear_column (A : Nat) (hA : A ≤ 253) (x : Int) :
    (∃ pg3, placeAll createPlayground [(x, A), (x, A), (x, A)] = .ok pg3 ∧
      stackAt pg3 x = some [A, A, A]) ∧
    (∃ pg4, placeAll createPlayground [(x, A), (x, A), (x, A), (x, A)] = .ok pg4 ∧
      stackAt pg4 x = some []) :=
  ⟨(drops_anywhere A hA x).1, (drops_anywhere A hA x).2.1⟩

theorem four_drops_clear_column_witness :
    (2 : Nat) ≤ 253 ∧
    ((∃ pg3, placeAll createPlayground [(0, 2), (0, 2), (0, 2)] = .ok pg3 ∧
      stackAt pg3 0 = some [2, 2, 2]) ∧
    (∃ pg4, placeAll createPlayground [(0, 2), (0, 2), (0, 2), (0, 2)] = .ok pg4 ∧
      stackAt pg4 0 = some [])) :=
  ⟨by decide, four_drops_clear_column 2 (by decide) 0⟩

/-- C6, counterexample: five successive placements of colour 0 at position 0 of a fresh playground
succeed, and the column at 0 then holds one piece (the fifth), so its count is 1 and not 0. -/
theorem five_drops_leave_one :
    ∃ pg5, placeAll createPlayground [(0, 0), (0, 0), (0, 0), (0, 0), (0, 0)] = .ok pg5 ∧
      stackAt pg5 0 = some [0] ∧ (stackAt pg5 0).map List.length = some 1 ∧
      stackAt pg5 0 ≠ some [] := by
  obtain ⟨pg5, h, hs⟩ := (drops_anywhere 0 (by decide) 0).2.2
  exact ⟨pg5, h, hs, by rw [hs]; rfl, by rw [hs]; simp⟩

/-- C6, amended: for every colour A in [0,253] and every integer x, five successive placements of
A at x on a fresh playground succeed; the cycle of the fourth placement leaves the column at x
without any piece, and after the fifth placement the column holds exactly one piece, of colour A. -/
theorem five_drops_keep_the_fifth (A : Nat) (hA : A ≤ 253) (x : Int) :
    (∃ pg4, placeAll createPlayground [(x, A), (x, A), (x, A), (x, A)] = .ok pg4 ∧
      stackAt pg4 x = some []) ∧
    (∃ pg5, placeAll createPlayground
        [(x, A), (x, A), (x, A), (x, A), (x, A)] = .ok pg5 ∧
      stackAt pg5 x = some [A]) :=
  ⟨(drops_anywhere A hA x).2.1, (drops_anywhere A hA x).2.2⟩

theorem five_drops_keep_the_fifth_witness :
    (1 : Nat) ≤ 253 ∧
    ((∃ pg4, placeAll createPlayground [(3, 1), (3, 1), (3, 1), (3, 1)] = .ok pg4 ∧
      stackAt pg4 3 = some []) ∧
    (∃ pg5, placeAll createPlayground
        [(3, 1), (3, 1), (3, 1), (3, 1), (3, 1)] = .ok pg5 ∧
      stackAt pg5 3 = some [1])) :=
  ⟨by decide, five_drops_keep_the_fifth 1 (by decide) 3⟩
/-- C8: on a fresh playground, for all integers a, b, c with 1 ≤ a, a + 1 < b and
a + 1 < c < b - 1 (and any three colours in [0,253]): after placements at a and then b the
chain ends with the piece-stack col of a, one padding run of size b - a - 1 and the piece-stack
col of b; after a further placement at c the same stretch of the chain is the col of a, a padding
run of size c - a - 1, a piece-stack col that is the col of c, a padding run of size b - c - 1 and
the col of b, so the positions between a and b still total b - a - 1. -/
theorem padding_run_is_split (A B C : Nat) (hA : A ≤ 253) (hB : B ≤ 253) (hC : C ≤ 253)
    (a b c : Int) (ha : 1 ≤ a) (hab : a + 1 < b) (hac : a + 1 < c) (hcb : c < b - 1) :
    ∃ pre ca cb,
      (∃ pg2 g, placeAll createPlayground [(a, A), (b, B)] = .ok pg2 ∧
        chain pg2 = pre ++ [ca, g, cb] ∧ colAt pg2 a = some ca ∧ colAt pg2 b = some cb ∧
        (pg2.heap g).type = .COL_PADDING ∧ ((pg2.heap g).size : Int) = b - a - 1) ∧
      (∃ pg3 g1 cc g2, placeAll createPlayground [(a, A), (b, B), (c, C)] = .ok pg3 ∧
        chain pg3 = pre ++ [ca, g1, cc, g2, cb] ∧
        colAt pg3 a = some ca ∧ colAt pg3 c = some cc ∧ colAt pg3 b = some cb ∧
        (pg3.heap g1).type = .COL_PADDING ∧ ((pg3.heap g1).size : Int) = c - a - 1 ∧
        (pg3.heap cc).type = .COL_PIECES ∧
        (pg3.heap g2).type = .COL_PADDING ∧ ((pg3.heap g2).size : Int) = b - c - 1 ∧
        ((pg3.heap g1).size : Int) + 1 + ((pg3.heap g2).size : Int) = b - a - 1) := by
  obtain ⟨na, rfl⟩ : ∃ n : Nat, a = (n : Int) := ⟨a.toNat, by omega⟩
  obtain ⟨nb, rfl⟩ : ∃ n : Nat, b = (n : Int) := ⟨b.toNat, by omega⟩
  obtain ⟨nc, rfl⟩ : ∃ n : Nat, c = (n : Int) := ⟨c.toNat, by omega⟩
  by_cases h2 : 2 ≤ na
  · obtain ⟨⟨pg2, e2, k2, a2, b2, t2, s2⟩, ⟨pg3, e3, k3, a3, c3, b3, t3, s3, tc, t4, s4⟩⟩ :=
      gap_after_far A B C hA hB hC na nb nc h2 (by omega) (by omega) (by omega)
    refine ⟨[0, 1], 2, 4, ⟨pg2, 3, e2, by rw [k2]; rfl, a2, b2, t2, by rw [s2]; omega⟩,
      ⟨pg3, 3, 5, 6, e3, by rw [k3]; rfl, a3, c3, b3, t3, by rw [s3]; omega, tc, t4,
        by rw [s4]; omega, by rw [s3, s4]; omega⟩⟩
  · obtain rfl : na = 1 := by omega
    obtain ⟨⟨pg2, e2, k2, a2, b2, t2, s2⟩, ⟨pg3, e3, k3, a3, c3, b3, t3, s3, tc, t4, s4⟩⟩ :=
      gap_after_one A B C hA hB hC nb nc (by omega) (by omega)
    refine ⟨[0], 1, 3, ⟨pg2, 2, e2, by rw [k2]; rfl, a2, b2, t2, by rw [s2]; omega⟩,
      ⟨pg3, 2, 4, 5, e3, by rw [k3]; rfl, a3, c3, b3, t3, by rw [s3]; omega, tc, t4,
        by rw [s4]; omega, by rw [s3, s4]; omega⟩⟩

theorem padding_run_is_split_witness :
    (1 : Nat) ≤ 253 ∧ (2 : Nat) ≤ 253 ∧ (3 : Nat) ≤ 253 ∧
    (1 : Int) ≤ 1 ∧ (1 : Int) + 1 < 1000000 ∧ (1 : Int) + 1 < 500000 ∧
    (500000 : Int) < 1000000 - 1 ∧
    ∃ pre ca cb,
      (∃ pg2 g, placeAll createPlayground [(1, 1), (1000000, 2)] = .ok pg2 ∧
        chain pg2 = pre ++ [ca, g, cb] ∧ colAt pg2 1 = some ca ∧ colAt pg2 1000000 = some cb ∧
        (pg2.heap g).type = .COL_PADDING ∧ ((pg2.heap g).size : Int) = 1000000 - 1 - 1) ∧
      (∃ pg3 g1 cc g2,
        placeAll createPlayground [(1, 1), (1000000, 2), (500000, 3)] = .ok pg3 ∧
        chain pg3 = pre ++ [ca, g1, cc, g2, cb] ∧
        colAt pg3 1 = some ca ∧ colAt pg3 500000 = some cc ∧ colAt pg3 1000000 = some cb ∧
        (pg3.heap g1).type = .COL_PADDING ∧ ((pg3.heap g1).size : Int) = 500000 - 1 - 1 ∧
        (pg3.heap cc).type = .COL_PIECES ∧
        (pg3.heap g2).type = .COL_PADDING ∧
        ((pg3.heap g2).size : Int) = 1000000 - 500000 - 1 ∧
        ((pg3.heap g1).size : Int) + 1 + ((pg3.heap g2).size : Int) = 1000000 - 1 - 1) :=
  ⟨by decide, by decide, by decide, by decide, by decide, by decide, by decide,
    padding_run_is_split 1 2 3 (by decide) (by decide) (by decide) 1 1000000 500000
      (by decide) (by decide) (by decide) (by decide)⟩

/-- C7: playgroundCauseGravity, on a playground whose changed cols have their change mark m
not above their count and whose queued removals all lie in changed cols: every col of the
changed-columns list ends with the piece sequence P[0..m) followed by the non-Empty pieces of
P[m..count) in their order, where P is the pieces of the col with the Empty marker written at
every queued height, and with count m plus the number of those non-Empty pieces; the pieces below
m are those of P, the capacity is unchanged, cols outside the list are unchanged, the list itself
is kept, and the removal queue is empty afterwards. -/
theorem gravity_compacts (pg : Playground)
    (hm : ∀ c, c ∈ pg.changedCols → (pg.heap c).changeY ≤ (pg.heap c).count)
    (hr : ∀ r, r ∈ pg.pieceRemovals → r.1 ∈ pg.changedCols) :
    (playgroundCauseGravity pg).pieceRemovals = [] ∧
    (playgroundCauseGravity pg).changedCols = pg.changedCols ∧
    (∀ c, c ∉ pg.changedCols → (playgroundCauseGravity pg).heap c = pg.heap c) ∧
    (∀ c, c ∈ pg.changedCols →
      ((playgroundCauseGravity pg).heap c).stack =
        (List.range (pg.heap c).changeY).map (markedPieces pg c) ++
          nonEmptyFrom (markedPieces pg c) (pg.heap c).changeY
            ((pg.heap c).count - (pg.heap c).changeY) ∧
      ((playgroundCauseGravity pg).heap c).count = (pg.heap c).changeY +
        (nonEmptyFrom (markedPieces pg c) (pg.heap c).changeY
          ((pg.heap c).count - (pg.heap c).changeY)).length ∧
      (∀ y, y < (pg.heap c).changeY →
        ((playgroundCauseGravity pg).heap c).pieces y = markedPieces pg c y) ∧
      ((playgroundCauseGravity pg).heap c).size = (pg.heap c).size) := by
  refine ⟨rfl, rfl, ?_, ?_⟩
  · intro c hc
    rw [playgroundCauseGravity_heap, if_neg hc]
    have hp : markedPieces pg c = (pg.heap c).pieces := by
      funext y
      have hn : (c, y) ∉ pg.pieceRemovals := fun h => hc (hr (c, y) h)
      simp [markedPieces, hn]
    rw [hp]
  · intro c hc
    rw [playgroundCauseGravity_heap, if_pos hc]
    obtain ⟨h1, h2, h3, h4, _⟩ :=
      compactCol_spec { pg.heap c with pieces := markedPieces pg c } (hm c hc)
    exact ⟨h2, h1, h3, h4⟩

theorem gravity_compacts_witness :
    (∀ c, c ∈ gravityExample.changedCols →
      (gravityExample.heap c).changeY ≤ (gravityExample.heap c).count) ∧
    (∀ r, r ∈ gravityExample.pieceRemovals → r.1 ∈ gravityExample.changedCols) ∧
    ((playgroundCauseGravity gravityExample).pieceRemovals = [] ∧
    (playgroundCauseGravity gravityExample).changedCols = gravityExample.changedCols ∧
    (∀ c, c ∉ gravityExample.changedCols →
      (playgroundCauseGravity gravityExample).heap c = gravityExample.heap c) ∧
    (∀ c, c ∈ gravityExample.changedCols →
      ((playgroundCauseGravity gravityExample).heap c).stack =
        (List.range (gravityExample.heap c).changeY).map (markedPieces gravityExample c) ++
          nonEmptyFrom (markedPieces gravityExample c) (gravityExample.heap c).changeY
            ((gravityExample.heap c).count - (gravityExample.heap c).changeY) ∧
      ((playgroundCauseGravity gravityExample).heap c).count =
        (gravityExample.heap c).changeY +
        (nonEmptyFrom (markedPieces gravityExample c) (gravityExample.heap c).changeY
          ((gravityExample.heap c).count - (gravityExample.heap c).changeY)).length ∧
      (∀ y, y < (gravityExample.heap c).changeY →
        ((playgroundCauseGravity gravityExample).heap c).pieces y =
          markedPieces gravityExample c y) ∧
      ((playgroundCauseGravity gravityExample).heap c).size = (gravityExample.heap c).size)) ∧
    (List.range 3).map (markedPieces gravityExample 0) = [1, 255, 2] ∧
    ((playgroundCauseGravity gravityExample).heap 0).stack = [1, 2] ∧
    ((playgroundCauseGravity gravityExample).heap 0).count = 2 :=
  ⟨by intro c hc; simp [gravityExample] at hc; subst hc; decide,
    by intro r hr; simp [gravityExample] at hr; subst hr; simp [gravityExample],
    gravity_compacts gravityExample
      (by intro c hc; simp [gravityExample] at hc; subst hc; decide)
      (by intro r hr; simp [gravityExample] at hr; subst hr; simp [gravityExample]),
    by decide, by decide, by decide⟩

/-- C2: for every reachable playground, position x and colour p in [0,253]: when the piece put
on top of the stack at x lies on no four pieces of one colour along any of the four axes (on the
board with the piece added), playgroundPlacePiece succeeds, the stack at x is the old stack
(empty where no column was) with p appended, and the stack at every other position is what it
was before. -/
theorem placement_without_line (pg : Playground) (h : Reachable pg) (x : Int) (p : Nat)
    (hp : p ≤ 253)
    (hno : ¬ OnLineIn (pieceWith pg x p) x (heightAt pg x : Int) 1 0 ∧
      ¬ OnLineIn (pieceWith pg x p) x (heightAt pg x : Int) 0 1 ∧
      ¬ OnLineIn (pieceWith pg x p) x (heightAt pg x : Int) 1 1 ∧
      ¬ OnLineIn (pieceWith pg x p) x (heightAt pg x : Int) 1 (-1)) :
    ∃ pg2, playgroundPlacePiece pg x p = .ok pg2 ∧
      stackAt pg2 x = some ((stackAt pg x).getD [] ++ [p]) ∧
      ∀ x1, x1 ≠ x → stackAt pg2 x1 = stackAt pg x1 := by
  obtain ⟨hs, hcl, _⟩ := h.clean
  obtain ⟨hs1, q1, c, _, _, _, _, hplace, hc1, hq1, hcc1, hcol1, hch1, hcnt1, _, _, hst1⟩ :=
    hcl.prepare x hp
  have hpw : pieceAt q1 = pieceWith pg x p := by
    funext x1 y
    exact pieceAt_with hst1 x1 y
  have hfin : finishCycle q1 = .ok (clearChanges q1) := by
    apply finishCycle_quiet hc1 hcc1 hq1 hcol1 (by rw [hcnt1, hch1])
    intro dx dy hdir
    rw [hch1]
    unfold OnLine
    rw [hpw]
    rcases hdir with ⟨rfl, rfl | rfl | rfl⟩ | ⟨rfl, rfl⟩
    · exact hno.1
    · exact hno.2.2.1
    · exact hno.2.2.2
    · exact hno.2.1
  have hb := clearChanges_board q1
  refine ⟨clearChanges q1, by rw [hplace, hfin], ?_, ?_⟩
  · rw [hb.stackAt_same hc1.wf, hst1, if_pos rfl]
  · intro x1 hx1
    rw [hb.stackAt_same hc1.wf, hst1, if_neg hx1]

theorem placement_without_line_witness :
    Reachable createPlayground ∧ (1 : Nat) ≤ 253 ∧
    (¬ OnLineIn (pieceWith createPlayground 0 1) 0 (heightAt createPlayground 0 : Int) 1 0 ∧
      ¬ OnLineIn (pieceWith createPlayground 0 1) 0 (heightAt createPlayground 0 : Int) 0 1 ∧
      ¬ OnLineIn (pieceWith createPlayground 0 1) 0 (heightAt createPlayground 0 : Int) 1 1 ∧
      ¬ OnLineIn (pieceWith createPlayground 0 1) 0 (heightAt createPlayground 0 : Int) 1 (-1)) ∧
    ∃ pg2, playgroundPlacePiece createPlayground 0 1 = .ok pg2 ∧
      stackAt pg2 0 = some ((stackAt createPlayground 0).getD [] ++ [1]) ∧
      ∀ x1, x1 ≠ 0 → stackAt pg2 x1 = stackAt createPlayground x1 :=
  ⟨Reachable.init, by decide,
    ⟨fresh_piece_alone 0 1 1 0 (Or.inl (by decide)),
      fresh_piece_alone 0 1 0 1 (Or.inr (by decide)),
      fresh_piece_alone 0 1 1 1 (Or.inl (by decide)),
      fresh_piece_alone 0 1 1 (-1) (Or.inl (by decide))⟩,
    placement_without_line createPlayground Reachable.init 0 1 (by decide)
      ⟨fresh_piece_alone 0 1 1 0 (Or.inl (by decide)),
        fresh_piece_alone 0 1 0 1 (Or.inr (by decide)),
        fresh_piece_alone 0 1 1 1 (Or.inl (by decide)),
        fresh_piece_alone 0 1 1 (-1) (Or.inl (by decide))⟩⟩

/-- C12: in every playground reached from the empty playground by playgroundGetColAt calls and
completed playgroundPlacePiece calls, whatever the colours, no two neighbouring cols of the
chain are both padding runs, whether the neighbours are read off the list of cols walked from
startCol or off a next link, and every padding run of the chain has size at least 1. -/
theorem padding_runs_lie_apart (pg : Playground) (h : Visited pg) :
    (∀ l1 a b l2, chain pg = l1 ++ a :: b :: l2 →
      ¬ ((pg.heap a).type = .COL_PADDING ∧ (pg.heap b).type = .COL_PADDING)) ∧
    (∀ a ∈ chain pg, ∀ b, (pg.heap a).next = some b →
      ¬ ((pg.heap a).type = .COL_PADDING ∧ (pg.heap b).type = .COL_PADDING)) ∧
    (∀ a ∈ chain pg, (pg.heap a).type = .COL_PADDING → 1 ≤ (pg.heap a).size) := by
  obtain ⟨hs, w, ha⟩ := h.chain_inv
  rw [w.chain_eq]
  have h1 : ∀ l1 a b l2, hs = l1 ++ a :: b :: l2 →
      ¬ ((pg.heap a).type = .COL_PADDING ∧ (pg.heap b).type = .COL_PADDING) := by
    intro l1 a b l2 e hp
    unfold NoPadPair at ha
    rw [e, List.chain'_split, List.chain'_cons] at ha
    rcases ha.2.1 with h | h
    · exact padding_ne_pieces hp.1 h
    · exact padding_ne_pieces hp.2 h
  refine ⟨h1, ?_, w.padPos⟩
  intro a hm b hn
  obtain ⟨l1, l2, e⟩ := List.append_of_mem hm
  subst e
  have hl := w.links_at.2
  rw [hn] at hl
  cases l2 with
  | nil => simp [headOr] at hl
  | cons b2 t =>
    simp only [headOr, Option.some.injEq] at hl
    subst hl
    exact h1 l1 a b t rfl

/-- Witness for C12: the empty playground after a lookup of position 7, which creates a
padding run of size 6 and a col behind it. -/
theorem padding_runs_lie_apart_witness :
    Visited (appendCol createPlayground 7).2 ∧
    ((∀ l1 a b l2, chain (appendCol createPlayground 7).2 = l1 ++ a :: b :: l2 →
      ¬ (((appendCol createPlayground 7).2.heap a).type = .COL_PADDING ∧
        ((appendCol createPlayground 7).2.heap b).type = .COL_PADDING)) ∧
    (∀ a ∈ chain (appendCol createPlayground 7).2, ∀ b,
      ((appendCol createPlayground 7).2.heap a).next = some b →
      ¬ (((appendCol createPlayground 7).2.heap a).type = .COL_PADDING ∧
        ((appendCol createPlayground 7).2.heap b).type = .COL_PADDING)) ∧
    (∀ a ∈ chain (appendCol createPlayground 7).2,
      ((appendCol createPlayground 7).2.heap a).type = .COL_PADDING →
      1 ≤ ((appendCol createPlayground 7).2.heap a).size)) :=
  ⟨Visited.getCol 7 _ Visited.init appendCol_first,
    padding_runs_lie_apart _ (Visited.getCol 7 _ Visited.init appendCol_first)⟩

/-- C13: in every playground reached from the empty playground by playgroundGetColAt calls and
completed playgroundPlacePiece calls, whatever the colours, originCol, startCol and endCol are
piece-stack cols (type COL_PIECES), startCol is the first col of the chain and has no
predecessor, and endCol is the last col of the chain and has no successor. -/
theorem named_cols_are_piece_stacks (pg : Playground) (h : Visited pg) :
    (pg.heap pg.originCol).type = .COL_PIECES ∧
    (pg.heap pg.startCol).type = .COL_PIECES ∧
    (pg.heap pg.endCol).type = .COL_PIECES ∧
    (pg.heap pg.startCol).prev = none ∧ (pg.heap pg.endCol).next = none ∧
    (chain pg).head? = some pg.startCol ∧ (chain pg).getLast? = some pg.endCol ∧
    pg.originCol ∈ chain pg := by
  obtain ⟨hs, w, _⟩ := h.chain_inv
  rw [w.chain_eq]
  exact ⟨colAtFrom_pieces w.originAt, w.startPieces, w.endPieces, w.next_startCol.2.1,
    w.prev_endCol.2, w.first, w.last, colAtFrom_mem w.originAt⟩

/-- Witness for C13: the empty playground after a lookup of position 7. -/
theorem named_cols_are_piece_stacks_witness :
    Visited (appendCol createPlayground 7).2 ∧
    (((appendCol createPlayground 7).2.heap (appendCol createPlayground 7).2.originCol).type =
      .COL_PIECES ∧
    ((appendCol createPlayground 7).2.heap (appendCol createPlayground 7).2.startCol).type =
      .COL_PIECES ∧
    ((appendCol createPlayground 7).2.heap (appendCol createPlayground 7).2.endCol).type =
      .COL_PIECES ∧
    ((appendCol createPlayground 7).2.heap (appendCol createPlayground 7).2.startCol).prev = none ∧
    ((appendCol createPlayground 7).2.heap (appendCol createPlayground 7).2.endCol).next = none ∧
    (chain (appendCol createPlayground 7).2).head? = some (appendCol createPlayground 7).2.startCol ∧
    (chain (appendCol createPlayground 7).2).getLast? =
      some (appendCol createPlayground 7).2.endCol ∧
    (appendCol createPlayground 7).2.originCol ∈ chain (appendCol createPlayground 7).2) :=
  ⟨Visited.getCol 7 _ Visited.init appendCol_first,
    named_cols_are_piece_stacks _ (Visited.getCol 7 _ Visited.init appendCol_first)⟩

/-- C14: in every playground reached from the empty playground by playgroundGetColAt calls and
completed playgroundPlacePiece calls, whatever the colours, the cached positions agree with the
chain.  Walking from startCol at startColX, one position per piece-stack col and size positions
per padding run, startCol is found at startColX, originCol at 0, currentCol at currentX and
endCol at endColX; the sizes of the padding runs plus the number of piece-stack cols are
endColX - startColX + 1; and startColX <= 0 <= endColX. -/
theorem cached_positions_agree (pg : Playground) (h : Visited pg) :
    colAt pg pg.startColX = some pg.startCol ∧ colAt pg 0 = some pg.originCol ∧
    colAt pg pg.currentX = some pg.currentCol ∧ colAt pg pg.endColX = some pg.endCol ∧
    (((((chain pg).filter (fun c => (pg.heap c).type = .COL_PADDING)).map
        (fun c => (pg.heap c).size)).sum : Nat) : Int) +
      (((chain pg).filter (fun c => (pg.heap c).type = .COL_PIECES)).length : Nat) =
      pg.endColX - pg.startColX + 1 ∧
    pg.startColX ≤ 0 ∧ 0 ≤ pg.endColX ∧
    pg.startColX ≤ pg.currentX ∧ pg.currentX ≤ pg.endColX := by
  obtain ⟨hs, w, _⟩ := h.chain_inv
  have ht := w.total
  rw [wsum_eq_parts] at ht
  have h0 := w.pos_range w.originAt
  have hc := w.pos_range w.currentAt
  rw [w.chain_eq]
  simp only [w.colAt_eq]
  exact ⟨w.startAt, w.originAt, w.currentAt, w.endAt, by omega, h0.1, h0.2, hc.1, hc.2⟩

/-- Witness for C14: the empty playground after a lookup of position 7. -/
theorem cached_positions_agree_witness :
    Visited (appendCol createPlayground 7).2 ∧
    (colAt (appendCol createPlayground 7).2 (appendCol createPlayground 7).2.startColX =
      some (appendCol createPlayground 7).2.startCol ∧
    colAt (appendCol createPlayground 7).2 0 = some (appendCol createPlayground 7).2.originCol ∧
    colAt (appendCol createPlayground 7).2 (appendCol createPlayground 7).2.currentX =
      some (appendCol createPlayground 7).2.currentCol ∧
    colAt (appendCol createPlayground 7).2 (appendCol createPlayground 7).2.endColX =
      some (appendCol createPlayground 7).2.endCol ∧
    (((((chain (appendCol createPlayground 7).2).filter
        (fun c => ((appendCol createPlayground 7).2.heap c).type = .COL_PADDING)).map
        (fun c => ((appendCol createPlayground 7).2.heap c).size)).sum : Nat) : Int) +
      (((chain (appendCol createPlayground 7).2).filter
        (fun c => ((appendCol createPlayground 7).2.heap c).type = .COL_PIECES)).length : Nat) =
      (appendCol createPlayground 7).2.endColX - (appendCol createPlayground 7).2.startColX + 1 ∧
    (appendCol createPlayground 7).2.startColX ≤ 0 ∧ 0 ≤ (appendCol createPlayground 7).2.endColX ∧
    (appendCol createPlayground 7).2.startColX ≤ (appendCol createPlayground 7).2.currentX ∧
    (appendCol createPlayground 7).2.currentX ≤ (appendCol createPlayground 7).2.endColX) :=
  ⟨Visited.getCol 7 _ Visited.init appendCol_first,
    cached_positions_agree _ (Visited.getCol 7 _ Visited.init appendCol_first)⟩

/-- C20, counterexample: on the empty playground playgroundGetColAt(7) extends the chain past the
end and returns the new col 2, and the cursor is still (0, col 0) afterwards. -/
theorem lookup_past_end_keeps_cursor :
    Reachable createPlayground ∧
    playgroundGetColAt createPlayground 7 =
      .ok ((appendCol createPlayground 7).1, (appendCol createPlayground 7).2) ∧
    (appendCol createPlayground 7).1 = 2 ∧
    (appendCol createPlayground 7).2.currentX = 0 ∧
    (appendCol createPlayground 7).2.currentCol = 0 ∧
    (appendCol createPlayground 7).2.currentX ≠ 7 ∧
    (appendCol createPlayground 7).2.currentCol ≠ (appendCol createPlayground 7).1 :=
  ⟨Reachable.init, rfl, rfl, rfl, rfl, by decide, by decide⟩

/-- C20, amended: for every playground reached by playgroundGetColAt calls and placement cycles
and every integer x, playgroundGetColAt(x) returns a col c.  When x is not 0 and lies strictly
between startColX and endColX (the path that iterates from the cursor), the cursor is (x, c)
afterwards.  On the five cheap paths (x = 0, x = endColX, x past the end, x = startColX, x past
the start) the cursor is left as it was.  On every path the cursor still names the col that is
found at currentX. -/
theorem cursor_after_lookup (pg : Playground) (h : Accessible pg) (x : Int) :
    ∃ c pg2, playgroundGetColAt pg x = .ok (c, pg2) ∧
      (if x ≠ 0 ∧ pg.startColX < x ∧ x < pg.endColX then pg2.currentX = x ∧ pg2.currentCol = c
       else pg2.currentX = pg.currentX ∧ pg2.currentCol = pg.currentCol) ∧
      colAt pg2 pg2.currentX = some pg2.currentCol := by
  obtain ⟨hs, hcl, _, _, _⟩ := h.inv
  obtain ⟨c, pg2, hs2, hg, post⟩ := playgroundGetColAt_post hcl.wf x
  exact ⟨c, pg2, hg, playgroundGetColAt_cursor hg, by rw [post.wf.colAt_eq]; exact post.wf.currentAt⟩

/-- Witness for C20: the empty playground after a lookup of position 7, asked for position 3. -/
theorem cursor_after_lookup_witness :
    Accessible (appendCol createPlayground 7).2 ∧
    ∃ c pg2, playgroundGetColAt (appendCol createPlayground 7).2 3 = .ok (c, pg2) ∧
      (if (3 : Int) ≠ 0 ∧ (appendCol createPlayground 7).2.startColX < 3 ∧
          3 < (appendCol createPlayground 7).2.endColX then
        pg2.currentX = 3 ∧ pg2.currentCol = c
       else pg2.currentX = (appendCol createPlayground 7).2.currentX ∧
        pg2.currentCol = (appendCol createPlayground 7).2.currentCol) ∧
      colAt pg2 pg2.currentX = some pg2.currentCol :=
  ⟨Accessible.getCol 7 _ Accessible.init appendCol_first,
    cursor_after_lookup _ (Accessible.getCol 7 _ Accessible.init appendCol_first) 3⟩

/-- C19, counterexample: at the first test of the stabilization loop in the cycle of the fourth
drop of colour 1 at position 0, the removal queue holds 8 entries for 4 pieces, (col 0, 0) among
them twice; a further playgroundRemovePiece(col 0, 0) call on that state returns a state whose
queue holds 9 entries. -/
theorem fourth_drop_queues_twice :
    ∃ pg3 q2 q2b,
      placeAll createPlayground [((0 : Int), 1), ((0 : Int), 1), ((0 : Int), 1)] = .ok pg3 ∧
      LoopState pg3 0 1 q2 ∧
      q2.pieceRemovals = [(0, 0), (0, 1), (0, 2), (0, 3), (0, 0), (0, 1), (0, 2), (0, 3)] ∧
      (0, 0) ∈ q2.pieceRemovals ∧
      playgroundRemovePiece q2 0 0 = .ok q2b ∧
      q2b.pieceRemovals.length = 9 ∧ q2.pieceRemovals.length = 8 ∧
      q2b.pieceRemovals ≠ q2.pieceRemovals := by
  obtain ⟨pg3, h3, hg, q1, ha, _, _, _, _, q2, hd, _, hr2, _, _, ⟨q2b, hrm, hrb, _⟩, _⟩ :=
    fourth_drop_states
  refine ⟨pg3, q2, q2b, h3, LoopState.first hg ha hd, hr2, by rw [hr2]; simp, hrm,
    by rw [hrb]; rfl, by rw [hr2]; rfl, by rw [hrb, hr2]; simp⟩

/-- C19, amended: calling playgroundRemovePiece(col, y) when (col, y) is in the removal queue
already and the queue is not full appends a second entry, so the count grows by one, and leaves
everything else unchanged, provided the changeMark of col is not clean and not above y (as it is
for every queued position inside a cycle).  The second entry has no further effect on the board:
playgroundCauseGravity gives the same state with and without it. -/
theorem requeue_appends_again (pg : Playground) (col y : Nat)
    (hq : (col, y) ∈ pg.pieceRemovals) (hroom : pg.pieceRemovals.length ≠ pg.changedColsSize)
    (hmark : (pg.heap col).changeY ≤ y) (hdirty : (pg.heap col).changeY ≠ (pg.heap col).size) :
    playgroundRemovePiece pg col y =
      .ok { pg with pieceRemovals := pg.pieceRemovals ++ [(col, y)] } ∧
    (pg.pieceRemovals ++ [(col, y)]).length = pg.pieceRemovals.length + 1 ∧
    playgroundCauseGravity { pg with pieceRemovals := pg.pieceRemovals ++ [(col, y)] } =
      playgroundCauseGravity pg := by
  refine ⟨?_, by simp, ?_⟩
  · have h' : ¬ ((pg.heap col).changeY = (pg.heap col).size ∨ (pg.heap col).changeY > y) := by
      intro h
      rcases h with h | h
      · exact hdirty h
      · omega
    simp only [playgroundRemovePiece, hroom, if_false, playgroundTrackChange, h']
  · simp only [playgroundCauseGravity, applyRemovals_again pg.heap pg.pieceRemovals hq]

/-- Witness for C19: the col [1, 7, 2] with mark 0 and height 1 queued. -/
theorem requeue_appends_again_witness :
    (0, 1) ∈ gravityExample.pieceRemovals ∧
    gravityExample.pieceRemovals.length ≠ gravityExample.changedColsSize ∧
    (gravityExample.heap 0).changeY ≤ 1 ∧
    (gravityExample.heap 0).changeY ≠ (gravityExample.heap 0).size ∧
    (playgroundRemovePiece gravityExample 0 1 =
      .ok { gravityExample with pieceRemovals := gravityExample.pieceRemovals ++ [(0, 1)] } ∧
    (gravityExample.pieceRemovals ++ [(0, 1)]).length = gravityExample.pieceRemovals.length + 1 ∧
    playgroundCauseGravity
        { gravityExample with pieceRemovals := gravityExample.pieceRemovals ++ [(0, 1)] } =
      playgroundCauseGravity gravityExample) :=
  ⟨by simp [gravityExample], by decide, by decide, by decide,
    requeue_appends_again gravityExample 0 1 (by simp [gravityExample]) (by decide) (by decide)
      (by decide)⟩

/-- C18: let playgroundGetColAt(x) return the col c0 in a playground reached by
playgroundGetColAt calls and placement cycles.  When its count equals its capacity,
playgroundPlacePiece first grows it: the capacity becomes exactly twice the old one, count and
pieces are kept (every stack of the board is what it was), the clean changeMark becomes the new
capacity, position x finds the grown col, every other position finds the col it found before,
startCol, originCol, endCol and currentCol name the grown col where they named c0, and both
neighbours link to it.  When count is below capacity nothing is grown.  In both cases the piece
is written at an index below the capacity, and after the completed placement the col at x has
twice the old capacity in the first case and the old capacity in the second.  Every capacity is
8 times a power of two.  For any col whose links do not point at the unused handle, growing
maps a changeMark equal to the old capacity to the new capacity and keeps any other changeMark. -/
theorem full_col_doubles (pg : Playground) (h : Accessible pg) (x : Int) :
    (∀ c ∈ chain pg, (pg.heap c).type = .COL_PIECES →
      ∃ k : Nat, (pg.heap c).size = 8 * 2 ^ k) ∧
    (∃ c0 pg0, playgroundGetColAt pg x = .ok (c0, pg0) ∧ colAt pg0 x = some c0 ∧
      (pg0.heap c0).count ≤ (pg0.heap c0).size ∧
      ((pg0.heap c0).count = (pg0.heap c0).size →
        ((expandCol pg0 c0).2.heap (expandCol pg0 c0).1).size = 2 * (pg0.heap c0).size ∧
        ((expandCol pg0 c0).2.heap (expandCol pg0 c0).1).count = (pg0.heap c0).count ∧
        ((expandCol pg0 c0).2.heap (expandCol pg0 c0).1).pieces = (pg0.heap c0).pieces ∧
        ((expandCol pg0 c0).2.heap (expandCol pg0 c0).1).changeY = 2 * (pg0.heap c0).size ∧
        (∀ x1, stackAt (expandCol pg0 c0).2 x1 = stackAt pg0 x1) ∧
        colAt (expandCol pg0 c0).2 x = some (expandCol pg0 c0).1 ∧
        (∀ x1, colAt (expandCol pg0 c0).2 x1 =
          (colAt pg0 x1).map (rename c0 (expandCol pg0 c0).1)) ∧
        chain (expandCol pg0 c0).2 = (chain pg0).map (rename c0 (expandCol pg0 c0).1) ∧
        (expandCol pg0 c0).2.startCol = rename c0 (expandCol pg0 c0).1 pg0.startCol ∧
        (expandCol pg0 c0).2.originCol = rename c0 (expandCol pg0 c0).1 pg0.originCol ∧
        (expandCol pg0 c0).2.endCol = rename c0 (expandCol pg0 c0).1 pg0.endCol ∧
        (expandCol pg0 c0).2.currentCol = rename c0 (expandCol pg0 c0).1 pg0.currentCol ∧
        (expandCol pg0 c0).2.startColX = pg0.startColX ∧
        (expandCol pg0 c0).2.endColX = pg0.endColX ∧
        (expandCol pg0 c0).2.currentX = pg0.currentX ∧
        (∀ n, (pg0.heap c0).next = some n →
          ((expandCol pg0 c0).2.heap (expandCol pg0 c0).1).next = some n ∧
          ((expandCol pg0 c0).2.heap n).prev = some (expandCol pg0 c0).1) ∧
        (∀ q, (pg0.heap c0).prev = some q →
          ((expandCol pg0 c0).2.heap (expandCol pg0 c0).1).prev = some q ∧
          ((expandCol pg0 c0).2.heap q).next = some (expandCol pg0 c0).1)) ∧
      ((if (pg0.heap c0).count = (pg0.heap c0).size then expandCol pg0 c0 else (c0, pg0)).2.heap
          (if (pg0.heap c0).count = (pg0.heap c0).size then expandCol pg0 c0 else (c0, pg0)).1).count <
        ((if (pg0.heap c0).count = (pg0.heap c0).size then expandCol pg0 c0 else (c0, pg0)).2.heap
          (if (pg0.heap c0).count = (pg0.heap c0).size then expandCol pg0 c0 else (c0, pg0)).1).size ∧
      (∀ p pg2, playgroundPlacePiece pg x p = .ok pg2 →
        ∃ c2, colAt pg2 x = some c2 ∧
          (pg2.heap c2).size =
            if (pg0.heap c0).count = (pg0.heap c0).size then 2 * (pg0.heap c0).size
            else (pg0.heap c0).size)) ∧
    (∀ (q : Playground) (col : Nat),
      (∀ n, (q.heap col).next = some n → n ≠ q.brk) →
      (∀ n, (q.heap col).prev = some n → n ≠ q.brk) →
      ((expandCol q col).2.heap (expandCol q col).1).size = 2 * (q.heap col).size ∧
      ((expandCol q col).2.heap (expandCol q col).1).count = (q.heap col).count ∧
      ((expandCol q col).2.heap (expandCol q col).1).pieces = (q.heap col).pieces ∧
      ((expandCol q col).2.heap (expandCol q col).1).changeY =
        if (q.heap col).changeY = (q.heap col).size then 2 * (q.heap col).size
        else (q.heap col).changeY) := by
  obtain ⟨hs, hcl, _, _, hcaps⟩ := h.inv
  refine ⟨?_, ?_, ?_⟩
  · rw [hcl.wf.chain_eq]
    exact hcaps
  · obtain ⟨c0, pg0, hs0, hg, hcl0, hcol0, _⟩ := hcl.getColAt x
    have w0 := hcl0.wf
    obtain ⟨hm, hty⟩ := w0.colAt_mem hcol0
    have hcap := (hcl0.cap c0 hm hty).1
    have hclean := hcl0.clean c0 hm hty
    obtain ⟨e1, enew, w1, ecol, ⟨n1, n2, n3, n4, n5, n6, n7⟩, lnext, lprev, _⟩ :=
      expandCol_spec w0 hm hty
    obtain ⟨_, _, hcol1, hlt1, hst1⟩ := hcl0.expand hcol0
    refine ⟨c0, pg0, hg, hcol0, hcap, ?_, ?_, ?_⟩
    · intro hfull
      rw [e1, enew]
      refine ⟨Nat.mul_comm _ _, rfl, rfl, ?_, hst1, by rw [← e1]; exact hcol1, ecol,
        by rw [w1.chain_eq, w0.chain_eq], n1, n2, n3, n4, n5, n6, n7, ?_, ?_⟩
      · show (if (pg0.heap c0).changeY = (pg0.heap c0).size then (pg0.heap c0).size * 2
          else (pg0.heap c0).changeY) = 2 * (pg0.heap c0).size
        rw [if_pos hclean, Nat.mul_comm]
      · intro n hn
        exact ⟨hn, lnext n hn⟩
      · intro q hq
        exact ⟨hq, lprev q hq⟩
    · by_cases hfull : (pg0.heap c0).count = (pg0.heap c0).size
      · rw [if_pos hfull]; exact hlt1
      · rw [if_neg hfull]; show (pg0.heap c0).count < (pg0.heap c0).size; omega
    · intro p pg2 hrun
      unfold playgroundPlacePiece at hrun
      rw [hg] at hrun
      dsimp only at hrun
      by_cases hfull : (pg0.heap c0).count = (pg0.heap c0).size
      · rw [if_pos hfull] at hrun ⊢
        have s := cycle_shape hrun
        refine ⟨(expandCol pg0 c0).1, by rw [s.colAt_shape w1 x]; exact hcol1, ?_⟩
        rw [← (s.links _).2.1, e1, enew]
        exact Nat.mul_comm _ _
      · rw [if_neg hfull] at hrun ⊢
        have s := cycle_shape hrun
        exact ⟨c0, by rw [s.colAt_shape w0 x]; exact hcol0, ((s.links c0).2.1).symm⟩
  · intro q col hn hq
    have e1 : (expandCol q col).1 = q.brk := rfl
    rw [e1, expandCol_heap_new q col hn hq]
    refine ⟨Nat.mul_comm _ _, rfl, rfl, ?_⟩
    show (if (q.heap col).changeY = (q.heap col).size then (q.heap col).size * 2
      else (q.heap col).changeY) = _
    by_cases hc : (q.heap col).changeY = (q.heap col).size
    · rw [if_pos hc, if_pos hc, Nat.mul_comm]
    · rw [if_neg hc, if_neg hc]

/-- Witness for C18: the column at position 0 after eight drops, which is full; the ninth drop
finds it with count 8 and capacity 8 and leaves it with capacity 16. -/
theorem full_col_doubles_witness :
    ∃ pg8, Accessible pg8 ∧ (pg8.heap 0).count = 8 ∧ (pg8.heap 0).size = 8 ∧
      (∃ pg9, playgroundPlacePiece pg8 0 1 = .ok pg9 ∧ colAt pg9 0 = some 1 ∧
        (pg9.heap 1).size = 16) ∧
      ((∀ c ∈ chain pg8, (pg8.heap c).type = .COL_PIECES →
        ∃ k : Nat, (pg8.heap c).size = 8 * 2 ^ k) ∧
      (∃ c0 pg0, playgroundGetColAt pg8 0 = .ok (c0, pg0) ∧ colAt pg0 0 = some c0 ∧
        (pg0.heap c0).count ≤ (pg0.heap c0).size ∧
        ((pg0.heap c0).count = (pg0.heap c0).size →
          ((expandCol pg0 c0).2.heap (expandCol pg0 c0).1).size = 2 * (pg0.heap c0).size ∧
          ((expandCol pg0 c0).2.heap (expandCol pg0 c0).1).count = (pg0.heap c0).count ∧
          ((expandCol pg0 c0).2.heap (expandCol pg0 c0).1).pieces = (pg0.heap c0).pieces ∧
          ((expandCol pg0 c0).2.heap (expandCol pg0 c0).1).changeY = 2 * (pg0.heap c0).size ∧
          (∀ x1, stackAt (expandCol pg0 c0).2 x1 = stackAt pg0 x1) ∧
          colAt (expandCol pg0 c0).2 0 = some (expandCol pg0 c0).1 ∧
          (∀ x1, colAt (expandCol pg0 c0).2 x1 =
            (colAt pg0 x1).map (rename c0 (expandCol pg0 c0).1)) ∧
          chain (expandCol pg0 c0).2 = (chain pg0).map (rename c0 (expandCol pg0 c0).1) ∧
          (expandCol pg0 c0).2.startCol = rename c0 (expandCol pg0 c0).1 pg0.startCol ∧
          (expandCol pg0 c0).2.originCol = rename c0 (expandCol pg0 c0).1 pg0.originCol ∧
          (expandCol pg0 c0).2.endCol = rename c0 (expandCol pg0 c0).1 pg0.endCol ∧
          (expandCol pg0 c0).2.currentCol = rename c0 (expandCol pg0 c0).1 pg0.currentCol ∧
          (expandCol pg0 c0).2.startColX = pg0.startColX ∧
          (expandCol pg0 c0).2.endColX = pg0.endColX ∧
          (expandCol pg0 c0).2.currentX = pg0.currentX ∧
          (∀ n, (pg0.heap c0).next = some n →
            ((expandCol pg0 c0).2.heap (expandCol pg0 c0).1).next = some n ∧
            ((expandCol pg0 c0).2.heap n).prev = some (expandCol pg0 c0).1) ∧
          (∀ q, (pg0.heap c0).prev = some q →
            ((expandCol pg0 c0).2.heap (expandCol pg0 c0).1).prev = some q ∧
            ((expandCol pg0 c0).2.heap q).next = some (expandCol pg0 c0).1)) ∧
        ((if (pg0.heap c0).count = (pg0.heap c0).size then expandCol pg0 c0 else (c0, pg0)).2.heap
            (if (pg0.heap c0).count = (pg0.heap c0).size then expandCol pg0 c0 else (c0, pg0)).1).count <
          ((if (pg0.heap c0).count = (pg0.heap c0).size then expandCol pg0 c0 else (c0, pg0)).2.heap
            (if (pg0.heap c0).count = (pg0.heap c0).size then expandCol pg0 c0 else (c0, pg0)).1).size ∧
        (∀ p pg2, playgroundPlacePiece pg8 0 p = .ok pg2 →
          ∃ c2, colAt pg2 0 = some c2 ∧
            (pg2.heap c2).size =
              if (pg0.heap c0).count = (pg0.heap c0).size then 2 * (pg0.heap c0).size
              else (pg0.heap c0).size)) ∧
      (∀ (q : Playground) (col : Nat),
        (∀ n, (q.heap col).next = some n → n ≠ q.brk) →
        (∀ n, (q.heap col).prev = some n → n ≠ q.brk) →
        ((expandCol q col).2.heap (expandCol q col).1).size = 2 * (q.heap col).size ∧
        ((expandCol q col).2.heap (expandCol q col).1).count = (q.heap col).count ∧
        ((expandCol q col).2.heap (expandCol q col).1).pieces = (q.heap col).pieces ∧
        ((expandCol q col).2.heap (expandCol q col).1).changeY =
          if (q.heap col).changeY = (q.heap col).size then 2 * (q.heap col).size
          else (q.heap col).changeY)) := by
  obtain ⟨pg8, h8, _, hcnt, hsz, pg9, h9, hc9, _, _, _, _, hs9, _⟩ := ninth_drop_grows
  have hacc : Accessible pg8 := placeAll_accessible (by decide) h8
  exact ⟨pg8, hacc, hcnt, hsz, ⟨pg9, h9, hc9, hs9⟩, full_col_doubles pg8 hacc 0⟩

end CrushingFour
